import Mathlib

/-!
# Streaming execution core: `DistinctSortedChunkTransform` and `IMergingTransformBase`

A shallow embedding of

* `src/Processors/Transforms/DistinctSortedChunkTransform.cpp`
* `src/Processors/Merges/IMergingTransform.cpp`

Columns hold `Int` values.  `size_t` / `UInt64` arithmetic is carried out on `Nat`
modulo `2 ^ 64` wherever the source adds to or subtracts from a row index or the
running total.  Loops whose trip count is not fixed by a range carry a fuel argument
and return `none` when it runs out.
-/

namespace DB

/-- Error codes referenced by the two translation units. -/
inductive ErrorCode where
  | LOGICAL_ERROR
  | NOT_IMPLEMENTED
  | SET_SIZE_LIMIT_EXCEEDED
  deriving DecidableEq, Repr

/-! ## Unsigned 64-bit arithmetic -/

/-- Addition of two `size_t` values. -/
def size_add (a b : Nat) : Nat := (a + b) % 2 ^ 64

/-- Subtraction of two `size_t` values (wraps below zero). -/
def size_sub (a b : Nat) : Nat := (a + 2 ^ 64 - b % 2 ^ 64) % 2 ^ 64

/-! ## Chunk / Column substrate -/

/-- Row mask `IColumn::Filter`.  `IColumn::Filter filter(n)` allocates `n` bytes
without writing them: an entry nobody assigned yet is `none`. -/
abbrev Filter := List (Option Bool)

/-- Compaction of a vector through a row mask: entry `i` survives iff the mask
holds a nonzero byte at `i`. -/
def maskFilter {α : Type} : Filter → List α → List α
  | some true :: m, x :: xs => x :: maskFilter m xs
  | _ :: m, _ :: xs => maskFilter m xs
  | _, _ => []

/-- Three-way comparison of two values: `-1`, `0` or `1`. -/
def compareValues (a b : Int) : Int := if a < b then -1 else if a = b then 0 else 1

/-- Modelled from the spec: the `Column` contract of §3/§6 (`IColumn` is not part of
the sources): a columnar vector of one field's values, possibly a constant column. -/
structure Column where
  is_const : Bool
  data : List Int
  deriving DecidableEq, Repr

instance : Inhabited Column := ⟨⟨false, []⟩⟩

namespace Column

/-- Modelled from the spec: `cloneEmpty()` of the Column contract. -/
def cloneEmpty (c : Column) : Column := { c with data := [] }

/-- Modelled from the spec: `insertFrom(src, rowIndex)` of the Column contract. -/
def insertFrom (c src : Column) (n : Nat) : Column :=
  { c with data := c.data ++ [src.data.getD n 0] }

/-- Modelled from the spec: `compareAt(rowA, other, rowB, nullsDirection) -> {-1,0,1}`
of the Column contract; `Int` values have no nulls, so the direction is not consulted. -/
def compareAt (c : Column) (n m : Nat) (rhs : Column) (_nulls_direction : Int) : Int :=
  compareValues (c.data.getD n 0) (rhs.data.getD m 0)

/-- Modelled from the spec: `filter(mask, sizeHint) -> Column` of the Column contract. -/
def filter (c : Column) (filt : Filter) (_result_size_hint : Nat) : Column :=
  { c with data := maskFilter filt c.data }

end Column

/-- Modelled from the spec: `Chunk` of §3 (`Chunk.h` is not part of the sources): an
ordered sequence of columns sharing one row count, plus an optional opaque payload. -/
structure Chunk where
  columns : List Column
  num_rows : Nat
  chunk_info : Option Nat
  deriving DecidableEq, Repr

instance : Inhabited Chunk := ⟨⟨[], 0, none⟩⟩

namespace Chunk

def getNumRows (c : Chunk) : Nat := c.num_rows

def hasRows (c : Chunk) : Bool := decide (0 < c.num_rows)

def hasColumns (c : Chunk) : Bool := !c.columns.isEmpty

def hasChunkInfo (c : Chunk) : Bool := c.chunk_info.isSome

/-- Modelled from the spec: a chunk "exists" (`operator bool`) when it has rows or
columns. -/
def toBool (c : Chunk) : Bool := c.hasRows || c.hasColumns

/-- Modelled from the spec: `setColumns(sequence<Column>, rowCount)`. -/
def setColumns (c : Chunk) (cols : List Column) (rows : Nat) : Chunk :=
  { c with columns := cols, num_rows := rows }

/-- The data-model invariant of §3: all columns share the chunk's row count. -/
def WellFormed (c : Chunk) : Prop := ∀ col ∈ c.columns, col.data.length = c.num_rows

instance (c : Chunk) : Decidable c.WellFormed := by
  unfold WellFormed; infer_instance

/-- Row `i` of a chunk: the values of all columns at index `i`. -/
def row (c : Chunk) (i : Nat) : List Int := c.columns.map (fun col => col.data.getD i 0)

/-- The rows of a chunk, in order. -/
def rows (c : Chunk) : List (List Int) := (List.range c.num_rows).map c.row

end Chunk

/-- A chunk of one column holding the given values. -/
def oneColumnChunk (vals : List Int) : Chunk := ⟨[⟨false, vals⟩], vals.length, none⟩

/-- Modelled from the spec: one entry of `SortDescription` (§3): column, direction
(`1` ascending, `-1` descending) and null ordering. -/
structure SortColumnDescription where
  column_name : String
  direction : Int
  nulls_direction : Int
  deriving DecidableEq, Repr

instance : Inhabited SortColumnDescription := ⟨⟨"", 1, 1⟩⟩

/-- Modelled from the spec: an entry of the header `Block`: a named column, whose
column pointer may be null. -/
structure ColumnWithTypeAndName where
  name : String
  column : Option Column
  deriving DecidableEq, Repr

abbrev Block := List ColumnWithTypeAndName

/-- Position of a column in the header, `none` standing for the exception
`getPositionByName` raises on an unknown name. -/
def Block.getPositionByName (b : Block) (name : String) : Option Nat :=
  let i := b.findIdx (fun c => c.name == name)
  if i < b.length then some i else none

/-- Modelled from the spec: the size-limit collaborator of §6,
`check(totalRows, totalBytes, operationLabel) -> bool`; the call site also hands over
the exception code the collaborator raises in its throwing mode. -/
structure SizeLimits where
  check : Nat → Nat → String → ErrorCode → Except ErrorCode Bool

/-- Modelled from the spec: the per-run dedup set of §3 (`ClearableSetVariants` is not
part of the sources): presence of composite keys built from the other columns.
`type_empty` is `data.type == Type::EMPTY`. -/
structure ClearableSetVariants where
  type_empty : Bool
  keys : List (List Int)
  deriving DecidableEq, Repr

/-- Modelled from the spec: `emplaceKey` inserts a composite key; the result says whether
the key was newly inserted. -/
def emplaceKey (set : List (List Int)) (key : List Int) : List (List Int) × Bool :=
  if key ∈ set then (set, false) else (key :: set, true)

/-! ## DistinctSortedChunkTransform -/

/-- Members of `DistinctSortedChunkTransform`.  `no_more_data_needed` is the
`ISimpleTransform` flag that `stopReading()` raises; `total_byte_count` stands for
`data.getTotalByteCount()`. -/
structure DistinctSortedChunkTransform where
  limit_hint : Nat
  output_size_limits : SizeLimits
  total_byte_count : ClearableSetVariants → Nat
  sorted_columns_descr : List SortColumnDescription
  sorted_columns_pos : List Nat
  other_columns_pos : List Nat
  sorted_columns : List Column
  other_columns : List Column
  current_key : List Column
  data : ClearableSetVariants
  total_output_rows : Nat
  no_more_data_needed : Bool

namespace DistinctSortedChunkTransform

/-- First loop of the constructor: positions of the sort-description columns. -/
def sortedPositions (header : Block) : List SortColumnDescription → Option (List Nat)
  | [] => some []
  | descr :: rest =>
    match header.getPositionByName descr.column_name with
    | none => none
    | some pos =>
      match sortedPositions header rest with
      | none => none
      | some ps => some (pos :: ps)

/-- Second loop of the constructor: positions of the non-sorted, non-constant columns. -/
def otherPositions (header : Block) (sorted_columns_pos : List Nat) :
    List String → Option (List Nat)
  | [] => some []
  | source_column :: rest =>
    match header.getPositionByName source_column with
    | none => none
    | some pos =>
      match otherPositions header sorted_columns_pos rest with
      | none => none
      | some ps =>
        if pos ∈ sorted_columns_pos then some ps
        else
          match (header.getD pos ⟨"", none⟩).column with
          | some col => if !col.is_const then some (pos :: ps) else some ps
          | none => some ps

/-- The constructor; `none` when `getPositionByName` raises. -/
def construct (header : Block) (output_size_limits : SizeLimits)
    (total_byte_count : ClearableSetVariants → Nat) (limit_hint : Nat)
    (sorted_columns_descr : List SortColumnDescription) (source_columns : List String) :
    Option DistinctSortedChunkTransform :=
  match sortedPositions header sorted_columns_descr with
  | none => none
  | some sorted_columns_pos =>
    match otherPositions header sorted_columns_pos source_columns with
    | none => none
    | some other_columns_pos =>
      some
        { limit_hint := limit_hint
          output_size_limits := output_size_limits
          total_byte_count := total_byte_count
          sorted_columns_descr := sorted_columns_descr
          sorted_columns_pos := sorted_columns_pos
          other_columns_pos := other_columns_pos
          sorted_columns := []
          other_columns := []
          current_key := []
          data := ⟨true, []⟩
          total_output_rows := 0
          no_more_data_needed := false }

/-- Lines 49-61: split the chunk's columns into sorted and other columns and pick the set
variant on first use. -/
def initChunkProcessing (t : DistinctSortedChunkTransform) (input_columns : List Column) :
    DistinctSortedChunkTransform :=
  let sorted_columns := t.sorted_columns_pos.map (fun pos => input_columns.getD pos default)
  let other_columns := t.other_columns_pos.map (fun pos => input_columns.getD pos default)
  let data :=
    if !other_columns.isEmpty && t.data.type_empty then { t.data with type_empty := false }
    else t.data
  { t with sorted_columns := sorted_columns, other_columns := other_columns, data := data }

/-- The loop body of `buildFilterForRange`: emplace the other-columns key of row `i`,
write the filter entry, count an inserted key. -/
def emplaceRow (other_columns : List Column)
    (acc : List (List Int) × Filter × Nat) (i : Nat) : List (List Int) × Filter × Nat :=
  let emplace_result := emplaceKey acc.1 (other_columns.map (fun c => c.data.getD i 0))
  (emplace_result.1, acc.2.1.set i (some emplace_result.2),
    if emplace_result.2 then acc.2.2 + 1 else acc.2.2)

/-- Lines 83-102: emplace the other-columns key of every row of the range. -/
def buildFilterForRange (t : DistinctSortedChunkTransform) (filter : Filter)
    (range_begin range_end : Nat) (clear_data : Bool) :
    DistinctSortedChunkTransform × Filter × Nat :=
  let keys := if clear_data then [] else t.data.keys
  let r := (List.range' range_begin (range_end - range_begin)).foldl
    (emplaceRow t.other_columns) (keys, filter, 0)
  ({ t with data := { t.data with keys := r.1 } }, r.2.1, r.2.2)

/-- Lines 63-81: dispatch on the set variant; nothing happens while the type is `EMPTY`. -/
def ordinaryDistinctOnRange (t : DistinctSortedChunkTransform) (filter : Filter)
    (range_begin range_end : Nat) (clear_data : Bool) :
    DistinctSortedChunkTransform × Filter × Nat :=
  if t.data.type_empty then (t, filter, 0)
  else buildFilterForRange t filter range_begin range_end clear_data

/-- Lines 104-112. -/
def setCurrentKey (t : DistinctSortedChunkTransform) (row_pos : Nat) :
    DistinctSortedChunkTransform :=
  { t with current_key := t.sorted_columns.map (fun col => col.cloneEmpty.insertFrom col row_pos) }

/-- Lines 114-123: every key column compares equal to `current_key` at `row_pos`. -/
def isCurrentKey (t : DistinctSortedChunkTransform) (row_pos : Nat) : Bool :=
  (List.range t.sorted_columns.length).all (fun i =>
    decide ((t.current_key.getD i default).compareAt 0 row_pos (t.sorted_columns.getD i default)
      (t.sorted_columns_descr.getD i default).nulls_direction = 0))

/-- The `while (low <= high)` loop of `getRangeEnd`. -/
def getRangeEndLoop (isKey : Nat → Bool) : Nat → Nat → Nat → Nat → Option Nat
  | 0, _, _, _ => none
  | fuel + 1, low, high, end_ =>
    if low ≤ high then
      let mid := size_add low (size_sub high low / 2)
      if isKey mid then getRangeEndLoop isKey fuel (size_add mid 1) high end_
      else getRangeEndLoop isKey fuel low (size_sub mid 1) mid
    else some end_

/-- The body of `getRangeEnd` over the predicate `isCurrentKey`. -/
def getRangeEndOn (isKey : Nat → Bool) (begin_ end_ : Nat) : Option Nat :=
  let linear_probe_threadhold := 16
  let linear_probe_end :=
    if size_add begin_ linear_probe_threadhold > end_ then end_
    else size_add begin_ linear_probe_threadhold
  match (List.range' begin_ (linear_probe_end - begin_)).find? (fun pos => !isKey pos) with
  | some pos => some pos
  | none => getRangeEndLoop isKey (end_ + 1) linear_probe_end (size_sub end_ 1) end_

/-- Lines 125-154, over `isCurrentKey`; `none` if the binary search ran out of fuel. -/
def getRangeEnd (t : DistinctSortedChunkTransform) (begin_ end_ : Nat) : Option Nat :=
  getRangeEndOn t.isCurrentKey begin_ end_

/-- The call `std::fill(filter.begin() + first, filter.begin() + last, v)`. -/
def fillFilter (filter : Filter) (first last : Nat) (v : Bool) : Filter :=
  (List.range' first (last - first)).foldl (fun f i => f.set i (some v)) filter

/-- Result of `continueWithPrevRange`: the state, the filter and the returned pair. -/
def continueWithPrevRange (t : DistinctSortedChunkTransform) (chunk_rows : Nat)
    (filter : Filter) : Option (DistinctSortedChunkTransform × Filter × Nat × Nat) :=
  if t.current_key.isEmpty || !t.isCurrentKey 0 then some (t, filter, 0, 0)
  else
    match t.getRangeEnd 0 chunk_rows with
    | none => none
    | some range_end =>
      if t.other_columns.isEmpty then some (t, fillFilter filter 0 range_end false, range_end, 0)
      else
        let r := t.ordinaryDistinctOnRange filter 0 range_end false
        some (r.1, r.2.1, range_end, r.2.2)

/-- The `while (range_end != chunk_rows)` loop of `transform`; the fuel counts
iterations. -/
def transformLoop (chunk_rows : Nat) :
    Nat → DistinctSortedChunkTransform → Filter → Nat → Nat → Nat →
      Option (DistinctSortedChunkTransform × Filter × Nat)
  | fuel, t, filter, range_begin, range_end, output_rows =>
    if range_end ≠ chunk_rows then
      match fuel with
      | 0 => none
      | fuel + 1 =>
        let t := t.setCurrentKey range_begin
        match t.getRangeEnd range_begin chunk_rows with
        | none => none
        | some range_end =>
          if t.other_columns.isEmpty then
            transformLoop chunk_rows fuel t
              (fillFilter (filter.set range_begin (some true)) (range_begin + 1) range_end false)
              range_end range_end (output_rows + 1)
          else
            let r := t.ordinaryDistinctOnRange filter range_begin range_end true
            transformLoop chunk_rows fuel r.1 r.2.1 range_end range_end (output_rows + r.2.2)
    else some (t, filter, output_rows)

/-- How a call of `transform` ends: it returns (having called `stopReading()` or not), or
the size-limit check raises. -/
inductive Outcome where
  | returned (stop_reading : Bool)
  | threw (code : ErrorCode)
  deriving DecidableEq, Repr

structure TransformResult where
  state : DistinctSortedChunkTransform
  chunk : Chunk
  outcome : Outcome

def operationLabel : String := "DISTINCT"

/-- Lines 223-229: update the total and check the limits. -/
def checkLimits (t : DistinctSortedChunkTransform) (chunk : Chunk) (output_rows : Nat) :
    TransformResult :=
  let t := { t with total_output_rows := (t.total_output_rows + output_rows) % 2 ^ 64 }
  if t.limit_hint ≠ 0 ∧ t.total_output_rows ≥ t.limit_hint then
    ⟨{ t with no_more_data_needed := true }, chunk, .returned true⟩
  else
    match t.output_size_limits.check t.total_output_rows (t.total_byte_count t.data)
        operationLabel ErrorCode.SET_SIZE_LIMIT_EXCEEDED with
    | .error code => ⟨t, chunk, .threw code⟩
    | .ok true => ⟨t, chunk, .returned false⟩
    | .ok false => ⟨{ t with no_more_data_needed := true }, chunk, .returned true⟩

/-- Lines 189-215: allocate the filter and build it; yields the state, the filter and
`output_rows`. -/
def buildFilter (t : DistinctSortedChunkTransform) (chunk_rows : Nat) :
    Option (DistinctSortedChunkTransform × Filter × Nat) :=
  match t.continueWithPrevRange chunk_rows (List.replicate chunk_rows none) with
  | none => none
  | some r => transformLoop chunk_rows chunk_rows r.1 r.2.1 r.2.2.1 r.2.2.1 r.2.2.2

/-- Lines 173-230; `none` if a loop ran out of fuel. -/
def transform (t : DistinctSortedChunkTransform) (chunk : Chunk) : Option TransformResult :=
  let chunk_rows := chunk.getNumRows
  if chunk_rows = 0 then some ⟨t, chunk, .returned false⟩
  else
    let input_columns := chunk.columns
    let t := t.initChunkProcessing input_columns
    match t.buildFilter chunk_rows with
    | none => none
    | some r =>
      let input_columns := input_columns.map (fun c => c.filter r.2.1 r.2.2)
      some (checkLimits r.1 (chunk.setColumns input_columns r.2.2) r.2.2)

/-- What a sequence of `transform` calls produced: the final state, the output chunks
and the exception that ended the sequence, if any. -/
structure FeedResult where
  state : DistinctSortedChunkTransform
  outputs : List Chunk
  error : Option ErrorCode

/-- Feed the chunks one by one to `transform`; an exception ends the sequence. -/
def transformAll : DistinctSortedChunkTransform → List Chunk → Option FeedResult
  | t, [] => some ⟨t, [], none⟩
  | t, c :: cs =>
    match t.transform c with
    | none => none
    | some r =>
      match r.outcome with
      | .threw code => some ⟨r.state, [], some code⟩
      | .returned _ =>
        match transformAll r.state cs with
        | none => none
        | some fr => some ⟨fr.state, r.chunk :: fr.outputs, fr.error⟩

end DistinctSortedChunkTransform

namespace DistinctSortedChunkTransform

/-! ### Specification-level definitions for `transform` -/

/-- Linear scan for the end of a run: the smallest index in `[i, i + fuel)` at which
`isKey` fails, or `i + fuel` if there is none. -/
def linearRangeEnd (isKey : Nat → Bool) : Nat → Nat → Nat
  | 0, i => i
  | fuel + 1, i => if isKey i then linearRangeEnd isKey fuel (i + 1) else i

/-- The run predicate is monotone on `[b, e)`: once it fails it keeps failing. -/
def MonotoneOn (isKey : Nat → Bool) (b e : Nat) : Prop :=
  ∀ i j, b ≤ i → i ≤ j → j < e → isKey j = true → isKey i = true

/-- The values of the given columns at row `i`. -/
def rowKeyAt (cols : List Column) (i : Nat) : List Int := cols.map (fun c => c.data.getD i 0)

/-- The key value carried in `current_key` (`none` while `current_key` is empty). -/
def carriedKey (t : DistinctSortedChunkTransform) : Option (List Int) :=
  if t.current_key.isEmpty then none else some (t.current_key.map (fun c => c.data.getD 0 0))

/-- Specification of `buildFilterForRange` on the list of other-column tuples of a range:
the mask of newly inserted tuples and the resulting set. -/
def emplaceMask : List (List Int) → List (List Int) → List Bool × List (List Int)
  | set, [] => ([], set)
  | set, o :: os =>
    ((emplaceKey set o).2 :: (emplaceMask (emplaceKey set o).1 os).1,
      (emplaceMask (emplaceKey set o).1 os).2)

/-- Row-by-row specification of the filter of §4.2 over `(key, other-columns)` pairs,
threading the carried key and the per-run dedup set: a row continuing the current run
survives iff its tuple is new in the run's set (never, when there are no other columns);
a row with a new key starts a run, resets the set and survives. -/
def scanMask (useSet : Bool) :
    Option (List Int) → List (List Int) → List (List Int × List Int) →
      List Bool × Option (List Int) × List (List Int)
  | ck, set, [] => ([], ck, set)
  | ck, set, p :: rest =>
    if ck = some p.1 then
      if useSet then
        ((emplaceKey set p.2).2 :: (scanMask useSet ck (emplaceKey set p.2).1 rest).1,
          (scanMask useSet ck (emplaceKey set p.2).1 rest).2)
      else (false :: (scanMask useSet ck set rest).1, (scanMask useSet ck set rest).2)
    else
      (true :: (scanMask useSet (some p.1) (if useSet then [p.2] else set) rest).1,
        (scanMask useSet (some p.1) (if useSet then [p.2] else set) rest).2)

/-- The members a call of `transform` leaves alone while it builds the filter. -/
def sameFrame (t u : DistinctSortedChunkTransform) : Prop :=
  u.limit_hint = t.limit_hint ∧ u.output_size_limits = t.output_size_limits ∧
  u.total_byte_count = t.total_byte_count ∧
  u.sorted_columns_descr = t.sorted_columns_descr ∧
  u.sorted_columns_pos = t.sorted_columns_pos ∧ u.other_columns_pos = t.other_columns_pos ∧
  u.sorted_columns = t.sorted_columns ∧ u.other_columns = t.other_columns ∧
  u.data.type_empty = t.data.type_empty ∧ u.total_output_rows = t.total_output_rows ∧
  u.no_more_data_needed = t.no_more_data_needed

/-- Mask and set after the rows of a range that continues the current run. -/
def runMask (useSet : Bool) (set : List (List Int)) (others : List (List Int)) :
    List Bool × List (List Int) :=
  if useSet then emplaceMask set others else (List.replicate others.length false, set)

/-- Mask and set after the rows of a range that starts a new run. -/
def newRunMask (useSet : Bool) (set : List (List Int)) (others : List (List Int)) :
    List Bool × List (List Int) :=
  if useSet then emplaceMask [] others
  else (true :: List.replicate (others.length - 1) false, set)

/-- The `(key, other-columns)` pairs of rows `b, b + 1, ..., b + k - 1`. -/
def rowPairs (sc oc : List Column) (b k : Nat) : List (List Int × List Int) :=
  (List.range' b k).map (fun i => (rowKeyAt sc i, rowKeyAt oc i))

/-- Rows with equal keys are contiguous in `[b, n)`. -/
def GroupedFrom (sc : List Column) (b n : Nat) : Prop :=
  ∀ i j k, b ≤ i → i ≤ j → j ≤ k → k < n →
    rowKeyAt sc i = rowKeyAt sc k → rowKeyAt sc j = rowKeyAt sc i

/-- The values of a row at the given column positions. -/
def rowKey (pos : List Nat) (row : List Int) : List Int := pos.map (fun p => row.getD p 0)

/-- The `(key columns, other columns)` tuple of a row. -/
def rowTuple (t : DistinctSortedChunkTransform) (row : List Int) : List Int × List Int :=
  (rowKey t.sorted_columns_pos row, rowKey t.other_columns_pos row)

/-- Lexicographic three-way comparison of two key tuples under a sort description:
each column compares by `compareAt` times its direction; the first column that differs
decides. -/
def compareKeys : List SortColumnDescription → List Int → List Int → Int
  | d :: ds, x :: xs, y :: ys =>
    if d.direction * compareValues x y = 0 then compareKeys ds xs ys
    else d.direction * compareValues x y
  | _, _, _ => 0

/-- The rows are sorted by the declared key columns. -/
def SortedByKey (descr : List SortColumnDescription) (pos : List Nat)
    (rows : List (List Int)) : Prop :=
  rows.Pairwise (fun a b => compareKeys descr (rowKey pos a) (rowKey pos b) ≤ 0)

/-- Full-materialization reference of `DISTINCT`: keep a row iff its tuple has not been
seen earlier in the stream (`seen` holds the tuples met so far). -/
def referenceDistinct {α : Type} [DecidableEq α] (tuple : List Int → α) :
    List α → List (List Int) → List (List Int)
  | _, [] => []
  | seen, r :: rs =>
    if tuple r ∈ seen then referenceDistinct tuple seen rs
    else r :: referenceDistinct tuple (tuple r :: seen) rs

/-- The first-occurrence mask of a list of tuples. -/
def referenceMask {α : Type} [DecidableEq α] : List α → List α → List Bool
  | _, [] => []
  | seen, x :: xs =>
    if x ∈ seen then false :: referenceMask seen xs
    else true :: referenceMask (x :: seen) xs

/-- Lines 217-221 applied to a chunk: every column is compacted through the filter and
the row count is set to `output_rows`. -/
def applyFilter (c : Chunk) (filter : Filter) (output_rows : Nat) : Chunk :=
  c.setColumns (c.columns.map (fun col => col.filter filter output_rows)) output_rows

/-- Between calls `current_key` is empty or holds one column per key column. -/
def KeyShape (t : DistinctSortedChunkTransform) : Prop :=
  t.current_key = [] ∨ t.current_key.length = t.sorted_columns_pos.length

/-- The size-limit collaborator never raises. -/
def NeverThrows (limits : SizeLimits) : Prop :=
  ∀ rows bytes label code, ∃ v, limits.check rows bytes label code = Except.ok v

/-- The configuration members, which no call of `transform` changes. -/
def sameConfig (t u : DistinctSortedChunkTransform) : Prop :=
  u.limit_hint = t.limit_hint ∧ u.output_size_limits = t.output_size_limits ∧
  u.total_byte_count = t.total_byte_count ∧
  u.sorted_columns_descr = t.sorted_columns_descr ∧
  u.sorted_columns_pos = t.sorted_columns_pos ∧ u.other_columns_pos = t.other_columns_pos

/-- The chunks the row-by-row specification produces from a chunk sequence, threading the
carried key and the per-run set from chunk to chunk. -/
def expectedOutputs (useSet : Bool) (tuple : List Int → List Int × List Int) :
    Option (List Int) → List (List Int) → List Chunk → List Chunk
  | _, _, [] => []
  | ck, set, c :: cs =>
    applyFilter c ((scanMask useSet ck set (c.rows.map tuple)).1.map some)
        ((scanMask useSet ck set (c.rows.map tuple)).1.count true) ::
      expectedOutputs useSet tuple (scanMask useSet ck set (c.rows.map tuple)).2.1
        (scanMask useSet ck set (c.rows.map tuple)).2.2 cs

/-- The concatenated rows of a chunk sequence. -/
def allRows : List Chunk → List (List Int)
  | [] => []
  | c :: cs => c.rows ++ allRows cs

/-- The order "sorted by the declared key" on key tuples of the declared width. -/
def KeyLE (descr : List SortColumnDescription) (a b : List Int) : Prop :=
  a.length = descr.length ∧ b.length = descr.length ∧ compareKeys descr a b ≤ 0

/-! ### Sample configuration and inputs -/

/-- Size limits that are never exceeded. -/
def unlimited : SizeLimits := ⟨fun _ _ _ _ => Except.ok true⟩

/-- A byte count of eight bytes per stored tuple. -/
def eightBytesPerKey (s : ClearableSetVariants) : Nat := 8 * s.keys.length

/-- Header with a key column `k` and another column `v`. -/
def sampleHeader : Block := [⟨"k", some ⟨false, []⟩⟩, ⟨"v", some ⟨false, []⟩⟩]

/-- Sort description: `k` ascending. -/
def keyAscending : List SortColumnDescription := [⟨"k", 1, 1⟩]

/-- The fresh instance for `sampleHeader`, sorted by `k`, distinct over `k` and `v`. -/
def sampleTransform (limit_hint : Nat) : DistinctSortedChunkTransform :=
  { limit_hint := limit_hint
    output_size_limits := unlimited
    total_byte_count := eightBytesPerKey
    sorted_columns_descr := keyAscending
    sorted_columns_pos := [0]
    other_columns_pos := [1]
    sorted_columns := []
    other_columns := []
    current_key := []
    data := ⟨true, []⟩
    total_output_rows := 0
    no_more_data_needed := false }

/-- A chunk of the two columns `k` and `v`. -/
def twoColumnChunk (k v : List Int) : Chunk := ⟨[⟨false, k⟩, ⟨false, v⟩], k.length, none⟩

/-- One run of key `1` cut at two chunk boundaries, followed by a row of key `2`. -/
def splitRun : List Chunk :=
  [twoColumnChunk [1] [10], twoColumnChunk [1, 1] [20, 10], twoColumnChunk [1, 2] [30, 5]]

/-- The rows of `splitRun` delivered as a single chunk. -/
def wholeRun : Chunk := twoColumnChunk [1, 1, 1, 1, 2] [10, 20, 10, 30, 5]

instance (descr : List SortColumnDescription) (pos : List Nat) (rows : List (List Int)) :
    Decidable (SortedByKey descr pos rows) := by
  unfold SortedByKey; infer_instance

/-- The sum of the row counts of a chunk sequence. -/
def totalRows : List Chunk → Nat
  | [] => 0
  | c :: cs => c.num_rows + totalRows cs

/-- The fresh instance for `sampleHeader`, sorted by `k`, distinct over `k` and `v`, with
the given size limits, byte count and `limit_hint`. -/
def sampleWith (limits : SizeLimits) (byte_count : ClearableSetVariants → Nat)
    (limit_hint : Nat) : DistinctSortedChunkTransform :=
  { limit_hint := limit_hint
    output_size_limits := limits
    total_byte_count := byte_count
    sorted_columns_descr := keyAscending
    sorted_columns_pos := [0]
    other_columns_pos := [1]
    sorted_columns := []
    other_columns := []
    current_key := []
    data := ⟨true, []⟩
    total_output_rows := 0
    no_more_data_needed := false }

/-- Size limits in break mode: the check reports the budget exceeded (returns false) once
the row total is above `max_rows`, and never raises. -/
def breakAbove (max_rows : Nat) : SizeLimits :=
  ⟨fun rows _ _ _ => Except.ok (decide (rows ≤ max_rows))⟩

/-- Size limits in throwing mode: the check raises the code it was handed once the row
total is above `max_rows`. -/
def throwAbove (max_rows : Nat) : SizeLimits :=
  ⟨fun rows _ _ code => if rows ≤ max_rows then Except.ok true else Except.error code⟩

/-- The size-limit check of lines 225-226 evaluated on a state: the arguments are the
running total, the byte count of the set, the label and the exception code. -/
def sizeCheck (t : DistinctSortedChunkTransform) : Except ErrorCode Bool :=
  t.output_size_limits.check t.total_output_rows (t.total_byte_count t.data) operationLabel
    ErrorCode.SET_SIZE_LIMIT_EXCEEDED

/-- The first disjunct of line 225: `limit_hint && total_output_rows >= limit_hint`. -/
def limitReached (t : DistinctSortedChunkTransform) : Bool :=
  decide (t.limit_hint ≠ 0 ∧ t.limit_hint ≤ t.total_output_rows)

/-- The outcome of every call of a sequence of `transform` calls, with the running total
after the call; an exception ends the sequence. -/
def transformSignals : DistinctSortedChunkTransform → List Chunk → Option (List (Outcome × Nat))
  | _, [] => some []
  | t, c :: cs =>
    match t.transform c with
    | none => none
    | some r =>
      match r.outcome with
      | .threw code => some [(.threw code, r.state.total_output_rows)]
      | .returned b =>
        match transformSignals r.state cs with
        | none => none
        | some l => some ((.returned b, r.state.total_output_rows) :: l)

/-- The size-limit check passes on every row total and byte count. -/
def AlwaysPasses (limits : SizeLimits) : Prop :=
  ∀ rows bytes, limits.check rows bytes operationLabel ErrorCode.SET_SIZE_LIMIT_EXCEEDED
    = Except.ok true

/-- Whenever a nonzero `limit_hint` has been reached, the stop signal has been raised. -/
def StopRaised (t : DistinctSortedChunkTransform) : Prop :=
  limitReached t = true → t.no_more_data_needed = true

instance (t : DistinctSortedChunkTransform) : Decidable (StopRaised t) := by
  unfold StopRaised; infer_instance

/-- A state in which `limit_hint = 1` has been reached and whose size limits (throwing
mode) would raise on any further check: the state `sampleWith (throwAbove 0)
eightBytesPerKey 1` is in after the chunk `(1, 10)`. -/
def stoppedSample : DistinctSortedChunkTransform :=
  { limit_hint := 1
    output_size_limits := throwAbove 0
    total_byte_count := eightBytesPerKey
    sorted_columns_descr := keyAscending
    sorted_columns_pos := [0]
    other_columns_pos := [1]
    sorted_columns := [⟨false, [1]⟩]
    other_columns := [⟨false, [10]⟩]
    current_key := [⟨false, [1]⟩]
    data := ⟨false, [[10]]⟩
    total_output_rows := 1
    no_more_data_needed := true }

instance (isKey : Nat → Bool) (b e : Nat) : Decidable (MonotoneOn isKey b e) :=
  decidable_of_iff (∀ j, j < e → ∀ i, i ≤ j → b ≤ i → isKey j = true → isKey i = true)
    ⟨fun h i j h1 h2 h3 h4 => h j h3 i h2 h1 h4, fun h j h3 i h2 h1 h4 => h i j h1 h2 h3 h4⟩

/-- A state in the middle of a chunk of 20 rows: the first 18 rows have key 1, the last two
key 2, and `current_key` holds key 1. -/
def longRunSample : DistinctSortedChunkTransform :=
  { sampleTransform 0 with
      sorted_columns := [⟨false, List.replicate 18 1 ++ [2, 2]⟩]
      other_columns := [⟨false, List.replicate 20 0⟩]
      current_key := [⟨false, [1]⟩]
      data := ⟨false, []⟩ }

/-- Ghost record of one run of `getRangeEnd`: the value returned, the row indices handed
to `isCurrentKey` in the order of the calls, and whether one of the unsigned subtractions
`end - 1`, `high - low`, `mid - 1` had a minuend smaller than its subtrahend. -/
structure RangeEndTrace where
  result : Nat
  probes : List Nat
  underflow : Bool
  deriving DecidableEq, Repr

/-- The `while (low <= high)` loop of `getRangeEnd` with the ghost record threaded
through. -/
def getRangeEndLoopTraced (isKey : Nat → Bool) :
    Nat → Nat → Nat → Nat → List Nat → Bool → Option RangeEndTrace
  | 0, _, _, _, _, _ => none
  | fuel + 1, low, high, end_, probes, underflow =>
    if low ≤ high then
      let underflow := underflow || decide (high < low)
      let mid := size_add low (size_sub high low / 2)
      if isKey mid then
        getRangeEndLoopTraced isKey fuel (size_add mid 1) high end_ (probes ++ [mid]) underflow
      else
        getRangeEndLoopTraced isKey fuel low (size_sub mid 1) mid (probes ++ [mid])
          (underflow || decide (mid < 1))
    else some ⟨end_, probes, underflow⟩

/-- The body of `getRangeEnd` with the ghost record: the linear probe hands over the rows
from `begin` up to the first one without the current key. -/
def getRangeEndTraced (isKey : Nat → Bool) (begin_ end_ : Nat) : Option RangeEndTrace :=
  let linear_probe_threadhold := 16
  let linear_probe_end :=
    if size_add begin_ linear_probe_threadhold > end_ then end_
    else size_add begin_ linear_probe_threadhold
  match (List.range' begin_ (linear_probe_end - begin_)).find? (fun pos => !isKey pos) with
  | some pos => some ⟨pos, List.range' begin_ (pos + 1 - begin_), false⟩
  | none =>
    getRangeEndLoopTraced isKey (end_ + 1) linear_probe_end (size_sub end_ 1) end_
      (List.range' begin_ (linear_probe_end - begin_)) (decide (end_ < 1))

/-- The header positions of a list of column names, in order (`none` if a name is
unknown). -/
def positionsOf (header : Block) : List String → Option (List Nat)
  | [] => some []
  | name :: rest =>
    match header.getPositionByName name with
    | none => none
    | some pos =>
      match positionsOf header rest with
      | none => none
      | some ps => some (pos :: ps)

/-- The header column at `pos` is a constant column. -/
def isConstAt (header : Block) (pos : Nat) : Bool :=
  match (header.getD pos ⟨"", none⟩).column with
  | some col => col.is_const
  | none => false

/-- The header entry at `pos` has a column (its pointer is not null). -/
def hasColumnAt (header : Block) (pos : Nat) : Bool :=
  (header.getD pos ⟨"", none⟩).column.isSome

/-- The partition as the specification words it: the positions of `source_columns`, in
order, that are no key position and whose header column is not constant. -/
def specOtherPositions (header : Block) (sorted_columns_pos positions : List Nat) : List Nat :=
  positions.filter (fun pos => decide (pos ∉ sorted_columns_pos) && !isConstAt header pos)

/-- Header whose column `v` has no column object (a null pointer). -/
def headerWithoutColumn : Block := [⟨"k", some ⟨false, []⟩⟩, ⟨"v", none⟩]

/-- A state with no other columns that carries key 1 from a previous chunk. -/
def keyOnlySample : DistinctSortedChunkTransform :=
  { sampleTransform 0 with
      other_columns_pos := []
      sorted_columns := [⟨false, [0, 1]⟩]
      current_key := [⟨false, [1]⟩]
      total_output_rows := 2 }

/-- The mask "first row of a run" over a list of keys: a row is marked iff its key differs
from the key of the row before it (`prev` for the first row: the key carried from the
previous chunk, if any). -/
def firstOfRunMask : Option (List Int) → List (List Int) → List Bool
  | _, [] => []
  | prev, k :: ks => decide (prev ≠ some k) :: firstOfRunMask (some k) ks

instance (descr : List SortColumnDescription) (a b : List Int) : Decidable (KeyLE descr a b) := by
  unfold KeyLE; infer_instance

/-- The `while (range_end != chunk_rows)` loop of `transform` with a ghost list of the
ranges `[range_begin, range_end)` whose filter entries it assigns. -/
def transformLoopTraced (chunk_rows : Nat) :
    Nat → DistinctSortedChunkTransform → Filter → Nat → Nat → Nat → List (Nat × Nat) →
      Option (DistinctSortedChunkTransform × Filter × Nat × List (Nat × Nat))
  | fuel, t, filter, range_begin, range_end, output_rows, ranges =>
    if range_end ≠ chunk_rows then
      match fuel with
      | 0 => none
      | fuel + 1 =>
        let t := t.setCurrentKey range_begin
        match t.getRangeEnd range_begin chunk_rows with
        | none => none
        | some range_end =>
          if t.other_columns.isEmpty then
            transformLoopTraced chunk_rows fuel t
              (fillFilter (filter.set range_begin (some true)) (range_begin + 1) range_end false)
              range_end range_end (output_rows + 1) (ranges ++ [(range_begin, range_end)])
          else
            let r := t.ordinaryDistinctOnRange filter range_begin range_end true
            transformLoopTraced chunk_rows fuel r.1 r.2.1 range_end range_end
              (output_rows + r.2.2) (ranges ++ [(range_begin, range_end)])
    else some (t, filter, output_rows, ranges)

/-- Lines 189-215 with the ghost list of ranges: `continueWithPrevRange` assigns the
entries of `[0, range_end)` when it continues the previous run (`range_end` is then
positive) and none otherwise. -/
def buildFilterTraced (t : DistinctSortedChunkTransform) (chunk_rows : Nat) :
    Option (DistinctSortedChunkTransform × Filter × Nat × List (Nat × Nat)) :=
  match t.continueWithPrevRange chunk_rows (List.replicate chunk_rows none) with
  | none => none
  | some r =>
    transformLoopTraced chunk_rows chunk_rows r.1 r.2.1 r.2.2.1 r.2.2.1 r.2.2.2
      (if r.2.2.1 = 0 then [] else [(0, r.2.2.1)])

/-- The ranges tile `[a, b)`: each is non-empty and starts where the one before it ends. -/
def tiles : List (Nat × Nat) → Nat → Nat → Bool
  | [], a, b => decide (a = b)
  | r :: rs, a, b => decide (r.1 = a) && decide (a < r.2) && tiles rs r.2 b

/-- The filter indices assigned while the ranges are processed, in order. -/
def rangeIndices : List (Nat × Nat) → List Nat
  | [] => []
  | r :: rs => List.range' r.1 (r.2 - r.1) ++ rangeIndices rs

end DistinctSortedChunkTransform

/-! ## IMergingTransformBase -/

/-- The statuses `prepare` hands to the scheduler (§4.1). -/
inductive Status where
  | NeedData
  | PortFull
  | Ready
  | Finished
  deriving DecidableEq, Repr

/-- Modelled from the spec: the consumer end of a `Port` (§3, §6; `Port.h` is not part of
the sources): a single chunk slot, the needed flag, "finished" (no more chunks will ever
arrive) and "closed" (the consumer will not read more).  `pull_hints` records the flag
passed to each `pull`, latest first. -/
structure InputPort where
  is_needed : Bool
  data : Option Chunk
  finished : Bool
  closed : Bool
  pull_hints : List Bool
  deriving DecidableEq, Repr

instance : Inhabited InputPort := ⟨⟨false, none, false, false, []⟩⟩

namespace InputPort

def hasData (p : InputPort) : Bool := p.data.isSome

/-- A port still holding its last chunk is not finished until the chunk is pulled. -/
def isFinished (p : InputPort) : Bool := p.closed || (p.finished && p.data.isNone)

def setNeeded (p : InputPort) : InputPort := { p with is_needed := true }

def setNotNeeded (p : InputPort) : InputPort := { p with is_needed := false }

/-- Takes the chunk out of the slot (an empty chunk if there is none).  The flag is
`set_not_needed`: when it is set the same call marks the port not needed (lines 78-81 of
`IMergingTransform.cpp`: "setNotNeeded after reading first chunk"). -/
def pull (p : InputPort) (set_not_needed : Bool) : Chunk × InputPort :=
  (p.data.getD default,
    { p with
        data := none
        is_needed := p.is_needed && !set_not_needed
        pull_hints := set_not_needed :: p.pull_hints })

def close (p : InputPort) : InputPort := { p with closed := true }

end InputPort

/-- Modelled from the spec: the producer end of a `Port` (§3, §6): a single chunk slot,
the needed flag set by the consumer, and the finished flag. -/
structure OutputPort where
  is_needed : Bool
  data : Option Chunk
  finished : Bool
  deriving DecidableEq, Repr

instance : Inhabited OutputPort := ⟨⟨false, none, false⟩⟩

namespace OutputPort

/-- The port accepts a push when the consumer asked for data and the slot is free. -/
def canPush (p : OutputPort) : Bool := p.is_needed && p.data.isNone

def isFinished (p : OutputPort) : Bool := p.finished

def push (p : OutputPort) (c : Chunk) : OutputPort := { p with data := some c }

def finish (p : OutputPort) : OutputPort := { p with finished := true }

end OutputPort

/-- The entry `IMergingAlgorithm::Input` as far as `prepare` touches it: the chunk handed
over by `set`. -/
structure MergeInput where
  chunk : Chunk
  deriving DecidableEq, Repr

instance : Inhabited MergeInput := ⟨⟨default⟩⟩

/-- The per-input record `InputState`; its port is the input port at the same index. -/
structure InputState where
  is_initialized : Bool
  deriving DecidableEq, Repr

instance : Inhabited InputState := ⟨⟨false⟩⟩

/-- The member `IMergingTransformBase::state`, shared with the subclass. -/
structure State where
  output_chunk : Chunk
  input_chunk : MergeInput
  has_input : Bool
  is_finished : Bool
  need_data : Bool
  next_input_to_read : Nat
  init_chunks : List MergeInput
  deriving DecidableEq, Repr

instance : Inhabited State := ⟨⟨default, default, false, false, false, 0, []⟩⟩

/-- Members of `IMergingTransformBase`; `output` is `outputs.front()` and
`on_finish_calls` counts the invocations of the `onFinish` hook. -/
structure IMergingTransformBase where
  inputs : List InputPort
  output : OutputPort
  have_all_inputs : Bool
  limit_hint : Nat
  input_states : List InputState
  is_initialized : Bool
  state : State
  on_finish_calls : Nat
  deriving DecidableEq, Repr

namespace IMergingTransformBase

/-- The constructor. -/
def construct (num_inputs : Nat) (have_all_inputs : Bool) (limit_hint : Nat) :
    IMergingTransformBase :=
  { inputs := List.replicate num_inputs default
    output := default
    have_all_inputs := have_all_inputs
    limit_hint := limit_hint
    input_states := []
    is_initialized := false
    state := default
    on_finish_calls := 0 }

/-- The base implementation of the hook `onNewInput`: it always raises. -/
def onNewInput (t : IMergingTransformBase) : IMergingTransformBase × Option ErrorCode :=
  (t, some ErrorCode.NOT_IMPLEMENTED)

/-- Member `addInput`, over the `onNewInput` in force; the second component is the
exception raised, if any. -/
def addInput (hook : IMergingTransformBase → IMergingTransformBase × Option ErrorCode)
    (t : IMergingTransformBase) : IMergingTransformBase × Option ErrorCode :=
  if t.have_all_inputs then (t, some ErrorCode.LOGICAL_ERROR)
  else hook { t with inputs := t.inputs ++ [default] }

/-- Lines 38-44; the second component is the exception raised, if any. -/
def setHaveAllInputs (t : IMergingTransformBase) :
    IMergingTransformBase × Option ErrorCode :=
  if t.have_all_inputs then (t, some ErrorCode.LOGICAL_ERROR)
  else ({ t with have_all_inputs := true }, none)

/-- The call `v.resize(n)` on a vector of default-constructible entries. -/
def resize {α : Type} [Inhabited α] (v : List α) (n : Nat) : List α :=
  (v ++ List.replicate (n - v.length) default).take n

/-- One iteration of the loop "Check for inputs we need" for input `i`; the flag is
`all_inputs_has_data`. -/
def initializeInput (acc : IMergingTransformBase × Bool) (i : Nat) :
    IMergingTransformBase × Bool :=
  let t := acc.1
  let input := t.inputs.getD i default
  if input.isFinished then acc
  else if (t.input_states.getD i default).is_initialized then acc
  else
    let input := input.setNeeded
    if !input.hasData then ({ t with inputs := t.inputs.set i input }, false)
    else
      let pulled := input.pull (decide (t.limit_hint ≠ 0))
      let chunk := pulled.1
      let input :=
        if t.limit_hint ≠ 0 ∧ chunk.getNumRows < t.limit_hint then pulled.2.setNeeded
        else pulled.2
      if !chunk.hasRows then
        if !input.isFinished then
          ({ t with inputs := t.inputs.set i input.setNeeded }, false)
        else ({ t with inputs := t.inputs.set i input }, acc.2)
      else
        ({ t with
            inputs := t.inputs.set i input
            state := { t.state with init_chunks := t.state.init_chunks.set i ⟨chunk⟩ }
            input_states := t.input_states.set i ⟨true⟩ }, acc.2)

/-- Lines 46-105. -/
def prepareInitializeInputs (t : IMergingTransformBase) : Status × IMergingTransformBase :=
  let t :=
    if t.input_states.isEmpty then
      { t with
          input_states := t.inputs.map (fun _ => ⟨false⟩)
          state := { t.state with init_chunks := resize t.state.init_chunks t.inputs.length } }
    else t
  let r := (List.range t.inputs.length).foldl initializeInput (t, true)
  if !r.2 then (Status.NeedData, r.1)
  else (Status.Ready, { r.1 with is_initialized := true })

/-- The block "Push if has data" of `prepare`. -/
def pushIfHasData (t : IMergingTransformBase) (is_port_full : Bool) : IMergingTransformBase :=
  if (t.state.output_chunk.toBool || t.state.output_chunk.hasChunkInfo) && !is_port_full then
    { t with
        output := t.output.push t.state.output_chunk
        state := { t.state with output_chunk := default } }
  else t

/-- The block `if (state.need_data)` of `prepare`; `some s` is an early return. -/
def readNeededInput (t : IMergingTransformBase) : Option Status × IMergingTransformBase :=
  if t.state.need_data then
    let idx := t.state.next_input_to_read
    let input := t.inputs.getD idx default
    if !input.isFinished then
      let input := input.setNeeded
      if !input.hasData then (some Status.NeedData, { t with inputs := t.inputs.set idx input })
      else
        let pulled := input.pull false
        let t :=
          { t with
              inputs := t.inputs.set idx pulled.2
              state := { t.state with input_chunk := ⟨pulled.1⟩ } }
        if !pulled.1.hasRows && !pulled.2.isFinished then (some Status.NeedData, t)
        else (none, { t with state := { t.state with has_input := true, need_data := false } })
    else (none, { t with state := { t.state with need_data := false } })
  else (none, t)

/-- Lines 107-181; returns the status and the transform after the call. -/
def prepare (t : IMergingTransformBase) : Status × IMergingTransformBase :=
  if !t.have_all_inputs then (Status.NeedData, t)
  else if t.inputs.isEmpty then
    (Status.Finished,
      { t with output := t.output.finish, on_finish_calls := t.on_finish_calls + 1 })
  else if t.output.isFinished then
    (Status.Finished,
      { t with
          inputs := t.inputs.map InputPort.close
          on_finish_calls := t.on_finish_calls + 1 })
  else
    let is_port_full := !t.output.canPush
    let t := t.pushIfHasData is_port_full
    if !t.is_initialized then t.prepareInitializeInputs
    else if t.state.is_finished then
      if is_port_full then (Status.PortFull, t)
      else
        (Status.Finished,
          { t with
              inputs := t.inputs.map InputPort.close
              output := t.output.finish
              on_finish_calls := t.on_finish_calls + 1 })
    else
      let r := t.readNeededInput
      match r.1 with
      | some status => (status, r.2)
      | none => if is_port_full then (Status.PortFull, r.2) else (Status.Ready, r.2)

/-! ### Auxiliary definitions and sample states for `prepare` -/

/-- Input `i` has yielded a non-empty first chunk or is finished. -/
def inputSettled (t : IMergingTransformBase) (i : Nat) : Bool :=
  (t.input_states.getD i default).is_initialized || (t.inputs.getD i default).isFinished

/-- The members the initialisation loop never writes. -/
def sameShell (t u : IMergingTransformBase) : Prop :=
  u.output = t.output ∧ u.have_all_inputs = t.have_all_inputs ∧ u.limit_hint = t.limit_hint ∧
  u.is_initialized = t.is_initialized ∧ u.on_finish_calls = t.on_finish_calls ∧
  u.state.output_chunk = t.state.output_chunk ∧ u.state.is_finished = t.state.is_finished ∧
  u.state.need_data = t.state.need_data ∧ u.state.has_input = t.state.has_input ∧
  u.state.input_chunk = t.state.input_chunk ∧
  u.state.next_input_to_read = t.state.next_input_to_read ∧
  u.inputs.length = t.inputs.length ∧ u.input_states.length = t.input_states.length

/-- What holds in every state reached from the constructor by `addInput`,
`setHaveAllInputs` and `prepare`: initialisation happens only after the inputs were
finalized, and `input_states` is empty or has one entry per input of a finalized list. -/
def Consistent (t : IMergingTransformBase) : Prop :=
  (t.is_initialized = true → t.have_all_inputs = true) ∧
  (t.input_states = [] ∨
    (t.have_all_inputs = true ∧ t.input_states.length = t.inputs.length))

instance (t : IMergingTransformBase) : Decidable (Consistent t) := by
  unfold Consistent; infer_instance

/-- Repeated calls of `prepare`; before each call the downstream neighbour has left the
output port in the next state of the list. -/
def prepareWithOutputs (t : IMergingTransformBase) :
    List OutputPort → List Status × IMergingTransformBase
  | [] => ([], t)
  | p :: ps =>
    let r := prepare { t with output := p }
    let rest := prepareWithOutputs r.2 ps
    (r.1 :: rest.1, rest.2)

/-- After the last `work()`: initialised, merge completed, the last chunk buffered, the
output port free. -/
def bufferedCompleted : IMergingTransformBase :=
  { inputs := [default]
    output := ⟨true, none, false⟩
    have_all_inputs := true
    limit_hint := 0
    input_states := [⟨true⟩]
    is_initialized := true
    state := ⟨oneColumnChunk [7], default, false, true, false, 0, [default]⟩
    on_finish_calls := 0 }

/-- Not yet initialised, one pending input, the output port finished downstream. -/
def finishedDownstream : IMergingTransformBase :=
  { inputs := [default]
    output := ⟨false, none, true⟩
    have_all_inputs := true
    limit_hint := 0
    input_states := []
    is_initialized := false
    state := default
    on_finish_calls := 0 }

/-- Not yet initialised; the only input holds a non-empty chunk; the output port is not
needed, so it cannot accept a push. -/
def initCompleting : IMergingTransformBase :=
  { inputs := [⟨true, some (oneColumnChunk [1]), false, false, []⟩]
    output := ⟨false, none, false⟩
    have_all_inputs := true
    limit_hint := 0
    input_states := []
    is_initialized := false
    state := default
    on_finish_calls := 0 }

/-- Initialised, merge not completed, a chunk buffered, the output port free. -/
def bufferedReady : IMergingTransformBase :=
  { inputs := [default]
    output := ⟨true, none, false⟩
    have_all_inputs := true
    limit_hint := 0
    input_states := [⟨true⟩]
    is_initialized := true
    state := ⟨oneColumnChunk [7], default, false, false, false, 0, [default]⟩
    on_finish_calls := 0 }

/-- Initialised, a chunk buffered, the output port needed and empty but finished
downstream. -/
def bufferedFinishedDownstream : IMergingTransformBase :=
  { inputs := [default]
    output := ⟨true, none, true⟩
    have_all_inputs := true
    limit_hint := 0
    input_states := [⟨true⟩]
    is_initialized := true
    state := ⟨oneColumnChunk [7], default, false, false, false, 0, [default]⟩
    on_finish_calls := 0 }

/-- Inputs not finalized (`have_all_inputs` false), a chunk in `state.output_chunk`, the
output port free. -/
def notFinalized : IMergingTransformBase :=
  { inputs := [default]
    output := ⟨true, none, false⟩
    have_all_inputs := false
    limit_hint := 0
    input_states := []
    is_initialized := false
    state := ⟨oneColumnChunk [7], default, false, false, false, 0, []⟩
    on_finish_calls := 0 }

/-- Merge completed, the last chunk buffered, the output port occupied. -/
def completedPortFull : IMergingTransformBase :=
  { inputs := [default]
    output := ⟨true, some (oneColumnChunk [3]), false⟩
    have_all_inputs := true
    limit_hint := 0
    input_states := [⟨true⟩]
    is_initialized := true
    state := ⟨oneColumnChunk [7], default, false, true, false, 0, [default]⟩
    on_finish_calls := 0 }

/-- Not yet initialised; the first of two inputs has no data yet. -/
def waitingForInput : IMergingTransformBase :=
  { inputs := [⟨false, none, false, false, []⟩, ⟨true, some (oneColumnChunk [1]), false, false, []⟩]
    output := ⟨true, none, false⟩
    have_all_inputs := true
    limit_hint := 0
    input_states := []
    is_initialized := false
    state := default
    on_finish_calls := 0 }

/-- Initialised, nothing buffered, no data requested, the output port not needed. -/
def steadyPortFull : IMergingTransformBase :=
  { inputs := [default]
    output := ⟨false, none, false⟩
    have_all_inputs := true
    limit_hint := 0
    input_states := [⟨true⟩]
    is_initialized := true
    state := ⟨default, default, false, false, false, 0, [default]⟩
    on_finish_calls := 0 }

/-- An `onNewInput` override that accepts the new input: it reserves the input's entry of
`state.init_chunks` and does not raise. -/
def acceptingHook (t : IMergingTransformBase) : IMergingTransformBase × Option ErrorCode :=
  ({ t with state := { t.state with init_chunks := t.state.init_chunks ++ [default] } }, none)

/-- Initialised, merge not completed, data requested from the only input, which is
finished (upstream finished with nothing left in the slot); the output port is free. -/
def needDataFinishedInput : IMergingTransformBase :=
  { inputs := [⟨false, none, true, false, [false]⟩]
    output := ⟨true, none, false⟩
    have_all_inputs := true
    limit_hint := 0
    input_states := [⟨true⟩]
    is_initialized := true
    state := ⟨default, default, false, false, true, 0, [default]⟩
    on_finish_calls := 0 }

/-- Initialised, merge not completed, data requested from the first of two inputs, which
holds a non-empty chunk; the output port is free. -/
def needDataReadyInput : IMergingTransformBase :=
  { inputs := [⟨false, some (oneColumnChunk [4, 5]), false, false, [false]⟩, default]
    output := ⟨true, none, false⟩
    have_all_inputs := true
    limit_hint := 0
    input_states := [⟨true⟩, ⟨true⟩]
    is_initialized := true
    state := ⟨default, default, false, false, true, 0, [default, default]⟩
    on_finish_calls := 0 }

/-- Repeated calls of `prepare`; before each call the neighbours have left the input ports
and the output port in the next state of the list.  Each entry of the result is the status
of a call with the output port before and after it. -/
def prepareWithPorts (t : IMergingTransformBase) :
    List (List InputPort × OutputPort) → List (Status × OutputPort × OutputPort)
  | [] => []
  | p :: ps =>
    let r := prepare { t with inputs := p.1, output := p.2 }
    (r.1, p.2, r.2.output) :: prepareWithPorts r.2 ps

/-- The first block of `prepareInitializeInputs` (lines 49-56): on the first call the
per-input records and `init_chunks` get one entry per input. -/
def prepareInputStates (t : IMergingTransformBase) : IMergingTransformBase :=
  if t.input_states.isEmpty then
    { t with
        input_states := t.inputs.map (fun _ => ⟨false⟩)
        state := { t.state with init_chunks := resize t.state.init_chunks t.inputs.length } }
  else t

/-- Not yet initialised, `limit_hint = 3`; input 0 holds a chunk of two rows (fewer than
`limit_hint`), input 1 a chunk of three rows, input 2 an empty chunk and is still open,
input 3 an empty chunk and is finished upstream. -/
def initWithLimit : IMergingTransformBase :=
  { inputs :=
      [⟨false, some (oneColumnChunk [1, 2]), false, false, []⟩,
        ⟨false, some (oneColumnChunk [1, 2, 3]), false, false, []⟩,
        ⟨false, some (oneColumnChunk []), false, false, []⟩,
        ⟨false, some (oneColumnChunk []), true, false, []⟩]
    output := ⟨true, none, false⟩
    have_all_inputs := true
    limit_hint := 3
    input_states := []
    is_initialized := false
    state := default
    on_finish_calls := 0 }

/-- What can happen to a transform after its construction: the owner calls `addInput`
(with the base `onNewInput` or an accepting override in force) or `setHaveAllInputs`, the
scheduler calls `prepare`, the subclass works on the merge state, and the neighbours move
the ports (a list of another length is not theirs to install and is ignored). -/
inductive Call where
  | addInput (accepting : Bool)
  | setHaveAllInputs
  | prepare
  | work (state : State)
  | ports (inputs : List InputPort) (output : OutputPort)
  deriving DecidableEq, Repr

/-- The state after one call; an exception raised by the call leaves the state as the
member left it. -/
def applyCall (t : IMergingTransformBase) : Call → IMergingTransformBase
  | .addInput accepting => (t.addInput (if accepting then acceptingHook else onNewInput)).1
  | .setHaveAllInputs => t.setHaveAllInputs.1
  | .prepare => t.prepare.2
  | .work state => { t with state := state }
  | .ports inputs output =>
    if inputs.length = t.inputs.length then { t with inputs := inputs, output := output }
    else t

/-- The state after a sequence of calls. -/
def applyCalls (t : IMergingTransformBase) (calls : List Call) : IMergingTransformBase :=
  calls.foldl applyCall t

end IMergingTransformBase

/-! # Theorems -/

/-! ## DistinctSortedChunkTransform -/

namespace DistinctSortedChunkTransform

theorem size_add_eq (a b : Nat) (h : a + b < 2 ^ 64) : size_add a b = a + b := by
  unfold size_add; exact Nat.mod_eq_of_lt h

theorem size_sub_eq (a b : Nat) (hb : b ≤ a) (ha : a < 2 ^ 64) : size_sub a b = a - b := by
  unfold size_sub
  have hb2 : b % 2 ^ 64 = b := Nat.mod_eq_of_lt (by omega)
  rw [hb2]
  have : a + 2 ^ 64 - b = (a - b) + 2 ^ 64 := by omega
  rw [this, Nat.add_mod_right]
  exact Nat.mod_eq_of_lt (by omega)

theorem linearRangeEnd_bounds (isKey : Nat → Bool) (fuel i : Nat) :
    i ≤ linearRangeEnd isKey fuel i ∧ linearRangeEnd isKey fuel i ≤ i + fuel := by
  induction fuel generalizing i with
  | zero => simp [linearRangeEnd]
  | succ f ih =>
    unfold linearRangeEnd
    split
    · have := ih (i + 1); omega
    · omega

theorem linearRangeEnd_before (isKey : Nat → Bool) (fuel i j : Nat)
    (h1 : i ≤ j) (h2 : j < linearRangeEnd isKey fuel i) : isKey j = true := by
  induction fuel generalizing i with
  | zero => simp [linearRangeEnd] at h2; omega
  | succ f ih =>
    unfold linearRangeEnd at h2
    split at h2
    · rename_i hk
      rcases Nat.eq_or_lt_of_le h1 with heq | hlt
      · rw [← heq]; exact hk
      · exact ih (i + 1) (by omega) h2
    · omega

theorem linearRangeEnd_at (isKey : Nat → Bool) (fuel i : Nat)
    (h : linearRangeEnd isKey fuel i < i + fuel) :
    isKey (linearRangeEnd isKey fuel i) = false := by
  induction fuel generalizing i with
  | zero => simp [linearRangeEnd] at h
  | succ f ih =>
    unfold linearRangeEnd at h ⊢
    split
    · rename_i hk
      simp only [hk, if_true] at h
      exact ih (i + 1) (by omega)
    · rename_i hk
      simpa using hk

theorem getRangeEndLoop_spec (isKey : Nat → Bool) (m e : Nat) (he : e < 2 ^ 64) :
    ∀ fuel low end_, 1 ≤ low → low ≤ m → m ≤ end_ → end_ ≤ e → end_ - low < fuel →
      (∀ i, low ≤ i → i < end_ → (isKey i = true ↔ i < m)) →
      getRangeEndLoop isKey fuel low (size_sub end_ 1) end_ = some m := by
  intro fuel
  induction fuel with
  | zero => intro low end_ _ _ _ _ h; omega
  | succ f ih =>
    intro low end_ h1 h2 h3 h4 h5 h6
    have hs : size_sub end_ 1 = end_ - 1 := size_sub_eq end_ 1 (by omega) (by omega)
    unfold getRangeEndLoop
    rw [hs]
    by_cases hlow : low ≤ end_ - 1
    · simp only [hlow, if_true]
      have hsub : size_sub (end_ - 1) low = end_ - 1 - low :=
        size_sub_eq _ _ hlow (by omega)
      have hmid : size_add low (size_sub (end_ - 1) low / 2) = low + (end_ - 1 - low) / 2 := by
        rw [hsub]; exact size_add_eq _ _ (by omega)
      rw [hmid]
      have hmid_lo : low ≤ low + (end_ - 1 - low) / 2 := by omega
      have hmid_hi : low + (end_ - 1 - low) / 2 < end_ := by omega
      by_cases hk : isKey (low + (end_ - 1 - low) / 2) = true
      · simp only [hk, if_true]
        have hlt := (h6 _ hmid_lo hmid_hi).mp hk
        rw [size_add_eq _ _ (by omega)]
        have := ih (low + (end_ - 1 - low) / 2 + 1) end_ (by omega) (by omega) h3 h4 (by omega)
          (fun i hi1 hi2 => h6 i (by omega) hi2)
        rw [hs] at this
        exact this
      · simp only [hk]
        have hge : ¬ (low + (end_ - 1 - low) / 2 < m) := fun h => hk ((h6 _ hmid_lo hmid_hi).mpr h)
        have hs2 : size_sub (low + (end_ - 1 - low) / 2) 1 = low + (end_ - 1 - low) / 2 - 1 :=
          size_sub_eq _ _ (by omega) (by omega)
        have := ih low (low + (end_ - 1 - low) / 2) h1 h2 (by omega) (by omega) (by omega)
          (fun i hi1 hi2 => h6 i hi1 (by omega))
        rw [hs2] at this ⊢
        simp only [Bool.false_eq_true, if_false]
        exact this
    · simp only [hlow, if_false]
      have : end_ = m := by omega
      rw [this]

theorem find_linear (isKey : Nat → Bool) (k b : Nat) :
    (List.range' b k).find? (fun pos => !isKey pos) =
      if linearRangeEnd isKey k b < b + k then some (linearRangeEnd isKey k b) else none := by
  induction k generalizing b with
  | zero => simp [linearRangeEnd]
  | succ k ih =>
    rw [List.range'_succ, List.find?_cons]
    unfold linearRangeEnd
    by_cases hk : isKey b = true
    · simp only [hk, Bool.not_true, if_true]
      rw [ih (b + 1)]
      have : b + 1 + k = b + (k + 1) := by omega
      rw [this]
    · simp only [Bool.not_eq_true] at hk
      simp [hk]

theorem linearRangeEnd_split (isKey : Nat → Bool) (k1 k2 b : Nat)
    (h : linearRangeEnd isKey k1 b = b + k1) :
    linearRangeEnd isKey (k1 + k2) b = linearRangeEnd isKey k2 (b + k1) := by
  induction k1 generalizing b with
  | zero => simp
  | succ k ih =>
    have e1 : k + 1 + k2 = (k + k2) + 1 := by omega
    rw [e1]
    unfold linearRangeEnd at h
    conv_lhs => unfold linearRangeEnd
    by_cases hk : isKey b = true
    · simp only [hk, if_true] at h ⊢
      have := ih (b + 1) (by omega)
      rw [this]
      congr 1
      omega
    · simp only [hk] at h
      simp at h

/-- On a monotone run predicate the hybrid search of `getRangeEnd` returns what the linear
scan returns. -/
theorem getRangeEndOn_eq_linear (isKey : Nat → Bool) (b e : Nat) (hbe : b < e)
    (he : e + 16 < 2 ^ 64) (hmono : MonotoneOn isKey b e) :
    getRangeEndOn isKey b e = some (linearRangeEnd isKey (e - b) b) := by
  unfold getRangeEndOn
  simp only []
  rw [size_add_eq b 16 (by omega)]
  generalize hl : (if b + 16 > e then e else b + 16) = lpe
  have hl1 : b < lpe := by rw [← hl]; split <;> omega
  have hl2 : lpe ≤ e := by rw [← hl]; split <;> omega
  rw [find_linear]
  have hsplit : e - b = (lpe - b) + (e - lpe) := by omega
  obtain ⟨lb1, lb2⟩ := linearRangeEnd_bounds isKey (lpe - b) b
  by_cases hfound : linearRangeEnd isKey (lpe - b) b < b + (lpe - b)
  · simp only [hfound, if_true]
    -- the run ends within the probe window
    congr 1
    have hat := linearRangeEnd_at isKey (lpe - b) b hfound
    -- show the full linear scan stops at the same place
    have key : ∀ k1 k2 i, linearRangeEnd isKey k1 i < i + k1 →
        linearRangeEnd isKey (k1 + k2) i = linearRangeEnd isKey k1 i := by
      intro k1
      induction k1 with
      | zero => intro k2 i h; simp [linearRangeEnd] at h
      | succ k ih =>
        intro k2 i h
        have e1 : k + 1 + k2 = (k + k2) + 1 := by omega
        rw [e1]
        unfold linearRangeEnd at h ⊢
        by_cases hk : isKey i = true
        · simp only [hk, if_true] at h ⊢
          exact ih k2 (i + 1) (by omega)
        · simp [hk]
    rw [hsplit, key _ _ _ hfound]
  · simp only [hfound, if_false]
    have hfull : linearRangeEnd isKey (lpe - b) b = b + (lpe - b) := by omega
    rw [hsplit, linearRangeEnd_split _ _ _ _ hfull]
    have hb : b + (lpe - b) = lpe := by omega
    rw [hb]
    obtain ⟨m1, m2⟩ := linearRangeEnd_bounds isKey (e - lpe) lpe
    apply getRangeEndLoop_spec isKey _ e (by omega) (e + 1) lpe e (by omega) m1 (by omega)
      (le_refl _) (by omega)
    intro i hi1 hi2
    constructor
    · intro hk
      by_contra hnot
      have hle : linearRangeEnd isKey (e - lpe) lpe ≤ i := by omega
      have hlt : linearRangeEnd isKey (e - lpe) lpe < lpe + (e - lpe) := by omega
      have hat := linearRangeEnd_at isKey (e - lpe) lpe hlt
      have := hmono (linearRangeEnd isKey (e - lpe) lpe) i (by omega) hle hi2 hk
      rw [hat] at this
      simp at this
    · intro hlt
      exact linearRangeEnd_before isKey (e - lpe) lpe i hi1 hlt

theorem set_append_length {α : Type} (pre : List α) (x v : α) (post : List α) :
    (pre ++ x :: post).set pre.length v = pre ++ v :: post := by
  induction pre with
  | nil => rfl
  | cons a pre ih => simp [ih]

theorem emplaceRow_fold (oc : List Column) :
    ∀ (k : Nat) (pre mid post : Filter) (set : List (List Int)) (cnt : Nat), mid.length = k →
      (List.range' pre.length k).foldl (emplaceRow oc) (set, pre ++ mid ++ post, cnt) =
        ((emplaceMask set ((List.range' pre.length k).map (rowKeyAt oc))).2,
          pre ++ (emplaceMask set ((List.range' pre.length k).map (rowKeyAt oc))).1.map some
            ++ post,
          cnt + (emplaceMask set ((List.range' pre.length k).map (rowKeyAt oc))).1.count true) := by
  intro k
  induction k with
  | zero =>
    intro pre mid post set cnt hmid
    have : mid = [] := List.length_eq_zero.mp hmid
    simp [this, emplaceMask]
  | succ k ih =>
    intro pre mid post set cnt hmid
    obtain ⟨x, mid2, rfl⟩ := List.exists_cons_of_length_eq_add_one hmid
    have hlen : mid2.length = k := by simpa using hmid
    rw [List.range'_succ, List.foldl_cons]
    have hstep : emplaceRow oc (set, pre ++ x :: mid2 ++ post, cnt) pre.length =
        ((emplaceKey set (rowKeyAt oc pre.length)).1,
          (pre ++ [some (emplaceKey set (rowKeyAt oc pre.length)).2]) ++ mid2 ++ post,
          if (emplaceKey set (rowKeyAt oc pre.length)).2 then cnt + 1 else cnt) := by
      simp only [emplaceRow, rowKeyAt, List.append_assoc, List.cons_append, set_append_length,
        List.singleton_append, List.nil_append]
    rw [hstep]
    have hl : pre.length + 1 = (pre ++ [some (emplaceKey set (rowKeyAt oc pre.length)).2]).length := by
      simp
    rw [hl, ih _ mid2 post _ _ hlen]
    simp only [List.map_cons, emplaceMask, List.length_append, List.length_singleton,
      List.append_assoc, List.singleton_append, List.cons_append, List.nil_append,
      List.count_cons]
    refine Prod.ext rfl (Prod.ext rfl ?_)
    simp only
    split
    · simp_all; omega
    · simp_all

theorem fillFilter_spec (v : Bool) :
    ∀ (k : Nat) (pre mid post : Filter), mid.length = k →
      fillFilter (pre ++ mid ++ post) pre.length (pre.length + k) v =
        pre ++ List.replicate k (some v) ++ post := by
  intro k
  induction k with
  | zero =>
    intro pre mid post hmid
    have : mid = [] := List.length_eq_zero.mp hmid
    simp [this, fillFilter]
  | succ k ih =>
    intro pre mid post hmid
    obtain ⟨x, mid2, rfl⟩ := List.exists_cons_of_length_eq_add_one hmid
    have hlen : mid2.length = k := by simpa using hmid
    have h1 : pre.length + (k + 1) - pre.length = k + 1 := by omega
    unfold fillFilter
    rw [h1, List.range'_succ, List.foldl_cons]
    have hstep : (pre ++ x :: mid2 ++ post).set pre.length (some v)
        = (pre ++ [some v]) ++ mid2 ++ post := by
      simp only [List.append_assoc, List.cons_append, set_append_length, List.singleton_append,
        List.nil_append]
    rw [hstep]
    have hl : pre.length + 1 = (pre ++ [some v]).length := by simp
    have := ih (pre ++ [some v]) mid2 post hlen
    unfold fillFilter at this
    rw [hl]
    have h2 : (pre ++ [some v]).length + k - (pre ++ [some v]).length = k := by omega
    rw [h2] at this
    rw [this]
    simp [List.replicate_succ]

theorem compareAt_eq_zero (c rhs : Column) (n m : Nat) (d : Int) :
    c.compareAt n m rhs d = 0 ↔ c.data.getD n 0 = rhs.data.getD m 0 := by
  unfold Column.compareAt compareValues
  split
  · constructor
    · intro h; simp at h
    · intro h; omega
  · split
    · rename_i h
      simp only [true_iff]
      exact h
    · constructor
      · intro h; simp at h
      · intro h; contradiction

theorem isCurrentKey_iff (t : DistinctSortedChunkTransform) (pos : Nat)
    (hlen : t.current_key.length = t.sorted_columns.length) :
    t.isCurrentKey pos = true ↔
      t.current_key.map (fun c => c.data.getD 0 0) = rowKeyAt t.sorted_columns pos := by
  unfold isCurrentKey rowKeyAt
  simp only [List.all_eq_true, List.mem_range, decide_eq_true_eq, compareAt_eq_zero]
  constructor
  · intro h
    apply List.ext_getElem (by simp [hlen])
    intro i h1 h2
    simp only [List.length_map] at h1 h2
    have := h i h2
    simpa [List.getD_eq_getElem?_getD, List.getElem?_eq_getElem h1,
      List.getElem?_eq_getElem h2] using this
  · intro h i hi
    have hi1 : i < t.current_key.length := by omega
    have := congrArg (fun l => l[i]?) h
    simpa [List.getD_eq_getElem?_getD, List.getElem?_eq_getElem hi1,
      List.getElem?_eq_getElem hi] using this

theorem setCurrentKey_key (t : DistinctSortedChunkTransform) (b : Nat) :
    (t.setCurrentKey b).current_key.map (fun c => c.data.getD 0 0)
      = rowKeyAt t.sorted_columns b ∧
    (t.setCurrentKey b).current_key.length = t.sorted_columns.length := by
  simp [setCurrentKey, rowKeyAt, Column.cloneEmpty, Column.insertFrom]

theorem setCurrentKey_isCurrentKey (t : DistinctSortedChunkTransform) (b pos : Nat) :
    (t.setCurrentKey b).isCurrentKey pos = true ↔
      rowKeyAt t.sorted_columns b = rowKeyAt t.sorted_columns pos := by
  have h := isCurrentKey_iff (t.setCurrentKey b) pos (setCurrentKey_key t b).2
  rw [(setCurrentKey_key t b).1] at h
  exact h

theorem emplaceMask_length (set : List (List Int)) (os : List (List Int)) :
    (emplaceMask set os).1.length = os.length := by
  induction os generalizing set with
  | nil => rfl
  | cons o os ih => simp [emplaceMask, ih]

theorem runMask_length (u : Bool) (set : List (List Int)) (os : List (List Int)) :
    (runMask u set os).1.length = os.length := by
  unfold runMask
  split
  · exact emplaceMask_length set os
  · simp

theorem newRunMask_length (u : Bool) (set : List (List Int)) (os : List (List Int))
    (h : os ≠ []) : (newRunMask u set os).1.length = os.length := by
  unfold newRunMask
  split
  · exact emplaceMask_length [] os
  · have : 0 < os.length := List.length_pos.mpr h
    simp; omega

theorem scanMask_continue (u : Bool) (k : List Int) :
    ∀ (l1 l2 : List (List Int × List Int)) (set : List (List Int)), (∀ p ∈ l1, p.1 = k) →
      scanMask u (some k) set (l1 ++ l2) =
        ((runMask u set (l1.map Prod.snd)).1 ++
            (scanMask u (some k) (runMask u set (l1.map Prod.snd)).2 l2).1,
          (scanMask u (some k) (runMask u set (l1.map Prod.snd)).2 l2).2) := by
  intro l1
  induction l1 with
  | nil => intro l2 set _; cases u <;> simp [runMask, emplaceMask]
  | cons p l1 ih =>
    intro l2 set h
    have hp : p.1 = k := h p (List.mem_cons_self _ _)
    have hrest : ∀ q ∈ l1, q.1 = k := fun q hq => h q (List.mem_cons_of_mem _ hq)
    rw [List.cons_append, scanMask]
    simp only [hp, if_true]
    cases u with
    | true =>
      simp only [if_true]
      rw [ih l2 _ hrest]
      simp [runMask, emplaceMask]
    | false =>
      simp only [Bool.false_eq_true, if_false]
      rw [ih l2 _ hrest]
      simp [runMask, List.replicate_succ]

theorem scanMask_new_run (u : Bool) (ck : Option (List Int)) (p : List Int × List Int)
    (l1 l2 : List (List Int × List Int)) (set : List (List Int))
    (hck : ck ≠ some p.1) (h : ∀ q ∈ l1, q.1 = p.1) :
    scanMask u ck set (p :: l1 ++ l2) =
      ((newRunMask u set ((p :: l1).map Prod.snd)).1 ++
          (scanMask u (some p.1) (newRunMask u set ((p :: l1).map Prod.snd)).2 l2).1,
        (scanMask u (some p.1) (newRunMask u set ((p :: l1).map Prod.snd)).2 l2).2) := by
  rw [List.cons_append, scanMask]
  simp only [hck, if_false]
  rw [scanMask_continue u p.1 l1 l2 _ h]
  cases u with
  | true => simp [runMask, newRunMask, emplaceMask, emplaceKey]
  | false => simp [runMask, newRunMask]

theorem scanMask_append (u : Bool) :
    ∀ (l1 l2 : List (List Int × List Int)) (ck : Option (List Int)) (set : List (List Int)),
      scanMask u ck set (l1 ++ l2) =
        ((scanMask u ck set l1).1 ++ (scanMask u (scanMask u ck set l1).2.1
            (scanMask u ck set l1).2.2 l2).1,
          (scanMask u (scanMask u ck set l1).2.1 (scanMask u ck set l1).2.2 l2).2) := by
  intro l1
  induction l1 with
  | nil => intro l2 ck set; simp [scanMask]
  | cons p l1 ih =>
    intro l2 ck set
    rw [List.cons_append, scanMask, scanMask]
    split
    · split
      · rw [ih]; simp
      · rw [ih]; simp
    · rw [ih]; simp

theorem scanMask_length (u : Bool) :
    ∀ (l : List (List Int × List Int)) (ck : Option (List Int)) (set : List (List Int)),
      (scanMask u ck set l).1.length = l.length := by
  intro l
  induction l with
  | nil => intro ck set; rfl
  | cons p l ih =>
    intro ck set
    rw [scanMask]
    split
    · split <;> simp [ih]
    · simp [ih]

theorem count_true_replicate_false (k : Nat) : List.count true (List.replicate k false) = 0 := by
  induction k with
  | zero => rfl
  | succ k ih => simp [List.replicate_succ, ih]

/-- Processing of a range that continues the carried run (lines 165-168). -/
theorem continue_range_spec (t : DistinctSortedChunkTransform) (e : Nat) (post : Filter)
    (htype : ¬ t.other_columns.isEmpty → t.data.type_empty = false) :
    (if t.other_columns.isEmpty then (t, fillFilter (List.replicate e none ++ post) 0 e false, 0)
      else t.ordinaryDistinctOnRange (List.replicate e none ++ post) 0 e false) =
      ({ t with data := { t.data with keys :=
            (runMask (!t.other_columns.isEmpty) t.data.keys
              ((List.range' 0 e).map (rowKeyAt t.other_columns))).2 } },
        (runMask (!t.other_columns.isEmpty) t.data.keys
          ((List.range' 0 e).map (rowKeyAt t.other_columns))).1.map some ++ post,
        (runMask (!t.other_columns.isEmpty) t.data.keys
          ((List.range' 0 e).map (rowKeyAt t.other_columns))).1.count true) := by
  by_cases hoc : t.other_columns.isEmpty = true
  · simp only [hoc, if_true, Bool.not_true, runMask, Bool.false_eq_true, if_false]
    have := fillFilter_spec false e [] (List.replicate e none) post (by simp)
    simp only [List.nil_append, List.length_nil, Nat.zero_add] at this
    rw [this]
    simp [count_true_replicate_false]
  · have ht := htype hoc
    simp only [hoc, if_false, Bool.not_false, runMask, if_true, ordinaryDistinctOnRange, ht,
      Bool.false_eq_true, buildFilterForRange, Nat.sub_zero]
    have := emplaceRow_fold t.other_columns e [] (List.replicate e none) post t.data.keys 0
      (by simp)
    simp only [List.nil_append, List.length_nil, Nat.zero_add] at this
    rw [this]

/-- Processing of a range that starts a new run (lines 201-211). -/
theorem new_range_spec (t : DistinctSortedChunkTransform) (b e : Nat) (pre post : Filter)
    (hpre : pre.length = b) (hbe : b < e)
    (htype : ¬ t.other_columns.isEmpty → t.data.type_empty = false) :
    (if t.other_columns.isEmpty then
        (t, fillFilter ((pre ++ List.replicate (e - b) none ++ post).set b (some true))
          (b + 1) e false, 1)
      else t.ordinaryDistinctOnRange (pre ++ List.replicate (e - b) none ++ post) b e true) =
      ({ t with data := { t.data with keys :=
            (newRunMask (!t.other_columns.isEmpty) t.data.keys
              ((List.range' b (e - b)).map (rowKeyAt t.other_columns))).2 } },
        pre ++ (newRunMask (!t.other_columns.isEmpty) t.data.keys
          ((List.range' b (e - b)).map (rowKeyAt t.other_columns))).1.map some ++ post,
        (newRunMask (!t.other_columns.isEmpty) t.data.keys
          ((List.range' b (e - b)).map (rowKeyAt t.other_columns))).1.count true) := by
  subst hpre
  by_cases hoc : t.other_columns.isEmpty = true
  · simp only [hoc, if_true, Bool.not_true, newRunMask, Bool.false_eq_true, if_false]
    obtain ⟨k, hk⟩ : ∃ k, e - pre.length = k + 1 := ⟨e - pre.length - 1, by omega⟩
    rw [hk, List.replicate_succ]
    have h1 : (pre ++ none :: List.replicate k none ++ post).set pre.length (some true)
        = (pre ++ [some true]) ++ List.replicate k none ++ post := by
      simp only [List.append_assoc, List.cons_append, set_append_length, List.singleton_append,
        List.nil_append]
    rw [h1]
    have := fillFilter_spec false k (pre ++ [some true]) (List.replicate k none) post (by simp)
    have h2 : (pre ++ [some true]).length = pre.length + 1 := by simp
    have h3 : pre.length + 1 + k = e := by omega
    rw [h2, h3] at this
    rw [this]
    simp [count_true_replicate_false]
  · have ht := htype hoc
    simp only [hoc, if_false, Bool.not_false, newRunMask, if_true, ordinaryDistinctOnRange, ht,
      Bool.false_eq_true, buildFilterForRange]
    have := emplaceRow_fold t.other_columns (e - pre.length) pre
      (List.replicate (e - pre.length) none) post [] 0 (by simp)
    rw [this]
    simp

theorem scanMask_new_run_list (u : Bool) (ck : Option (List Int)) (k : List Int)
    (l1 l2 : List (List Int × List Int)) (set : List (List Int))
    (hne : l1 ≠ []) (hck : ck ≠ some k) (h : ∀ q ∈ l1, q.1 = k) :
    scanMask u ck set (l1 ++ l2) =
      ((newRunMask u set (l1.map Prod.snd)).1 ++
          (scanMask u (some k) (newRunMask u set (l1.map Prod.snd)).2 l2).1,
        (scanMask u (some k) (newRunMask u set (l1.map Prod.snd)).2 l2).2) := by
  cases l1 with
  | nil => exact absurd rfl hne
  | cons p l1 =>
    have hp : p.1 = k := h p (List.mem_cons_self _ _)
    subst hp
    exact scanMask_new_run u ck p l1 l2 set hck (fun q hq => h q (List.mem_cons_of_mem _ hq))

theorem rowPairs_append (sc oc : List Column) (b k1 k2 : Nat) :
    rowPairs sc oc b (k1 + k2) = rowPairs sc oc b k1 ++ rowPairs sc oc (b + k1) k2 := by
  unfold rowPairs
  rw [← List.map_append]
  congr 1
  rw [Nat.add_comm k1 k2, ← List.range'_append]
  simp

theorem rowPairs_snd (sc oc : List Column) (b k : Nat) :
    (rowPairs sc oc b k).map Prod.snd = (List.range' b k).map (rowKeyAt oc) := by
  simp [rowPairs, List.map_map, Function.comp_def]

theorem rowPairs_fst_mem (sc oc : List Column) (b k : Nat) (q : List Int × List Int)
    (hq : q ∈ rowPairs sc oc b k) : ∃ i, b ≤ i ∧ i < b + k ∧ q.1 = rowKeyAt sc i := by
  simp only [rowPairs, List.mem_map, List.mem_range'_1] at hq
  obtain ⟨i, ⟨h1, h2⟩, rfl⟩ := hq
  exact ⟨i, h1, h2, rfl⟩

theorem linearRangeEnd_pos (isKey : Nat → Bool) (fuel i : Nat) (h : isKey i = true)
    (hf : 0 < fuel) : i < linearRangeEnd isKey fuel i := by
  cases fuel with
  | zero => omega
  | succ f =>
    unfold linearRangeEnd
    simp only [h, if_true]
    have := (linearRangeEnd_bounds isKey f (i + 1)).1
    omega

theorem carriedKey_setCurrentKey (t : DistinctSortedChunkTransform) (b : Nat)
    (hsc : t.sorted_columns ≠ []) :
    carriedKey (t.setCurrentKey b) = some (rowKeyAt t.sorted_columns b) := by
  unfold carriedKey
  have h1 := (setCurrentKey_key t b).1
  have h2 := (setCurrentKey_key t b).2
  have hne : (t.setCurrentKey b).current_key ≠ [] := by
    intro h
    rw [h] at h2
    exact hsc (List.length_eq_zero.mp h2.symm)
  rw [if_neg (by simpa [List.isEmpty_iff] using hne), h1]

theorem transformLoop_done (n fuel : Nat) (t : DistinctSortedChunkTransform) (f : Filter)
    (b cnt : Nat) : transformLoop n fuel t f b n cnt = some (t, f, cnt) := by
  cases fuel <;> simp [transformLoop]

/-- The run found by one iteration of the loop of `transform`. -/
theorem getRangeEnd_run (t : DistinctSortedChunkTransform) (b n : Nat) (hb : b < n)
    (hn : n + 16 < 2 ^ 64) (hg : GroupedFrom t.sorted_columns b n) :
    ∃ e, (t.setCurrentKey b).getRangeEnd b n = some e ∧ b < e ∧ e ≤ n ∧
      (∀ i, b ≤ i → i < e → rowKeyAt t.sorted_columns i = rowKeyAt t.sorted_columns b) ∧
      (e < n → rowKeyAt t.sorted_columns e ≠ rowKeyAt t.sorted_columns b) := by
  have hkey : ∀ pos, (t.setCurrentKey b).isCurrentKey pos = true ↔
      rowKeyAt t.sorted_columns b = rowKeyAt t.sorted_columns pos :=
    setCurrentKey_isCurrentKey t b
  have hmono : MonotoneOn (t.setCurrentKey b).isCurrentKey b n := by
    intro i j h1 h2 h3 h4
    rw [hkey] at h4 ⊢
    exact (hg b i j (le_refl _) h1 h2 h3 h4).symm
  refine ⟨linearRangeEnd (t.setCurrentKey b).isCurrentKey (n - b) b, ?_, ?_, ?_, ?_, ?_⟩
  · exact getRangeEndOn_eq_linear _ b n hb hn hmono
  · exact linearRangeEnd_pos _ _ _ ((hkey b).mpr rfl) (by omega)
  · have := (linearRangeEnd_bounds (t.setCurrentKey b).isCurrentKey (n - b) b).2
    omega
  · intro i h1 h2
    exact ((hkey i).mp (linearRangeEnd_before _ _ _ _ h1 h2)).symm
  · intro h1 h2
    have := linearRangeEnd_at (t.setCurrentKey b).isCurrentKey (n - b) b (by omega)
    rw [(hkey _).mpr h2.symm] at this
    simp at this

theorem transformLoop_spec (n : Nat) (hn : n + 16 < 2 ^ 64) :
    ∀ (fuel b : Nat) (t : DistinctSortedChunkTransform) (pre : Filter) (cnt : Nat),
      t.sorted_columns ≠ [] →
      (¬ t.other_columns.isEmpty → t.data.type_empty = false) →
      b ≤ n → n - b ≤ fuel → pre.length = b →
      (b < n → carriedKey t ≠ some (rowKeyAt t.sorted_columns b)) →
      GroupedFrom t.sorted_columns b n →
      ∃ u, transformLoop n fuel t (pre ++ List.replicate (n - b) none) b b cnt =
          some (u,
            pre ++ (scanMask (!t.other_columns.isEmpty) (carriedKey t) t.data.keys
              (rowPairs t.sorted_columns t.other_columns b (n - b))).1.map some,
            cnt + (scanMask (!t.other_columns.isEmpty) (carriedKey t) t.data.keys
              (rowPairs t.sorted_columns t.other_columns b (n - b))).1.count true) ∧
        carriedKey u = (scanMask (!t.other_columns.isEmpty) (carriedKey t) t.data.keys
              (rowPairs t.sorted_columns t.other_columns b (n - b))).2.1 ∧
        u.data.keys = (scanMask (!t.other_columns.isEmpty) (carriedKey t) t.data.keys
              (rowPairs t.sorted_columns t.other_columns b (n - b))).2.2 ∧
        sameFrame t u ∧
        (u.current_key = t.current_key ∨ u.current_key.length = t.sorted_columns.length) := by
  intro fuel
  induction fuel with
  | zero =>
    intro b t pre cnt _ _ hbn hfuel _ _ _
    have hb : b = n := by omega
    subst hb
    refine ⟨t, ?_, ?_, ?_, ?_, Or.inl rfl⟩
    · rw [transformLoop_done]; simp [rowPairs, scanMask]
    · simp [rowPairs, scanMask]
    · simp [rowPairs, scanMask]
    · simp [sameFrame]
  | succ f ih =>
    intro b t pre cnt hsc htype hbn hfuel hpre hck hg
    rcases Nat.eq_or_lt_of_le hbn with hb | hb
    · subst hb
      refine ⟨t, ?_, ?_, ?_, ?_, Or.inl rfl⟩
      · rw [transformLoop_done]; simp [rowPairs, scanMask]
      · simp [rowPairs, scanMask]
      · simp [rowPairs, scanMask]
      · simp [sameFrame]
    · obtain ⟨e, he1, he2, he3, he4, he5⟩ := getRangeEnd_run t b n hb hn hg
      -- one iteration
      have hiter : transformLoop n (f + 1) t (pre ++ List.replicate (n - b) none) b b cnt =
          transformLoop n f
            (if (t.setCurrentKey b).other_columns.isEmpty then
                (t.setCurrentKey b,
                  fillFilter ((pre ++ List.replicate (n - b) none).set b (some true)) (b + 1) e
                    false, 1)
              else (t.setCurrentKey b).ordinaryDistinctOnRange
                (pre ++ List.replicate (n - b) none) b e true).1
            (if (t.setCurrentKey b).other_columns.isEmpty then
                (t.setCurrentKey b,
                  fillFilter ((pre ++ List.replicate (n - b) none).set b (some true)) (b + 1) e
                    false, 1)
              else (t.setCurrentKey b).ordinaryDistinctOnRange
                (pre ++ List.replicate (n - b) none) b e true).2.1
            e e
            (cnt + (if (t.setCurrentKey b).other_columns.isEmpty then
                (t.setCurrentKey b,
                  fillFilter ((pre ++ List.replicate (n - b) none).set b (some true)) (b + 1) e
                    false, 1)
              else (t.setCurrentKey b).ordinaryDistinctOnRange
                (pre ++ List.replicate (n - b) none) b e true).2.2) := by
        rw [transformLoop]
        simp only [ne_eq, Nat.ne_of_lt hb, not_false_eq_true, if_true, he1]
        split <;> rfl
      have hrep : List.replicate (n - b) (none : Option Bool) =
          List.replicate (e - b) none ++ List.replicate (n - e) none := by
        rw [← List.replicate_add]; congr 1; omega
      have hfilt : pre ++ List.replicate (n - b) (none : Option Bool) =
          pre ++ List.replicate (e - b) none ++ List.replicate (n - e) none := by
        rw [hrep, List.append_assoc]
      rw [hiter, hfilt]
      have hsame_oc : (t.setCurrentKey b).other_columns = t.other_columns := rfl
      have hsame_sc : (t.setCurrentKey b).sorted_columns = t.sorted_columns := rfl
      have hsame_data : (t.setCurrentKey b).data = t.data := rfl
      obtain ⟨t2, m, hrange, hm, h2sc, h2oc, h2keys, h2type, h2ck, hf⟩ :
          ∃ (t2 : DistinctSortedChunkTransform) (m : List Bool × List (List Int)),
            (if (t.setCurrentKey b).other_columns.isEmpty then
                (t.setCurrentKey b,
                  fillFilter ((pre ++ List.replicate (e - b) none
                    ++ List.replicate (n - e) none).set b (some true)) (b + 1) e false, 1)
              else (t.setCurrentKey b).ordinaryDistinctOnRange
                (pre ++ List.replicate (e - b) none ++ List.replicate (n - e) none) b e true)
              = (t2, pre ++ m.1.map some ++ List.replicate (n - e) none, m.1.count true) ∧
            newRunMask (!t.other_columns.isEmpty) t.data.keys
              ((List.range' b (e - b)).map (rowKeyAt t.other_columns)) = m ∧
            t2.sorted_columns = t.sorted_columns ∧ t2.other_columns = t.other_columns ∧
            t2.data.keys = m.2 ∧ t2.data.type_empty = t.data.type_empty ∧
            t2.current_key = (t.setCurrentKey b).current_key ∧ sameFrame t t2 := by
        refine ⟨{ t.setCurrentKey b with data := { t.data with keys :=
            (newRunMask (!t.other_columns.isEmpty) t.data.keys
              ((List.range' b (e - b)).map (rowKeyAt t.other_columns))).2 } },
          newRunMask (!t.other_columns.isEmpty) t.data.keys
              ((List.range' b (e - b)).map (rowKeyAt t.other_columns)),
          ?_, rfl, rfl, rfl, rfl, rfl, rfl, by simp [sameFrame, setCurrentKey]⟩
        exact new_range_spec (t.setCurrentKey b) b e pre (List.replicate (n - e) none) hpre he2
          htype
      rw [hrange]
      simp only []
      have h2carried : carriedKey t2 = some (rowKeyAt t.sorted_columns b) := by
        have := carriedKey_setCurrentKey t b hsc
        unfold carriedKey at this ⊢
        rw [h2ck]; exact this
      have hmlen : m.1.length = e - b := by
        rw [← hm, newRunMask_length _ _ _ (by
          intro h
          have := congrArg List.length h
          simp at this
          omega)]
        simp
      obtain ⟨u, hu1, hu2, hu3, hu4, hu5⟩ := ih e t2 (pre ++ m.1.map some) (cnt + m.1.count true)
        (by rw [h2sc]; exact hsc) (by rw [h2oc, h2type]; exact htype) he3 (by omega)
        (by simp [hmlen, hpre]; omega)
        (by
          intro hlt
          rw [h2carried, h2sc]
          intro heq
          exact he5 hlt (Option.some.inj heq).symm)
        (by
          rw [h2sc]
          intro i j k h1 h2 h3 h4
          exact hg i j k (by omega) h2 h3 h4)
      -- the specification side
      have hsplit : n - b = (e - b) + (n - e) := by omega
      have hpairs : rowPairs t.sorted_columns t.other_columns b (n - b) =
          rowPairs t.sorted_columns t.other_columns b (e - b) ++
            rowPairs t.sorted_columns t.other_columns e (n - e) := by
        rw [hsplit, rowPairs_append]
        congr 2
        omega
      have hscan := scanMask_new_run_list (!t.other_columns.isEmpty) (carriedKey t)
        (rowKeyAt t.sorted_columns b)
        (rowPairs t.sorted_columns t.other_columns b (e - b))
        (rowPairs t.sorted_columns t.other_columns e (n - e)) t.data.keys
        (by
          intro h
          have := congrArg List.length h
          simp [rowPairs] at this
          omega)
        (hck hb)
        (by
          intro q hq
          obtain ⟨i, h1, h2, h3⟩ := rowPairs_fst_mem _ _ _ _ q hq
          rw [h3]
          exact he4 i h1 (by omega))
      rw [rowPairs_snd, hm] at hscan
      rw [h2sc, h2oc, h2carried, h2keys] at hu1 hu2 hu3
      refine ⟨u, ?_, ?_, ?_, ?_, ?_⟩
      · rw [hu1, hpairs, hscan]
        simp [List.map_append, List.count_append, Nat.add_assoc]
      · rw [hu2, hpairs, hscan]
      · rw [hu3, hpairs, hscan]
      · simp only [sameFrame] at hf hu4 ⊢
        obtain ⟨a1, a2, a3, a4, a5, a6, a7, a8, a9, a10, a11⟩ := hf
        obtain ⟨b1, b2, b3, b4, b5, b6, b7, b8, b9, b10, b11⟩ := hu4
        simp [*]
      · right
        rcases hu5 with h | h
        · rw [h, h2ck]; exact (setCurrentKey_key t b).2
        · rw [h, h2sc]

theorem carriedKey_of_nonempty (t : DistinctSortedChunkTransform) (h : t.current_key ≠ []) :
    carriedKey t = some (t.current_key.map (fun c => c.data.getD 0 0)) := by
  unfold carriedKey
  rw [if_neg (by simpa [List.isEmpty_iff] using h)]

theorem carriedKey_of_empty (t : DistinctSortedChunkTransform) (h : t.current_key = []) :
    carriedKey t = none := by
  unfold carriedKey
  rw [if_pos (by simp [h])]

/-- Lines 189-215 against the row-by-row specification: on a chunk of `n` rows whose keys
are grouped (also with respect to the carried key) the filter is the specified mask. -/
theorem buildFilter_spec (t : DistinctSortedChunkTransform) (n : Nat) (hn0 : 0 < n)
    (hn : n + 16 < 2 ^ 64) (hsc : t.sorted_columns ≠ [])
    (htype : ¬ t.other_columns.isEmpty → t.data.type_empty = false)
    (hlen : t.current_key = [] ∨ t.current_key.length = t.sorted_columns.length)
    (hg : GroupedFrom t.sorted_columns 0 n)
    (hcarry : ∀ k0, carriedKey t = some k0 → ∀ j k, j ≤ k → k < n →
      rowKeyAt t.sorted_columns k = k0 → rowKeyAt t.sorted_columns j = k0) :
    ∃ u, t.buildFilter n =
        some (u,
          (scanMask (!t.other_columns.isEmpty) (carriedKey t) t.data.keys
            (rowPairs t.sorted_columns t.other_columns 0 n)).1.map some,
          (scanMask (!t.other_columns.isEmpty) (carriedKey t) t.data.keys
            (rowPairs t.sorted_columns t.other_columns 0 n)).1.count true) ∧
      carriedKey u = (scanMask (!t.other_columns.isEmpty) (carriedKey t) t.data.keys
            (rowPairs t.sorted_columns t.other_columns 0 n)).2.1 ∧
      u.data.keys = (scanMask (!t.other_columns.isEmpty) (carriedKey t) t.data.keys
            (rowPairs t.sorted_columns t.other_columns 0 n)).2.2 ∧
      sameFrame t u ∧
      (u.current_key = t.current_key ∨ u.current_key.length = t.sorted_columns.length) := by
  by_cases hcont : (t.current_key.isEmpty || !t.isCurrentKey 0) = true
  · -- no continuation
    have hb : t.buildFilter n = transformLoop n n t (List.replicate n none) 0 0 0 := by
      simp only [buildFilter, continueWithPrevRange, hcont, if_true]
    have hck : 0 < n → carriedKey t ≠ some (rowKeyAt t.sorted_columns 0) := by
      intro _
      by_cases he : t.current_key = []
      · rw [carriedKey_of_empty t he]; simp
      · rw [carriedKey_of_nonempty t he]
        have hl : t.current_key.length = t.sorted_columns.length := by
          rcases hlen with h | h
          · exact absurd h he
          · exact h
        have hnk : t.isCurrentKey 0 = false := by
          simp only [Bool.or_eq_true, Bool.not_eq_true', List.isEmpty_iff] at hcont
          rcases hcont with h | h
          · exact absurd h he
          · exact h
        intro heq
        have := (isCurrentKey_iff t 0 hl).mpr (Option.some.inj heq)
        rw [hnk] at this
        simp at this
    obtain ⟨u, h1, h2, h3, h4, h5⟩ := transformLoop_spec n hn n 0 t [] 0 hsc htype (Nat.zero_le _)
      (by omega) rfl hck hg
    refine ⟨u, ?_, h2, h3, h4, h5⟩
    rw [hb]
    simpa using h1
  · -- the chunk continues the carried run
    simp only [Bool.or_eq_true, Bool.not_eq_true', not_or, List.isEmpty_iff,
      Bool.not_eq_false] at hcont
    obtain ⟨hne, hk0⟩ := hcont
    have hl : t.current_key.length = t.sorted_columns.length := by
      rcases hlen with h | h
      · exact absurd h hne
      · exact h
    have hkey : ∀ pos, t.isCurrentKey pos = true ↔
        t.current_key.map (fun c => c.data.getD 0 0) = rowKeyAt t.sorted_columns pos :=
      fun pos => isCurrentKey_iff t pos hl
    have hcarried := carriedKey_of_nonempty t hne
    have hmono : MonotoneOn t.isCurrentKey 0 n := by
      intro i j _ h2 h3 h4
      rw [hkey] at h4 ⊢
      exact (hcarry _ hcarried i j h2 h3 h4.symm).symm
    have hre : t.getRangeEnd 0 n = some (linearRangeEnd t.isCurrentKey (n - 0) 0) :=
      getRangeEndOn_eq_linear _ 0 n (by omega) hn hmono
    generalize he : linearRangeEnd t.isCurrentKey (n - 0) 0 = e at hre
    have he1 : e ≤ n := by
      have := (linearRangeEnd_bounds t.isCurrentKey (n - 0) 0).2
      rw [he] at this; omega
    have he2 : ∀ i, i < e → rowKeyAt t.sorted_columns i
        = t.current_key.map (fun c => c.data.getD 0 0) := by
      intro i hi
      have := linearRangeEnd_before t.isCurrentKey (n - 0) 0 i (Nat.zero_le _) (by rw [he]; exact hi)
      exact ((hkey i).mp this).symm
    have he3 : e < n → rowKeyAt t.sorted_columns e
        ≠ t.current_key.map (fun c => c.data.getD 0 0) := by
      intro hlt heq
      have := linearRangeEnd_at t.isCurrentKey (n - 0) 0 (by rw [he]; omega)
      rw [he, (hkey e).mpr heq.symm] at this
      simp at this
    have hrep : List.replicate n (none : Option Bool) =
        List.replicate e none ++ List.replicate (n - e) none := by
      rw [← List.replicate_add]; congr 1; omega
    obtain ⟨t2, m, hrange, hm, h2sc, h2oc, h2keys, h2type, h2ck, hf⟩ :
        ∃ (t2 : DistinctSortedChunkTransform) (m : List Bool × List (List Int)),
          (if t.other_columns.isEmpty then
              (t, fillFilter (List.replicate e none ++ List.replicate (n - e) none) 0 e false, 0)
            else t.ordinaryDistinctOnRange
              (List.replicate e none ++ List.replicate (n - e) none) 0 e false)
            = (t2, m.1.map some ++ List.replicate (n - e) none, m.1.count true) ∧
          runMask (!t.other_columns.isEmpty) t.data.keys
            ((List.range' 0 e).map (rowKeyAt t.other_columns)) = m ∧
          t2.sorted_columns = t.sorted_columns ∧ t2.other_columns = t.other_columns ∧
          t2.data.keys = m.2 ∧ t2.data.type_empty = t.data.type_empty ∧
          t2.current_key = t.current_key ∧ sameFrame t t2 := by
      refine ⟨{ t with data := { t.data with keys :=
          (runMask (!t.other_columns.isEmpty) t.data.keys
            ((List.range' 0 e).map (rowKeyAt t.other_columns))).2 } },
        runMask (!t.other_columns.isEmpty) t.data.keys
            ((List.range' 0 e).map (rowKeyAt t.other_columns)),
        ?_, rfl, rfl, rfl, rfl, rfl, rfl, by simp [sameFrame]⟩
      exact continue_range_spec t e (List.replicate (n - e) none) htype
    have hb : t.buildFilter n =
        transformLoop n n t2 (m.1.map some ++ List.replicate (n - e) none) e e
          (m.1.count true) := by
      have hc : ¬ ((t.current_key.isEmpty || !t.isCurrentKey 0) = true) := by
        simp [List.isEmpty_iff, hne, hk0]
      have h1 := congrArg Prod.fst hrange
      have h2 := congrArg (fun x => x.2.1) hrange
      have h3 := congrArg (fun x => x.2.2) hrange
      simp only at h1 h2 h3
      simp only [buildFilter, continueWithPrevRange, hc, if_false, hre, hrep]
      rw [← h1, ← h2, ← h3]
      by_cases hoc : t.other_columns.isEmpty = true
      · simp only [hoc, if_true, Bool.false_eq_true, if_false]
      · simp only [hoc, if_false, Bool.false_eq_true]
    have hmlen : m.1.length = e := by
      rw [← hm, runMask_length]; simp
    have h2carried : carriedKey t2 = carriedKey t := by
      unfold carriedKey; rw [h2ck]
    obtain ⟨u, hu1, hu2, hu3, hu4, hu5⟩ := transformLoop_spec n hn n e t2 (m.1.map some)
      (m.1.count true) (by rw [h2sc]; exact hsc) (by rw [h2oc, h2type]; exact htype) he1
      (by omega) (by simp [hmlen])
      (by
        intro hlt
        rw [h2carried, hcarried, h2sc]
        intro heq
        exact he3 hlt (Option.some.inj heq).symm)
      (by
        rw [h2sc]
        intro i j k _ h2 h3 h4
        exact hg i j k (Nat.zero_le _) h2 h3 h4)
    have hpairs : rowPairs t.sorted_columns t.other_columns 0 n =
        rowPairs t.sorted_columns t.other_columns 0 e ++
          rowPairs t.sorted_columns t.other_columns e (n - e) := by
      have : n = e + (n - e) := by omega
      conv_lhs => rw [this]
      rw [rowPairs_append]
      simp
    have hscan := scanMask_continue (!t.other_columns.isEmpty)
      (t.current_key.map (fun c => c.data.getD 0 0))
      (rowPairs t.sorted_columns t.other_columns 0 e)
      (rowPairs t.sorted_columns t.other_columns e (n - e)) t.data.keys
      (by
        intro q hq
        obtain ⟨i, _, h2, h3⟩ := rowPairs_fst_mem _ _ _ _ q hq
        rw [h3]
        exact he2 i (by omega))
    rw [rowPairs_snd, hm] at hscan
    rw [h2sc, h2oc, h2carried, h2keys, hcarried] at hu1 hu2 hu3
    rw [hcarried]
    refine ⟨u, ?_, ?_, ?_, ?_, ?_⟩
    · rw [hb, hu1, hpairs, hscan]
      simp [List.map_append, List.count_append]
    · rw [hu2, hpairs, hscan]
    · rw [hu3, hpairs, hscan]
    · simp only [sameFrame] at hf hu4 ⊢
      obtain ⟨a1, a2, a3, a4, a5, a6, a7, a8, a9, a10, a11⟩ := hf
      obtain ⟨b1, b2, b3, b4, b5, b6, b7, b8, b9, b10, b11⟩ := hu4
      simp [*]
    · rcases hu5 with h | h
      · left; rw [h, h2ck]
      · right; rw [h, h2sc]

theorem compareValues_eq_zero (a b : Int) : compareValues a b = 0 ↔ a = b := by
  unfold compareValues
  split
  · constructor
    · intro h; simp at h
    · intro h; omega
  · split
    · rename_i h; simp only [true_iff]; exact h
    · constructor
      · intro h; simp at h
      · intro h; contradiction

theorem compareValues_swap (a b : Int) : compareValues b a = - compareValues a b := by
  unfold compareValues
  split_ifs <;> first | rfl | omega

theorem compareKeys_antisymm (descr : List SortColumnDescription)
    (hdir : ∀ d ∈ descr, d.direction ≠ 0) :
    ∀ a b : List Int, a.length = descr.length → b.length = descr.length →
      compareKeys descr a b ≤ 0 → compareKeys descr b a ≤ 0 → a = b := by
  induction descr with
  | nil =>
    intro a b ha hb _ _
    rw [List.length_eq_zero.mp ha, List.length_eq_zero.mp hb]
  | cons d ds ih =>
    intro a b ha hb h1 h2
    obtain ⟨x, xs, rfl⟩ := List.exists_cons_of_length_eq_add_one ha
    obtain ⟨y, ys, rfl⟩ := List.exists_cons_of_length_eq_add_one hb
    have hd : d.direction ≠ 0 := hdir d (List.mem_cons_self _ _)
    simp only [compareKeys] at h1 h2
    rw [compareValues_swap x y] at h2
    by_cases hc : d.direction * compareValues x y = 0
    · have hxy : x = y := by
        rcases Int.mul_eq_zero.mp hc with h | h
        · exact absurd h hd
        · exact (compareValues_eq_zero x y).mp h
      have hc2 : d.direction * -compareValues x y = 0 := by
        rw [Int.mul_neg, hc]; rfl
      simp only [hc, hc2, if_true] at h1 h2
      rw [hxy, ih (fun d hd => hdir d (List.mem_cons_of_mem _ hd)) xs ys
        (by simpa using ha) (by simpa using hb) h1 h2]
    · have hc2 : ¬ d.direction * -compareValues x y = 0 := by
        rw [Int.mul_neg]; omega
      simp only [hc, hc2, if_false] at h1 h2
      rw [Int.mul_neg] at h2
      omega

theorem referenceDistinct_eq_mask {α : Type} [DecidableEq α] (tuple : List Int → α) :
    ∀ (rows : List (List Int)) (seen : List α),
      referenceDistinct tuple seen rows
        = maskFilter ((referenceMask seen (rows.map tuple)).map some) rows := by
  intro rows
  induction rows with
  | nil => intro seen; simp [referenceDistinct, referenceMask, maskFilter]
  | cons r rs ih =>
    intro seen
    simp only [referenceDistinct, List.map_cons, referenceMask]
    split
    · simp [maskFilter, ih]
    · simp [maskFilter, ih]

theorem referenceMask_congr {α : Type} [DecidableEq α] :
    ∀ (xs : List α) (s1 s2 : List α), (∀ x ∈ xs, (x ∈ s1 ↔ x ∈ s2)) →
      referenceMask s1 xs = referenceMask s2 xs := by
  intro xs
  induction xs with
  | nil => intro s1 s2 _; rfl
  | cons x xs ih =>
    intro s1 s2 h
    have hx := h x (List.mem_cons_self _ _)
    simp only [referenceMask]
    by_cases h1 : x ∈ s1
    · have h2 := hx.mp h1
      simp only [h1, h2, if_true]
      rw [ih s1 s2 (fun y hy => h y (List.mem_cons_of_mem _ hy))]
    · have h2 : x ∉ s2 := fun h2 => h1 (hx.mpr h2)
      simp only [h1, h2, if_false]
      rw [ih (x :: s1) (x :: s2) (fun y hy => by
        simp only [List.mem_cons]
        rw [h y (List.mem_cons_of_mem _ hy)])]

/-- On a stream whose keys are sorted, the row-by-row specification with a carried key and
a per-run set agrees with the first-occurrence mask over the whole stream. -/
theorem scanMask_eq_referenceMask (u : Bool) (R : List Int → List Int → Prop)
    (hanti : ∀ a b, R a b → R b a → a = b) :
    ∀ (l : List (List Int × List Int)) (ck : Option (List Int)) (set : List (List Int))
      (seen : List (List Int × List Int)),
      (u = false → ∀ p ∈ l, p.2 = []) →
      List.Pairwise R (ck.toList ++ l.map Prod.fst) →
      (∀ k, ck = some k → u = true → ∀ o, (o ∈ set ↔ (k, o) ∈ seen)) →
      (∀ k, ck = some k → u = false → (k, []) ∈ seen) →
      (∀ q ∈ seen, ∀ p ∈ l, q.1 = p.1 → ck = some p.1) →
      (scanMask u ck set l).1 = referenceMask seen l := by
  intro l
  induction l with
  | nil => intro ck set seen _ _ _ _ _; rfl
  | cons p rest ih =>
    intro ck set seen hoth hsorted hset hnoset hseen
    have hsorted_rest : List.Pairwise R ((some p.1).toList ++ rest.map Prod.fst) := by
      have : List.Pairwise R (p.1 :: rest.map Prod.fst) :=
        (List.pairwise_append.mp hsorted).2.1
      simpa using this
    have hoth_rest : u = false → ∀ q ∈ rest, q.2 = [] :=
      fun hu q hq => hoth hu q (List.mem_cons_of_mem _ hq)
    simp only [scanMask, referenceMask]
    by_cases hck : ck = some p.1
    · simp only [hck, if_true]
      cases u with
      | true =>
        simp only [if_true]
        have hmem := hset p.1 hck rfl p.2
        by_cases hin : p.2 ∈ set
        · have hin2 : p ∈ seen := hmem.mp hin
          simp only [emplaceKey, hin, hin2, if_true]
          rw [← hck]
          congr 1
          exact ih ck set seen hoth_rest (by rw [hck]; exact hsorted_rest) hset hnoset
            (fun q hq r hr hqr => by
              have := hseen q hq r (List.mem_cons_of_mem _ hr) hqr
              exact this)
        · have hin2 : p ∉ seen := fun h => hin (hmem.mpr h)
          simp only [emplaceKey, hin, hin2, if_false]
          congr 1
          apply ih (some p.1) (p.2 :: set) (p :: seen) hoth_rest hsorted_rest
          · intro k hk _ o
            have hk2 : p.1 = k := Option.some.inj hk
            subst hk2
            simp only [List.mem_cons]
            rw [hset p.1 hck rfl o]
            constructor
            · rintro (h | h)
              · left; rw [h]
              · right; exact h
            · rintro (h | h)
              · left; rw [← h]
              · right; exact h
          · intro k _ hu; simp at hu
          · intro q hq r hr hqr
            rcases List.mem_cons.mp hq with h | h
            · rw [← hqr, h]
            · have := hseen q h r (List.mem_cons_of_mem _ hr) hqr
              rw [← this, hck]
      | false =>
        simp only [Bool.false_eq_true, if_false]
        have hp2 : p.2 = [] := hoth rfl p (List.mem_cons_self _ _)
        have hin2 : p ∈ seen := by
          have := hnoset p.1 hck rfl
          rw [← hp2] at this
          exact this
        simp only [hin2, if_true]
        rw [← hck]
        congr 1
        exact ih ck set seen hoth_rest (by rw [hck]; exact hsorted_rest) hset hnoset
          (fun q hq r hr hqr => hseen q hq r (List.mem_cons_of_mem _ hr) hqr)
    · simp only [hck, if_false]
      have hin2 : p ∉ seen := by
        intro h
        exact hck (hseen p h p (List.mem_cons_self _ _) rfl)
      simp only [hin2, if_false]
      congr 1
      apply ih (some p.1) (if u = true then [p.2] else set) (p :: seen) hoth_rest hsorted_rest
      · intro k hk hu o
        have hk2 : p.1 = k := Option.some.inj hk
        subst hk2
        simp only [hu, if_true, List.mem_cons, List.not_mem_nil, or_false]
        constructor
        · intro h; left; rw [h]
        · rintro (h | h)
          · exact (Prod.ext_iff.mp h).2
          · exact absurd (hseen (p.1, o) h p (List.mem_cons_self _ _) rfl) hck
      · intro k hk hu
        have hk2 : p.1 = k := Option.some.inj hk
        subst hk2
        have hp2 : p.2 = [] := hoth hu p (List.mem_cons_self _ _)
        rw [← hp2]
        exact List.mem_cons_self _ _
      · intro q hq r hr hqr
        rcases List.mem_cons.mp hq with h | h
        · rw [← hqr, h]
        · -- an older key cannot come back after the key changed
          exfalso
          have hold := hseen q h r (List.mem_cons_of_mem _ hr) hqr
          -- ck = some r.1, and p.1 is between
          have hck2 : ck.toList = [r.1] := by rw [hold]; rfl
          rw [hck2] at hsorted
          have hs : List.Pairwise R (r.1 :: p.1 :: rest.map Prod.fst) := by
            simpa using hsorted
          have h1 : R r.1 p.1 := (List.pairwise_cons.mp hs).1 p.1 (List.mem_cons_self _ _)
          have h2 : R p.1 r.1 :=
            (List.pairwise_cons.mp (List.pairwise_cons.mp hs).2).1 r.1
              (List.mem_map_of_mem Prod.fst hr)
          have := hanti _ _ h1 h2
          exact hck (by rw [hold, this])

theorem maskFilter_cons_true {α : Type} (m : Filter) (x : α) (xs : List α) :
    maskFilter (some true :: m) (x :: xs) = x :: maskFilter m xs := rfl

theorem maskFilter_cons_false {α : Type} (m : Filter) (x : α) (xs : List α) :
    maskFilter (some false :: m) (x :: xs) = maskFilter m xs := rfl

theorem getD_succ_eq_tail (d : List Int) (i : Nat) : d.getD (i + 1) 0 = d.tail.getD i 0 := by
  cases d <;> simp

theorem range_succ_map {β : Type} (f : Nat → β) (n : Nat) :
    (List.range (n + 1)).map f = f 0 :: (List.range n).map (fun i => f (i + 1)) := by
  rw [List.range_succ_eq_map, List.map_cons, List.map_map]
  rfl

/-- Compacting every column through a mask compacts the rows through the same mask. -/
theorem rows_filter_columns :
    ∀ (m : List Bool) (cols : List (List Int)), (∀ d ∈ cols, d.length = m.length) →
      (List.range (m.count true)).map
          (fun i => (cols.map (maskFilter (m.map some))).map (fun d => d.getD i 0))
        = maskFilter (m.map some)
            ((List.range m.length).map (fun i => cols.map (fun d => d.getD i 0))) := by
  intro m
  induction m with
  | nil => intro cols _; simp [maskFilter]
  | cons b m ih =>
    intro cols hcols
    have htails : ∀ d ∈ cols.map List.tail, d.length = m.length := by
      intro d hd
      obtain ⟨d0, hd0, rfl⟩ := List.mem_map.mp hd
      have := hcols d0 hd0
      simp at this ⊢
      omega
    have hrhs : (List.range (b :: m).length).map (fun i => cols.map (fun d => d.getD i 0))
        = cols.map (fun d => d.getD 0 0) ::
          (List.range m.length).map (fun i => (cols.map List.tail).map (fun d => d.getD i 0)) := by
      rw [List.length_cons, range_succ_map]
      congr 1
      apply List.map_congr_left
      intro i _
      rw [List.map_map]
      apply List.map_congr_left
      intro d _
      exact getD_succ_eq_tail d i
    rw [hrhs]
    cases b with
    | true =>
      have hfilt : cols.map (maskFilter ((true :: m).map some))
          = cols.map (fun d => d.getD 0 0 :: maskFilter (m.map some) d.tail) := by
        apply List.map_congr_left
        intro d hd
        have := hcols d hd
        cases d with
        | nil => simp at this
        | cons x xs => rfl
      rw [hfilt, List.map_cons, maskFilter_cons_true, List.count_cons_self, range_succ_map]
      congr 1
      · rw [List.map_map]; rfl
      · rw [← ih (cols.map List.tail) htails]
        apply List.map_congr_left
        intro i _
        simp [List.map_map, Function.comp_def]
    | false =>
      have hfilt : cols.map (maskFilter ((false :: m).map some))
          = (cols.map List.tail).map (maskFilter (m.map some)) := by
        rw [List.map_map]
        apply List.map_congr_left
        intro d hd
        have := hcols d hd
        cases d with
        | nil => simp at this
        | cons x xs => rfl
      rw [hfilt, List.map_cons, maskFilter_cons_false]
      have hc : List.count true (false :: m) = List.count true m := by simp
      rw [hc]
      exact ih (cols.map List.tail) htails

theorem rows_applyFilter (c : Chunk) (m : List Bool) (hwf : c.WellFormed)
    (hlen : m.length = c.num_rows) :
    (applyFilter c (m.map some) (m.count true)).rows = maskFilter (m.map some) c.rows := by
  have h := rows_filter_columns m (c.columns.map (fun col => col.data)) (by
    intro d hd
    obtain ⟨col, hcol, rfl⟩ := List.mem_map.mp hd
    rw [hlen]; exact hwf col hcol)
  have hrow : ∀ ch : Chunk, ch.row = fun i => ch.columns.map (fun col => col.data.getD i 0) :=
    fun _ => rfl
  simp only [Chunk.rows, hrow, applyFilter, Chunk.setColumns, Column.filter, List.map_map,
    Function.comp_def] at h ⊢
  rw [hlen] at h
  exact h

theorem maskFilter_length_le {α : Type} :
    ∀ (m : Filter) (l : List α), (maskFilter m l).length ≤ l.length := by
  intro m
  induction m with
  | nil => intro l; cases l <;> simp [maskFilter]
  | cons b m ih =>
    intro l
    cases l with
    | nil => cases b with
      | none => simp [maskFilter]
      | some v => cases v <;> simp [maskFilter]
    | cons x xs =>
      cases b with
      | none => simp [maskFilter]; have := ih xs; omega
      | some v =>
        cases v with
        | true => simp [maskFilter]; exact ih xs
        | false => simp [maskFilter]; have := ih xs; omega

theorem maskFilter_length {α : Type} :
    ∀ (m : List Bool) (l : List α), m.length = l.length →
      (maskFilter (m.map some) l).length = m.count true := by
  intro m
  induction m with
  | nil => intro l h; cases l <;> simp [maskFilter]
  | cons b m ih =>
    intro l h
    cases l with
    | nil => simp at h
    | cons x xs =>
      have h2 : m.length = xs.length := by simpa using h
      cases b with
      | true => simp [maskFilter, ih xs h2]
      | false => simp [maskFilter, ih xs h2]

theorem applyFilter_wellFormed (c : Chunk) (m : List Bool) (hwf : c.WellFormed)
    (hlen : m.length = c.num_rows) :
    (applyFilter c (m.map some) (m.count true)).WellFormed := by
  intro col hcol
  simp only [applyFilter, Chunk.setColumns, List.mem_map] at hcol ⊢
  obtain ⟨col0, h0, rfl⟩ := hcol
  simp only [Column.filter]
  exact maskFilter_length m col0.data (by rw [hlen]; exact (hwf col0 h0).symm)

theorem getD_map_data (cols : List Column) (p i : Nat) :
    (cols.map (fun col => col.data.getD i 0)).getD p 0 = (cols.getD p default).data.getD i 0 := by
  simp only [List.getD_eq_getElem?_getD, List.getElem?_map]
  cases cols[p]? with
  | none => simp [default]
  | some col => simp

theorem rowKeyAt_init (cols : List Column) (pos : List Nat) (i : Nat) :
    rowKeyAt (pos.map (fun p => cols.getD p default)) i
      = rowKey pos (cols.map (fun col => col.data.getD i 0)) := by
  simp only [rowKeyAt, rowKey, List.map_map, Function.comp_def, getD_map_data]

theorem rowPairs_init (t : DistinctSortedChunkTransform) (c : Chunk) :
    rowPairs (t.initChunkProcessing c.columns).sorted_columns
        (t.initChunkProcessing c.columns).other_columns 0 c.num_rows
      = c.rows.map (rowTuple t) := by
  simp only [rowPairs, initChunkProcessing, Chunk.rows, List.map_map, Function.comp_def,
    rowTuple, rowKeyAt_init]
  rw [List.range_eq_range']
  rfl

theorem carriedKey_congr (a b : DistinctSortedChunkTransform)
    (h : a.current_key = b.current_key) : carriedKey a = carriedKey b := by
  unfold carriedKey; rw [h]

theorem checkLimits_facts (u : DistinctSortedChunkTransform) (ch : Chunk) (k : Nat) :
    (checkLimits u ch k).chunk = ch ∧
    (checkLimits u ch k).state.current_key = u.current_key ∧
    (checkLimits u ch k).state.data = u.data ∧
    sameConfig u (checkLimits u ch k).state ∧
    (checkLimits u ch k).state.total_output_rows = (u.total_output_rows + k) % 2 ^ 64 ∧
    (NeverThrows u.output_size_limits → ∃ b, (checkLimits u ch k).outcome = Outcome.returned b) := by
  unfold checkLimits
  simp only []
  split
  · refine ⟨rfl, rfl, rfl, by simp [sameConfig], rfl, fun _ => ⟨true, rfl⟩⟩
  · split
    · rename_i code heq
      refine ⟨rfl, rfl, rfl, by simp [sameConfig], rfl, fun hnt => ?_⟩
      obtain ⟨v, hv⟩ := hnt ((u.total_output_rows + k) % 2 ^ 64)
        (u.total_byte_count u.data) operationLabel ErrorCode.SET_SIZE_LIMIT_EXCEEDED
      rw [hv] at heq
      cases heq
    · refine ⟨rfl, rfl, rfl, by simp [sameConfig], rfl, fun _ => ⟨false, rfl⟩⟩
    · refine ⟨rfl, rfl, rfl, by simp [sameConfig], rfl, fun _ => ⟨true, rfl⟩⟩

theorem applyFilter_empty (c : Chunk) (hwf : c.WellFormed) (h0 : c.num_rows = 0) :
    applyFilter c [] 0 = c := by
  have hcols : c.columns.map (fun col => col.filter [] 0) = c.columns := by
    conv_rhs => rw [← List.map_id c.columns]
    apply List.map_congr_left
    intro col hcol
    have := hwf col hcol
    rw [h0] at this
    have hd : col.data = [] := List.length_eq_zero.mp this
    cases col with
    | mk ic d =>
      simp only at hd
      subst hd
      rfl
  cases c with
  | mk cols n info =>
    simp only at h0 hcols
    subst h0
    simp only [applyFilter, Chunk.setColumns, hcols]

theorem pairwise_range_map {β : Type} (R : β → β → Prop) (f : Nat → β) (n : Nat)
    (h : List.Pairwise R ((List.range n).map f)) (i j : Nat) (hij : i < j) (hj : j < n) :
    R (f i) (f j) := by
  rw [List.pairwise_map] at h
  have := List.pairwise_iff_getElem.mp h i j (by simp; omega) (by simp; omega) hij
  simpa using this

/-- One call of `transform` against the row-by-row specification. -/
theorem transform_spec (t : DistinctSortedChunkTransform) (c : Chunk)
    (hpos : t.sorted_columns_pos ≠ []) (hshape : KeyShape t) (hwf : c.WellFormed)
    (hn : c.num_rows + 16 < 2 ^ 64)
    (R : List Int → List Int → Prop) (hanti : ∀ a b, R a b → R b a → a = b)
    (hsorted : List.Pairwise R
      ((carriedKey t).toList ++ c.rows.map (rowKey t.sorted_columns_pos))) :
    ∃ r, t.transform c = some r ∧
      r.chunk = applyFilter c
        ((scanMask (!t.other_columns_pos.isEmpty) (carriedKey t) t.data.keys
          (c.rows.map (rowTuple t))).1.map some)
        ((scanMask (!t.other_columns_pos.isEmpty) (carriedKey t) t.data.keys
          (c.rows.map (rowTuple t))).1.count true) ∧
      carriedKey r.state = (scanMask (!t.other_columns_pos.isEmpty) (carriedKey t) t.data.keys
          (c.rows.map (rowTuple t))).2.1 ∧
      r.state.data.keys = (scanMask (!t.other_columns_pos.isEmpty) (carriedKey t) t.data.keys
          (c.rows.map (rowTuple t))).2.2 ∧
      KeyShape r.state ∧ sameConfig t r.state ∧
      (t.total_output_rows < 2 ^ 64 → r.state.total_output_rows = (t.total_output_rows +
        (scanMask (!t.other_columns_pos.isEmpty) (carriedKey t) t.data.keys
          (c.rows.map (rowTuple t))).1.count true) % 2 ^ 64) ∧
      (NeverThrows t.output_size_limits → ∃ b, r.outcome = Outcome.returned b) := by
  by_cases h0 : c.num_rows = 0
  · have hrows : c.rows = [] := by simp [Chunk.rows, h0]
    refine ⟨⟨t, c, Outcome.returned false⟩, ?_, ?_, ?_, ?_, hshape, by simp [sameConfig], ?_,
      fun _ => ⟨false, rfl⟩⟩
    · simp [transform, Chunk.getNumRows, h0]
    · simp only [hrows, List.map_nil, scanMask, List.count_nil]
      exact (applyFilter_empty c hwf h0).symm
    · simp [hrows, scanMask]
    · simp [hrows, scanMask]
    · intro hlt
      simp only [hrows, List.map_nil, scanMask, List.count_nil, Nat.add_zero]
      exact (Nat.mod_eq_of_lt hlt).symm
  · have hn0 : 0 < c.num_rows := Nat.pos_of_ne_zero h0
    -- facts about the state after `initChunkProcessing`
    generalize hti : t.initChunkProcessing c.columns = ti
    have hi_sc : ti.sorted_columns = t.sorted_columns_pos.map (fun p => c.columns.getD p default) := by
      rw [← hti]; rfl
    have hi_oc : ti.other_columns = t.other_columns_pos.map (fun p => c.columns.getD p default) := by
      rw [← hti]; rfl
    have hi_ck : ti.current_key = t.current_key := by rw [← hti]; rfl
    have hi_keys : ti.data.keys = t.data.keys := by
      rw [← hti]; simp only [initChunkProcessing]; split <;> rfl
    have hi_cfg : sameConfig t ti := by rw [← hti]; simp [sameConfig, initChunkProcessing]
    have hi_total : ti.total_output_rows = t.total_output_rows := by rw [← hti]; rfl
    have hi_type : ¬ ti.other_columns.isEmpty → ti.data.type_empty = false := by
      rw [← hti]
      intro h
      simp only [initChunkProcessing] at h ⊢
      split
      · rfl
      · rename_i hc
        simp only [Bool.and_eq_true, Bool.not_eq_true', not_and, Bool.not_eq_true] at hc
        exact hc (by simpa using h)
    have hi_carried : carriedKey ti = carriedKey t := carriedKey_congr _ _ hi_ck
    have hi_u : (!ti.other_columns.isEmpty) = (!t.other_columns_pos.isEmpty) := by
      rw [hi_oc]; cases t.other_columns_pos <;> rfl
    have hi_pairs : rowPairs ti.sorted_columns ti.other_columns 0 c.num_rows
        = c.rows.map (rowTuple t) := by rw [← hti]; exact rowPairs_init t c
    have hi_scne : ti.sorted_columns ≠ [] := by
      rw [hi_sc]; intro h; exact hpos (List.map_eq_nil_iff.mp h)
    have hi_len : ti.current_key = [] ∨ ti.current_key.length = ti.sorted_columns.length := by
      rw [hi_ck, hi_sc, List.length_map]; exact hshape
    -- keys of the rows
    have hkeys : ∀ i, rowKeyAt ti.sorted_columns i = rowKey t.sorted_columns_pos (c.row i) := by
      intro i; rw [hi_sc]; exact rowKeyAt_init c.columns t.sorted_columns_pos i
    have hs_rows : List.Pairwise R (c.rows.map (rowKey t.sorted_columns_pos)) :=
      (List.pairwise_append.mp hsorted).2.1
    have hR : ∀ i j, i < j → j < c.num_rows →
        R (rowKeyAt ti.sorted_columns i) (rowKeyAt ti.sorted_columns j) := by
      intro i j hij hj
      rw [hkeys, hkeys]
      simp only [Chunk.rows, List.map_map] at hs_rows
      exact pairwise_range_map R _ c.num_rows hs_rows i j hij hj
    have hg : GroupedFrom ti.sorted_columns 0 c.num_rows := by
      intro i j k _ h2 h3 h4 h5
      rcases Nat.eq_or_lt_of_le h2 with h | h
      · rw [h]
      rcases Nat.eq_or_lt_of_le h3 with h' | h'
      · rw [h', h5]
      · have r1 := hR i j h (by omega)
        have r2 := hR j k h' h4
        rw [← h5] at r2
        exact (hanti _ _ r1 r2).symm
    have hcarry : ∀ k0, carriedKey ti = some k0 → ∀ j k, j ≤ k → k < c.num_rows →
        rowKeyAt ti.sorted_columns k = k0 → rowKeyAt ti.sorted_columns j = k0 := by
      intro k0 hk0 j k h1 h2 h3
      rcases Nat.eq_or_lt_of_le h1 with h | h
      · rw [h]; exact h3
      · have r2 := hR j k h h2
        rw [h3] at r2
        rw [hi_carried] at hk0
        rw [hk0] at hsorted
        have hmem : rowKeyAt ti.sorted_columns j ∈ c.rows.map (rowKey t.sorted_columns_pos) := by
          rw [hkeys]
          apply List.mem_map_of_mem
          simp only [Chunk.rows]
          exact List.mem_map_of_mem _ (List.mem_range.mpr (by omega))
        have r1 : R k0 (rowKeyAt ti.sorted_columns j) :=
          (List.pairwise_append.mp hsorted).2.2 k0 (by simp) _ hmem
        exact hanti _ _ r2 r1
    obtain ⟨u, hu1, hu2, hu3, hu4, hu5⟩ :=
      buildFilter_spec ti c.num_rows hn0 hn hi_scne hi_type hi_len hg hcarry
    rw [hi_u, hi_carried, hi_keys, hi_pairs] at hu1 hu2 hu3
    obtain ⟨f1, f2, f3, f4, f5, f6⟩ := checkLimits_facts u
      (applyFilter c
        ((scanMask (!t.other_columns_pos.isEmpty) (carriedKey t) t.data.keys
          (c.rows.map (rowTuple t))).1.map some)
        ((scanMask (!t.other_columns_pos.isEmpty) (carriedKey t) t.data.keys
          (c.rows.map (rowTuple t))).1.count true))
      ((scanMask (!t.other_columns_pos.isEmpty) (carriedKey t) t.data.keys
          (c.rows.map (rowTuple t))).1.count true)
    have hu_cfg : sameConfig t u := by
      simp only [sameConfig, sameFrame] at hi_cfg hu4 ⊢
      obtain ⟨a1, a2, a3, a4, a5, a6⟩ := hi_cfg
      obtain ⟨b1, b2, b3, b4, b5, b6, b7, b8, b9, b10, b11⟩ := hu4
      simp [*]
    refine ⟨_, ?_, f1, ?_, ?_, ?_, ?_, ?_, ?_⟩
    · simp only [transform, Chunk.getNumRows, h0, if_false, hti, hu1]
      rfl
    · rw [carriedKey_congr _ _ f2]; exact hu2
    · rw [f3]; exact hu3
    · unfold KeyShape
      rw [f2, f4.2.2.2.2.1, hu_cfg.2.2.2.2.1]
      rcases hu5 with h | h
      · rw [h, hi_ck]; exact hshape
      · right; rw [h, hi_sc, List.length_map]
    · simp only [sameConfig] at hu_cfg f4 ⊢
      obtain ⟨a1, a2, a3, a4, a5, a6⟩ := hu_cfg
      obtain ⟨b1, b2, b3, b4, b5, b6⟩ := f4
      simp [*]
    · intro _
      rw [f5, hu4.2.2.2.2.2.2.2.2.2.1, hi_total]
    · intro hnt
      exact f6 (by rw [hu_cfg.2.1]; exact hnt)

theorem scanMask_carried_sublist (u : Bool) :
    ∀ (l : List (List Int × List Int)) (ck : Option (List Int)) (set : List (List Int)),
      List.Sublist (scanMask u ck set l).2.1.toList (ck.toList ++ l.map Prod.fst) := by
  intro l
  induction l with
  | nil => intro ck set; simp [scanMask]
  | cons p rest ih =>
    intro ck set
    rw [scanMask]
    split
    · rename_i hck
      subst hck
      have hstep : List.Sublist ((some p.1).toList ++ rest.map Prod.fst)
          ((some p.1).toList ++ (p :: rest).map Prod.fst) := by
        simp only [Option.toList_some, List.map_cons, List.singleton_append]
        exact List.sublist_cons_self _ _
      split
      · simp only
        exact (ih (some p.1) _).trans hstep
      · simp only
        exact (ih (some p.1) _).trans hstep
    · simp only
      have hstep : List.Sublist ((some p.1).toList ++ rest.map Prod.fst)
          (ck.toList ++ (p :: rest).map Prod.fst) := by
        simp only [Option.toList_some, List.map_cons, List.singleton_append]
        exact List.sublist_append_right _ _
      exact (ih (some p.1) _).trans hstep

theorem rowTuple_congr (t u : DistinctSortedChunkTransform) (h : sameConfig t u) :
    rowTuple u = rowTuple t := by
  funext row
  simp only [rowTuple, h.2.2.2.2.1, h.2.2.2.2.2]

theorem sameConfig_trans {t u v : DistinctSortedChunkTransform} (h1 : sameConfig t u)
    (h2 : sameConfig u v) : sameConfig t v := by
  simp only [sameConfig] at *
  obtain ⟨a1, a2, a3, a4, a5, a6⟩ := h1
  obtain ⟨b1, b2, b3, b4, b5, b6⟩ := h2
  simp [*]

/-- A sequence of `transform` calls against the row-by-row specification. -/
theorem transformAll_spec (R : List Int → List Int → Prop)
    (hanti : ∀ a b, R a b → R b a → a = b) :
    ∀ (chunks : List Chunk) (t : DistinctSortedChunkTransform),
      t.sorted_columns_pos ≠ [] → KeyShape t →
      (∀ c ∈ chunks, c.WellFormed ∧ c.num_rows + 16 < 2 ^ 64) →
      List.Pairwise R ((carriedKey t).toList ++ (allRows chunks).map (rowKey t.sorted_columns_pos)) →
      ∃ fr, transformAll t chunks = some fr ∧
        (fr.error = none → fr.outputs =
          expectedOutputs (!t.other_columns_pos.isEmpty) (rowTuple t) (carriedKey t) t.data.keys
            chunks) ∧
        (NeverThrows t.output_size_limits → fr.error = none) := by
  intro chunks
  induction chunks with
  | nil =>
    intro t _ _ _ _
    exact ⟨⟨t, [], none⟩, rfl, fun _ => rfl, fun _ => rfl⟩
  | cons c cs ih =>
    intro t hpos hshape hchunks hsorted
    have hc := hchunks c (List.mem_cons_self _ _)
    have hsplit : (carriedKey t).toList ++ (allRows (c :: cs)).map (rowKey t.sorted_columns_pos)
        = ((carriedKey t).toList ++ c.rows.map (rowKey t.sorted_columns_pos))
          ++ (allRows cs).map (rowKey t.sorted_columns_pos) := by
      simp [allRows]
    rw [hsplit] at hsorted
    obtain ⟨r, hr1, hr2, hr3, hr4, hr5, hr6, _, hr8⟩ :=
      transform_spec t c hpos hshape hc.1 hc.2 R hanti (List.pairwise_append.mp hsorted).1
    have hkeys_eq : c.rows.map (rowKey t.sorted_columns_pos)
        = (c.rows.map (rowTuple t)).map Prod.fst := by
      simp [List.map_map, Function.comp_def, rowTuple]
    have hsorted_rest : List.Pairwise R
        ((carriedKey r.state).toList ++ (allRows cs).map (rowKey r.state.sorted_columns_pos)) := by
      rw [hr6.2.2.2.2.1, hr3]
      refine List.Pairwise.sublist ?_ hsorted
      apply List.Sublist.append _ (List.Sublist.refl _)
      rw [hkeys_eq]
      exact scanMask_carried_sublist _ _ _ _
    obtain ⟨fr, hf1, hf2, hf3⟩ := ih r.state (by rw [hr6.2.2.2.2.1]; exact hpos) hr5
      (fun c' hc' => hchunks c' (List.mem_cons_of_mem _ hc')) hsorted_rest
    rw [hr6.2.2.2.2.2, rowTuple_congr t r.state hr6, hr3, hr4] at hf2
    rw [hr6.2.1] at hf3
    cases hout : r.outcome with
    | threw code =>
      refine ⟨⟨r.state, [], some code⟩, ?_, ?_, ?_⟩
      · simp only [transformAll, hr1, hout]
      · intro h; simp at h
      · intro hnt
        obtain ⟨b, hb⟩ := hr8 hnt
        rw [hb] at hout
        cases hout
    | returned b =>
      refine ⟨⟨fr.state, r.chunk :: fr.outputs, fr.error⟩, ?_, ?_, ?_⟩
      · simp only [transformAll, hr1, hout, hf1]
      · intro h
        simp only [expectedOutputs]
        rw [hf2 h, hr2]
      · exact hf3

theorem maskFilter_append {α : Type} :
    ∀ (m1 : List Bool) (m2 : Filter) (l1 l2 : List α), m1.length = l1.length →
      maskFilter (m1.map some ++ m2) (l1 ++ l2)
        = maskFilter (m1.map some) l1 ++ maskFilter m2 l2 := by
  intro m1
  induction m1 with
  | nil =>
    intro m2 l1 l2 h
    have : l1 = [] := List.length_eq_zero.mp h.symm
    subst this
    cases m2 <;> cases l2 <;> simp [maskFilter]
  | cons b m ih =>
    intro m2 l1 l2 h
    cases l1 with
    | nil => simp at h
    | cons x xs =>
      have h2 : m.length = xs.length := by simpa using h
      cases b with
      | true => simp [maskFilter, ih m2 xs l2 h2]
      | false => simp [maskFilter, ih m2 xs l2 h2]

theorem rows_length (c : Chunk) : c.rows.length = c.num_rows := by
  simp [Chunk.rows]

/-- The rows of the specified outputs are the rows of the input compacted through the
mask of the whole stream. -/
theorem expectedOutputs_rows (u : Bool) (tuple : List Int → List Int × List Int) :
    ∀ (chunks : List Chunk) (ck : Option (List Int)) (set : List (List Int)),
      (∀ c ∈ chunks, c.WellFormed) →
      allRows (expectedOutputs u tuple ck set chunks)
        = maskFilter ((scanMask u ck set ((allRows chunks).map tuple)).1.map some)
            (allRows chunks) := by
  intro chunks
  induction chunks with
  | nil => intro ck set _; simp [expectedOutputs, allRows, scanMask, maskFilter]
  | cons c cs ih =>
    intro ck set hwf
    have hc := hwf c (List.mem_cons_self _ _)
    simp only [expectedOutputs, allRows, List.map_append]
    rw [scanMask_append, List.map_append, maskFilter_append _ _ _ _
      (by rw [scanMask_length, List.length_map])]
    rw [rows_applyFilter c _ hc (by rw [scanMask_length, List.length_map, rows_length])]
    rw [ih _ _ (fun c' hc' => hwf c' (List.mem_cons_of_mem _ hc'))]

theorem sortedPositions_length (header : Block) :
    ∀ (descr : List SortColumnDescription) (ps : List Nat),
      sortedPositions header descr = some ps → ps.length = descr.length := by
  intro descr
  induction descr with
  | nil => intro ps h; simp [sortedPositions] at h; simp [← h]
  | cons d ds ih =>
    intro ps h
    simp only [sortedPositions] at h
    split at h
    · simp at h
    · split at h
      · simp at h
      · rename_i ps2 hps2
        simp only [Option.some.injEq] at h
        rw [← h, List.length_cons, ih ps2 hps2, List.length_cons]

/-- What the constructor leaves in a fresh instance. -/
theorem construct_fresh (header : Block) (limits : SizeLimits)
    (byte_count : ClearableSetVariants → Nat) (limit_hint : Nat)
    (descr : List SortColumnDescription) (source_columns : List String)
    (t : DistinctSortedChunkTransform)
    (h : construct header limits byte_count limit_hint descr source_columns = some t) :
    t.sorted_columns_descr = descr ∧ t.sorted_columns_pos.length = descr.length ∧
    t.current_key = [] ∧ t.data.keys = [] ∧ t.total_output_rows = 0 ∧
    t.output_size_limits = limits ∧ t.limit_hint = limit_hint ∧
    t.no_more_data_needed = false := by
  simp only [construct] at h
  split at h
  · simp at h
  · rename_i ps hps
    split at h
    · simp at h
    · simp only [Option.some.injEq] at h
      subst h
      exact ⟨rfl, sortedPositions_length header descr ps hps, rfl, rfl, rfl, rfl, rfl, rfl⟩

theorem keyLE_antisymm (descr : List SortColumnDescription)
    (hdir : ∀ d ∈ descr, d.direction ≠ 0) (a b : List Int)
    (h1 : KeyLE descr a b) (h2 : KeyLE descr b a) : a = b :=
  compareKeys_antisymm descr hdir a b h1.1 h1.2.1 h1.2.2 h2.2.2

theorem sortedByKey_pairwise (descr : List SortColumnDescription) (pos : List Nat)
    (hlen : pos.length = descr.length) (rows : List (List Int))
    (h : SortedByKey descr pos rows) :
    List.Pairwise (KeyLE descr) (rows.map (rowKey pos)) := by
  rw [List.pairwise_map]
  exact List.Pairwise.imp (fun hab => ⟨by simp [rowKey, hlen], by simp [rowKey, hlen], hab⟩) h

/-- A fresh instance fed a key-sorted chunk sequence produces the specified outputs, whose
rows are the full-materialization distinct of the input rows. -/
theorem transformAll_reference (descr : List SortColumnDescription)
    (t : DistinctSortedChunkTransform) (chunks : List Chunk)
    (hdescr : t.sorted_columns_pos.length = descr.length) (hck : t.current_key = [])
    (hkeys : t.data.keys = [])
    (hkey : descr ≠ []) (hdir : ∀ d ∈ descr, d.direction ≠ 0)
    (hchunks : ∀ c ∈ chunks, c.WellFormed ∧ c.num_rows + 16 < 2 ^ 64)
    (hsorted : SortedByKey descr t.sorted_columns_pos (allRows chunks)) :
    ∃ fr, transformAll t chunks = some fr ∧
      (fr.error = none → fr.outputs =
        expectedOutputs (!t.other_columns_pos.isEmpty) (rowTuple t) none [] chunks) ∧
      (NeverThrows t.output_size_limits → fr.error = none) ∧
      allRows (expectedOutputs (!t.other_columns_pos.isEmpty) (rowTuple t) none [] chunks)
        = referenceDistinct (rowTuple t) [] (allRows chunks) ∧
      (scanMask (!t.other_columns_pos.isEmpty) none [] ((allRows chunks).map (rowTuple t))).1
        = referenceMask [] ((allRows chunks).map (rowTuple t)) := by
  have hpos : t.sorted_columns_pos ≠ [] := by
    intro h
    rw [h] at hdescr
    exact hkey (List.length_eq_zero.mp hdescr.symm)
  have hcarried : carriedKey t = none := carriedKey_of_empty t hck
  have hpw := sortedByKey_pairwise descr t.sorted_columns_pos hdescr _ hsorted
  obtain ⟨fr, h1, h2, h3⟩ := transformAll_spec (KeyLE descr) (keyLE_antisymm descr hdir) chunks t
    hpos (Or.inl hck) hchunks (by rw [hcarried]; simpa using hpw)
  rw [hcarried, hkeys] at h2
  have hmask : (scanMask (!t.other_columns_pos.isEmpty) none []
      ((allRows chunks).map (rowTuple t))).1
        = referenceMask [] ((allRows chunks).map (rowTuple t)) := by
    apply scanMask_eq_referenceMask _ (KeyLE descr) (keyLE_antisymm descr hdir)
    · intro hu p hp
      obtain ⟨row, _, rfl⟩ := List.mem_map.mp hp
      have : t.other_columns_pos = [] := by
        cases hpo : t.other_columns_pos with
        | nil => rfl
        | cons a l => rw [hpo] at hu; simp at hu
      simp [rowTuple, rowKey, this]
    · simpa [List.map_map, Function.comp_def, rowTuple] using hpw
    · intro k hk; simp at hk
    · intro k hk; simp at hk
    · intro q hq; simp at hq
  refine ⟨fr, h1, h2, h3, ?_, hmask⟩
  rw [expectedOutputs_rows _ _ _ _ _ (fun c hc => (hchunks c hc).1), hmask,
    referenceDistinct_eq_mask]

/-- C1: for every sequence of (well-formed) chunks whose concatenated rows are sorted by
the declared key columns, fed one by one to `transform` on a fresh instance with at least
one key column, every call returns and, unless the size-limit check raises, the
concatenation of the output chunks is exactly the subsequence of input rows that are the
first occurrence of their (key columns, other columns) tuple in the whole stream, in
original order: the result of a full-materialization distinct.  With limits that never
raise, no call raises. -/
theorem transform_stream_is_reference_distinct (header : Block) (limits : SizeLimits)
    (byte_count : ClearableSetVariants → Nat) (limit_hint : Nat)
    (descr : List SortColumnDescription) (source_columns : List String)
    (t : DistinctSortedChunkTransform) (chunks : List Chunk)
    (hfresh : construct header limits byte_count limit_hint descr source_columns = some t)
    (hkey : descr ≠ []) (hdir : ∀ d ∈ descr, d.direction ≠ 0)
    (hchunks : ∀ c ∈ chunks, c.WellFormed ∧ c.num_rows + 16 < 2 ^ 64)
    (hsorted : SortedByKey descr t.sorted_columns_pos (allRows chunks)) :
    ∃ fr, transformAll t chunks = some fr ∧
      (fr.error = none →
        allRows fr.outputs = referenceDistinct (rowTuple t) [] (allRows chunks)) ∧
      (NeverThrows limits → fr.error = none) := by
  obtain ⟨_, f2, f3, f4, _, f6, _, _⟩ := construct_fresh _ _ _ _ _ _ _ hfresh
  obtain ⟨fr, h1, h2, h3, h4, _⟩ :=
    transformAll_reference descr t chunks f2 f3 f4 hkey hdir hchunks hsorted
  refine ⟨fr, h1, fun he => ?_, fun hnt => h3 (by rw [f6]; exact hnt)⟩
  rw [h2 he, h4]

theorem allRows_singleton (c : Chunk) : allRows [c] = c.rows := by
  simp [allRows]

/-- C2: cross-chunk continuation.  For every key-sorted list of rows and every way of
splitting it into consecutive chunks (also when a middle chunk lies entirely inside one
run), the concatenated output of `transform` over the split chunks equals the output over
the same rows delivered as a single chunk, with and without other columns. -/
theorem split_chunks_same_as_single_chunk (header : Block) (limits : SizeLimits)
    (byte_count : ClearableSetVariants → Nat) (limit_hint : Nat)
    (descr : List SortColumnDescription) (source_columns : List String)
    (t : DistinctSortedChunkTransform) (chunks : List Chunk) (whole : Chunk)
    (hfresh : construct header limits byte_count limit_hint descr source_columns = some t)
    (hkey : descr ≠ []) (hdir : ∀ d ∈ descr, d.direction ≠ 0)
    (hchunks : ∀ c ∈ chunks, c.WellFormed ∧ c.num_rows + 16 < 2 ^ 64)
    (hwhole : whole.WellFormed ∧ whole.num_rows + 16 < 2 ^ 64)
    (hrows : whole.rows = allRows chunks)
    (hsorted : SortedByKey descr t.sorted_columns_pos (allRows chunks)) :
    ∃ fr1 fr2, transformAll t chunks = some fr1 ∧ transformAll t [whole] = some fr2 ∧
      (fr1.error = none → fr2.error = none → allRows fr1.outputs = allRows fr2.outputs) ∧
      (NeverThrows limits → fr1.error = none ∧ fr2.error = none) := by
  obtain ⟨_, f2, f3, f4, _, f6, _, _⟩ := construct_fresh _ _ _ _ _ _ _ hfresh
  obtain ⟨fr1, a1, a2, a3, a4, _⟩ :=
    transformAll_reference descr t chunks f2 f3 f4 hkey hdir hchunks hsorted
  obtain ⟨fr2, b1, b2, b3, b4, _⟩ :=
    transformAll_reference descr t [whole] f2 f3 f4 hkey hdir
      (by intro c hc; rw [List.mem_singleton.mp hc]; exact hwhole)
      (by rw [allRows_singleton, hrows]; exact hsorted)
  refine ⟨fr1, fr2, a1, b1, fun h1 h2 => ?_, fun hnt =>
    ⟨a3 (by rw [f6]; exact hnt), b3 (by rw [f6]; exact hnt)⟩⟩
  rw [a2 h1, b2 h2, a4, b4, allRows_singleton, hrows]

theorem maskFilter_sublist {α : Type} :
    ∀ (m : Filter) (l : List α), List.Sublist (maskFilter m l) l := by
  intro m
  induction m with
  | nil => intro l; cases l <;> simp [maskFilter]
  | cons b m ih =>
    intro l
    cases l with
    | nil => cases b with
      | none => simp [maskFilter]
      | some v => cases v <;> simp [maskFilter]
    | cons x xs =>
      cases b with
      | none => exact (ih xs).trans (List.sublist_cons_self _ _)
      | some v =>
        cases v with
        | true => exact (ih xs).cons₂ x
        | false => exact (ih xs).trans (List.sublist_cons_self _ _)

theorem maskFilter_all_true {α : Type} :
    ∀ (m : List Bool) (l : List α), (∀ b ∈ m, b = true) → m.length = l.length →
      maskFilter (m.map some) l = l := by
  intro m
  induction m with
  | nil =>
    intro l _ h
    have : l = [] := List.length_eq_zero.mp h.symm
    subst this; rfl
  | cons b m ih =>
    intro l hb h
    cases l with
    | nil => simp at h
    | cons x xs =>
      have hb1 : b = true := hb b (List.mem_cons_self _ _)
      subst hb1
      simp only [List.map_cons, maskFilter_cons_true]
      rw [ih xs (fun b hb' => hb b (List.mem_cons_of_mem _ hb')) (by simpa using h)]

theorem count_all_true (m : List Bool) (h : ∀ b ∈ m, b = true) : m.count true = m.length := by
  induction m with
  | nil => rfl
  | cons b m ih =>
    have hb1 : b = true := h b (List.mem_cons_self _ _)
    subst hb1
    simp [ih (fun b hb' => h b (List.mem_cons_of_mem _ hb'))]

theorem applyFilter_all_true (c : Chunk) (m : List Bool) (hwf : c.WellFormed)
    (hall : ∀ b ∈ m, b = true) (hlen : m.length = c.num_rows) :
    applyFilter c (m.map some) (m.count true) = c := by
  have hcols : c.columns.map (fun col => col.filter (m.map some) (m.count true)) = c.columns := by
    conv_rhs => rw [← List.map_id c.columns]
    apply List.map_congr_left
    intro col hcol
    have hd := maskFilter_all_true m col.data hall (by rw [hlen]; exact (hwf col hcol).symm)
    cases col with
    | mk ic d =>
      simp only [Column.filter, id] at hd ⊢
      rw [hd]
  cases c with
  | mk cols n info =>
    simp only at hlen hcols
    simp only [applyFilter, Chunk.setColumns]
    rw [hcols, count_all_true m hall, hlen]

/-- Where the mask of the whole stream keeps every row, the specified outputs are the
input chunks themselves. -/
theorem expectedOutputs_all_true (u : Bool) (tuple : List Int → List Int × List Int) :
    ∀ (chunks : List Chunk) (ck : Option (List Int)) (set : List (List Int)),
      (∀ c ∈ chunks, c.WellFormed) →
      (∀ b ∈ (scanMask u ck set ((allRows chunks).map tuple)).1, b = true) →
      expectedOutputs u tuple ck set chunks = chunks := by
  intro chunks
  induction chunks with
  | nil => intro ck set _ _; rfl
  | cons c cs ih =>
    intro ck set hwf hall
    simp only [allRows, List.map_append] at hall
    rw [scanMask_append] at hall
    simp only [List.mem_append] at hall
    simp only [expectedOutputs]
    rw [applyFilter_all_true c _ (hwf c (List.mem_cons_self _ _))
      (fun b hb => hall b (Or.inl hb))
      (by rw [scanMask_length, List.length_map, rows_length])]
    rw [ih _ _ (fun c' hc' => hwf c' (List.mem_cons_of_mem _ hc'))
      (fun b hb => hall b (Or.inr hb))]

theorem referenceMask_of_referenceDistinct {α : Type} [DecidableEq α] (tuple : List Int → α) :
    ∀ (rows : List (List Int)) (seen : List α),
      ∀ b ∈ referenceMask seen ((referenceDistinct tuple seen rows).map tuple), b = true := by
  intro rows
  induction rows with
  | nil => intro seen b hb; simp [referenceDistinct, referenceMask] at hb
  | cons r rs ih =>
    intro seen b hb
    simp only [referenceDistinct] at hb
    split at hb
    · exact ih seen b hb
    · rename_i hnot
      simp only [List.map_cons, referenceMask, hnot, if_false, List.mem_cons] at hb
      rcases hb with h | h
      · exact h
      · exact ih _ b h

theorem expectedOutputs_wellFormed (u : Bool) (tuple : List Int → List Int × List Int) :
    ∀ (chunks : List Chunk) (ck : Option (List Int)) (set : List (List Int)),
      (∀ c ∈ chunks, c.WellFormed ∧ c.num_rows + 16 < 2 ^ 64) →
      ∀ c ∈ expectedOutputs u tuple ck set chunks, c.WellFormed ∧ c.num_rows + 16 < 2 ^ 64 := by
  intro chunks
  induction chunks with
  | nil => intro ck set _ c hc; simp [expectedOutputs] at hc
  | cons c0 cs ih =>
    intro ck set h c hc
    simp only [expectedOutputs, List.mem_cons] at hc
    have h0 := h c0 (List.mem_cons_self _ _)
    rcases hc with hc | hc
    · subst hc
      have hlen : (scanMask u ck set (c0.rows.map tuple)).1.length = c0.num_rows := by
        rw [scanMask_length, List.length_map, rows_length]
      refine ⟨applyFilter_wellFormed c0 _ h0.1 hlen, ?_⟩
      have : (scanMask u ck set (c0.rows.map tuple)).1.count true ≤ c0.num_rows := by
        rw [← hlen]; exact List.count_le_length _ _
      simp only [applyFilter, Chunk.setColumns]
      omega
    · exact ih _ _ (fun c' hc' => h c' (List.mem_cons_of_mem _ hc')) c hc

/-- C10: idempotence.  For every key-sorted chunk sequence, feeding the output chunk
sequence of a fresh instance through a second fresh instance of the same configuration
yields a chunk sequence identical to the first output: the same rows in the same chunks. -/
theorem transform_idempotent (header : Block) (limits : SizeLimits)
    (byte_count : ClearableSetVariants → Nat) (limit_hint : Nat)
    (descr : List SortColumnDescription) (source_columns : List String)
    (t : DistinctSortedChunkTransform) (chunks : List Chunk) (first : FeedResult)
    (hfresh : construct header limits byte_count limit_hint descr source_columns = some t)
    (hkey : descr ≠ []) (hdir : ∀ d ∈ descr, d.direction ≠ 0)
    (hchunks : ∀ c ∈ chunks, c.WellFormed ∧ c.num_rows + 16 < 2 ^ 64)
    (hsorted : SortedByKey descr t.sorted_columns_pos (allRows chunks))
    (hfirst : transformAll t chunks = some first) (hok : first.error = none) :
    ∃ second, transformAll t first.outputs = some second ∧
      (second.error = none → second.outputs = first.outputs) ∧
      (NeverThrows limits → second.error = none) := by
  obtain ⟨_, f2, f3, f4, _, f6, _, _⟩ := construct_fresh _ _ _ _ _ _ _ hfresh
  obtain ⟨fr1, a1, a2, _, a4, _⟩ :=
    transformAll_reference descr t chunks f2 f3 f4 hkey hdir hchunks hsorted
  rw [hfirst] at a1
  have hfr : first = fr1 := Option.some.inj a1
  subst hfr
  have houts := a2 hok
  have hwf2 := expectedOutputs_wellFormed (!t.other_columns_pos.isEmpty) (rowTuple t) chunks
    none [] hchunks
  rw [← houts] at hwf2 a4
  have hsorted2 : SortedByKey descr t.sorted_columns_pos (allRows first.outputs) := by
    rw [a4, referenceDistinct_eq_mask]
    exact List.Pairwise.sublist (maskFilter_sublist _ _) hsorted
  obtain ⟨fr2, b1, b2, b3, _, b5⟩ :=
    transformAll_reference descr t first.outputs f2 f3 f4 hkey hdir hwf2 hsorted2
  refine ⟨fr2, b1, fun he => ?_, fun hnt => b3 (by rw [f6]; exact hnt)⟩
  rw [b2 he]
  apply expectedOutputs_all_true _ _ _ _ _ (fun c hc => (hwf2 c hc).1)
  rw [b5, a4]
  exact referenceMask_of_referenceDistinct (rowTuple t) (allRows chunks) []

theorem sample_construct (limit_hint : Nat) :
    construct sampleHeader unlimited eightBytesPerKey limit_hint keyAscending ["k", "v"]
      = some (sampleTransform limit_hint) := by
  rfl

theorem transform_stream_is_reference_distinct_witness :
    ∃ fr, transformAll (sampleTransform 0) splitRun = some fr ∧
      (fr.error = none →
        allRows fr.outputs
          = referenceDistinct (rowTuple (sampleTransform 0)) [] (allRows splitRun)) ∧
      (NeverThrows unlimited → fr.error = none) :=
  transform_stream_is_reference_distinct sampleHeader unlimited eightBytesPerKey 0 keyAscending
    ["k", "v"] (sampleTransform 0) splitRun (sample_construct 0) (by decide) (by decide)
    (by decide) (by decide)


theorem getRangeEndLoop_total (isKey : Nat → Bool) (e : Nat) (he : e < 2 ^ 64) :
    ∀ fuel low end_, 1 ≤ low → low ≤ end_ → end_ ≤ e → end_ - low < fuel →
      ∃ r, getRangeEndLoop isKey fuel low (size_sub end_ 1) end_ = some r ∧ low ≤ r ∧ r ≤ end_ := by
  intro fuel
  induction fuel with
  | zero => intro low end_ _ _ _ h; omega
  | succ f ih =>
    intro low end_ h1 h2 h3 h4
    have hs : size_sub end_ 1 = end_ - 1 := size_sub_eq end_ 1 (by omega) (by omega)
    unfold getRangeEndLoop
    rw [hs]
    by_cases hlow : low ≤ end_ - 1
    · simp only [hlow, if_true]
      have hsub : size_sub (end_ - 1) low = end_ - 1 - low := size_sub_eq _ _ hlow (by omega)
      have hmid : size_add low (size_sub (end_ - 1) low / 2) = low + (end_ - 1 - low) / 2 := by
        rw [hsub]; exact size_add_eq _ _ (by omega)
      rw [hmid]
      by_cases hk : isKey (low + (end_ - 1 - low) / 2) = true
      · simp only [hk, if_true]
        rw [size_add_eq _ _ (by omega)]
        obtain ⟨r, hr1, hr2, hr3⟩ := ih (low + (end_ - 1 - low) / 2 + 1) end_ (by omega)
          (by omega) h3 (by omega)
        rw [hs] at hr1
        exact ⟨r, hr1, by omega, hr3⟩
      · simp only [hk, Bool.false_eq_true, if_false]
        have hs2 : size_sub (low + (end_ - 1 - low) / 2) 1 = low + (end_ - 1 - low) / 2 - 1 :=
          size_sub_eq _ _ (by omega) (by omega)
        obtain ⟨r, hr1, hr2, hr3⟩ := ih low (low + (end_ - 1 - low) / 2) h1 (by omega)
          (by omega) (by omega)
        rw [hs2] at hr1 ⊢
        exact ⟨r, hr1, hr2, by omega⟩
    · simp only [hlow, if_false]
      exact ⟨end_, rfl, h2, le_refl _⟩

/-- The run-end search returns, for every key predicate, an index after `begin` and not
past `end` when the row at `begin` has the current key. -/
theorem getRangeEndOn_total (isKey : Nat → Bool) (b e : Nat) (hbe : b < e)
    (he : e + 16 < 2 ^ 64) (hb : isKey b = true) :
    ∃ r, getRangeEndOn isKey b e = some r ∧ b < r ∧ r ≤ e := by
  unfold getRangeEndOn
  simp only []
  rw [size_add_eq b 16 (by omega)]
  generalize hl : (if b + 16 > e then e else b + 16) = lpe
  have hl1 : b < lpe := by rw [← hl]; split <;> omega
  have hl2 : lpe ≤ e := by rw [← hl]; split <;> omega
  split
  · rename_i pos hfind
    have hmem := List.mem_of_find?_eq_some hfind
    have hnot := List.find?_some hfind
    simp only [List.mem_range'_1] at hmem
    refine ⟨pos, rfl, ?_, by omega⟩
    rcases Nat.eq_or_lt_of_le hmem.1 with h | h
    · rw [← h, hb] at hnot; simp at hnot
    · exact h
  · obtain ⟨r, hr1, hr2, hr3⟩ := getRangeEndLoop_total isKey e (by omega) (e + 1) lpe e
      (by omega) hl2 (le_refl _) (by omega)
    exact ⟨r, hr1, by omega, hr3⟩

theorem getRangeEnd_setCurrentKey_total (t : DistinctSortedChunkTransform) (b n : Nat)
    (hb : b < n) (hn : n + 16 < 2 ^ 64) :
    ∃ e, (t.setCurrentKey b).getRangeEnd b n = some e ∧ b < e ∧ e ≤ n :=
  getRangeEndOn_total _ b n hb hn ((setCurrentKey_isCurrentKey t b b).mpr rfl)

/-- The run loop of `transform` terminates within `chunk_rows` iterations on every
chunk, sorted or not. -/
theorem transformLoop_total (n : Nat) (hn : n + 16 < 2 ^ 64) :
    ∀ (fuel b : Nat) (t : DistinctSortedChunkTransform) (filter : Filter) (cnt : Nat),
      b ≤ n → n - b ≤ fuel → ∃ r, transformLoop n fuel t filter b b cnt = some r := by
  intro fuel
  induction fuel with
  | zero =>
    intro b t filter cnt hbn hfuel
    have hb : b = n := by omega
    subst hb
    exact ⟨_, transformLoop_done _ _ _ _ _ _⟩
  | succ f ih =>
    intro b t filter cnt hbn hfuel
    rcases Nat.eq_or_lt_of_le hbn with hb | hb
    · subst hb
      exact ⟨_, transformLoop_done _ _ _ _ _ _⟩
    · obtain ⟨e, he1, he2, he3⟩ := getRangeEnd_setCurrentKey_total t b n hb hn
      rw [transformLoop]
      simp only [ne_eq, Nat.ne_of_lt hb, not_false_eq_true, if_true, he1]
      split
      · exact ih e _ _ _ he3 (by omega)
      · exact ih e _ _ _ he3 (by omega)

theorem buildFilter_total (t : DistinctSortedChunkTransform) (n : Nat) (hn0 : 0 < n)
    (hn : n + 16 < 2 ^ 64) : ∃ r, t.buildFilter n = some r := by
  unfold buildFilter continueWithPrevRange
  by_cases hcont : (t.current_key.isEmpty || !t.isCurrentKey 0) = true
  · simp only [hcont, if_true]
    exact transformLoop_total n hn n 0 _ _ _ (Nat.zero_le _) (by omega)
  · simp only [hcont, if_false, Bool.false_eq_true]
    have hk0 : t.isCurrentKey 0 = true := by
      simp only [Bool.or_eq_true, Bool.not_eq_true', not_or, Bool.not_eq_false] at hcont
      exact hcont.2
    obtain ⟨e, he1, _, he3⟩ := getRangeEndOn_total t.isCurrentKey 0 n hn0 hn hk0
    have he1' : t.getRangeEnd 0 n = some e := he1
    simp only [he1']
    by_cases hoc : t.other_columns.isEmpty = true
    · simp only [hoc, if_true]
      exact transformLoop_total n hn n e _ _ _ he3 (by omega)
    · simp only [hoc, if_false, Bool.false_eq_true]
      exact transformLoop_total n hn n e _ _ _ he3 (by omega)

theorem sameFrame_refl (t : DistinctSortedChunkTransform) : sameFrame t t := by
  simp [sameFrame]

theorem sameFrame_trans {t u v : DistinctSortedChunkTransform} (h1 : sameFrame t u)
    (h2 : sameFrame u v) : sameFrame t v := by
  simp only [sameFrame] at *
  obtain ⟨a1, a2, a3, a4, a5, a6, a7, a8, a9, a10, a11⟩ := h1
  obtain ⟨b1, b2, b3, b4, b5, b6, b7, b8, b9, b10, b11⟩ := h2
  simp [*]

theorem ordinaryDistinctOnRange_frame (t : DistinctSortedChunkTransform) (filter : Filter)
    (b e : Nat) (clear : Bool) : sameFrame t (t.ordinaryDistinctOnRange filter b e clear).1 := by
  unfold ordinaryDistinctOnRange buildFilterForRange
  split <;> simp [sameFrame]

theorem transformLoop_frame (n : Nat) :
    ∀ (fuel : Nat) (t : DistinctSortedChunkTransform) (filter : Filter) (b e cnt : Nat)
      (r : DistinctSortedChunkTransform × Filter × Nat),
      transformLoop n fuel t filter b e cnt = some r → sameFrame t r.1 := by
  intro fuel
  induction fuel with
  | zero =>
    intro t filter b e cnt r h
    rw [transformLoop] at h
    split at h
    · simp at h
    · simp only [Option.some.injEq] at h
      rw [← h]; exact sameFrame_refl t
  | succ f ih =>
    intro t filter b e cnt r h
    rw [transformLoop] at h
    split at h
    · simp only at h
      split at h
      · simp at h
      · have hset : sameFrame t (t.setCurrentKey b) := by simp [sameFrame, setCurrentKey]
        split at h
        · exact sameFrame_trans hset (ih _ _ _ _ _ r h)
        · exact sameFrame_trans hset
            (sameFrame_trans (ordinaryDistinctOnRange_frame _ _ _ _ _) (ih _ _ _ _ _ r h))
    · simp only [Option.some.injEq] at h
      rw [← h]; exact sameFrame_refl t

theorem buildFilter_frame (t : DistinctSortedChunkTransform) (n : Nat)
    (r : DistinctSortedChunkTransform × Filter × Nat) (h : t.buildFilter n = some r) :
    sameFrame t r.1 := by
  unfold buildFilter continueWithPrevRange at h
  split at h
  · simp at h
  · rename_i r0 hr0
    have h0 : sameFrame t r0.1 := by
      split at hr0
      · simp only [Option.some.injEq] at hr0
        rw [← hr0]; exact sameFrame_refl t
      · split at hr0
        · simp at hr0
        · split at hr0
          · simp only [Option.some.injEq] at hr0
            rw [← hr0]; exact sameFrame_refl t
          · simp only [Option.some.injEq] at hr0
            rw [← hr0]; exact ordinaryDistinctOnRange_frame _ _ _ _ _
    exact sameFrame_trans h0 (transformLoop_frame n _ _ _ _ _ _ r h)

theorem checkLimits_stop (u : DistinctSortedChunkTransform) (ch : Chunk) (k : Nat)
    (h1 : (checkLimits u ch k).state.limit_hint ≠ 0)
    (h2 : (checkLimits u ch k).state.limit_hint ≤ (checkLimits u ch k).state.total_output_rows) :
    (checkLimits u ch k).outcome = Outcome.returned true ∧
    (checkLimits u ch k).state.no_more_data_needed = true := by
  obtain ⟨_, _, _, f4, f5, _⟩ := checkLimits_facts u ch k
  rw [f4.1] at h1 h2
  rw [f5] at h2
  unfold checkLimits
  simp only []
  rw [if_pos ⟨h1, h2⟩]
  exact ⟨rfl, rfl⟩

/-- One call of `transform` on any chunk: it returns, and the running total grows by the
row count of the output chunk. -/
theorem transform_total (t : DistinctSortedChunkTransform) (c : Chunk)
    (hn : c.num_rows + 16 < 2 ^ 64) (htot : t.total_output_rows < 2 ^ 64) :
    ∃ r, t.transform c = some r ∧
      r.state.total_output_rows = (t.total_output_rows + r.chunk.num_rows) % 2 ^ 64 ∧
      r.state.limit_hint = t.limit_hint ∧
      (c.num_rows ≠ 0 → r.state.limit_hint ≠ 0 →
        r.state.limit_hint ≤ r.state.total_output_rows →
        r.outcome = Outcome.returned true ∧ r.state.no_more_data_needed = true) := by
  by_cases h0 : c.num_rows = 0
  · refine ⟨⟨t, c, Outcome.returned false⟩, ?_, ?_, rfl, fun h => absurd h0 h⟩
    · simp [transform, Chunk.getNumRows, h0]
    · simp only [h0, Nat.add_zero]
      exact (Nat.mod_eq_of_lt htot).symm
  · obtain ⟨r, hr⟩ := buildFilter_total (t.initChunkProcessing c.columns) c.num_rows
      (Nat.pos_of_ne_zero h0) hn
    obtain ⟨f1, _, _, f4, f5, _⟩ := checkLimits_facts r.1
      (c.setColumns (c.columns.map (fun col => col.filter r.2.1 r.2.2)) r.2.2) r.2.2
    have hfr := buildFilter_frame (t.initChunkProcessing c.columns) c.num_rows r hr
    refine ⟨checkLimits r.1
      (c.setColumns (c.columns.map (fun col => col.filter r.2.1 r.2.2)) r.2.2) r.2.2,
      ?_, ?_, ?_, ?_⟩
    · simp only [transform, Chunk.getNumRows, h0, if_false, hr]
    · rw [f5, f1, hfr.2.2.2.2.2.2.2.2.2.1]
      rfl
    · rw [f4.1, hfr.1]; rfl
    · intro _ h1 h2
      exact checkLimits_stop _ _ _ h1 h2

theorem transformAll_total :
    ∀ (chunks : List Chunk) (t : DistinctSortedChunkTransform),
      (∀ c ∈ chunks, c.num_rows + 16 < 2 ^ 64) → t.total_output_rows < 2 ^ 64 →
      ∃ fr, transformAll t chunks = some fr ∧
        (fr.error = none →
          fr.state.total_output_rows = (t.total_output_rows + totalRows fr.outputs) % 2 ^ 64) := by
  intro chunks
  induction chunks with
  | nil =>
    intro t _ htot
    refine ⟨⟨t, [], none⟩, rfl, fun _ => ?_⟩
    simp only [totalRows, Nat.add_zero]
    exact (Nat.mod_eq_of_lt htot).symm
  | cons c cs ih =>
    intro t hchunks htot
    obtain ⟨r, hr1, hr2, _, _⟩ := transform_total t c (hchunks c (List.mem_cons_self _ _)) htot
    have hlt : r.state.total_output_rows < 2 ^ 64 := by
      rw [hr2]; exact Nat.mod_lt _ (by decide)
    obtain ⟨fr, hf1, hf2⟩ := ih r.state (fun c' hc' => hchunks c' (List.mem_cons_of_mem _ hc')) hlt
    cases hout : r.outcome with
    | threw code =>
      refine ⟨⟨r.state, [], some code⟩, ?_, fun h => ?_⟩
      · simp only [transformAll, hr1, hout]
      · simp at h
    | returned b =>
      refine ⟨⟨fr.state, r.chunk :: fr.outputs, fr.error⟩, ?_, fun h => ?_⟩
      · simp only [transformAll, hr1, hout, hf1]
      · simp only [totalRows]
        rw [hf2 h, hr2, Nat.add_mod, Nat.mod_mod, ← Nat.add_mod, Nat.add_assoc]

/-- C3 (counterexample): with `limit_hint = 1` a fresh instance given one chunk of two
distinct rows emits both: `total_output_rows` becomes 2 and exceeds `limit_hint`. -/
theorem total_output_rows_exceeds_limit_hint :
    construct sampleHeader unlimited eightBytesPerKey 1 keyAscending ["k", "v"]
      = some (sampleTransform 1) ∧
    (transformAll (sampleTransform 1) [twoColumnChunk [1, 2] [5, 5]]).map
      (fun fr => (fr.state.limit_hint, fr.state.total_output_rows, totalRows fr.outputs,
        fr.error)) = some (1, 2, 2, none) :=
  ⟨rfl, by decide⟩

/-- C3 (amended): every call of `transform` returns and adds the row count of its output
chunk to `total_output_rows` (modulo `2 ^ 64`), so the total is non-decreasing from call to
call as long as the 64-bit counter does not wrap, and after any sequence of calls that
return normally it is the sum of the row counts of all output chunks.  The total is not
capped by `limit_hint`: when a nonzero `limit_hint` has been reached after a non-empty
chunk, the call raises the stop signal. -/
theorem total_output_rows_accumulates (t : DistinctSortedChunkTransform) (c : Chunk)
    (chunks : List Chunk) (hc : c.num_rows + 16 < 2 ^ 64)
    (hchunks : ∀ c ∈ chunks, c.num_rows + 16 < 2 ^ 64)
    (htot : t.total_output_rows < 2 ^ 64) :
    (∃ r, t.transform c = some r ∧
      r.state.total_output_rows = (t.total_output_rows + r.chunk.num_rows) % 2 ^ 64 ∧
      (t.total_output_rows + r.chunk.num_rows < 2 ^ 64 →
        t.total_output_rows ≤ r.state.total_output_rows) ∧
      (c.num_rows ≠ 0 → t.limit_hint ≠ 0 → t.limit_hint ≤ r.state.total_output_rows →
        r.outcome = Outcome.returned true ∧ r.state.no_more_data_needed = true)) ∧
    (∃ fr, transformAll t chunks = some fr ∧
      (fr.error = none →
        fr.state.total_output_rows = (t.total_output_rows + totalRows fr.outputs) % 2 ^ 64)) := by
  refine ⟨?_, transformAll_total chunks t hchunks htot⟩
  obtain ⟨r, h1, h2, h3, h4⟩ := transform_total t c hc htot
  refine ⟨r, h1, h2, fun hlt => ?_, fun a b d => h4 a (by rw [h3]; exact b) (by rw [h3]; exact d)⟩
  rw [h2, Nat.mod_eq_of_lt hlt]
  exact Nat.le_add_right _ _

theorem total_output_rows_accumulates_witness :
    (∃ r, (sampleTransform 1).transform (twoColumnChunk [1, 2] [5, 5]) = some r ∧
      r.state.total_output_rows
        = ((sampleTransform 1).total_output_rows + r.chunk.num_rows) % 2 ^ 64 ∧
      ((sampleTransform 1).total_output_rows + r.chunk.num_rows < 2 ^ 64 →
        (sampleTransform 1).total_output_rows ≤ r.state.total_output_rows) ∧
      ((twoColumnChunk [1, 2] [5, 5]).num_rows ≠ 0 → (sampleTransform 1).limit_hint ≠ 0 →
        (sampleTransform 1).limit_hint ≤ r.state.total_output_rows →
        r.outcome = Outcome.returned true ∧ r.state.no_more_data_needed = true)) ∧
    (∃ fr, transformAll (sampleTransform 1) splitRun = some fr ∧
      (fr.error = none →
        fr.state.total_output_rows
          = ((sampleTransform 1).total_output_rows + totalRows fr.outputs) % 2 ^ 64)) :=
  total_output_rows_accumulates (sampleTransform 1) (twoColumnChunk [1, 2] [5, 5]) splitRun
    (by decide) (by decide) (by decide)

theorem split_chunks_same_as_single_chunk_witness :
    ∃ fr1 fr2, transformAll (sampleTransform 0) splitRun = some fr1 ∧
      transformAll (sampleTransform 0) [wholeRun] = some fr2 ∧
      (fr1.error = none → fr2.error = none → allRows fr1.outputs = allRows fr2.outputs) ∧
      (NeverThrows unlimited → fr1.error = none ∧ fr2.error = none) :=
  split_chunks_same_as_single_chunk sampleHeader unlimited eightBytesPerKey 0 keyAscending
    ["k", "v"] (sampleTransform 0) splitRun wholeRun (sample_construct 0) (by decide) (by decide)
    (by decide) (by decide) (by decide) (by decide)

theorem splitRun_first_pass :
    transformAll (sampleTransform 0) splitRun
      = some ⟨{ sampleTransform 0 with
                  sorted_columns := [⟨false, [1, 2]⟩]
                  other_columns := [⟨false, [30, 5]⟩]
                  current_key := [⟨false, [2]⟩]
                  data := ⟨false, [[5]]⟩
                  total_output_rows := 4 },
              [twoColumnChunk [1] [10], twoColumnChunk [1] [20], twoColumnChunk [1, 2] [30, 5]],
              none⟩ := by
  rfl

theorem transform_idempotent_witness :
    ∃ second, transformAll (sampleTransform 0)
        [twoColumnChunk [1] [10], twoColumnChunk [1] [20], twoColumnChunk [1, 2] [30, 5]]
          = some second ∧
      (second.error = none → second.outputs
        = [twoColumnChunk [1] [10], twoColumnChunk [1] [20], twoColumnChunk [1, 2] [30, 5]]) ∧
      (NeverThrows unlimited → second.error = none) :=
  transform_idempotent sampleHeader unlimited eightBytesPerKey 0 keyAscending
    ["k", "v"] (sampleTransform 0) splitRun _ (sample_construct 0) (by decide) (by decide)
    (by decide) (by decide) splitRun_first_pass rfl

/-- A non-empty chunk goes through lines 179-229: the call is `checkLimits` on a state
that differs from the entry state only in the per-chunk members. -/
theorem transform_nonempty (t : DistinctSortedChunkTransform) (c : Chunk)
    (hn : c.num_rows + 16 < 2 ^ 64) (h0 : c.num_rows ≠ 0) :
    ∃ u ch k, t.transform c = some (checkLimits u ch k) ∧ ch.num_rows = k ∧
      u.limit_hint = t.limit_hint ∧ u.output_size_limits = t.output_size_limits ∧
      u.total_byte_count = t.total_byte_count ∧ u.total_output_rows = t.total_output_rows ∧
      u.no_more_data_needed = t.no_more_data_needed := by
  obtain ⟨r, hr⟩ := buildFilter_total (t.initChunkProcessing c.columns) c.num_rows
    (Nat.pos_of_ne_zero h0) hn
  have hfr := buildFilter_frame (t.initChunkProcessing c.columns) c.num_rows r hr
  obtain ⟨a1, a2, a3, _, _, _, _, _, _, a10, a11⟩ := hfr
  refine ⟨r.1, c.setColumns (c.columns.map (fun col => col.filter r.2.1 r.2.2)) r.2.2, r.2.2,
    ?_, rfl, a1, a2, a3, a10, a11⟩
  simp only [transform, Chunk.getNumRows, h0, if_false, hr]

/-- How `checkLimits` ends, by the two disjuncts of line 225. -/
theorem checkLimits_outcome (u : DistinctSortedChunkTransform) (ch : Chunk) (k : Nat) :
    (limitReached (checkLimits u ch k).state = true →
      (checkLimits u ch k).outcome = Outcome.returned true ∧
      (checkLimits u ch k).state.no_more_data_needed = true) ∧
    (limitReached (checkLimits u ch k).state = false →
      (∀ v, sizeCheck (checkLimits u ch k).state = Except.ok v →
        (checkLimits u ch k).outcome = Outcome.returned (!v) ∧
        (checkLimits u ch k).state.no_more_data_needed = (u.no_more_data_needed || !v)) ∧
      (∀ code, sizeCheck (checkLimits u ch k).state = Except.error code →
        (checkLimits u ch k).outcome = Outcome.threw code ∧
        (checkLimits u ch k).state.no_more_data_needed = u.no_more_data_needed)) := by
  unfold checkLimits
  simp only []
  by_cases hl : u.limit_hint ≠ 0 ∧ (u.total_output_rows + k) % 2 ^ 64 ≥ u.limit_hint
  · rw [if_pos hl]
    refine ⟨fun _ => by simp, fun h => ?_⟩
    simp only [limitReached, decide_eq_false_iff_not] at h
    exact absurd hl h
  · rw [if_neg hl]
    cases hc : u.output_size_limits.check ((u.total_output_rows + k) % 2 ^ 64)
        (u.total_byte_count u.data) operationLabel ErrorCode.SET_SIZE_LIMIT_EXCEEDED with
    | error code =>
      simp only
      refine ⟨fun h => ?_, fun _ => ⟨fun v hv => ?_, fun code2 hv => ?_⟩⟩
      · simp only [limitReached, decide_eq_true_eq] at h
        exact absurd h hl
      · simp only [sizeCheck, hc] at hv
        cases hv
      · simp only [sizeCheck, hc] at hv
        cases hv
        simp
    | ok v =>
      cases v with
      | true =>
        simp only
        refine ⟨fun h => ?_, fun _ => ⟨fun v hv => ?_, fun code2 hv => ?_⟩⟩
        · simp only [limitReached, decide_eq_true_eq] at h
          exact absurd h hl
        · simp only [sizeCheck, hc] at hv
          cases hv
          simp
        · simp only [sizeCheck, hc] at hv
          cases hv
      | false =>
        simp only
        refine ⟨fun h => ?_, fun _ => ⟨fun v hv => ?_, fun code2 hv => ?_⟩⟩
        · simp only [limitReached, decide_eq_true_eq] at h
          exact absurd h hl
        · simp only [sizeCheck, hc] at hv
          cases hv
          simp
        · simp only [sizeCheck, hc] at hv
          cases hv

theorem transform_empty (t : DistinctSortedChunkTransform) (c : Chunk) (h0 : c.num_rows = 0) :
    t.transform c = some ⟨t, c, Outcome.returned false⟩ := by
  simp [transform, Chunk.getNumRows, h0]

/-- One call of `transform` on a non-empty chunk: it returns or raises as the two
disjuncts of line 225 say. -/
theorem transform_limits (t : DistinctSortedChunkTransform) (c : Chunk)
    (hn : c.num_rows + 16 < 2 ^ 64) (h0 : c.num_rows ≠ 0) :
    ∃ r, t.transform c = some r ∧ r.state.limit_hint = t.limit_hint ∧
      r.state.output_size_limits = t.output_size_limits ∧
      r.state.total_output_rows = (t.total_output_rows + r.chunk.num_rows) % 2 ^ 64 ∧
      (limitReached r.state = true →
        r.outcome = Outcome.returned true ∧ r.state.no_more_data_needed = true) ∧
      (limitReached r.state = false →
        (∀ v, sizeCheck r.state = Except.ok v →
          r.outcome = Outcome.returned (!v) ∧
          r.state.no_more_data_needed = (t.no_more_data_needed || !v)) ∧
        (∀ code, sizeCheck r.state = Except.error code →
          r.outcome = Outcome.threw code ∧
          r.state.no_more_data_needed = t.no_more_data_needed)) := by
  obtain ⟨u, ch, k, h1, h2, h3, h4, _, h6, h7⟩ := transform_nonempty t c hn h0
  obtain ⟨f1, _, _, f4, f5, _⟩ := checkLimits_facts u ch k
  obtain ⟨g1, g2⟩ := checkLimits_outcome u ch k
  rw [h7] at g2
  refine ⟨checkLimits u ch k, h1, ?_, ?_, ?_, g1, g2⟩
  · rw [f4.1, h3]
  · rw [f4.2.1, h4]
  · rw [f5, f1, h2, h6]

theorem transformSignals_passing :
    ∀ (chunks : List Chunk) (t : DistinctSortedChunkTransform),
      (∀ c ∈ chunks, c.num_rows ≠ 0 ∧ c.num_rows + 16 < 2 ^ 64) →
      AlwaysPasses t.output_size_limits →
      ∃ l, transformSignals t chunks = some l ∧ l.length = chunks.length ∧
        ∀ e ∈ l, e.1 = Outcome.returned (decide (t.limit_hint ≠ 0 ∧ t.limit_hint ≤ e.2)) := by
  intro chunks
  induction chunks with
  | nil => intro t _ _; exact ⟨[], rfl, rfl, fun e he => by simp at he⟩
  | cons c cs ih =>
    intro t hchunks hpass
    have hc := hchunks c (List.mem_cons_self _ _)
    obtain ⟨r, h1, h2, h3, _, h5, h6⟩ := transform_limits t c hc.2 hc.1
    have hcheck : sizeCheck r.state = Except.ok true := by
      unfold sizeCheck; rw [h3]; exact hpass _ _
    have hout : r.outcome = Outcome.returned (limitReached r.state) := by
      cases hl : limitReached r.state with
      | true => exact (h5 hl).1
      | false => simpa using ((h6 hl).1 true hcheck).1
    obtain ⟨l, hl1, hl2, hl3⟩ := ih r.state
      (fun c' hc' => hchunks c' (List.mem_cons_of_mem _ hc')) (by rw [h3]; exact hpass)
    refine ⟨(Outcome.returned (limitReached r.state), r.state.total_output_rows) :: l, ?_, ?_, ?_⟩
    · simp only [transformSignals, h1, hout, hl1]
    · simp [hl2]
    · intro e he
      simp only [List.mem_cons] at he
      rcases he with he | he
      · subst he
        simp only [limitReached, h2]
      · rw [← h2]; exact hl3 e he

/-- One call of `transform` never lowers the stop signal, and raises it whenever it
leaves a nonzero `limit_hint` reached. -/
theorem transform_stop_raised (t : DistinctSortedChunkTransform) (c : Chunk)
    (hn : c.num_rows + 16 < 2 ^ 64) :
    ∃ r, t.transform c = some r ∧ r.state.limit_hint = t.limit_hint ∧
      (t.no_more_data_needed = true → r.state.no_more_data_needed = true) ∧
      (StopRaised t → StopRaised r.state) := by
  by_cases h0 : c.num_rows = 0
  · exact ⟨_, transform_empty t c h0, rfl, fun h => h, fun h => h⟩
  · obtain ⟨r, h1, h2, _, _, h5, h6⟩ := transform_limits t c hn h0
    refine ⟨r, h1, h2, fun ht => ?_, fun _ hl => (h5 hl).2⟩
    cases hl : limitReached r.state with
    | true => exact (h5 hl).2
    | false =>
      cases hc : sizeCheck r.state with
      | error code => rw [((h6 hl).2 code hc).2]; exact ht
      | ok v => rw [((h6 hl).1 v hc).2, ht]; rfl

theorem transformAll_stop_raised :
    ∀ (chunks : List Chunk) (t : DistinctSortedChunkTransform),
      (∀ c ∈ chunks, c.num_rows + 16 < 2 ^ 64) →
      ∃ fr, transformAll t chunks = some fr ∧ fr.state.limit_hint = t.limit_hint ∧
        (t.no_more_data_needed = true → fr.state.no_more_data_needed = true) ∧
        (StopRaised t → StopRaised fr.state) := by
  intro chunks
  induction chunks with
  | nil => intro t _; exact ⟨⟨t, [], none⟩, rfl, rfl, fun h => h, fun h => h⟩
  | cons c cs ih =>
    intro t hchunks
    obtain ⟨r, h1, h2, h3, h4⟩ := transform_stop_raised t c (hchunks c (List.mem_cons_self _ _))
    obtain ⟨fr, g1, g2, g3, g4⟩ := ih r.state (fun c' hc' => hchunks c' (List.mem_cons_of_mem _ hc'))
    cases hout : r.outcome with
    | threw code =>
      refine ⟨⟨r.state, [], some code⟩, ?_, h2, h3, h4⟩
      simp only [transformAll, h1, hout]
    | returned b =>
      refine ⟨⟨fr.state, r.chunk :: fr.outputs, fr.error⟩, ?_, g2.trans h2,
        fun h => g3 (h3 h), fun h => g4 (h4 h)⟩
      simp only [transformAll, h1, hout, g1]

theorem referenceDistinct_single_key (spos opos : List Nat) (k : List Int) :
    ∀ (rows : List (List Int)) (seen : List (List Int)),
      (∀ row ∈ rows, rowKey spos row = k) →
      referenceDistinct (fun row => (rowKey spos row, rowKey opos row))
          (seen.map (fun o => (k, o))) rows
        = referenceDistinct (rowKey opos) seen rows := by
  intro rows
  induction rows with
  | nil => intro seen _; rfl
  | cons r rs ih =>
    intro seen h
    have hr := h r (List.mem_cons_self _ _)
    have hrs : ∀ row ∈ rs, rowKey spos row = k := fun row hrow => h row (List.mem_cons_of_mem _ hrow)
    have hmem : (rowKey spos r, rowKey opos r) ∈ seen.map (fun o => (k, o))
        ↔ rowKey opos r ∈ seen := by
      rw [hr]
      simp
    simp only [referenceDistinct]
    by_cases hin : rowKey opos r ∈ seen
    · rw [if_pos (hmem.mpr hin), if_pos hin]
      exact ih seen hrs
    · rw [if_neg (fun h => hin (hmem.mp h)), if_neg hin]
      have := ih (rowKey opos r :: seen) hrs
      simp only [List.map_cons] at this
      rw [hr, this]

theorem referenceDistinct_length {α : Type} [DecidableEq α] (tuple : List Int → α) :
    ∀ (rows : List (List Int)) (seen : List α),
      (referenceDistinct tuple seen rows).length
        = ((rows.map tuple).toFinset \ seen.toFinset).card := by
  intro rows
  induction rows with
  | nil => intro seen; simp [referenceDistinct]
  | cons r rs ih =>
    intro seen
    simp only [referenceDistinct, List.map_cons, List.toFinset_cons]
    by_cases hin : tuple r ∈ seen
    · rw [if_pos hin, ih seen]
      congr 1
      ext x
      simp only [Finset.mem_sdiff, Finset.mem_insert, List.mem_toFinset]
      constructor
      · rintro ⟨h1, h2⟩; exact ⟨Or.inr h1, h2⟩
      · rintro ⟨h1 | h1, h2⟩
        · subst h1; exact absurd hin h2
        · exact ⟨h1, h2⟩
    · rw [if_neg hin, List.length_cons, ih (tuple r :: seen)]
      have hsplit : insert (tuple r) (rs.map tuple).toFinset \ seen.toFinset
          = insert (tuple r) ((rs.map tuple).toFinset \ (tuple r :: seen).toFinset) := by
        ext x
        simp only [Finset.mem_sdiff, Finset.mem_insert, List.mem_toFinset, List.toFinset_cons,
          not_or]
        constructor
        · rintro ⟨h1 | h1, h2⟩
          · exact Or.inl h1
          · by_cases hx : x = tuple r
            · exact Or.inl hx
            · exact Or.inr ⟨h1, hx, h2⟩
        · rintro (h1 | ⟨h1, _, h3⟩)
          · subst h1; exact ⟨Or.inl rfl, hin⟩
          · exact ⟨Or.inr h1, h3⟩
      rw [hsplit, Finset.card_insert_of_not_mem]
      simp

/-- C11: for every (well-formed) chunk whose rows all share one key value `k`, given to a
fresh instance with at least one key column and at least one other column, `transform`
returns, and the output chunk holds exactly the rows at the first occurrence of each
distinct other-column tuple, in input order; their number is the number `K` of distinct
other-column tuples of the chunk, and `K` is at most the row count `L`. -/
theorem single_run_first_occurrences (header : Block) (limits : SizeLimits)
    (byte_count : ClearableSetVariants → Nat) (limit_hint : Nat)
    (descr : List SortColumnDescription) (source_columns : List String)
    (t : DistinctSortedChunkTransform) (c : Chunk) (k : List Int)
    (hfresh : construct header limits byte_count limit_hint descr source_columns = some t)
    (hdescr : descr ≠ []) (hother : t.other_columns_pos ≠ [])
    (hwf : c.WellFormed) (hn : c.num_rows + 16 < 2 ^ 64) (hL : 1 ≤ c.num_rows)
    (hkey : ∀ row ∈ c.rows, rowKey t.sorted_columns_pos row = k) :
    ∃ r, t.transform c = some r ∧
      r.chunk.rows = referenceDistinct (rowKey t.other_columns_pos) [] c.rows ∧
      r.chunk.num_rows = ((c.rows.map (rowKey t.other_columns_pos)).toFinset).card ∧
      r.chunk.rows.length = r.chunk.num_rows ∧
      1 ≤ r.chunk.num_rows ∧ r.chunk.num_rows ≤ c.num_rows ∧
      r.state.total_output_rows = r.chunk.num_rows ∧
      (NeverThrows limits → ∃ b, r.outcome = Outcome.returned b) := by
  obtain ⟨_, f2, f3, f4, f5, f6, _, _⟩ := construct_fresh _ _ _ _ _ _ _ hfresh
  have hpos : t.sorted_columns_pos ≠ [] := by
    intro h
    rw [h] at f2
    exact hdescr (List.length_eq_zero.mp f2.symm)
  have hcarried : carriedKey t = none := carriedKey_of_empty t f3
  have hu : (!t.other_columns_pos.isEmpty) = true := by
    cases ho : t.other_columns_pos with
    | nil => exact absurd ho hother
    | cons a l => rfl
  have hpw : List.Pairwise Eq (c.rows.map (rowKey t.sorted_columns_pos)) := by
    apply List.pairwise_of_forall_mem_list
    intro a ha b hb
    obtain ⟨ra, hra, rfl⟩ := List.mem_map.mp ha
    obtain ⟨rb, hrb, rfl⟩ := List.mem_map.mp hb
    rw [hkey ra hra, hkey rb hrb]
  obtain ⟨r, h1, h2, _, _, _, _, h7, h8⟩ := transform_spec t c hpos (Or.inl f3) hwf hn Eq
    (fun a b h _ => h) (by rw [hcarried]; simpa using hpw)
  rw [hcarried, f4, hu] at h2 h7
  have hmask : (scanMask true none [] (c.rows.map (rowTuple t))).1
      = referenceMask [] (c.rows.map (rowTuple t)) := by
    apply scanMask_eq_referenceMask true Eq (fun a b h _ => h)
    · intro h; cases h
    · simpa [List.map_map, Function.comp_def, rowTuple] using hpw
    · intro k hk; simp at hk
    · intro k hk; simp at hk
    · intro q hq; simp at hq
  have hlen : (referenceMask [] (c.rows.map (rowTuple t))).length = c.num_rows := by
    rw [← hmask, scanMask_length, List.length_map, rows_length]
  have hrows : r.chunk.rows = referenceDistinct (rowKey t.other_columns_pos) [] c.rows := by
    rw [h2, hmask, rows_applyFilter c _ hwf hlen, ← referenceDistinct_eq_mask]
    exact referenceDistinct_single_key t.sorted_columns_pos t.other_columns_pos k c.rows [] hkey
  have hnum : r.chunk.rows.length = r.chunk.num_rows := rows_length r.chunk
  have hcard : r.chunk.num_rows = ((c.rows.map (rowKey t.other_columns_pos)).toFinset).card := by
    rw [← hnum, hrows, referenceDistinct_length]
    simp
  have hle : r.chunk.num_rows ≤ c.num_rows := by
    rw [hcard]
    calc ((c.rows.map (rowKey t.other_columns_pos)).toFinset).card
        ≤ (c.rows.map (rowKey t.other_columns_pos)).length := List.toFinset_card_le _
      _ = c.num_rows := by rw [List.length_map, rows_length]
  have hpos1 : 1 ≤ r.chunk.num_rows := by
    rw [hcard]
    have hne : c.rows ≠ [] := by
      intro h
      have := rows_length c
      rw [h] at this
      simp at this
      omega
    cases hrs : c.rows with
    | nil => exact absurd hrs hne
    | cons a l =>
      simp only [List.map_cons, List.toFinset_cons]
      exact Finset.card_pos.mpr ⟨_, Finset.mem_insert_self _ _⟩
  refine ⟨r, h1, hrows, hcard, hnum, hpos1, hle, ?_, fun hnt => h8 (by rw [f6]; exact hnt)⟩
  have htot := h7 (by rw [f5]; decide)
  rw [f5, Nat.zero_add, hmask] at htot
  have hcount : (referenceMask [] (c.rows.map (rowTuple t))).count true = r.chunk.num_rows := by
    rw [h2, hmask]; rfl
  rw [htot, hcount]
  exact Nat.mod_eq_of_lt (by omega)

theorem single_run_first_occurrences_witness :
    ∃ r, (sampleTransform 0).transform (twoColumnChunk [1, 1, 1, 1] [10, 20, 10, 30]) = some r ∧
      r.chunk.rows = referenceDistinct (rowKey (sampleTransform 0).other_columns_pos) []
        (twoColumnChunk [1, 1, 1, 1] [10, 20, 10, 30]).rows ∧
      r.chunk.num_rows = (((twoColumnChunk [1, 1, 1, 1] [10, 20, 10, 30]).rows.map
        (rowKey (sampleTransform 0).other_columns_pos)).toFinset).card ∧
      r.chunk.rows.length = r.chunk.num_rows ∧
      1 ≤ r.chunk.num_rows ∧
      r.chunk.num_rows ≤ (twoColumnChunk [1, 1, 1, 1] [10, 20, 10, 30]).num_rows ∧
      r.state.total_output_rows = r.chunk.num_rows ∧
      (NeverThrows unlimited → ∃ b, r.outcome = Outcome.returned b) :=
  single_run_first_occurrences sampleHeader unlimited eightBytesPerKey 0 keyAscending
    ["k", "v"] (sampleTransform 0) (twoColumnChunk [1, 1, 1, 1] [10, 20, 10, 30]) [1]
    (sample_construct 0) (by decide) (by decide) (by decide) (by decide) (by decide) (by decide)

/-- C12 (counterexample): with `limit_hint = 1`, after the first chunk the total has
reached `limit_hint` and the stop signal is raised; a second chunk of two new rows is
still emitted in full: the sequence yields output chunks of 1 and 2 rows and the total
becomes 3. -/
theorem rows_emitted_after_limit_hint_reached :
    (transformAll (sampleWith unlimited eightBytesPerKey 1) [twoColumnChunk [1] [10]]).map
      (fun fr => (fr.state.limit_hint, fr.state.total_output_rows,
        fr.state.no_more_data_needed)) = some (1, 1, true) ∧
    (transformAll (sampleWith unlimited eightBytesPerKey 1)
        [twoColumnChunk [1] [10], twoColumnChunk [2, 3] [20, 30]]).map
      (fun fr => (fr.outputs.map (fun ch => ch.num_rows), fr.outputs.map (fun ch => ch.rows),
        fr.state.total_output_rows)) = some ([1, 2], [[[1, 10]], [[2, 20], [3, 30]]], 3) := by
  decide

/-- C12 (amended): in every state reached from a fresh instance, once `total_output_rows`
has reached a nonzero `limit_hint` the stop signal has been raised (`no_more_data_needed`
is set), and every later `transform` call, whatever chunk is supplied, returns and leaves
it set; `transform` itself does not suppress later rows: each call still adds the row
count of its output chunk to the total. -/
theorem stop_signal_stays_raised (t : DistinctSortedChunkTransform) (c : Chunk)
    (chunks : List Chunk) (hn : c.num_rows + 16 < 2 ^ 64)
    (hchunks : ∀ c ∈ chunks, c.num_rows + 16 < 2 ^ 64)
    (hinv : StopRaised t) (htot : t.total_output_rows < 2 ^ 64) :
    (∀ header limits byte_count limit_hint descr source_columns u,
      construct header limits byte_count limit_hint descr source_columns = some u →
      StopRaised u) ∧
    (∃ r, t.transform c = some r ∧ StopRaised r.state ∧
      (t.no_more_data_needed = true → r.state.no_more_data_needed = true) ∧
      r.state.limit_hint = t.limit_hint ∧
      r.state.total_output_rows = (t.total_output_rows + r.chunk.num_rows) % 2 ^ 64) ∧
    (∃ fr, transformAll t chunks = some fr ∧ StopRaised fr.state ∧
      (t.no_more_data_needed = true → fr.state.no_more_data_needed = true) ∧
      fr.state.limit_hint = t.limit_hint) := by
  refine ⟨?_, ?_, ?_⟩
  · intro header limits byte_count limit_hint descr source_columns u hu
    obtain ⟨_, _, _, _, f5, _, _, _⟩ := construct_fresh _ _ _ _ _ _ _ hu
    intro hl
    simp only [limitReached, f5, decide_eq_true_eq] at hl
    omega
  · obtain ⟨r, h1, h2, h3, h4⟩ := transform_stop_raised t c hn
    obtain ⟨r2, g1, g2, _, _⟩ := transform_total t c hn htot
    rw [h1] at g1
    cases g1
    exact ⟨r, h1, h4 hinv, h3, h2, g2⟩
  · obtain ⟨fr, h1, h2, h3, h4⟩ := transformAll_stop_raised chunks t hchunks
    exact ⟨fr, h1, h4 hinv, h3, h2⟩

theorem stop_signal_stays_raised_witness :
    StopRaised (sampleWith unlimited eightBytesPerKey 1) ∧
    (∀ header limits byte_count limit_hint descr source_columns u,
      construct header limits byte_count limit_hint descr source_columns = some u →
      StopRaised u) ∧
    (∃ r, (sampleWith unlimited eightBytesPerKey 1).transform (twoColumnChunk [1] [10]) = some r ∧
      StopRaised r.state ∧
      ((sampleWith unlimited eightBytesPerKey 1).no_more_data_needed = true →
        r.state.no_more_data_needed = true) ∧
      r.state.limit_hint = (sampleWith unlimited eightBytesPerKey 1).limit_hint ∧
      r.state.total_output_rows
        = ((sampleWith unlimited eightBytesPerKey 1).total_output_rows + r.chunk.num_rows)
            % 2 ^ 64) ∧
    (∃ fr, transformAll (sampleWith unlimited eightBytesPerKey 1)
        [twoColumnChunk [1] [10], twoColumnChunk [2, 3] [20, 30]] = some fr ∧
      StopRaised fr.state ∧
      ((sampleWith unlimited eightBytesPerKey 1).no_more_data_needed = true →
        fr.state.no_more_data_needed = true) ∧
      fr.state.limit_hint = (sampleWith unlimited eightBytesPerKey 1).limit_hint) :=
  ⟨by decide,
    stop_signal_stays_raised (sampleWith unlimited eightBytesPerKey 1) (twoColumnChunk [1] [10])
      [twoColumnChunk [1] [10], twoColumnChunk [2, 3] [20, 30]] (by decide) (by decide)
      (by decide) (by decide)⟩

/-- C13: for every non-empty chunk for which the size-limit check passes (returns true on
the total and byte count after the chunk), `transform` returns, and it invokes
`stopReading` if and only if `limit_hint` is nonzero and the cumulative total after this
chunk is at least `limit_hint`; with `limit_hint = 0` it never does.  Over a sequence of
calls on non-empty chunks with limits that always pass, the signal of every call is
exactly "the total after the call has reached a nonzero `limit_hint`", so it is first
raised in the call in which the total crosses `limit_hint` and in no earlier call. -/
theorem stop_signal_iff_limit_reached (t : DistinctSortedChunkTransform) (c : Chunk)
    (chunks : List Chunk) (hn : c.num_rows + 16 < 2 ^ 64) (h0 : c.num_rows ≠ 0)
    (hchunks : ∀ c ∈ chunks, c.num_rows ≠ 0 ∧ c.num_rows + 16 < 2 ^ 64) :
    (∃ r, t.transform c = some r ∧
      (sizeCheck r.state = Except.ok true →
        (r.outcome = Outcome.returned true ∨ r.outcome = Outcome.returned false) ∧
        (r.outcome = Outcome.returned true ↔
          (t.limit_hint ≠ 0 ∧ t.limit_hint ≤ r.state.total_output_rows)) ∧
        (r.state.no_more_data_needed = true ↔
          (t.no_more_data_needed = true ∨
            (t.limit_hint ≠ 0 ∧ t.limit_hint ≤ r.state.total_output_rows))) ∧
        (t.limit_hint = 0 → r.outcome = Outcome.returned false))) ∧
    (AlwaysPasses t.output_size_limits →
      ∃ l, transformSignals t chunks = some l ∧ l.length = chunks.length ∧
        ∀ e ∈ l, e.1 = Outcome.returned (decide (t.limit_hint ≠ 0 ∧ t.limit_hint ≤ e.2))) := by
  refine ⟨?_, transformSignals_passing chunks t hchunks⟩
  obtain ⟨r, h1, h2, _, _, h5, h6⟩ := transform_limits t c hn h0
  refine ⟨r, h1, fun hcheck => ?_⟩
  cases hl : limitReached r.state with
  | true =>
    obtain ⟨a, b⟩ := h5 hl
    have hl2 : t.limit_hint ≠ 0 ∧ t.limit_hint ≤ r.state.total_output_rows := by
      simpa [limitReached, h2] using hl
    refine ⟨Or.inl a, ⟨fun _ => hl2, fun _ => a⟩, ⟨fun _ => Or.inr hl2, fun _ => b⟩,
      fun hz => absurd hz hl2.1⟩
  | false =>
    obtain ⟨a, b⟩ := (h6 hl).1 true hcheck
    have hl2 : ¬ (t.limit_hint ≠ 0 ∧ t.limit_hint ≤ r.state.total_output_rows) := by
      simpa [limitReached, h2] using hl
    simp only [Bool.not_true, Bool.or_false] at a b
    refine ⟨Or.inr a, ⟨fun h => ?_, fun h => absurd h hl2⟩, ⟨fun h => Or.inl (b ▸ h), fun h => ?_⟩,
      fun _ => a⟩
    · rw [a] at h; cases h
    · rcases h with h | h
      · rw [b]; exact h
      · exact absurd h hl2

theorem stop_signal_iff_limit_reached_witness :
    (∃ r, (sampleWith unlimited eightBytesPerKey 2).transform (twoColumnChunk [1, 2] [5, 5])
        = some r ∧
      (sizeCheck r.state = Except.ok true →
        (r.outcome = Outcome.returned true ∨ r.outcome = Outcome.returned false) ∧
        (r.outcome = Outcome.returned true ↔
          ((sampleWith unlimited eightBytesPerKey 2).limit_hint ≠ 0 ∧
            (sampleWith unlimited eightBytesPerKey 2).limit_hint ≤ r.state.total_output_rows)) ∧
        (r.state.no_more_data_needed = true ↔
          ((sampleWith unlimited eightBytesPerKey 2).no_more_data_needed = true ∨
            ((sampleWith unlimited eightBytesPerKey 2).limit_hint ≠ 0 ∧
              (sampleWith unlimited eightBytesPerKey 2).limit_hint
                ≤ r.state.total_output_rows))) ∧
        ((sampleWith unlimited eightBytesPerKey 2).limit_hint = 0 →
          r.outcome = Outcome.returned false))) ∧
    (AlwaysPasses (sampleWith unlimited eightBytesPerKey 2).output_size_limits →
      ∃ l, transformSignals (sampleWith unlimited eightBytesPerKey 2) splitRun = some l ∧
        l.length = splitRun.length ∧
        ∀ e ∈ l, e.1 = Outcome.returned
          (decide ((sampleWith unlimited eightBytesPerKey 2).limit_hint ≠ 0 ∧
            (sampleWith unlimited eightBytesPerKey 2).limit_hint ≤ e.2))) :=
  stop_signal_iff_limit_reached (sampleWith unlimited eightBytesPerKey 2)
    (twoColumnChunk [1, 2] [5, 5]) splitRun (by decide) (by decide) (by decide)

/-- C14 (counterexample): with limits in break mode (`check` returns false above one row)
a chunk of two distinct rows brings the total to 2; the check reports false, and the call
raises the stop signal and returns normally, with `limit_hint` zero as well as with
`limit_hint = 1` reached.  With limits in throwing mode and `limit_hint = 1` reached,
the collaborator is not consulted and the call returns normally too. -/
theorem size_check_false_returns_normally :
    ((sampleWith (breakAbove 1) eightBytesPerKey 0).transform (twoColumnChunk [1, 2] [5, 5])).map
      (fun r => (r.state.total_output_rows, limitReached r.state, (sizeCheck r.state).toOption,
        r.outcome, r.state.no_more_data_needed))
      = some (2, false, some false, Outcome.returned true, true) ∧
    ((sampleWith (breakAbove 1) eightBytesPerKey 1).transform (twoColumnChunk [1, 2] [5, 5])).map
      (fun r => (r.state.total_output_rows, limitReached r.state, (sizeCheck r.state).toOption,
        r.outcome, r.state.no_more_data_needed))
      = some (2, true, some false, Outcome.returned true, true) ∧
    ((sampleWith (throwAbove 1) eightBytesPerKey 1).transform (twoColumnChunk [1, 2] [5, 5])).map
      (fun r => (r.state.total_output_rows, limitReached r.state, (sizeCheck r.state).toOption,
        r.outcome, r.state.no_more_data_needed))
      = some (2, true, none, Outcome.returned true, true) :=
  ⟨rfl, rfl, rfl⟩

/-- C14 (amended): after a `transform` call on a non-empty chunk has updated
`total_output_rows`: if a nonzero `limit_hint` has been reached the call raises the stop
signal and returns normally, without consulting the size-limit collaborator; otherwise,
if `check(total_output_rows, byte count, "DISTINCT", SET_SIZE_LIMIT_EXCEEDED)` returns
false the call raises the stop signal and returns normally, if it returns true the call
returns without the signal, and the call ends in an error exactly when the collaborator
itself raises one (the `SET_SIZE_LIMIT_EXCEEDED` code it was handed, in its throwing
mode).  Reaching `limit_hint` alone never raises an error. -/
theorem size_budget_outcome (t : DistinctSortedChunkTransform) (c : Chunk)
    (hn : c.num_rows + 16 < 2 ^ 64) (h0 : c.num_rows ≠ 0) :
    ∃ r, t.transform c = some r ∧
      (limitReached r.state = true →
        r.outcome = Outcome.returned true ∧ r.state.no_more_data_needed = true) ∧
      (limitReached r.state = false →
        (sizeCheck r.state = Except.ok false →
          r.outcome = Outcome.returned true ∧ r.state.no_more_data_needed = true) ∧
        (sizeCheck r.state = Except.ok true → r.outcome = Outcome.returned false) ∧
        (∀ code, sizeCheck r.state = Except.error code → r.outcome = Outcome.threw code)) ∧
      (∀ code, r.outcome = Outcome.threw code →
        limitReached r.state = false ∧ sizeCheck r.state = Except.error code) := by
  obtain ⟨r, h1, _, _, _, h5, h6⟩ := transform_limits t c hn h0
  refine ⟨r, h1, h5, fun hl => ⟨fun hc => ?_, fun hc => ?_, fun code hc => ?_⟩, fun code hc => ?_⟩
  · have := (h6 hl).1 false hc
    simpa using this
  · have := ((h6 hl).1 true hc).1
    simpa using this
  · exact ((h6 hl).2 code hc).1
  · cases hl : limitReached r.state with
    | true =>
      rw [(h5 hl).1] at hc
      cases hc
    | false =>
      refine ⟨rfl, ?_⟩
      cases hs : sizeCheck r.state with
      | error code2 =>
        rw [((h6 hl).2 code2 hs).1] at hc
        cases hc
        rfl
      | ok v =>
        rw [((h6 hl).1 v hs).1] at hc
        cases hc

theorem size_budget_outcome_witness :
    ∃ r, (sampleWith (breakAbove 1) eightBytesPerKey 0).transform (twoColumnChunk [1, 2] [5, 5])
        = some r ∧
      (limitReached r.state = true →
        r.outcome = Outcome.returned true ∧ r.state.no_more_data_needed = true) ∧
      (limitReached r.state = false →
        (sizeCheck r.state = Except.ok false →
          r.outcome = Outcome.returned true ∧ r.state.no_more_data_needed = true) ∧
        (sizeCheck r.state = Except.ok true → r.outcome = Outcome.returned false) ∧
        (∀ code, sizeCheck r.state = Except.error code → r.outcome = Outcome.threw code)) ∧
      (∀ code, r.outcome = Outcome.threw code →
        limitReached r.state = false ∧ sizeCheck r.state = Except.error code) :=
  size_budget_outcome (sampleWith (breakAbove 1) eightBytesPerKey 0)
    (twoColumnChunk [1, 2] [5, 5]) (by decide) (by decide)

/-- C20: with key column `k` (ascending) and one other column `v`, the fresh instance
(whatever its size limits, byte count and `limit_hint`) given the single chunk
`(k, v) = (1,10),(1,10),(1,20),(2,5)` builds the filter `[1,0,1,1]` with `output_rows = 3`,
the output chunk is `(1,10),(1,20),(2,5)` with 3 rows, and `total_output_rows` becomes 3;
with limits that are never exceeded and no `limit_hint` the call returns without the stop
signal. -/
theorem transform_concrete_scenario (limits : SizeLimits)
    (byte_count : ClearableSetVariants → Nat) (limit_hint : Nat) :
    construct sampleHeader limits byte_count limit_hint keyAscending ["k", "v"]
      = some (sampleWith limits byte_count limit_hint) ∧
    (((sampleWith limits byte_count limit_hint).initChunkProcessing
        (twoColumnChunk [1, 1, 1, 2] [10, 10, 20, 5]).columns).buildFilter 4).map
      (fun r => (r.2.1, r.2.2)) = some ([some true, some false, some true, some true], 3) ∧
    ((sampleWith limits byte_count limit_hint).transform
        (twoColumnChunk [1, 1, 1, 2] [10, 10, 20, 5])).map
      (fun r => (r.chunk, r.chunk.rows, r.state.total_output_rows))
      = some (twoColumnChunk [1, 1, 2] [10, 20, 5], [[1, 10], [1, 20], [2, 5]], 3) ∧
    ((sampleWith unlimited eightBytesPerKey 0).transform
        (twoColumnChunk [1, 1, 1, 2] [10, 10, 20, 5])).map
      (fun r => (r.outcome, r.state.no_more_data_needed))
      = some (Outcome.returned false, false) := by
  refine ⟨rfl, rfl, ?_, by decide⟩
  have h : ∃ u, (sampleWith limits byte_count limit_hint).transform
      (twoColumnChunk [1, 1, 1, 2] [10, 10, 20, 5])
        = some (checkLimits u (twoColumnChunk [1, 1, 2] [10, 20, 5]) 3) ∧
      u.total_output_rows = 0 := ⟨_, rfl, rfl⟩
  obtain ⟨u, hu, h0⟩ := h
  obtain ⟨f1, _, _, _, f5, _⟩ := checkLimits_facts u (twoColumnChunk [1, 1, 2] [10, 20, 5]) 3
  rw [hu]
  simp only [Option.map_some', f1, f5, h0]
  rfl

theorem stoppedSample_reached :
    (sampleWith (throwAbove 0) eightBytesPerKey 1).transform (twoColumnChunk [1] [10])
      = some ⟨stoppedSample, twoColumnChunk [1] [10], Outcome.returned true⟩ := rfl

/-- C21: a chunk with zero rows is a no-op in every state of the transform (also one in
which `limit_hint` has been reached, and whatever the size limits would answer): the call
returns at once with the chunk and the whole state (`current_key`, the dedup set,
`total_output_rows`, the stop flag) unchanged; it neither raises nor signals a stop, and
the size limits are not consulted. -/
theorem transform_empty_chunk_noop (t : DistinctSortedChunkTransform) (c : Chunk)
    (h0 : c.num_rows = 0) :
    t.transform c = some ⟨t, c, Outcome.returned false⟩ ∧
    ∃ r, t.transform c = some r ∧ r.chunk = c ∧ r.state.current_key = t.current_key ∧
      r.state.data = t.data ∧ r.state.total_output_rows = t.total_output_rows ∧
      r.state.no_more_data_needed = t.no_more_data_needed ∧
      r.outcome = Outcome.returned false :=
  ⟨transform_empty t c h0,
    ⟨t, c, Outcome.returned false⟩, transform_empty t c h0, rfl, rfl, rfl, rfl, rfl, rfl⟩

theorem transform_empty_chunk_noop_witness :
    limitReached stoppedSample = true ∧
    sizeCheck stoppedSample = Except.error ErrorCode.SET_SIZE_LIMIT_EXCEEDED ∧
    stoppedSample.transform (twoColumnChunk [] [])
      = some ⟨stoppedSample, twoColumnChunk [] [], Outcome.returned false⟩ ∧
    ∃ r, stoppedSample.transform (twoColumnChunk [] []) = some r ∧
      r.chunk = twoColumnChunk [] [] ∧ r.state.current_key = stoppedSample.current_key ∧
      r.state.data = stoppedSample.data ∧
      r.state.total_output_rows = stoppedSample.total_output_rows ∧
      r.state.no_more_data_needed = stoppedSample.no_more_data_needed ∧
      r.outcome = Outcome.returned false :=
  ⟨rfl, rfl, transform_empty_chunk_noop stoppedSample (twoColumnChunk [] []) rfl⟩

theorem linearRangeEnd_all (isKey : Nat → Bool) (k b : Nat)
    (h : ∀ i, b ≤ i → i < b + k → isKey i = true) : linearRangeEnd isKey k b = b + k := by
  have hb := linearRangeEnd_bounds isKey k b
  by_contra hne
  have hlt : linearRangeEnd isKey k b < b + k := by omega
  have h1 := linearRangeEnd_at isKey k b hlt
  rw [h _ hb.1 hlt] at h1
  cases h1

theorem maskFilter_all_false {α : Type} :
    ∀ (n : Nat) (l : List α), maskFilter (List.replicate n (some false)) l = [] := by
  intro n
  induction n with
  | zero => intro l; cases l <;> rfl
  | succ n ih =>
    intro l
    cases l with
    | nil => rfl
    | cons x xs => simp only [List.replicate_succ, maskFilter]; exact ih xs

/-- C22: with no other columns, for every non-empty chunk all of whose rows have the key
carried in `current_key` from the previous chunk, `transform` returns an output chunk of
zero rows (every column is empty), and leaves `total_output_rows`, `current_key` and the
dedup set (its variant and its contents) as they were. -/
theorem carried_run_without_other_columns (t : DistinctSortedChunkTransform) (c : Chunk)
    (k : List Int) (hoth : t.other_columns_pos = []) (hck : t.current_key ≠ [])
    (hlen : t.current_key.length = t.sorted_columns_pos.length)
    (hcarried : carriedKey t = some k)
    (hkey : ∀ row ∈ c.rows, rowKey t.sorted_columns_pos row = k)
    (h0 : c.num_rows ≠ 0) (hn : c.num_rows + 16 < 2 ^ 64)
    (htot : t.total_output_rows < 2 ^ 64) :
    ∃ r, t.transform c = some r ∧ r.chunk.num_rows = 0 ∧ r.chunk.rows = [] ∧
      (∀ col ∈ r.chunk.columns, col.data = []) ∧
      r.state.total_output_rows = t.total_output_rows ∧
      r.state.current_key = t.current_key ∧ r.state.data = t.data := by
  have hoc : (t.initChunkProcessing c.columns).other_columns = [] := by
    simp [initChunkProcessing, hoth]
  have hdata : (t.initChunkProcessing c.columns).data = t.data := by
    simp [initChunkProcessing, hoth]
  have hcur : (t.initChunkProcessing c.columns).current_key = t.current_key := rfl
  have hkmap : t.current_key.map (fun c => c.data.getD 0 0) = k := by
    rw [carriedKey_of_nonempty t hck] at hcarried
    exact Option.some.inj hcarried
  have hiskey : ∀ i, i < c.num_rows → (t.initChunkProcessing c.columns).isCurrentKey i = true := by
    intro i hi
    rw [isCurrentKey_iff _ i (by rw [hcur, hlen]; simp [initChunkProcessing]), hcur, hkmap]
    have hrow : c.row i ∈ c.rows := by
      simp only [Chunk.rows, List.mem_map, List.mem_range]
      exact ⟨i, hi, rfl⟩
    have := hkey _ hrow
    rw [← this]
    exact (rowKeyAt_init c.columns t.sorted_columns_pos i).symm
  have hrange : (t.initChunkProcessing c.columns).getRangeEnd 0 c.num_rows = some c.num_rows := by
    have := getRangeEndOn_eq_linear (t.initChunkProcessing c.columns).isCurrentKey 0 c.num_rows
      (Nat.pos_of_ne_zero h0) hn (fun i j _ hij hj _ => hiskey i (by omega))
    rw [linearRangeEnd_all _ _ _ (fun i _ hi => hiskey i (by omega))] at this
    simpa [getRangeEnd] using this
  have hfill : fillFilter (List.replicate c.num_rows none) 0 c.num_rows false
      = List.replicate c.num_rows (some false) := by
    have := fillFilter_spec false c.num_rows [] (List.replicate c.num_rows none) [] (by simp)
    simpa using this
  have hbuild : (t.initChunkProcessing c.columns).buildFilter c.num_rows
      = some (t.initChunkProcessing c.columns, List.replicate c.num_rows (some false), 0) := by
    have hnot : ((t.initChunkProcessing c.columns).current_key.isEmpty
        || !(t.initChunkProcessing c.columns).isCurrentKey 0) = false := by
      rw [hiskey 0 (Nat.pos_of_ne_zero h0), hcur]
      cases hk : t.current_key with
      | nil => exact absurd hk hck
      | cons a l => rfl
    simp only [buildFilter, continueWithPrevRange, hnot, Bool.false_eq_true, if_false, hrange,
      hoc, List.isEmpty_nil, if_true, hfill, transformLoop_done]
  obtain ⟨f1, f2, f3, _, f5, _⟩ := checkLimits_facts (t.initChunkProcessing c.columns)
    (c.setColumns (c.columns.map
      (fun col => col.filter (List.replicate c.num_rows (some false)) 0)) 0) 0
  refine ⟨checkLimits (t.initChunkProcessing c.columns)
    (c.setColumns (c.columns.map
      (fun col => col.filter (List.replicate c.num_rows (some false)) 0)) 0) 0,
    by simp only [transform, Chunk.getNumRows, h0, if_false, hbuild], ?_, ?_, ?_, ?_, ?_, ?_⟩
  · rw [f1]; rfl
  · rw [f1]; simp [Chunk.rows, Chunk.setColumns]
  · rw [f1]
    intro col hcol
    simp only [Chunk.setColumns, List.mem_map] at hcol
    obtain ⟨col0, _, rfl⟩ := hcol
    simp only [Column.filter]
    exact maskFilter_all_false _ _
  · rw [f5]
    simp only [Nat.add_zero]
    exact Nat.mod_eq_of_lt htot
  · rw [f2, hcur]
  · rw [f3, hdata]

theorem carried_run_without_other_columns_witness :
    ∃ r, keyOnlySample.transform (twoColumnChunk [1, 1, 1] [7, 8, 9]) = some r ∧
      r.chunk.num_rows = 0 ∧ r.chunk.rows = [] ∧
      (∀ col ∈ r.chunk.columns, col.data = []) ∧
      r.state.total_output_rows = keyOnlySample.total_output_rows ∧
      r.state.current_key = keyOnlySample.current_key ∧ r.state.data = keyOnlySample.data :=
  carried_run_without_other_columns keyOnlySample (twoColumnChunk [1, 1, 1] [7, 8, 9]) [1]
    (by decide) (by decide) (by decide) (by decide) (by decide) (by decide) (by decide)
    (by decide)

/-- C23: for `begin < end` (with `end + 16` representable in `size_t`) and a key predicate
that is monotone on `[begin, end)`, the hybrid search of `getRangeEnd` returns what the
linear scan returns: the smallest index `p` of `[begin, end)` whose row does not have the
current key, or `end` if there is none; every row of `[begin, p)` has the current key.  No
assumption is made on the length of the run relative to the 16-row probe window. -/
theorem getRangeEnd_eq_linear_scan (t : DistinctSortedChunkTransform) (begin_ end_ : Nat)
    (hbe : begin_ < end_) (he : end_ + 16 < 2 ^ 64)
    (hmono : MonotoneOn t.isCurrentKey begin_ end_) :
    ∃ p, t.getRangeEnd begin_ end_ = some p ∧
      p = linearRangeEnd t.isCurrentKey (end_ - begin_) begin_ ∧
      begin_ ≤ p ∧ p ≤ end_ ∧
      (∀ i, begin_ ≤ i → i < p → t.isCurrentKey i = true) ∧
      (p < end_ → t.isCurrentKey p = false) ∧
      (∀ q, begin_ ≤ q → q < end_ → t.isCurrentKey q = false → p ≤ q) := by
  have hb := linearRangeEnd_bounds t.isCurrentKey (end_ - begin_) begin_
  refine ⟨linearRangeEnd t.isCurrentKey (end_ - begin_) begin_,
    getRangeEndOn_eq_linear t.isCurrentKey begin_ end_ hbe he hmono, rfl, hb.1, by omega,
    fun i h1 h2 => linearRangeEnd_before _ _ _ _ h1 h2,
    fun h => linearRangeEnd_at _ _ _ (by omega), fun q h1 h2 h3 => ?_⟩
  by_contra hlt
  have := linearRangeEnd_before t.isCurrentKey (end_ - begin_) begin_ q h1 (by omega)
  rw [h3] at this
  cases this

theorem getRangeEnd_eq_linear_scan_witness :
    ∃ p, longRunSample.getRangeEnd 0 20 = some p ∧
      p = linearRangeEnd longRunSample.isCurrentKey (20 - 0) 0 ∧
      0 ≤ p ∧ p ≤ 20 ∧
      (∀ i, 0 ≤ i → i < p → longRunSample.isCurrentKey i = true) ∧
      (p < 20 → longRunSample.isCurrentKey p = false) ∧
      (∀ q, 0 ≤ q → q < 20 → longRunSample.isCurrentKey q = false → p ≤ q) :=
  getRangeEnd_eq_linear_scan longRunSample 0 20 (by decide) (by decide) (by decide)

theorem getRangeEndLoopTraced_total (isKey : Nat → Bool) (b e : Nat) (he : e < 2 ^ 64) :
    ∀ fuel low end_ probes, 1 ≤ low → b ≤ low → low ≤ end_ → end_ ≤ e → end_ - low < fuel →
      (∀ p ∈ probes, b ≤ p ∧ p < e) →
      ∃ tr, getRangeEndLoopTraced isKey fuel low (size_sub end_ 1) end_ probes false = some tr ∧
        tr.underflow = false ∧ (∀ p ∈ tr.probes, b ≤ p ∧ p < e) ∧
        getRangeEndLoop isKey fuel low (size_sub end_ 1) end_ = some tr.result ∧
        low ≤ tr.result ∧ tr.result ≤ end_ := by
  intro fuel
  induction fuel with
  | zero => intro low end_ _ _ _ _ _ h; omega
  | succ f ih =>
    intro low end_ probes h1 hb h2 h3 h4 hp
    have hs : size_sub end_ 1 = end_ - 1 := size_sub_eq end_ 1 (by omega) (by omega)
    unfold getRangeEndLoopTraced getRangeEndLoop
    rw [hs]
    by_cases hlow : low ≤ end_ - 1
    · simp only [hlow, if_true]
      have hsub : size_sub (end_ - 1) low = end_ - 1 - low := size_sub_eq _ _ hlow (by omega)
      have hmid : size_add low (size_sub (end_ - 1) low / 2) = low + (end_ - 1 - low) / 2 := by
        rw [hsub]; exact size_add_eq _ _ (by omega)
      have huf : (false || decide (end_ - 1 < low)) = false := by simp; omega
      rw [hmid, huf]
      have hp2 : ∀ p ∈ probes ++ [low + (end_ - 1 - low) / 2], b ≤ p ∧ p < e := by
        intro p hmem
        rcases List.mem_append.mp hmem with h | h
        · exact hp p h
        · simp only [List.mem_singleton] at h
          subst h
          omega
      by_cases hk : isKey (low + (end_ - 1 - low) / 2) = true
      · simp only [hk, if_true]
        rw [size_add_eq _ _ (by omega)]
        obtain ⟨tr, a1, a2, a3, a4, a5, a6⟩ := ih (low + (end_ - 1 - low) / 2 + 1) end_ _
          (by omega) (by omega) (by omega) h3 (by omega) hp2
        rw [hs] at a1 a4
        exact ⟨tr, a1, a2, a3, a4, by omega, a6⟩
      · simp only [hk, Bool.false_eq_true, if_false]
        have hs2 : size_sub (low + (end_ - 1 - low) / 2) 1 = low + (end_ - 1 - low) / 2 - 1 :=
          size_sub_eq _ _ (by omega) (by omega)
        have huf2 : (false || decide (low + (end_ - 1 - low) / 2 < 1)) = false := by
          simp; omega
        obtain ⟨tr, a1, a2, a3, a4, a5, a6⟩ := ih low (low + (end_ - 1 - low) / 2) _ h1 hb
          (by omega) (by omega) (by omega) hp2
        rw [hs2] at a1 a4 ⊢
        rw [huf2]
        exact ⟨tr, a1, a2, a3, a4, a5, by omega⟩
    · simp only [hlow, if_false]
      exact ⟨⟨end_, probes, false⟩, rfl, rfl, hp, rfl, h2, le_refl _⟩

/-- C24: for every `begin < end` (with `end + 16` representable in `size_t`) and every key
predicate, monotone or not, also when `begin = end - 1`: the search returns, none of the
unsigned subtractions `end - 1`, `high - low`, `mid - 1` goes below zero, and every index
handed to the predicate lies in `[begin, end)`; the value returned is the one of
`getRangeEnd` and lies in `[begin, end]`. -/
theorem getRangeEnd_wrap_safe (isKey : Nat → Bool) (begin_ end_ : Nat)
    (hbe : begin_ < end_) (he : end_ + 16 < 2 ^ 64) :
    ∃ tr, getRangeEndTraced isKey begin_ end_ = some tr ∧ tr.underflow = false ∧
      (∀ p ∈ tr.probes, begin_ ≤ p ∧ p < end_) ∧
      getRangeEndOn isKey begin_ end_ = some tr.result ∧
      begin_ ≤ tr.result ∧ tr.result ≤ end_ := by
  unfold getRangeEndTraced getRangeEndOn
  simp only []
  rw [size_add_eq begin_ 16 (by omega)]
  generalize hl : (if begin_ + 16 > end_ then end_ else begin_ + 16) = lpe
  have hl1 : begin_ < lpe := by rw [← hl]; split <;> omega
  have hl2 : lpe ≤ end_ := by rw [← hl]; split <;> omega
  cases hfind : (List.range' begin_ (lpe - begin_)).find? (fun pos => !isKey pos) with
  | some pos =>
    have hmem := List.mem_of_find?_eq_some hfind
    simp only [List.mem_range'_1] at hmem
    refine ⟨⟨pos, List.range' begin_ (pos + 1 - begin_), false⟩, rfl, rfl, ?_, rfl,
      hmem.1, by simp only; omega⟩
    intro p hp
    simp only [List.mem_range'_1] at hp
    omega
  | none =>
    have huf : decide (end_ < 1) = false := by simp; omega
    simp only [huf]
    obtain ⟨tr, a1, a2, a3, a4, a5, a6⟩ := getRangeEndLoopTraced_total isKey begin_ end_
      (by omega) (end_ + 1) lpe end_ (List.range' begin_ (lpe - begin_)) (by omega) (by omega)
      hl2 (le_refl _) (by omega) (by
        intro p hp
        simp only [List.mem_range'_1] at hp
        omega)
    exact ⟨tr, a1, a2, a3, a4, by omega, a6⟩

theorem getRangeEnd_wrap_safe_witness :
    (∃ tr, getRangeEndTraced (fun i => decide (i < 18 ∨ i = 30)) 0 40 = some tr ∧
      tr.underflow = false ∧ (∀ p ∈ tr.probes, 0 ≤ p ∧ p < 40) ∧
      getRangeEndOn (fun i => decide (i < 18 ∨ i = 30)) 0 40 = some tr.result ∧
      0 ≤ tr.result ∧ tr.result ≤ 40) ∧
    (∃ tr, getRangeEndTraced (fun _ => true) 39 40 = some tr ∧
      tr.underflow = false ∧ (∀ p ∈ tr.probes, 39 ≤ p ∧ p < 40) ∧
      getRangeEndOn (fun _ => true) 39 40 = some tr.result ∧
      39 ≤ tr.result ∧ tr.result ≤ 40) :=
  ⟨getRangeEnd_wrap_safe (fun i => decide (i < 18 ∨ i = 30)) 0 40 (by decide) (by decide),
    getRangeEnd_wrap_safe (fun _ => true) 39 40 (by decide) (by decide)⟩

theorem scanMask_without_set :
    ∀ (l : List (List Int × List Int)) (ck : Option (List Int)) (set : List (List Int)),
      (scanMask false ck set l).1 = firstOfRunMask ck (l.map Prod.fst) := by
  intro l
  induction l with
  | nil => intro ck set; rfl
  | cons p rest ih =>
    intro ck set
    rw [scanMask]
    by_cases h : ck = some p.1
    · simp only [h, if_true, Bool.false_eq_true, if_false, List.map_cons, firstOfRunMask,
        ne_eq, not_true_eq_false, decide_False]
      rw [← h, ih ck set]
    · simp only [h, if_false, Bool.false_eq_true, List.map_cons, firstOfRunMask, ne_eq,
        not_false_eq_true, decide_True]
      rw [ih (some p.1) set]

theorem firstOfRunMask_count (R : List Int → List Int → Prop)
    (hanti : ∀ a b, R a b → R b a → a = b) :
    ∀ (ks : List (List Int)) (prev : Option (List Int)),
      List.Pairwise R (prev.toList ++ ks) →
      (firstOfRunMask prev ks).count true = (ks.toFinset \ prev.toList.toFinset).card := by
  intro ks
  induction ks with
  | nil => intro prev _; simp [firstOfRunMask]
  | cons k ks ih =>
    intro prev hs
    have htail : List.Pairwise R ((some k).toList ++ ks) := by
      cases prev with
      | none => simpa using hs
      | some p =>
        simp only [Option.toList_some, List.singleton_append] at hs ⊢
        exact (List.pairwise_cons.mp hs).2
    have hih := ih (some k) htail
    simp only [Option.toList_some, List.toFinset_cons, List.toFinset_nil,
      insert_emptyc_eq] at hih
    simp only [firstOfRunMask, List.toFinset_cons]
    by_cases hp : prev = some k
    · subst hp
      simp only [ne_eq, not_true_eq_false, decide_False, Option.toList_some,
        List.toFinset_cons, List.toFinset_nil, insert_emptyc_eq]
      rw [List.count_cons_of_ne (by decide), hih]
      congr 1
      ext x
      simp only [Finset.mem_sdiff, Finset.mem_insert, Finset.mem_singleton, List.mem_toFinset]
      constructor
      · rintro ⟨h1, h2⟩; exact ⟨Or.inr h1, h2⟩
      · rintro ⟨h1 | h1, h2⟩
        · exact absurd h1 h2
        · exact ⟨h1, h2⟩
    · simp only [ne_eq, hp, not_false_eq_true, decide_True, List.count_cons_self, hih]
      have hdisj : insert k ks.toFinset \ prev.toList.toFinset = insert k (ks.toFinset \ {k}) := by
        ext x
        simp only [Finset.mem_sdiff, Finset.mem_insert, Finset.mem_singleton, List.mem_toFinset]
        constructor
        · rintro ⟨h1 | h1, _⟩
          · exact Or.inl h1
          · by_cases hx : x = k
            · exact Or.inl hx
            · exact Or.inr ⟨h1, hx⟩
        · intro hx
          have hxin : x = k ∨ x ∈ ks := by
            rcases hx with h | h
            · exact Or.inl h
            · exact Or.inr h.1
          refine ⟨hxin, ?_⟩
          cases prev with
          | none => simp
          | some p =>
            simp only [Option.toList_some, List.mem_singleton]
            intro hxp
            subst hxp
            simp only [Option.toList_some, List.singleton_append, List.pairwise_cons] at hs
            rcases hxin with h | h
            · exact hp (by rw [h])
            · have h1 : R x k := hs.1 k (List.mem_cons_self _ _)
              have h2 : R k x := hs.2.1 x h
              exact hp (by rw [hanti x k h1 h2])
      rw [hdisj, Finset.card_insert_of_not_mem (by simp)]

theorem carried_mem_iff_head (R : List Int → List Int → Prop)
    (hanti : ∀ a b, R a b → R b a → a = b) (p k : List Int) (ks : List (List Int))
    (hs : List.Pairwise R (p :: k :: ks)) : p ∈ k :: ks ↔ k = p := by
  simp only [List.pairwise_cons] at hs
  constructor
  · intro h
    rcases List.mem_cons.mp h with h | h
    · exact h.symm
    · exact hanti k p (hs.2.1 p h) (hs.1 k (List.mem_cons_self _ _))
  · intro h
    rw [h]
    exact List.mem_cons_self _ _

/-- C25: with no other columns, for every non-empty (well-formed) chunk of a stream sorted
by the key (the carried key followed by the keys of the chunk is a chain of the order),
`transform` keeps exactly the rows whose key differs from the key of the row before them
(for row 0: from the key carried from the previous chunk), that is the first row of each
run that starts in this chunk, and drops every other row; the number of output rows is the
number of distinct key values in the chunk, minus one if row 0 continues the carried
key. -/
theorem key_only_first_row_of_each_run (t : DistinctSortedChunkTransform) (c : Chunk)
    (R : List Int → List Int → Prop) (hanti : ∀ a b, R a b → R b a → a = b)
    (hoth : t.other_columns_pos = []) (hpos : t.sorted_columns_pos ≠ [])
    (hshape : KeyShape t) (hwf : c.WellFormed) (h0 : c.num_rows ≠ 0)
    (hn : c.num_rows + 16 < 2 ^ 64)
    (hsorted : List.Pairwise R
      ((carriedKey t).toList ++ c.rows.map (rowKey t.sorted_columns_pos))) :
    ∃ r, t.transform c = some r ∧
      r.chunk.rows = maskFilter ((firstOfRunMask (carriedKey t)
        (c.rows.map (rowKey t.sorted_columns_pos))).map some) c.rows ∧
      r.chunk.num_rows = r.chunk.rows.length ∧
      r.chunk.num_rows = ((c.rows.map (rowKey t.sorted_columns_pos)).toFinset).card
        - (if carriedKey t = (c.rows.map (rowKey t.sorted_columns_pos)).head? then 1 else 0) := by
  obtain ⟨r, h1, h2, _, _, _, _, _, _⟩ := transform_spec t c hpos hshape hwf hn R hanti hsorted
  have hu : (!t.other_columns_pos.isEmpty) = false := by rw [hoth]; rfl
  rw [hu, scanMask_without_set] at h2
  have hkeys : (c.rows.map (rowTuple t)).map Prod.fst
      = c.rows.map (rowKey t.sorted_columns_pos) := by
    simp [List.map_map, Function.comp_def, rowTuple]
  rw [hkeys] at h2
  have hlen : (firstOfRunMask (carriedKey t)
      (c.rows.map (rowKey t.sorted_columns_pos))).length = c.num_rows := by
    rw [← hkeys, ← scanMask_without_set _ _ t.data.keys, scanMask_length, List.length_map,
      rows_length]
  have hrows : r.chunk.rows = maskFilter ((firstOfRunMask (carriedKey t)
      (c.rows.map (rowKey t.sorted_columns_pos))).map some) c.rows := by
    rw [h2, rows_applyFilter c _ hwf hlen]
  have hnum : r.chunk.num_rows = (firstOfRunMask (carriedKey t)
      (c.rows.map (rowKey t.sorted_columns_pos))).count true := by
    rw [h2]; rfl
  refine ⟨r, h1, hrows, (rows_length r.chunk).symm, ?_⟩
  rw [hnum, firstOfRunMask_count R hanti _ _ hsorted]
  have hne : c.rows ≠ [] := by
    intro h
    have := rows_length c
    rw [h] at this
    exact h0 this.symm
  cases hk : c.rows.map (rowKey t.sorted_columns_pos) with
  | nil =>
    exfalso
    exact hne (List.map_eq_nil_iff.mp hk)
  | cons k ks =>
    rw [hk] at hsorted
    cases hc : carriedKey t with
    | none => simp
    | some p =>
      rw [hc] at hsorted
      simp only [Option.toList_some, List.singleton_append] at hsorted
      have hmem := carried_mem_iff_head R hanti p k ks hsorted
      simp only [Option.toList_some, List.toFinset_cons, List.toFinset_nil, insert_emptyc_eq,
        List.head?_cons, Option.some.injEq]
      rw [← List.toFinset_cons, Finset.sdiff_singleton_eq_erase]
      by_cases hpk : p = k
      · rw [if_pos hpk]
        exact Finset.card_erase_of_mem (by
          rw [List.mem_toFinset]; exact hmem.mpr hpk.symm)
      · rw [if_neg hpk, Finset.erase_eq_of_not_mem (by
          rw [List.mem_toFinset]
          intro h
          exact hpk (hmem.mp h).symm)]
        rfl

theorem key_only_first_row_of_each_run_witness :
    ∃ r, keyOnlySample.transform (twoColumnChunk [1, 1, 2, 3, 3] [5, 6, 7, 8, 9]) = some r ∧
      r.chunk.rows = maskFilter ((firstOfRunMask (carriedKey keyOnlySample)
        ((twoColumnChunk [1, 1, 2, 3, 3] [5, 6, 7, 8, 9]).rows.map
          (rowKey keyOnlySample.sorted_columns_pos))).map some)
        (twoColumnChunk [1, 1, 2, 3, 3] [5, 6, 7, 8, 9]).rows ∧
      r.chunk.num_rows = r.chunk.rows.length ∧
      r.chunk.num_rows = (((twoColumnChunk [1, 1, 2, 3, 3] [5, 6, 7, 8, 9]).rows.map
          (rowKey keyOnlySample.sorted_columns_pos)).toFinset).card
        - (if carriedKey keyOnlySample = ((twoColumnChunk [1, 1, 2, 3, 3] [5, 6, 7, 8, 9]).rows.map
            (rowKey keyOnlySample.sorted_columns_pos)).head? then 1 else 0) :=
  key_only_first_row_of_each_run keyOnlySample (twoColumnChunk [1, 1, 2, 3, 3] [5, 6, 7, 8, 9])
    (KeyLE keyAscending) (keyLE_antisymm keyAscending (by decide)) (by decide) (by decide)
    (Or.inr (by decide)) (by decide) (by decide) (by decide) (by decide)

theorem sortedPositions_eq (header : Block) :
    ∀ (descr : List SortColumnDescription),
      sortedPositions header descr = positionsOf header (descr.map (fun d => d.column_name)) := by
  intro descr
  induction descr with
  | nil => rfl
  | cons d ds ih =>
    simp only [sortedPositions, List.map_cons, positionsOf, ih]

theorem otherPositions_eq (header : Block) (sorted : List Nat) :
    ∀ (names : List String) (ps : List Nat), otherPositions header sorted names = some ps →
      ∃ qs, positionsOf header names = some qs ∧
        ps = qs.filter (fun pos => decide (pos ∉ sorted) && hasColumnAt header pos
          && !isConstAt header pos) := by
  intro names
  induction names with
  | nil =>
    intro ps h
    simp only [otherPositions, Option.some.injEq] at h
    exact ⟨[], rfl, by simp [← h]⟩
  | cons name rest ih =>
    intro ps h
    simp only [otherPositions] at h
    cases hp : header.getPositionByName name with
    | none => simp [hp] at h
    | some pos =>
      simp only [hp] at h
      cases hr : otherPositions header sorted rest with
      | none => simp [hr] at h
      | some rs =>
        simp only [hr] at h
        obtain ⟨qs, hq1, hq2⟩ := ih rs hr
        refine ⟨pos :: qs, by simp only [positionsOf, hp, hq1], ?_⟩
        have hcons : ∀ b : Bool,
            (decide (pos ∉ sorted) && hasColumnAt header pos && !isConstAt header pos) = b →
            (pos :: qs).filter (fun pos => decide (pos ∉ sorted) && hasColumnAt header pos
              && !isConstAt header pos) = if b then pos :: rs else rs := by
          intro b hb
          rw [List.filter_cons, hb, ← hq2]
        by_cases hin : pos ∈ sorted
        · simp only [hin, if_true, Option.some.injEq] at h
          rw [hcons false (by simp [hin]), ← h]
          simp
        · simp only [hin, if_false] at h
          cases hcol : (header.getD pos ⟨"", none⟩).column with
          | none =>
            simp only [hcol, Option.some.injEq] at h
            rw [hcons false (by unfold hasColumnAt; rw [hcol]; simp), ← h]
            simp
          | some col =>
            simp only [hcol] at h
            cases hc : col.is_const with
            | true =>
              simp only [hc, Bool.not_true, Bool.false_eq_true, if_false,
                Option.some.injEq] at h
              rw [hcons false (by unfold hasColumnAt isConstAt; rw [hcol]; simp [hc]), ← h]
              simp
            | false =>
              simp only [hc, Bool.not_false, if_true, Option.some.injEq] at h
              rw [hcons true (by unfold hasColumnAt isConstAt; rw [hcol]; simp [hc, hin]), ← h]
              simp

/-- C28 (counterexample): a header entry without a column object is not a constant
column, yet its position is left out of `other_columns_pos` (the guard `col &&` of line
39): the constructor yields `other_columns_pos = []` where the partition as worded gives
`[1]`. -/
theorem other_columns_skip_missing_column :
    (construct headerWithoutColumn unlimited eightBytesPerKey 0 keyAscending ["k", "v"]).map
      (fun t => (t.sorted_columns_pos, t.other_columns_pos)) = some ([0], []) ∧
    positionsOf headerWithoutColumn ["k", "v"] = some [0, 1] ∧
    isConstAt headerWithoutColumn 1 = false ∧
    specOtherPositions headerWithoutColumn [0] [0, 1] = [1] := by
  decide

/-- C28 (amended): `sorted_columns_pos` is the list of header positions of the
sort-description columns in description order, and `other_columns_pos` is exactly the list
of header positions of `source_columns`, in `source_columns` order, that are not the
position of any sort-description column and whose header column is present and not
constant; so no position is both a key column and an other column, and no constant column
is an other column.  For a header all of whose entries have a column this is the
partition as worded. -/
theorem construct_column_partition (header : Block) (limits : SizeLimits)
    (byte_count : ClearableSetVariants → Nat) (limit_hint : Nat)
    (descr : List SortColumnDescription) (source_columns : List String)
    (t : DistinctSortedChunkTransform)
    (h : construct header limits byte_count limit_hint descr source_columns = some t) :
    positionsOf header (descr.map (fun d => d.column_name)) = some t.sorted_columns_pos ∧
    (∃ qs, positionsOf header source_columns = some qs ∧
      t.other_columns_pos = qs.filter (fun pos => decide (pos ∉ t.sorted_columns_pos)
        && hasColumnAt header pos && !isConstAt header pos) ∧
      ((∀ pos ∈ qs, hasColumnAt header pos = true) →
        t.other_columns_pos = specOtherPositions header t.sorted_columns_pos qs)) ∧
    (∀ pos ∈ t.other_columns_pos, pos ∉ t.sorted_columns_pos ∧
      hasColumnAt header pos = true ∧ isConstAt header pos = false) := by
  simp only [construct] at h
  cases hs : sortedPositions header descr with
  | none => simp [hs] at h
  | some sp =>
    simp only [hs] at h
    cases ho : otherPositions header sp source_columns with
    | none => simp [ho] at h
    | some op =>
      simp only [ho, Option.some.injEq] at h
      subst h
      simp only
      obtain ⟨qs, hq1, hq2⟩ := otherPositions_eq header sp source_columns op ho
      refine ⟨by rw [← sortedPositions_eq]; exact hs, ⟨qs, hq1, hq2, fun hall => ?_⟩, ?_⟩
      · rw [hq2]
        unfold specOtherPositions
        apply List.filter_congr
        intro pos hpos
        simp [hall pos hpos]
      · intro pos hpos
        rw [hq2] at hpos
        simp only [List.mem_filter, Bool.and_eq_true, decide_eq_true_eq,
          Bool.not_eq_true'] at hpos
        exact ⟨hpos.2.1.1, hpos.2.1.2, hpos.2.2⟩

theorem construct_column_partition_witness :
    positionsOf sampleHeader (keyAscending.map (fun d => d.column_name))
      = some (sampleTransform 0).sorted_columns_pos ∧
    (∃ qs, positionsOf sampleHeader ["k", "v"] = some qs ∧
      (sampleTransform 0).other_columns_pos
        = qs.filter (fun pos => decide (pos ∉ (sampleTransform 0).sorted_columns_pos)
          && hasColumnAt sampleHeader pos && !isConstAt sampleHeader pos) ∧
      ((∀ pos ∈ qs, hasColumnAt sampleHeader pos = true) →
        (sampleTransform 0).other_columns_pos
          = specOtherPositions sampleHeader (sampleTransform 0).sorted_columns_pos qs)) ∧
    (∀ pos ∈ (sampleTransform 0).other_columns_pos,
      pos ∉ (sampleTransform 0).sorted_columns_pos ∧
      hasColumnAt sampleHeader pos = true ∧ isConstAt sampleHeader pos = false) :=
  construct_column_partition sampleHeader unlimited eightBytesPerKey 0 keyAscending
    ["k", "v"] (sampleTransform 0) (sample_construct 0)

theorem scanMask_cons_state (u : Bool) (ck : Option (List Int)) (set : List (List Int))
    (p : List Int × List Int) (rest : List (List Int × List Int)) :
    ∃ set2,
      (scanMask u ck set (p :: rest)).2 = (scanMask u (some p.1) set2 rest).2 ∧
      (u = true → ck = some p.1 → ∀ o, (o ∈ set2 ↔ o = p.2 ∨ o ∈ set)) ∧
      (u = true → ck ≠ some p.1 → ∀ o, (o ∈ set2 ↔ o = p.2)) := by
  by_cases h : ck = some p.1
  · cases u with
    | true =>
      refine ⟨(emplaceKey set p.2).1, ?_, fun _ _ o => ?_, fun _ hne => absurd h hne⟩
      · rw [scanMask]; simp only [h, if_true]
      · unfold emplaceKey
        by_cases hin : p.2 ∈ set
        · simp only [hin, if_true]
          constructor
          · exact fun ho => Or.inr ho
          · rintro (ho | ho)
            · rw [ho]; exact hin
            · exact ho
        · simp [hin]
    | false =>
      refine ⟨set, ?_, ?_, ?_⟩
      · rw [scanMask]; simp only [h, if_true, Bool.false_eq_true, if_false]
      · intro hu; cases hu
      · intro hu; cases hu
  · cases u with
    | true =>
      refine ⟨[p.2], ?_, fun _ he => absurd he h, fun _ _ o => by simp⟩
      rw [scanMask]; simp only [h, if_false, if_true]
    | false =>
      refine ⟨set, ?_, ?_, ?_⟩
      · rw [scanMask]; simp only [h, if_false, Bool.false_eq_true]
      · intro hu; cases hu
      · intro hu; cases hu

/-- The state the row-by-row specification carries: after the pairs `l`, following the
pairs `seen`, on a stream sorted by the key, the carried key is the key of the last pair
and (with other columns) the set holds exactly the tuples of the pairs seen so far that
have this key. -/
theorem scanMask_state (u : Bool) (R : List Int → List Int → Prop)
    (hanti : ∀ a b, R a b → R b a → a = b) :
    ∀ (l seen : List (List Int × List Int)) (ck : Option (List Int)) (set : List (List Int)),
      List.Pairwise R ((seen ++ l).map Prod.fst) →
      ck = seen.getLast?.map Prod.fst →
      (u = true → ∀ k, ck = some k → ∀ o, (o ∈ set ↔ (k, o) ∈ seen)) →
      (scanMask u ck set l).2.1 = (seen ++ l).getLast?.map Prod.fst ∧
      (u = true → ∀ k, (scanMask u ck set l).2.1 = some k →
        ∀ o, (o ∈ (scanMask u ck set l).2.2 ↔ (k, o) ∈ seen ++ l)) := by
  intro l
  induction l with
  | nil =>
    intro seen ck set _ hck hset
    simp only [scanMask, List.append_nil]
    exact ⟨hck, hset⟩
  | cons p rest ih =>
    intro seen ck set hs hck hset
    obtain ⟨set2, e1, e2, e3⟩ := scanMask_cons_state u ck set p rest
    have happ : seen ++ p :: rest = (seen ++ [p]) ++ rest := by simp
    rw [e1, happ]
    apply ih (seen ++ [p]) (some p.1) set2
    · rw [← happ]; exact hs
    · simp
    · intro hu k hk o
      have hkp : k = p.1 := (Option.some.inj hk).symm
      subst hkp
      by_cases hc : ck = some p.1
      · rw [e2 hu hc o, hset hu p.1 hc o]
        simp only [List.mem_append, List.mem_singleton]
        constructor
        · rintro (h | h)
          · exact Or.inr (by rw [h])
          · exact Or.inl h
        · rintro (h | h)
          · exact Or.inr h
          · exact Or.inl (by rw [← h])
      · rw [e3 hu hc o]
        simp only [List.mem_append, List.mem_singleton]
        constructor
        · intro h; exact Or.inr (by rw [h])
        · rintro (h | h)
          · exfalso
            rcases List.eq_nil_or_concat seen with hnil | ⟨init, last, hlast⟩
            · rw [hnil] at h; simp at h
            · subst hlast
              have hck2 : ck = some last.1 := by
                rw [hck, List.concat_eq_append, List.getLast?_concat]; rfl
              simp only [List.concat_eq_append, List.map_append, List.map_cons, List.map_nil,
                List.append_assoc, List.singleton_append, List.pairwise_append,
                List.pairwise_cons, List.mem_cons, List.mem_map] at hs
              have hlp : R last.1 p.1 := hs.2.1.1 p.1 (Or.inl rfl)
              simp only [List.concat_eq_append, List.mem_append, List.mem_singleton] at h
              rcases h with h | h
              · have hql : R p.1 last.1 := hs.2.2 p.1 ⟨(p.1, o), h, rfl⟩ last.1 (Or.inl rfl)
                exact hc (by rw [hck2, hanti p.1 last.1 hql hlp])
              · exact hc (by rw [hck2, ← h])
          · rw [← h]

theorem getLast_toList_sublist {α : Type} (l : List α) : List.Sublist l.getLast?.toList l := by
  rcases List.eq_nil_or_concat l with h | ⟨init, last, h⟩
  · subst h; simp
  · subst h
    rw [List.concat_eq_append, List.getLast?_concat]
    simp

/-- The carried state over a sequence of calls: `seen` are the pairs of the rows fed
before the sequence. -/
theorem transformAll_state (R : List Int → List Int → Prop)
    (hanti : ∀ a b, R a b → R b a → a = b) :
    ∀ (chunks : List Chunk) (t : DistinctSortedChunkTransform)
      (seen : List (List Int × List Int)),
      t.sorted_columns_pos ≠ [] → KeyShape t →
      (∀ c ∈ chunks, c.WellFormed ∧ c.num_rows + 16 < 2 ^ 64) →
      List.Pairwise R ((seen ++ (allRows chunks).map (rowTuple t)).map Prod.fst) →
      carriedKey t = seen.getLast?.map Prod.fst →
      ((!t.other_columns_pos.isEmpty) = true → ∀ k, carriedKey t = some k →
        ∀ o, (o ∈ t.data.keys ↔ (k, o) ∈ seen)) →
      ∃ fr, transformAll t chunks = some fr ∧
        (fr.error = none →
          carriedKey fr.state
            = (seen ++ (allRows chunks).map (rowTuple t)).getLast?.map Prod.fst ∧
          ((!t.other_columns_pos.isEmpty) = true → ∀ k, carriedKey fr.state = some k →
            ∀ o, (o ∈ fr.state.data.keys ↔
              (k, o) ∈ seen ++ (allRows chunks).map (rowTuple t)))) ∧
        (NeverThrows t.output_size_limits → fr.error = none) := by
  intro chunks
  induction chunks with
  | nil =>
    intro t seen _ _ _ _ hck hset
    refine ⟨⟨t, [], none⟩, rfl, fun _ => ?_, fun _ => rfl⟩
    simp only [allRows, List.map_nil, List.append_nil]
    exact ⟨hck, hset⟩
  | cons c cs ih =>
    intro t seen hpos hshape hchunks hs hck hset
    have hc := hchunks c (List.mem_cons_self _ _)
    have hall : seen ++ (allRows (c :: cs)).map (rowTuple t)
        = (seen ++ c.rows.map (rowTuple t)) ++ (allRows cs).map (rowTuple t) := by
      simp [allRows]
    rw [hall] at hs
    have hs1 : List.Pairwise R ((seen ++ c.rows.map (rowTuple t)).map Prod.fst) := by
      rw [List.map_append] at hs
      exact (List.pairwise_append.mp hs).1
    have hkeys : (c.rows.map (rowTuple t)).map Prod.fst
        = c.rows.map (rowKey t.sorted_columns_pos) := by
      simp [List.map_map, Function.comp_def, rowTuple]
    have hsorted : List.Pairwise R
        ((carriedKey t).toList ++ c.rows.map (rowKey t.sorted_columns_pos)) := by
      refine List.Pairwise.sublist ?_ hs1
      rw [List.map_append, hkeys, hck]
      apply List.Sublist.append _ (List.Sublist.refl _)
      have := getLast_toList_sublist (seen.map Prod.fst)
      rw [List.getLast?_map] at this
      exact this
    obtain ⟨r, hr1, _, hr3, hr4, hr5, hr6, _, hr8⟩ :=
      transform_spec t c hpos hshape hc.1 hc.2 R hanti hsorted
    obtain ⟨st1, st2⟩ := scanMask_state (!t.other_columns_pos.isEmpty) R hanti
      (c.rows.map (rowTuple t)) seen (carriedKey t) t.data.keys hs1 hck hset
    rw [← hr3] at st1 st2
    rw [← hr4] at st2
    have htuple : rowTuple r.state = rowTuple t := rowTuple_congr t r.state hr6
    have hopos : r.state.other_columns_pos = t.other_columns_pos := hr6.2.2.2.2.2
    obtain ⟨fr, hf1, hf2, hf3⟩ := ih r.state (seen ++ c.rows.map (rowTuple t))
      (by rw [hr6.2.2.2.2.1]; exact hpos) hr5
      (fun c' hc' => hchunks c' (List.mem_cons_of_mem _ hc'))
      (by rw [htuple]; exact hs) st1 (by rw [hopos]; exact st2)
    rw [htuple, hopos] at hf2
    cases hout : r.outcome with
    | threw code =>
      refine ⟨⟨r.state, [], some code⟩, ?_, fun h => ?_, fun hnt => ?_⟩
      · simp only [transformAll, hr1, hout]
      · simp at h
      · obtain ⟨b, hb⟩ := hr8 hnt
        rw [hb] at hout
        cases hout
    | returned b =>
      refine ⟨⟨fr.state, r.chunk :: fr.outputs, fr.error⟩, ?_, fun h => ?_, fun hnt => ?_⟩
      · simp only [transformAll, hr1, hout, hf1]
      · rw [hall]
        exact hf2 h
      · exact hf3 (by rw [hr6.2.1]; exact hnt)

/-- C29: on a fresh instance with at least one key column, after every sequence of
`transform` calls on (well-formed) chunks of a key-sorted stream that returned normally,
`current_key` holds the key of the last row seen so far (if any row was seen), and, when
there are other columns, the dedup set contains exactly the other-column tuples of all
rows seen so far, across all chunks, whose key equals `current_key`. -/
theorem carried_state_invariant (header : Block) (limits : SizeLimits)
    (byte_count : ClearableSetVariants → Nat) (limit_hint : Nat)
    (descr : List SortColumnDescription) (source_columns : List String)
    (t : DistinctSortedChunkTransform) (chunks : List Chunk)
    (hfresh : construct header limits byte_count limit_hint descr source_columns = some t)
    (hkey : descr ≠ []) (hdir : ∀ d ∈ descr, d.direction ≠ 0)
    (hchunks : ∀ c ∈ chunks, c.WellFormed ∧ c.num_rows + 16 < 2 ^ 64)
    (hsorted : SortedByKey descr t.sorted_columns_pos (allRows chunks)) :
    ∃ fr, transformAll t chunks = some fr ∧
      (fr.error = none →
        carriedKey fr.state = (allRows chunks).getLast?.map (rowKey t.sorted_columns_pos) ∧
        (t.other_columns_pos ≠ [] → ∀ k, carriedKey fr.state = some k →
          ∀ o, (o ∈ fr.state.data.keys ↔
            ∃ row ∈ allRows chunks,
              rowKey t.sorted_columns_pos row = k ∧ rowKey t.other_columns_pos row = o))) ∧
      (NeverThrows limits → fr.error = none) := by
  obtain ⟨_, f2, f3, _, _, f6, _, _⟩ := construct_fresh _ _ _ _ _ _ _ hfresh
  have hpos : t.sorted_columns_pos ≠ [] := by
    intro h
    rw [h] at f2
    exact hkey (List.length_eq_zero.mp f2.symm)
  have hcarried : carriedKey t = none := carriedKey_of_empty t f3
  have hpw := sortedByKey_pairwise descr t.sorted_columns_pos f2 _ hsorted
  obtain ⟨fr, h1, h2, h3⟩ := transformAll_state (KeyLE descr) (keyLE_antisymm descr hdir)
    chunks t [] hpos (Or.inl f3) hchunks
    (by simpa [List.map_map, Function.comp_def, rowTuple] using hpw)
    (by rw [hcarried]; rfl)
    (by intro _ k hk; rw [hcarried] at hk; cases hk)
  refine ⟨fr, h1, fun he => ?_, fun hnt => h3 (by rw [f6]; exact hnt)⟩
  obtain ⟨a1, a2⟩ := h2 he
  simp only [List.nil_append] at a1 a2
  refine ⟨?_, fun hoth k hk o => ?_⟩
  · rw [a1, List.getLast?_map]
    cases (allRows chunks).getLast? <;> rfl
  · have hu : (!t.other_columns_pos.isEmpty) = true := by
      cases ho : t.other_columns_pos with
      | nil => exact absurd ho hoth
      | cons a l => rfl
    rw [a2 hu k hk o]
    simp only [List.mem_map, rowTuple, Prod.mk.injEq]

theorem carried_state_invariant_witness :
    ∃ fr, transformAll (sampleTransform 0) splitRun = some fr ∧
      (fr.error = none →
        carriedKey fr.state
          = (allRows splitRun).getLast?.map (rowKey (sampleTransform 0).sorted_columns_pos) ∧
        ((sampleTransform 0).other_columns_pos ≠ [] → ∀ k, carriedKey fr.state = some k →
          ∀ o, (o ∈ fr.state.data.keys ↔
            ∃ row ∈ allRows splitRun,
              rowKey (sampleTransform 0).sorted_columns_pos row = k ∧
              rowKey (sampleTransform 0).other_columns_pos row = o))) ∧
      (NeverThrows unlimited → fr.error = none) :=
  carried_state_invariant sampleHeader unlimited eightBytesPerKey 0 keyAscending
    ["k", "v"] (sampleTransform 0) splitRun (sample_construct 0) (by decide) (by decide)
    (by decide) (by decide)

theorem tiles_le : ∀ (rs : List (Nat × Nat)) (a b : Nat), tiles rs a b = true → a ≤ b := by
  intro rs
  induction rs with
  | nil => intro a b h; simp [tiles] at h; omega
  | cons r rs ih =>
    intro a b h
    simp only [tiles, Bool.and_eq_true, decide_eq_true_eq] at h
    have := ih r.2 b h.2
    omega

/-- Ranges that tile `[a, b)` assign every index of `[a, b)` exactly once, in increasing
order. -/
theorem tiles_rangeIndices :
    ∀ (rs : List (Nat × Nat)) (a b : Nat), tiles rs a b = true →
      rangeIndices rs = List.range' a (b - a) := by
  intro rs
  induction rs with
  | nil => intro a b h; simp [tiles] at h; subst h; simp [rangeIndices]
  | cons r rs ih =>
    intro a b h
    simp only [tiles, Bool.and_eq_true, decide_eq_true_eq] at h
    obtain ⟨⟨h1, h2⟩, h3⟩ := h
    have hle := tiles_le rs r.2 b h3
    simp only [rangeIndices, ih r.2 b h3, h1]
    have hsplit : b - a = (b - r.2) + (r.2 - a) := by omega
    have e1 : a + (r.2 - a) = r.2 := by omega
    rw [hsplit, ← List.range'_append_1, e1]

theorem transformLoopTraced_untraced (n : Nat) :
    ∀ (fuel : Nat) (t : DistinctSortedChunkTransform) (f : Filter) (b e cnt : Nat)
      (ranges : List (Nat × Nat)),
      (transformLoopTraced n fuel t f b e cnt ranges).map (fun r => (r.1, r.2.1, r.2.2.1))
        = transformLoop n fuel t f b e cnt := by
  intro fuel
  induction fuel with
  | zero =>
    intro t f b e cnt ranges
    rw [transformLoopTraced, transformLoop]
    split <;> rfl
  | succ k ih =>
    intro t f b e cnt ranges
    rw [transformLoopTraced, transformLoop]
    split
    · simp only
      split
      · rfl
      · split
        · exact ih _ _ _ _ _ _
        · exact ih _ _ _ _ _ _
    · rfl

/-- The loop of `transform` on any chunk, sorted or not: the ranges it processes tile
`[range_begin, chunk_rows)`, every entry of that part of the filter is assigned, and the
count grows by the number of entries set to 1. -/
theorem transformLoopTraced_spec (n : Nat) (hn : n + 16 < 2 ^ 64) :
    ∀ (fuel b : Nat) (t : DistinctSortedChunkTransform) (pre : Filter) (cnt : Nat)
      (ranges : List (Nat × Nat)),
      (¬ t.other_columns.isEmpty → t.data.type_empty = false) →
      b ≤ n → n - b ≤ fuel → pre.length = b →
      ∃ (u : DistinctSortedChunkTransform) (m : List Bool) (rs : List (Nat × Nat)),
        transformLoopTraced n fuel t (pre ++ List.replicate (n - b) none) b b cnt ranges =
          some (u, pre ++ m.map some, cnt + m.count true, ranges ++ rs) ∧
        m.length = n - b ∧ tiles rs b n = true := by
  intro fuel
  induction fuel with
  | zero =>
    intro b t pre cnt ranges _ hbn hfuel _
    have hb : b = n := by omega
    subst hb
    refine ⟨t, [], [], ?_, by simp, by simp [tiles]⟩
    rw [transformLoopTraced]
    simp
  | succ f ih =>
    intro b t pre cnt ranges htype hbn hfuel hpre
    rcases Nat.eq_or_lt_of_le hbn with hb | hb
    · subst hb
      refine ⟨t, [], [], ?_, by simp, by simp [tiles]⟩
      rw [transformLoopTraced]
      simp
    · obtain ⟨e, he1, he2, he3⟩ := getRangeEnd_setCurrentKey_total t b n hb hn
      have hiter : transformLoopTraced n (f + 1) t (pre ++ List.replicate (n - b) none) b b cnt
            ranges =
          transformLoopTraced n f
            (if (t.setCurrentKey b).other_columns.isEmpty then
                (t.setCurrentKey b,
                  fillFilter ((pre ++ List.replicate (n - b) none).set b (some true)) (b + 1) e
                    false, 1)
              else (t.setCurrentKey b).ordinaryDistinctOnRange
                (pre ++ List.replicate (n - b) none) b e true).1
            (if (t.setCurrentKey b).other_columns.isEmpty then
                (t.setCurrentKey b,
                  fillFilter ((pre ++ List.replicate (n - b) none).set b (some true)) (b + 1) e
                    false, 1)
              else (t.setCurrentKey b).ordinaryDistinctOnRange
                (pre ++ List.replicate (n - b) none) b e true).2.1
            e e
            (cnt + (if (t.setCurrentKey b).other_columns.isEmpty then
                (t.setCurrentKey b,
                  fillFilter ((pre ++ List.replicate (n - b) none).set b (some true)) (b + 1) e
                    false, 1)
              else (t.setCurrentKey b).ordinaryDistinctOnRange
                (pre ++ List.replicate (n - b) none) b e true).2.2)
            (ranges ++ [(b, e)]) := by
        rw [transformLoopTraced]
        simp only [ne_eq, Nat.ne_of_lt hb, not_false_eq_true, if_true, he1]
        split <;> rfl
      have hrep : List.replicate (n - b) (none : Option Bool) =
          List.replicate (e - b) none ++ List.replicate (n - e) none := by
        rw [← List.replicate_add]; congr 1; omega
      have hfilt : pre ++ List.replicate (n - b) (none : Option Bool) =
          pre ++ List.replicate (e - b) none ++ List.replicate (n - e) none := by
        rw [hrep, List.append_assoc]
      rw [hiter, hfilt]
      obtain ⟨t2, m, hrange, hm, h2oc, h2type⟩ :
          ∃ (t2 : DistinctSortedChunkTransform) (m : List Bool × List (List Int)),
            (if (t.setCurrentKey b).other_columns.isEmpty then
                (t.setCurrentKey b,
                  fillFilter ((pre ++ List.replicate (e - b) none
                    ++ List.replicate (n - e) none).set b (some true)) (b + 1) e false, 1)
              else (t.setCurrentKey b).ordinaryDistinctOnRange
                (pre ++ List.replicate (e - b) none ++ List.replicate (n - e) none) b e true)
              = (t2, pre ++ m.1.map some ++ List.replicate (n - e) none, m.1.count true) ∧
            newRunMask (!t.other_columns.isEmpty) t.data.keys
              ((List.range' b (e - b)).map (rowKeyAt t.other_columns)) = m ∧
            t2.other_columns = t.other_columns ∧
            t2.data.type_empty = t.data.type_empty := by
        refine ⟨{ t.setCurrentKey b with data := { t.data with keys :=
            (newRunMask (!t.other_columns.isEmpty) t.data.keys
              ((List.range' b (e - b)).map (rowKeyAt t.other_columns))).2 } },
          newRunMask (!t.other_columns.isEmpty) t.data.keys
              ((List.range' b (e - b)).map (rowKeyAt t.other_columns)),
          ?_, rfl, rfl, rfl⟩
        exact new_range_spec (t.setCurrentKey b) b e pre (List.replicate (n - e) none) hpre he2
          htype
      rw [hrange]
      simp only []
      have hmlen : m.1.length = e - b := by
        rw [← hm, newRunMask_length _ _ _ (by
          intro h
          have := congrArg List.length h
          simp at this
          omega)]
        simp
      obtain ⟨u, m2, rs, hu1, hu2, hu3⟩ := ih e t2 (pre ++ m.1.map some) (cnt + m.1.count true)
        (ranges ++ [(b, e)]) (by rw [h2oc, h2type]; exact htype) he3 (by omega)
        (by simp [hmlen, hpre]; omega)
      refine ⟨u, m.1 ++ m2, (b, e) :: rs, ?_, ?_, ?_⟩
      · rw [hu1]
        simp [List.map_append, List.count_append, Nat.add_assoc]
      · simp only [List.length_append, hmlen, hu2]; omega
      · simp only [tiles, decide_True, Bool.true_and, Bool.and_eq_true, decide_eq_true_eq]
        exact ⟨he2, hu3⟩

theorem buildFilterTraced_untraced (t : DistinctSortedChunkTransform) (n : Nat) :
    (t.buildFilterTraced n).map (fun r => (r.1, r.2.1, r.2.2.1)) = t.buildFilter n := by
  unfold buildFilterTraced buildFilter
  cases t.continueWithPrevRange n (List.replicate n none) with
  | none => rfl
  | some r => exact transformLoopTraced_untraced n _ _ _ _ _ _ _

theorem initChunkProcessing_type (t : DistinctSortedChunkTransform) (cols : List Column) :
    ¬ (t.initChunkProcessing cols).other_columns.isEmpty →
      (t.initChunkProcessing cols).data.type_empty = false := by
  intro h
  simp only [initChunkProcessing] at h ⊢
  simp only [Bool.not_eq_true] at h
  simp only [h, Bool.not_false, Bool.true_and]
  by_cases ht : t.data.type_empty = true
  · simp [ht]
  · simp only [ht, if_false, Bool.false_eq_true]

theorem count_map_some (m : List Bool) : (m.map some).count (some true) = m.count true := by
  induction m with
  | nil => rfl
  | cons b m ih => cases b <;> simp [List.count_cons, ih]

/-- Lines 189-215 on any non-empty chunk, sorted or not: the ranges processed tile
`[0, chunk_rows)`, the filter is fully assigned, and `output_rows` is the number of its
entries that are 1. -/
theorem buildFilterTraced_spec (t : DistinctSortedChunkTransform) (n : Nat) (hn0 : 0 < n)
    (hn : n + 16 < 2 ^ 64)
    (htype : ¬ t.other_columns.isEmpty → t.data.type_empty = false) :
    ∃ (u : DistinctSortedChunkTransform) (m : List Bool) (rs : List (Nat × Nat)),
      t.buildFilterTraced n = some (u, m.map some, m.count true, rs) ∧
      m.length = n ∧ tiles rs 0 n = true := by
  by_cases hcont : (t.current_key.isEmpty || !t.isCurrentKey 0) = true
  · obtain ⟨u, m, rs, h1, h2, h3⟩ := transformLoopTraced_spec n hn n 0 t [] 0 [] htype
      (Nat.zero_le _) (by omega) rfl
    refine ⟨u, m, rs, ?_, by simpa using h2, h3⟩
    simp only [buildFilterTraced, continueWithPrevRange, hcont, if_true]
    simpa using h1
  · have hk0 : t.isCurrentKey 0 = true := by
      simp only [Bool.or_eq_true, Bool.not_eq_true', not_or, Bool.not_eq_false] at hcont
      exact hcont.2
    obtain ⟨e, he1, he2, he3⟩ := getRangeEndOn_total t.isCurrentKey 0 n hn0 hn hk0
    have he1' : t.getRangeEnd 0 n = some e := he1
    have hrep : List.replicate n (none : Option Bool) =
        List.replicate e none ++ List.replicate (n - e) none := by
      rw [← List.replicate_add]; congr 1; omega
    have hspec := continue_range_spec t e (List.replicate (n - e) none) htype
    rw [← hrep] at hspec
    have hmlen : (runMask (!t.other_columns.isEmpty) t.data.keys
        ((List.range' 0 e).map (rowKeyAt t.other_columns))).1.length = e := by
      rw [runMask_length]; simp
    have hcw : t.continueWithPrevRange n (List.replicate n none) =
        some ((if t.other_columns.isEmpty then
              (t, fillFilter (List.replicate n none) 0 e false, 0)
            else t.ordinaryDistinctOnRange (List.replicate n none) 0 e false).1,
          (if t.other_columns.isEmpty then
              (t, fillFilter (List.replicate n none) 0 e false, 0)
            else t.ordinaryDistinctOnRange (List.replicate n none) 0 e false).2.1,
          e,
          (if t.other_columns.isEmpty then
              (t, fillFilter (List.replicate n none) 0 e false, 0)
            else t.ordinaryDistinctOnRange (List.replicate n none) 0 e false).2.2) := by
      simp only [continueWithPrevRange, hcont, Bool.false_eq_true, if_false, he1']
      split <;> rfl
    rw [hspec] at hcw
    obtain ⟨u, m2, rs, h1, h2, h3⟩ := transformLoopTraced_spec n hn n e
      { t with data := { t.data with keys :=
          (runMask (!t.other_columns.isEmpty) t.data.keys
            ((List.range' 0 e).map (rowKeyAt t.other_columns))).2 } }
      ((runMask (!t.other_columns.isEmpty) t.data.keys
        ((List.range' 0 e).map (rowKeyAt t.other_columns))).1.map some)
      ((runMask (!t.other_columns.isEmpty) t.data.keys
        ((List.range' 0 e).map (rowKeyAt t.other_columns))).1.count true) [(0, e)]
      htype he3 (by omega) (by simp [hmlen])
    refine ⟨u, (runMask (!t.other_columns.isEmpty) t.data.keys
        ((List.range' 0 e).map (rowKeyAt t.other_columns))).1 ++ m2, (0, e) :: rs, ?_, ?_, ?_⟩
    · simp only [buildFilterTraced, hcw]
      have he0 : e ≠ 0 := by omega
      simp only [he0, if_false]
      rw [h1]
      simp [List.map_append, List.count_append]
    · simp only [List.length_append, hmlen, h2]; omega
    · simp only [tiles, decide_True, Bool.true_and, Bool.and_eq_true, decide_eq_true_eq]
      exact ⟨he2, h3⟩

/-- C30: for every non-empty chunk and every state of the transform, sorted input or not,
the ranges `transform` processes tile `[0, chunk_rows)` without gap or overlap, so the
indices assigned are `0, 1, ..., chunk_rows - 1`, each once; no entry of the freshly
allocated filter is left unassigned, and the `output_rows` handed to `filter` and
`setColumns` is the number of entries of the filter that are 1, which is the row count of
every filtered column of a well-formed chunk. -/
theorem filter_consistency (t : DistinctSortedChunkTransform) (c : Chunk)
    (h0 : c.num_rows ≠ 0) (hn : c.num_rows + 16 < 2 ^ 64) :
    ∃ (u : DistinctSortedChunkTransform) (filter : Filter) (output_rows : Nat)
      (ranges : List (Nat × Nat)),
      (t.initChunkProcessing c.columns).buildFilterTraced c.num_rows
        = some (u, filter, output_rows, ranges) ∧
      (t.initChunkProcessing c.columns).buildFilter c.num_rows
        = some (u, filter, output_rows) ∧
      tiles ranges 0 c.num_rows = true ∧
      rangeIndices ranges = List.range' 0 c.num_rows ∧
      filter.length = c.num_rows ∧ (∀ x ∈ filter, x ≠ none) ∧
      filter.count (some true) = output_rows ∧
      ∃ r, t.transform c = some r ∧ r.chunk.num_rows = output_rows ∧
        r.chunk.columns = c.columns.map (fun col => col.filter filter output_rows) ∧
        (c.WellFormed → ∀ col ∈ r.chunk.columns, col.data.length = output_rows) := by
  obtain ⟨u, m, rs, h1, h2, h3⟩ := buildFilterTraced_spec (t.initChunkProcessing c.columns)
    c.num_rows (Nat.pos_of_ne_zero h0) hn (initChunkProcessing_type t c.columns)
  have hb : (t.initChunkProcessing c.columns).buildFilter c.num_rows
      = some (u, m.map some, m.count true) := by
    rw [← buildFilterTraced_untraced, h1]; rfl
  obtain ⟨f1, _⟩ := checkLimits_facts u
    (c.setColumns (c.columns.map (fun col => col.filter (m.map some) (m.count true)))
      (m.count true)) (m.count true)
  refine ⟨u, m.map some, m.count true, rs, h1, hb, h3, ?_, by simp [h2], ?_,
    count_map_some m,
    checkLimits u (c.setColumns (c.columns.map
      (fun col => col.filter (m.map some) (m.count true))) (m.count true)) (m.count true),
    ?_, ?_, ?_, ?_⟩
  · have := tiles_rangeIndices rs 0 c.num_rows h3
    simpa using this
  · intro x hx
    simp only [List.mem_map] at hx
    obtain ⟨b, _, rfl⟩ := hx
    simp
  · simp only [transform, Chunk.getNumRows, h0, if_false, hb]
  · rw [f1]; rfl
  · rw [f1]; rfl
  · intro hwf col hcol
    rw [f1] at hcol
    simp only [Chunk.setColumns, List.mem_map] at hcol
    obtain ⟨col0, hc0, rfl⟩ := hcol
    simp only [Column.filter]
    exact maskFilter_length m col0.data (by rw [h2]; exact (hwf col0 hc0).symm)

theorem filter_consistency_witness :
    ∃ (u : DistinctSortedChunkTransform) (filter : Filter) (output_rows : Nat)
      (ranges : List (Nat × Nat)),
      ((sampleTransform 0).initChunkProcessing
          (twoColumnChunk [1, 2, 1, 1] [5, 5, 5, 6]).columns).buildFilterTraced
          (twoColumnChunk [1, 2, 1, 1] [5, 5, 5, 6]).num_rows
        = some (u, filter, output_rows, ranges) ∧
      ((sampleTransform 0).initChunkProcessing
          (twoColumnChunk [1, 2, 1, 1] [5, 5, 5, 6]).columns).buildFilter
          (twoColumnChunk [1, 2, 1, 1] [5, 5, 5, 6]).num_rows
        = some (u, filter, output_rows) ∧
      tiles ranges 0 (twoColumnChunk [1, 2, 1, 1] [5, 5, 5, 6]).num_rows = true ∧
      rangeIndices ranges = List.range' 0 (twoColumnChunk [1, 2, 1, 1] [5, 5, 5, 6]).num_rows ∧
      filter.length = (twoColumnChunk [1, 2, 1, 1] [5, 5, 5, 6]).num_rows ∧
      (∀ x ∈ filter, x ≠ none) ∧
      filter.count (some true) = output_rows ∧
      ∃ r, (sampleTransform 0).transform (twoColumnChunk [1, 2, 1, 1] [5, 5, 5, 6]) = some r ∧
        r.chunk.num_rows = output_rows ∧
        r.chunk.columns = (twoColumnChunk [1, 2, 1, 1] [5, 5, 5, 6]).columns.map
          (fun col => col.filter filter output_rows) ∧
        ((twoColumnChunk [1, 2, 1, 1] [5, 5, 5, 6]).WellFormed →
          ∀ col ∈ r.chunk.columns, col.data.length = output_rows) :=
  filter_consistency (sampleTransform 0) (twoColumnChunk [1, 2, 1, 1] [5, 5, 5, 6])
    (by decide) (by decide)

theorem tiles_mem : ∀ (rs : List (Nat × Nat)) (a b : Nat), tiles rs a b = true →
    ∀ r ∈ rs, a ≤ r.1 ∧ r.1 < r.2 ∧ r.2 ≤ b := by
  intro rs
  induction rs with
  | nil => intro a b _ r hr; simp at hr
  | cons x rs ih =>
    intro a b h r hr
    simp only [tiles, Bool.and_eq_true, decide_eq_true_eq] at h
    obtain ⟨⟨h1, h2⟩, h3⟩ := h
    have hle := tiles_le rs x.2 b h3
    rcases List.mem_cons.mp hr with hx | hx
    · subst hx; omega
    · have := ih x.2 b h3 r hx
      omega

theorem tiles_length : ∀ (rs : List (Nat × Nat)) (a b : Nat), tiles rs a b = true →
    rs.length ≤ b - a := by
  intro rs
  induction rs with
  | nil => intro a b _; simp
  | cons x rs ih =>
    intro a b h
    simp only [tiles, Bool.and_eq_true, decide_eq_true_eq] at h
    obtain ⟨⟨h1, h2⟩, h3⟩ := h
    have := ih x.2 b h3
    have hle := tiles_le rs x.2 b h3
    simp only [List.length_cons]
    omega

theorem newRunMask_head (u : Bool) (set : List (List Int)) (o : List Int)
    (os : List (List Int)) : (newRunMask u set (o :: os)).1.head? = some true := by
  cases u <;> simp [newRunMask, emplaceMask, emplaceKey]

theorem maskFilter_mem {α : Type} :
    ∀ (m : Filter) (l : List α) (i : Nat) (x : α), m.getD i none = some true →
      l[i]? = some x → x ∈ maskFilter m l := by
  intro m
  induction m with
  | nil => intro l i x h _; simp at h
  | cons b m ih =>
    intro l i x h hx
    cases l with
    | nil => simp at hx
    | cons y ys =>
      cases i with
      | zero =>
        simp only [List.getD_cons_zero] at h
        simp only [List.getElem?_cons_zero, Option.some.injEq] at hx
        subst h
        subst hx
        simp [maskFilter]
      | succ i =>
        simp only [List.getD_cons_succ] at h
        simp only [List.getElem?_cons_succ] at hx
        have := ih ys i x h hx
        rcases b with _ | b
        · simpa [maskFilter] using this
        · cases b
          · simpa [maskFilter] using this
          · simp only [maskFilter, List.mem_cons]
            exact Or.inr this

/-- The loop of `transform` on any chunk: besides tiling `[range_begin, chunk_rows)`, every
range it processes has the filter entry of its first row set to 1. -/
theorem transformLoopTraced_runs (n : Nat) (hn : n + 16 < 2 ^ 64) :
    ∀ (fuel b : Nat) (t : DistinctSortedChunkTransform) (pre : Filter) (cnt : Nat)
      (ranges : List (Nat × Nat)),
      (¬ t.other_columns.isEmpty → t.data.type_empty = false) →
      b ≤ n → n - b ≤ fuel → pre.length = b →
      ∃ (u : DistinctSortedChunkTransform) (m : List Bool) (rs : List (Nat × Nat)),
        transformLoopTraced n fuel t (pre ++ List.replicate (n - b) none) b b cnt ranges =
          some (u, pre ++ m.map some, cnt + m.count true, ranges ++ rs) ∧
        m.length = n - b ∧ tiles rs b n = true ∧
        (∀ r ∈ rs, (pre ++ m.map some).getD r.1 none = some true) := by
  intro fuel
  induction fuel with
  | zero =>
    intro b t pre cnt ranges _ hbn hfuel _
    have hb : b = n := by omega
    subst hb
    refine ⟨t, [], [], ?_, by simp, by simp [tiles], fun r hr => by simp at hr⟩
    rw [transformLoopTraced]
    simp
  | succ f ih =>
    intro b t pre cnt ranges htype hbn hfuel hpre
    rcases Nat.eq_or_lt_of_le hbn with hb | hb
    · subst hb
      refine ⟨t, [], [], ?_, by simp, by simp [tiles], fun r hr => by simp at hr⟩
      rw [transformLoopTraced]
      simp
    · obtain ⟨e, he1, he2, he3⟩ := getRangeEnd_setCurrentKey_total t b n hb hn
      have hiter : transformLoopTraced n (f + 1) t (pre ++ List.replicate (n - b) none) b b cnt
            ranges =
          transformLoopTraced n f
            (if (t.setCurrentKey b).other_columns.isEmpty then
                (t.setCurrentKey b,
                  fillFilter ((pre ++ List.replicate (n - b) none).set b (some true)) (b + 1) e
                    false, 1)
              else (t.setCurrentKey b).ordinaryDistinctOnRange
                (pre ++ List.replicate (n - b) none) b e true).1
            (if (t.setCurrentKey b).other_columns.isEmpty then
                (t.setCurrentKey b,
                  fillFilter ((pre ++ List.replicate (n - b) none).set b (some true)) (b + 1) e
                    false, 1)
              else (t.setCurrentKey b).ordinaryDistinctOnRange
                (pre ++ List.replicate (n - b) none) b e true).2.1
            e e
            (cnt + (if (t.setCurrentKey b).other_columns.isEmpty then
                (t.setCurrentKey b,
                  fillFilter ((pre ++ List.replicate (n - b) none).set b (some true)) (b + 1) e
                    false, 1)
              else (t.setCurrentKey b).ordinaryDistinctOnRange
                (pre ++ List.replicate (n - b) none) b e true).2.2)
            (ranges ++ [(b, e)]) := by
        rw [transformLoopTraced]
        simp only [ne_eq, Nat.ne_of_lt hb, not_false_eq_true, if_true, he1]
        split <;> rfl
      have hrep : List.replicate (n - b) (none : Option Bool) =
          List.replicate (e - b) none ++ List.replicate (n - e) none := by
        rw [← List.replicate_add]; congr 1; omega
      have hfilt : pre ++ List.replicate (n - b) (none : Option Bool) =
          pre ++ List.replicate (e - b) none ++ List.replicate (n - e) none := by
        rw [hrep, List.append_assoc]
      rw [hiter, hfilt]
      obtain ⟨t2, m, hrange, hm, h2oc, h2type⟩ :
          ∃ (t2 : DistinctSortedChunkTransform) (m : List Bool × List (List Int)),
            (if (t.setCurrentKey b).other_columns.isEmpty then
                (t.setCurrentKey b,
                  fillFilter ((pre ++ List.replicate (e - b) none
                    ++ List.replicate (n - e) none).set b (some true)) (b + 1) e false, 1)
              else (t.setCurrentKey b).ordinaryDistinctOnRange
                (pre ++ List.replicate (e - b) none ++ List.replicate (n - e) none) b e true)
              = (t2, pre ++ m.1.map some ++ List.replicate (n - e) none, m.1.count true) ∧
            newRunMask (!t.other_columns.isEmpty) t.data.keys
              ((List.range' b (e - b)).map (rowKeyAt t.other_columns)) = m ∧
            t2.other_columns = t.other_columns ∧
            t2.data.type_empty = t.data.type_empty := by
        refine ⟨{ t.setCurrentKey b with data := { t.data with keys :=
            (newRunMask (!t.other_columns.isEmpty) t.data.keys
              ((List.range' b (e - b)).map (rowKeyAt t.other_columns))).2 } },
          newRunMask (!t.other_columns.isEmpty) t.data.keys
              ((List.range' b (e - b)).map (rowKeyAt t.other_columns)),
          ?_, rfl, rfl, rfl⟩
        exact new_range_spec (t.setCurrentKey b) b e pre (List.replicate (n - e) none) hpre he2
          htype
      rw [hrange]
      simp only []
      have hmlen : m.1.length = e - b := by
        rw [← hm, newRunMask_length _ _ _ (by
          intro h
          have := congrArg List.length h
          simp at this
          omega)]
        simp
      have hhead : m.1.head? = some true := by
        rw [← hm]
        obtain ⟨k, hk⟩ : ∃ k, e - b = k + 1 := ⟨e - b - 1, by omega⟩
        rw [hk, List.range'_succ, List.map_cons]
        exact newRunMask_head _ _ _ _
      obtain ⟨u, m2, rs, hu1, hu2, hu3, hu4⟩ := ih e t2 (pre ++ m.1.map some)
        (cnt + m.1.count true) (ranges ++ [(b, e)]) (by rw [h2oc, h2type]; exact htype) he3
        (by omega) (by simp [hmlen, hpre]; omega)
      have hfinal : pre ++ (m.1 ++ m2).map some = pre ++ m.1.map some ++ m2.map some := by
        simp [List.map_append]
      refine ⟨u, m.1 ++ m2, (b, e) :: rs, ?_, ?_, ?_, ?_⟩
      · rw [hu1]
        simp [List.map_append, List.count_append, Nat.add_assoc]
      · simp only [List.length_append, hmlen, hu2]; omega
      · simp only [tiles, decide_True, Bool.true_and, Bool.and_eq_true, decide_eq_true_eq]
        exact ⟨he2, hu3⟩
      · intro r hr
        rw [hfinal]
        rcases List.mem_cons.mp hr with hx | hx
        · subst hx
          simp only
          cases hm1 : m.1 with
          | nil => rw [hm1] at hhead; simp at hhead
          | cons x xs =>
            rw [hm1] at hhead
            simp only [List.head?_cons, Option.some.injEq] at hhead
            subst hhead
            rw [← hpre, List.getD_eq_getElem?_getD, List.append_assoc,
              List.getElem?_append_right (Nat.le_refl _)]
            simp
        · exact hu4 r hx

/-- Lines 189-215 on any non-empty chunk, with the range taken by `continueWithPrevRange`
kept apart from the ranges of the loop: the loop ranges tile `[range_begin, chunk_rows)`
and each has the filter entry of its first row set to 1. -/
theorem buildFilterTraced_runs (t : DistinctSortedChunkTransform) (n : Nat) (hn0 : 0 < n)
    (hn : n + 16 < 2 ^ 64)
    (htype : ¬ t.other_columns.isEmpty → t.data.type_empty = false) :
    ∃ (u : DistinctSortedChunkTransform) (m : List Bool) (e0 : Nat) (rs : List (Nat × Nat)),
      (∃ t1 f1 k1, t.continueWithPrevRange n (List.replicate n none) = some (t1, f1, e0, k1)) ∧
      t.buildFilterTraced n =
        some (u, m.map some, m.count true, (if e0 = 0 then [] else [(0, e0)]) ++ rs) ∧
      m.length = n ∧ tiles rs e0 n = true ∧
      (∀ r ∈ rs, (m.map some).getD r.1 none = some true) := by
  by_cases hcont : (t.current_key.isEmpty || !t.isCurrentKey 0) = true
  · obtain ⟨u, m, rs, h1, h2, h3, h4⟩ := transformLoopTraced_runs n hn n 0 t [] 0 [] htype
      (Nat.zero_le _) (by omega) rfl
    refine ⟨u, m, 0, rs, ⟨t, List.replicate n none, 0, ?_⟩, ?_, by simpa using h2, h3,
      by simpa using h4⟩
    · simp only [continueWithPrevRange, hcont, if_true]
    · simp only [buildFilterTraced, continueWithPrevRange, hcont, if_true]
      simpa using h1
  · have hk0 : t.isCurrentKey 0 = true := by
      simp only [Bool.or_eq_true, Bool.not_eq_true', not_or, Bool.not_eq_false] at hcont
      exact hcont.2
    obtain ⟨e, he1, he2, he3⟩ := getRangeEndOn_total t.isCurrentKey 0 n hn0 hn hk0
    have he1' : t.getRangeEnd 0 n = some e := he1
    have hrep : List.replicate n (none : Option Bool) =
        List.replicate e none ++ List.replicate (n - e) none := by
      rw [← List.replicate_add]; congr 1; omega
    have hspec := continue_range_spec t e (List.replicate (n - e) none) htype
    rw [← hrep] at hspec
    have hmlen : (runMask (!t.other_columns.isEmpty) t.data.keys
        ((List.range' 0 e).map (rowKeyAt t.other_columns))).1.length = e := by
      rw [runMask_length]; simp
    have hcw : t.continueWithPrevRange n (List.replicate n none) =
        some ((if t.other_columns.isEmpty then
              (t, fillFilter (List.replicate n none) 0 e false, 0)
            else t.ordinaryDistinctOnRange (List.replicate n none) 0 e false).1,
          (if t.other_columns.isEmpty then
              (t, fillFilter (List.replicate n none) 0 e false, 0)
            else t.ordinaryDistinctOnRange (List.replicate n none) 0 e false).2.1,
          e,
          (if t.other_columns.isEmpty then
              (t, fillFilter (List.replicate n none) 0 e false, 0)
            else t.ordinaryDistinctOnRange (List.replicate n none) 0 e false).2.2) := by
      simp only [continueWithPrevRange, hcont, Bool.false_eq_true, if_false, he1']
      split <;> rfl
    rw [hspec] at hcw
    obtain ⟨u, m2, rs, h1, h2, h3, h4⟩ := transformLoopTraced_runs n hn n e
      { t with data := { t.data with keys :=
          (runMask (!t.other_columns.isEmpty) t.data.keys
            ((List.range' 0 e).map (rowKeyAt t.other_columns))).2 } }
      ((runMask (!t.other_columns.isEmpty) t.data.keys
        ((List.range' 0 e).map (rowKeyAt t.other_columns))).1.map some)
      ((runMask (!t.other_columns.isEmpty) t.data.keys
        ((List.range' 0 e).map (rowKeyAt t.other_columns))).1.count true) [(0, e)]
      htype he3 (by omega) (by simp [hmlen])
    have he0 : e ≠ 0 := by omega
    refine ⟨u, (runMask (!t.other_columns.isEmpty) t.data.keys
        ((List.range' 0 e).map (rowKeyAt t.other_columns))).1 ++ m2, e, rs, ⟨_, _, _, hcw⟩,
      ?_, ?_, h3, ?_⟩
    · simp only [buildFilterTraced, hcw]
      simp only [he0, if_false]
      rw [h1]
      simp [List.map_append, List.count_append]
    · simp only [List.length_append, hmlen, h2]; omega
    · intro r hr
      rw [List.map_append]
      exact h4 r hr

/-- An unsorted sample chunk: the loop processes three runs and keeps the
first row of each. -/
theorem unsorted_sample_runs :
    (((sampleTransform 0).initChunkProcessing
        (twoColumnChunk [2, 1, 1, 2] [5, 5, 5, 6]).columns).buildFilterTraced 4).map
        (fun r => (r.2.1, r.2.2.2))
      = some ([some true, some true, some false, some true], [(0, 1), (1, 3), (3, 4)]) := by
  rfl

/-- C31: for every non-empty chunk and every state of the transform, sorted input or not:
the row at `range_begin` compares equal to the key `setCurrentKey(range_begin)` has just
recorded, so `getRangeEnd(range_begin, chunk_rows)` with `range_begin < chunk_rows`
returns and `range_begin < range_end <= chunk_rows`; the ranges of the loop of
`transform` start where `continueWithPrevRange` stopped and tile the rest of the chunk,
each starts below `chunk_rows` and is non-empty, there are at most `chunk_rows` of them
and `chunk_rows` iterations suffice for the loop to end, so `transform` returns; and the
filter entry of the first row of every run started in the loop is 1, so this row is among
the rows of the output chunk. -/
theorem run_loop_progress (t : DistinctSortedChunkTransform) (c : Chunk)
    (h0 : c.num_rows ≠ 0) (hn : c.num_rows + 16 < 2 ^ 64) :
    (∀ (v : DistinctSortedChunkTransform) (b : Nat),
      (v.setCurrentKey b).isCurrentKey b = true) ∧
    (∀ (v : DistinctSortedChunkTransform) (b : Nat), b < c.num_rows →
      ∃ e, (v.setCurrentKey b).getRangeEnd b c.num_rows = some e ∧ b < e ∧
        e ≤ c.num_rows) ∧
    ∃ (u : DistinctSortedChunkTransform) (filter : Filter) (output_rows range_begin : Nat)
      (runs : List (Nat × Nat)),
      (∃ t1 f1 k1, (t.initChunkProcessing c.columns).continueWithPrevRange c.num_rows
        (List.replicate c.num_rows none) = some (t1, f1, range_begin, k1)) ∧
      (t.initChunkProcessing c.columns).buildFilterTraced c.num_rows
        = some (u, filter, output_rows,
            (if range_begin = 0 then [] else [(0, range_begin)]) ++ runs) ∧
      (t.initChunkProcessing c.columns).buildFilter c.num_rows
        = some (u, filter, output_rows) ∧
      tiles runs range_begin c.num_rows = true ∧
      runs.length ≤ c.num_rows ∧
      (∀ r ∈ runs, r.1 < c.num_rows ∧ r.1 < r.2 ∧ r.2 ≤ c.num_rows ∧
        filter.getD r.1 none = some true) ∧
      ∃ res, t.transform c = some res ∧
        (c.WellFormed → ∀ r ∈ runs, c.row r.1 ∈ res.chunk.rows) := by
  refine ⟨fun v b => (setCurrentKey_isCurrentKey v b b).mpr rfl,
    fun v b hb => getRangeEnd_setCurrentKey_total v b c.num_rows hb hn, ?_⟩
  obtain ⟨u, m, e0, rs, hc, h1, h2, h3, h4⟩ := buildFilterTraced_runs
    (t.initChunkProcessing c.columns) c.num_rows (Nat.pos_of_ne_zero h0) hn
    (initChunkProcessing_type t c.columns)
  have hb : (t.initChunkProcessing c.columns).buildFilter c.num_rows
      = some (u, m.map some, m.count true) := by
    rw [← buildFilterTraced_untraced, h1]; rfl
  obtain ⟨f1, _⟩ := checkLimits_facts u
    (c.setColumns (c.columns.map (fun col => col.filter (m.map some) (m.count true)))
      (m.count true)) (m.count true)
  have hmem := tiles_mem rs e0 c.num_rows h3
  have hlen := tiles_length rs e0 c.num_rows h3
  refine ⟨u, m.map some, m.count true, e0, rs, hc, h1, hb, h3, by omega, ?_,
    checkLimits u (c.setColumns (c.columns.map
      (fun col => col.filter (m.map some) (m.count true))) (m.count true)) (m.count true),
    ?_, ?_⟩
  · intro r hr
    have := hmem r hr
    exact ⟨by omega, this.2.1, this.2.2, h4 r hr⟩
  · simp only [transform, Chunk.getNumRows, h0, if_false, hb]
  · intro hwf r hr
    rw [f1]
    have hrows := rows_applyFilter c m hwf h2
    simp only [applyFilter] at hrows
    rw [hrows]
    have := hmem r hr
    refine maskFilter_mem (m.map some) c.rows r.1 (c.row r.1) (h4 r hr) ?_
    simp only [Chunk.rows]
    rw [List.getElem?_map, List.getElem?_range (by omega)]
    rfl

theorem run_loop_progress_witness :
    (∀ (v : DistinctSortedChunkTransform) (b : Nat),
      (v.setCurrentKey b).isCurrentKey b = true) ∧
    (∀ (v : DistinctSortedChunkTransform) (b : Nat),
      b < (twoColumnChunk [2, 1, 1, 2] [5, 5, 5, 6]).num_rows →
      ∃ e, (v.setCurrentKey b).getRangeEnd b (twoColumnChunk [2, 1, 1, 2] [5, 5, 5, 6]).num_rows
          = some e ∧ b < e ∧ e ≤ (twoColumnChunk [2, 1, 1, 2] [5, 5, 5, 6]).num_rows) ∧
    ∃ (u : DistinctSortedChunkTransform) (filter : Filter) (output_rows range_begin : Nat)
      (runs : List (Nat × Nat)),
      (∃ t1 f1 k1, ((sampleTransform 0).initChunkProcessing
          (twoColumnChunk [2, 1, 1, 2] [5, 5, 5, 6]).columns).continueWithPrevRange
          (twoColumnChunk [2, 1, 1, 2] [5, 5, 5, 6]).num_rows
          (List.replicate (twoColumnChunk [2, 1, 1, 2] [5, 5, 5, 6]).num_rows none)
        = some (t1, f1, range_begin, k1)) ∧
      ((sampleTransform 0).initChunkProcessing
          (twoColumnChunk [2, 1, 1, 2] [5, 5, 5, 6]).columns).buildFilterTraced
          (twoColumnChunk [2, 1, 1, 2] [5, 5, 5, 6]).num_rows
        = some (u, filter, output_rows,
            (if range_begin = 0 then [] else [(0, range_begin)]) ++ runs) ∧
      ((sampleTransform 0).initChunkProcessing
          (twoColumnChunk [2, 1, 1, 2] [5, 5, 5, 6]).columns).buildFilter
          (twoColumnChunk [2, 1, 1, 2] [5, 5, 5, 6]).num_rows
        = some (u, filter, output_rows) ∧
      tiles runs range_begin (twoColumnChunk [2, 1, 1, 2] [5, 5, 5, 6]).num_rows = true ∧
      runs.length ≤ (twoColumnChunk [2, 1, 1, 2] [5, 5, 5, 6]).num_rows ∧
      (∀ r ∈ runs, r.1 < (twoColumnChunk [2, 1, 1, 2] [5, 5, 5, 6]).num_rows ∧ r.1 < r.2 ∧
        r.2 ≤ (twoColumnChunk [2, 1, 1, 2] [5, 5, 5, 6]).num_rows ∧
        filter.getD r.1 none = some true) ∧
      ∃ res, (sampleTransform 0).transform (twoColumnChunk [2, 1, 1, 2] [5, 5, 5, 6])
          = some res ∧
        ((twoColumnChunk [2, 1, 1, 2] [5, 5, 5, 6]).WellFormed →
          ∀ r ∈ runs, (twoColumnChunk [2, 1, 1, 2] [5, 5, 5, 6]).row r.1 ∈ res.chunk.rows) :=
  run_loop_progress (sampleTransform 0) (twoColumnChunk [2, 1, 1, 2] [5, 5, 5, 6])
    (by decide) (by decide)

end DistinctSortedChunkTransform

/-! ## IMergingTransformBase -/

namespace IMergingTransformBase

theorem sameShell_refl (t : IMergingTransformBase) : sameShell t t := by
  simp [sameShell]

theorem sameShell_trans {t u v : IMergingTransformBase} (h1 : sameShell t u)
    (h2 : sameShell u v) : sameShell t v := by
  simp only [sameShell] at *
  obtain ⟨a1, a2, a3, a4, a5, a6, a7, a8, a9, a10, a11, a12, a13⟩ := h1
  obtain ⟨b1, b2, b3, b4, b5, b6, b7, b8, b9, b10, b11, b12, b13⟩ := h2
  simp [*]

theorem initializeInput_spec (t : IMergingTransformBase) (b : Bool) (i : Nat)
    (hi : i < t.inputs.length) (hlen : t.input_states.length = t.inputs.length) :
    sameShell t (initializeInput (t, b) i).1 ∧
    (∀ j, j ≠ i → (initializeInput (t, b) i).1.inputs.getD j default = t.inputs.getD j default ∧
      (initializeInput (t, b) i).1.input_states.getD j default = t.input_states.getD j default) ∧
    (initializeInput (t, b) i).2 = (b && inputSettled (initializeInput (t, b) i).1 i) := by
  have hi2 : i < t.input_states.length := by omega
  unfold initializeInput
  simp only []
  split_ifs with h1 h2 h3 h4 h5 h6 h7 <;>
  refine ⟨by simp [sameShell], fun j hj => ?_, ?_⟩ <;>
  first
  | simp [List.getD_eq_getElem?_getD, List.getElem?_set, Ne.symm hj]
  | skip
  all_goals
    simp [inputSettled, List.getD_eq_getElem?_getD, List.getElem?_set, hi, hi2,
      InputPort.isFinished, InputPort.setNeeded, InputPort.pull, InputPort.hasData] at *
  all_goals cases b <;> simp_all

theorem initializeLoop_spec (t : IMergingTransformBase)
    (hlen : t.input_states.length = t.inputs.length) (k : Nat) (hk : k ≤ t.inputs.length) :
    sameShell t ((List.range k).foldl initializeInput (t, true)).1 ∧
    (∀ j, k ≤ j →
      ((List.range k).foldl initializeInput (t, true)).1.inputs.getD j default
        = t.inputs.getD j default ∧
      ((List.range k).foldl initializeInput (t, true)).1.input_states.getD j default
        = t.input_states.getD j default) ∧
    (((List.range k).foldl initializeInput (t, true)).2 = true ↔
      ∀ j, j < k → inputSettled ((List.range k).foldl initializeInput (t, true)).1 j = true) := by
  induction k with
  | zero => simp [sameShell_refl]
  | succ k ih =>
    obtain ⟨ih1, ih2, ih3⟩ := ih (by omega)
    rw [List.range_succ, List.foldl_append]
    simp only [List.foldl_cons, List.foldl_nil]
    generalize (List.range k).foldl initializeInput (t, true) = r at ih1 ih2 ih3
    obtain ⟨u, b⟩ := r
    simp only at ih1 ih2 ih3
    have hu1 : u.inputs.length = t.inputs.length := ih1.2.2.2.2.2.2.2.2.2.2.2.1
    have hu2 : u.input_states.length = t.input_states.length := ih1.2.2.2.2.2.2.2.2.2.2.2.2
    obtain ⟨s1, s2, s3⟩ := initializeInput_spec u b k (by omega) (by omega)
    refine ⟨sameShell_trans ih1 s1, fun j hj => ?_, ?_⟩
    · obtain ⟨a1, a2⟩ := s2 j (by omega)
      obtain ⟨c1, c2⟩ := ih2 j (by omega)
      exact ⟨a1.trans c1, a2.trans c2⟩
    · rw [s3]
      have hsame : ∀ j, j < k → inputSettled (initializeInput (u, b) k).1 j = inputSettled u j := by
        intro j hj
        obtain ⟨a1, a2⟩ := s2 j (by omega)
        simp only [inputSettled, a1, a2]
      constructor
      · intro h j hj
        simp only [Bool.and_eq_true] at h
        rcases Nat.lt_succ_iff_lt_or_eq.mp hj with hlt | heq
        · rw [hsame j hlt]; exact ih3.mp h.1 j hlt
        · rw [heq]; exact h.2
      · intro h
        simp only [Bool.and_eq_true]
        refine ⟨ih3.mpr (fun j hj => ?_), h k (by omega)⟩
        rw [← hsame j hj]; exact h j (by omega)

theorem prepareInitializeInputs_spec (t : IMergingTransformBase)
    (h_states : t.input_states = [] ∨ t.input_states.length = t.inputs.length) :
    (t.prepareInitializeInputs.1 = Status.NeedData ∨
      t.prepareInitializeInputs.1 = Status.Ready) ∧
    (t.prepareInitializeInputs.1 = Status.NeedData ↔
      ∃ i, i < t.inputs.length ∧ inputSettled t.prepareInitializeInputs.2 i = false) ∧
    (t.prepareInitializeInputs.1 = Status.Ready →
      t.prepareInitializeInputs.2.is_initialized = true) ∧
    (t.prepareInitializeInputs.1 = Status.NeedData →
      t.prepareInitializeInputs.2.is_initialized = t.is_initialized) ∧
    t.prepareInitializeInputs.2.output = t.output ∧
    t.prepareInitializeInputs.2.state.output_chunk = t.state.output_chunk := by
  unfold prepareInitializeInputs
  simp only []
  generalize hv : (if t.input_states.isEmpty = true then
      { t with
          input_states := t.inputs.map (fun _ => (⟨false⟩ : InputState))
          state := { t.state with init_chunks := resize t.state.init_chunks t.inputs.length } }
    else t) = v
  have hv_in : v.inputs = t.inputs := by
    rw [← hv]; split <;> rfl
  have hv_len : v.input_states.length = v.inputs.length := by
    rw [← hv]
    split
    · simp
    · rename_i h
      rcases h_states with h0 | h0
      · simp [h0] at h
      · exact h0
  have hv_out : v.output = t.output ∧ v.state.output_chunk = t.state.output_chunk ∧
      v.is_initialized = t.is_initialized := by
    rw [← hv]; split <;> simp
  obtain ⟨l1, _, l3⟩ := initializeLoop_spec v hv_len v.inputs.length (le_refl _)
  generalize (List.range v.inputs.length).foldl initializeInput (v, true) = r at l1 l3
  obtain ⟨u, b⟩ := r
  simp only at l1 l3
  have hu_out : u.output = v.output := l1.1
  have hu_chunk : u.state.output_chunk = v.state.output_chunk := l1.2.2.2.2.2.1
  have hu_init : u.is_initialized = v.is_initialized := l1.2.2.2.1
  rw [← hv_in]
  cases b with
  | true =>
    have hall := l3.mp rfl
    simp only [Bool.not_true, Bool.false_eq_true, if_false]
    refine ⟨by simp, ?_, by simp, by simp, ?_, ?_⟩
    · constructor
      · intro h; simp at h
      · rintro ⟨i, hi, hs⟩
        have := hall i hi
        simp only [inputSettled] at this hs
        rw [this] at hs
        simp at hs
    · simp [hu_out, hv_out.1]
    · simp [hu_chunk, hv_out.2.1]
  | false =>
    simp only [Bool.not_false, if_true]
    refine ⟨by simp, ?_, by simp, ?_, ?_, ?_⟩
    · constructor
      · intro _
        by_contra hne
        push_neg at hne
        have : (false = true) := l3.mpr (fun j hj => by simpa using hne j hj)
        simp at this
      · intro _; trivial
    · simp [hu_init, hv_out.2.2]
    · simp [hu_out, hv_out.1]
    · simp [hu_chunk, hv_out.2.1]

@[simp] theorem pushIfHasData_inputs (t : IMergingTransformBase) (b : Bool) :
    (t.pushIfHasData b).inputs = t.inputs := by
  unfold pushIfHasData; split <;> rfl

@[simp] theorem pushIfHasData_input_states (t : IMergingTransformBase) (b : Bool) :
    (t.pushIfHasData b).input_states = t.input_states := by
  unfold pushIfHasData; split <;> rfl

@[simp] theorem pushIfHasData_is_initialized (t : IMergingTransformBase) (b : Bool) :
    (t.pushIfHasData b).is_initialized = t.is_initialized := by
  unfold pushIfHasData; split <;> rfl

@[simp] theorem pushIfHasData_on_finish_calls (t : IMergingTransformBase) (b : Bool) :
    (t.pushIfHasData b).on_finish_calls = t.on_finish_calls := by
  unfold pushIfHasData; split <;> rfl

@[simp] theorem pushIfHasData_is_finished (t : IMergingTransformBase) (b : Bool) :
    (t.pushIfHasData b).state.is_finished = t.state.is_finished := by
  unfold pushIfHasData; split <;> rfl

@[simp] theorem pushIfHasData_output_finished (t : IMergingTransformBase) (b : Bool) :
    (t.pushIfHasData b).output.finished = t.output.finished := by
  unfold pushIfHasData; split <;> rfl

theorem pushIfHasData_full (t : IMergingTransformBase) : t.pushIfHasData true = t := by
  simp [pushIfHasData]

theorem initializeInput_output (acc : IMergingTransformBase × Bool) (i : Nat) :
    (initializeInput acc i).1.output = acc.1.output ∧
    (initializeInput acc i).1.state.output_chunk = acc.1.state.output_chunk := by
  unfold initializeInput
  simp only []
  split_ifs <;> simp

theorem initializeLoop_output (l : List Nat) (acc : IMergingTransformBase × Bool) :
    (l.foldl initializeInput acc).1.output = acc.1.output ∧
    (l.foldl initializeInput acc).1.state.output_chunk = acc.1.state.output_chunk := by
  induction l generalizing acc with
  | nil => simp
  | cons i l ih =>
    simp only [List.foldl_cons]
    obtain ⟨a, b⟩ := ih (initializeInput acc i)
    obtain ⟨c, d⟩ := initializeInput_output acc i
    exact ⟨a.trans c, b.trans d⟩

theorem prepareInitializeInputs_output (t : IMergingTransformBase) :
    t.prepareInitializeInputs.2.output = t.output ∧
    t.prepareInitializeInputs.2.state.output_chunk = t.state.output_chunk := by
  unfold prepareInitializeInputs
  simp only []
  split_ifs <;> simp [initializeLoop_output]

theorem prepareInitializeInputs_spec_status (t : IMergingTransformBase) :
    t.prepareInitializeInputs.1 = Status.NeedData ∨
      t.prepareInitializeInputs.1 = Status.Ready := by
  unfold prepareInitializeInputs
  simp only []
  split_ifs <;> simp

theorem readNeededInput_output (t : IMergingTransformBase) :
    t.readNeededInput.2.output = t.output ∧
    t.readNeededInput.2.state.output_chunk = t.state.output_chunk := by
  unfold readNeededInput
  simp only []
  split_ifs <;> simp

/-- C9 (amended): on every call of `prepare` that gets past the `have_all_inputs`,
zero-input and output-finished guards, whatever status the call returns, if
`state.output_chunk` holds a chunk (rows, columns or chunk info) and the output port can
accept a push, the chunk is pushed to the output port during the call and the buffer is
left empty. -/
theorem prepare_eager_push (t : IMergingTransformBase)
    (h_all : t.have_all_inputs = true) (h_in : t.inputs ≠ [])
    (h_out : t.output.isFinished = false)
    (h_chunk : (t.state.output_chunk.toBool || t.state.output_chunk.hasChunkInfo) = true)
    (h_can : t.output.canPush = true) :
    t.prepare.2.output.data = some t.state.output_chunk ∧
    t.prepare.2.state.output_chunk = default := by
  have hu1 : (t.pushIfHasData false).output.data = some t.state.output_chunk := by
    simp only [pushIfHasData, h_chunk]; simp [OutputPort.push]
  have hu2 : (t.pushIfHasData false).state.output_chunk = default := by
    simp only [pushIfHasData, h_chunk]; simp
  unfold prepare
  simp only [h_all, h_in, h_out, h_can, Bool.not_true, Bool.false_eq_true, if_false,
    List.isEmpty_iff]
  generalize t.pushIfHasData false = u at hu1 hu2
  split_ifs
  · simp [prepareInitializeInputs_output, hu1, hu2]
  · simp [OutputPort.finish, hu1, hu2]
  · split <;> simp [readNeededInput_output, hu1, hu2]

theorem readNeededInput_status (t : IMergingTransformBase) (s : Status)
    (h : t.readNeededInput.1 = some s) : s = Status.NeedData := by
  unfold readNeededInput at h
  simp only [] at h
  split_ifs at h <;> simp_all

theorem prepareInitializeInputs_shape (t : IMergingTransformBase)
    (h_states : t.input_states = [] ∨ t.input_states.length = t.inputs.length) :
    t.prepareInitializeInputs.2.have_all_inputs = t.have_all_inputs ∧
    t.prepareInitializeInputs.2.inputs.length = t.inputs.length ∧
    t.prepareInitializeInputs.2.input_states.length = t.inputs.length := by
  unfold prepareInitializeInputs
  simp only []
  generalize hv : (if t.input_states.isEmpty = true then
      { t with
          input_states := t.inputs.map (fun _ => (⟨false⟩ : InputState))
          state := { t.state with init_chunks := resize t.state.init_chunks t.inputs.length } }
    else t) = v
  have hv_in : v.inputs = t.inputs := by
    rw [← hv]; split <;> rfl
  have hv_all : v.have_all_inputs = t.have_all_inputs := by
    rw [← hv]; split <;> rfl
  have hv_len : v.input_states.length = v.inputs.length := by
    rw [← hv]
    split
    · simp
    · rename_i h
      rcases h_states with h0 | h0
      · simp [h0] at h
      · exact h0
  obtain ⟨l1, _, _⟩ := initializeLoop_spec v hv_len v.inputs.length (le_refl _)
  have a1 := l1.2.1
  have a2 := l1.2.2.2.2.2.2.2.2.2.2.2.1
  have a3 := l1.2.2.2.2.2.2.2.2.2.2.2.2
  simp only [hv_in] at a1 a2 a3 hv_len ⊢
  split <;> simp only [a1, a2, a3, hv_all, hv_len, and_self]

theorem readNeededInput_shape (t : IMergingTransformBase) :
    t.readNeededInput.2.have_all_inputs = t.have_all_inputs ∧
    t.readNeededInput.2.is_initialized = t.is_initialized ∧
    t.readNeededInput.2.inputs.length = t.inputs.length ∧
    t.readNeededInput.2.input_states = t.input_states := by
  unfold readNeededInput
  simp only []
  split_ifs <;> simp

theorem consistent_construct (num_inputs : Nat) (have_all_inputs : Bool) (limit_hint : Nat) :
    Consistent (construct num_inputs have_all_inputs limit_hint) := by
  simp [Consistent, construct]

theorem consistent_setHaveAllInputs (t : IMergingTransformBase) (h : Consistent t) :
    Consistent t.setHaveAllInputs.1 := by
  unfold setHaveAllInputs
  split
  · exact h
  · rename_i hn
    refine ⟨fun _ => rfl, ?_⟩
    rcases h.2 with h0 | h0
    · exact Or.inl h0
    · exact absurd h0.1 hn

theorem consistent_addInput (t : IMergingTransformBase) (h : Consistent t) :
    Consistent (t.addInput onNewInput).1 := by
  unfold addInput onNewInput
  split
  · exact h
  · rename_i hn
    refine ⟨fun hi => absurd (h.1 hi) hn, ?_⟩
    rcases h.2 with h0 | h0
    · exact Or.inl h0
    · exact absurd h0.1 hn

/-- The invariant `Consistent` is kept by `prepare`. -/
theorem consistent_prepare (t : IMergingTransformBase) (h : Consistent t) :
    Consistent t.prepare.2 := by
  by_cases h1 : t.have_all_inputs = true
  swap
  · simp only [prepare, h1, Bool.not_false, if_true, Bool.false_eq_true]
    simpa using h
  have hst : t.input_states = [] ∨ t.input_states.length = t.inputs.length := by
    rcases h.2 with h0 | h0
    · exact Or.inl h0
    · exact Or.inr h0.2
  by_cases h2 : t.inputs = []
  · simp only [prepare, h1, h2, Bool.not_true, Bool.false_eq_true, if_false, List.isEmpty_nil,
      if_true]
    refine ⟨fun _ => rfl, ?_⟩
    rcases h.2 with h0 | h0
    · exact Or.inl h0
    · right; exact ⟨rfl, by rw [h0.2, h2]⟩
  by_cases h3 : t.output.isFinished = true
  · simp only [prepare, h1, h2, h3, Bool.not_true, Bool.false_eq_true, if_false,
      List.isEmpty_iff, if_true]
    refine ⟨fun _ => rfl, ?_⟩
    rcases h.2 with h0 | h0
    · exact Or.inl h0
    · right; exact ⟨rfl, by simp [h0.2]⟩
  simp only [prepare, h1, h2, h3, Bool.not_true, Bool.false_eq_true, if_false, List.isEmpty_iff]
  generalize hu : t.pushIfHasData (!t.output.canPush) = u
  have hu1 : u.inputs = t.inputs := by rw [← hu]; simp
  have hu2 : u.input_states = t.input_states := by rw [← hu]; simp
  have hu3 : u.have_all_inputs = true := by
    rw [← hu]; unfold pushIfHasData; split <;> exact h1
  have hcons : u.input_states = [] ∨ (u.have_all_inputs = true ∧
      u.input_states.length = u.inputs.length) := by
    rw [hu1, hu2]
    rcases h.2 with h0 | h0
    · exact Or.inl h0
    · exact Or.inr ⟨hu3, h0.2⟩
  split_ifs
  · obtain ⟨a1, a2, a3⟩ := prepareInitializeInputs_shape u (by rw [hu1, hu2]; exact hst)
    exact ⟨fun _ => by rw [a1]; exact hu3, Or.inr ⟨by rw [a1]; exact hu3, by rw [a2, a3]⟩⟩
  · exact ⟨fun _ => hu3, hcons⟩
  · refine ⟨fun _ => hu3, ?_⟩
    rcases hcons with h0 | h0
    · exact Or.inl h0
    · right; exact ⟨hu3, by simp [h0.2]⟩
  all_goals
    obtain ⟨a1, a2, a3, a4⟩ := readNeededInput_shape u
    split <;>
    · refine ⟨fun _ => by rw [a1]; exact hu3, ?_⟩
      rw [a1, a3, a4]
      exact hcons

/-- C4 (counterexample): `prepare` returns `Finished` while `output.canPush()` is false at
the point of return: on the completion path right after the buffered chunk was pushed into
the single-slot port, on the zero-input path of a freshly constructed transform, and on
the output-finished path. -/
theorem prepare_finished_while_port_occupied :
    bufferedCompleted.output.canPush = true ∧
    bufferedCompleted.prepare.1 = Status.Finished ∧
    bufferedCompleted.prepare.2.output.canPush = false ∧
    (construct 0 true 0).prepare.1 = Status.Finished ∧
    (construct 0 true 0).prepare.2.output.canPush = false ∧
    finishedDownstream.prepare.1 = Status.Finished ∧
    finishedDownstream.prepare.2.output.canPush = false := by
  decide

/-- C4 (amended): whenever `prepare` returns `Finished`, the output port is finished at the
point of return, and the call went through the zero-input path, or found the output
finished downstream, or took the completion path of an initialised transform whose output
port could accept a push when the call was entered (before the buffered chunk was
pushed). -/
theorem prepare_finished_cases (t : IMergingTransformBase)
    (h : t.prepare.1 = Status.Finished) :
    t.prepare.2.output.isFinished = true ∧
    (t.inputs = [] ∨ t.output.isFinished = true ∨
      (t.output.canPush = true ∧ t.is_initialized = true ∧ t.state.is_finished = true)) := by
  by_cases h1 : t.have_all_inputs = true
  swap
  · simp [prepare, h1] at h
  by_cases h2 : t.inputs = []
  · simp [prepare, h1, h2, OutputPort.finish, OutputPort.isFinished]
  by_cases h3 : t.output.isFinished = true
  · simp [prepare, h1, h2, h3]
  have h3f : t.output.finished = false := by simpa [OutputPort.isFinished] using h3
  by_cases h4 : t.is_initialized = true
  swap
  · exfalso
    simp only [prepare, h1, h2, h3, pushIfHasData_is_initialized, h4, List.isEmpty_iff,
      Bool.not_true, Bool.false_eq_true, if_false, Bool.not_eq_true', Bool.not_false,
      if_true] at h
    rcases prepareInitializeInputs_spec_status (t.pushIfHasData !t.output.canPush) with hs | hs <;>
      rw [hs] at h <;> simp at h
  by_cases h5 : t.state.is_finished = true
  · by_cases h6 : t.output.canPush = true
    · simp [prepare, h1, h2, h3f, h4, h5, h6, OutputPort.finish, OutputPort.isFinished]
    · simp [prepare, h1, h2, h3, h4, h5, h6] at h
  · exfalso
    simp only [prepare, h1, h2, h3, pushIfHasData_is_initialized, pushIfHasData_is_finished,
      h4, h5, List.isEmpty_iff, Bool.not_true, Bool.false_eq_true, if_false] at h
    revert h
    split
    · rename_i s hs
      have := readNeededInput_status _ s hs
      simp [this]
    · split_ifs <;> simp

theorem prepare_finished_cases_witness :
    bufferedCompleted.prepare.1 = Status.Finished ∧
    bufferedCompleted.prepare.2.output.isFinished = true ∧
    (bufferedCompleted.inputs = [] ∨ bufferedCompleted.output.isFinished = true ∨
      (bufferedCompleted.output.canPush = true ∧ bufferedCompleted.is_initialized = true ∧
        bufferedCompleted.state.is_finished = true)) :=
  ⟨by decide, prepare_finished_cases bufferedCompleted (by decide)⟩

/-- C5: after internal merge completion (a state of the kind `Consistent` describes, that
is, reached from the constructor, initialised, `state.is_finished` set, at least one input,
output not finished downstream): if the output port cannot accept
a push, `prepare` returns `PortFull` and leaves the whole transform unchanged (no input is
closed, the output is not finished); if it can, `prepare` closes every input, finishes the
output port, invokes `onFinish` and returns `Finished`.  Hence, over repeated calls that
find the output port in the states `ps ++ [q]`, it returns `PortFull` for every port that
cannot accept a push and `Finished` on the first one that can. -/
theorem prepare_after_merge_completion (t : IMergingTransformBase)
    (h_cons : Consistent t) (h_init : t.is_initialized = true)
    (h_fin : t.state.is_finished = true) (h_in : t.inputs ≠ [])
    (h_out : t.output.isFinished = false) :
    (t.output.canPush = false → t.prepare = (Status.PortFull, t)) ∧
    (t.output.canPush = true →
      t.prepare.1 = Status.Finished ∧
      t.prepare.2.inputs = t.inputs.map InputPort.close ∧
      t.prepare.2.output.isFinished = true ∧
      t.prepare.2.on_finish_calls = t.on_finish_calls + 1) ∧
    (∀ (ps : List OutputPort) (q : OutputPort),
      (∀ p ∈ ps, p.canPush = false ∧ p.isFinished = false) →
      q.canPush = true → q.isFinished = false →
      (t.prepareWithOutputs (ps ++ [q])).1
        = List.replicate ps.length Status.PortFull ++ [Status.Finished]) := by
  have h_all : t.have_all_inputs = true := h_cons.1 h_init
  clear h_cons
  have full : ∀ u : IMergingTransformBase, u.have_all_inputs = true → u.is_initialized = true →
      u.state.is_finished = true → u.inputs ≠ [] → u.output.isFinished = false →
      u.output.canPush = false → u.prepare = (Status.PortFull, u) := by
    intro u a b c d e f
    simp [prepare, a, b, c, d, e, f, pushIfHasData_full]
  have free : ∀ u : IMergingTransformBase, u.have_all_inputs = true → u.is_initialized = true →
      u.state.is_finished = true → u.inputs ≠ [] → u.output.isFinished = false →
      u.output.canPush = true → u.prepare.1 = Status.Finished ∧
      u.prepare.2.inputs = u.inputs.map InputPort.close ∧
      u.prepare.2.output.isFinished = true ∧
      u.prepare.2.on_finish_calls = u.on_finish_calls + 1 := by
    intro u a b c d e f
    have e2 : u.output.finished = false := e
    simp [prepare, a, b, c, d, e2, f, OutputPort.finish, OutputPort.isFinished]
  refine ⟨full t h_all h_init h_fin h_in h_out, free t h_all h_init h_fin h_in h_out, ?_⟩
  intro ps
  induction ps generalizing t with
  | nil =>
    intro q _ hq1 hq2
    simp [prepareWithOutputs, (free { t with output := q } h_all h_init h_fin h_in hq2 hq1).1]
  | cons p ps ih =>
    intro q hps hq1 hq2
    have hp := hps p (List.mem_cons_self _ _)
    have hcall := full { t with output := p } h_all h_init h_fin h_in hp.2 hp.1
    simp only [List.cons_append, prepareWithOutputs, hcall, List.length_cons,
      List.replicate_succ]
    congr 1
    exact ih { t with output := p } h_init h_fin h_in hp.2 h_all q
      (fun p' hp' => hps p' (List.mem_cons_of_mem _ hp')) hq1 hq2

theorem prepare_after_merge_completion_witness :
    completedPortFull.prepare = (Status.PortFull, completedPortFull) ∧
    bufferedCompleted.prepare.1 = Status.Finished ∧
    (completedPortFull.prepareWithOutputs
      [⟨false, none, false⟩, ⟨true, some (oneColumnChunk [3]), false⟩, ⟨true, none, false⟩]).1
      = [Status.PortFull, Status.PortFull, Status.Finished] :=
  ⟨(prepare_after_merge_completion completedPortFull (by decide) (by decide) (by decide)
      (by decide) (by decide)).1 (by decide),
    ((prepare_after_merge_completion bufferedCompleted (by decide) (by decide) (by decide)
      (by decide) (by decide)).2.1 (by decide)).1,
    (prepare_after_merge_completion completedPortFull (by decide) (by decide) (by decide)
      (by decide) (by decide)).2.2
      [⟨false, none, false⟩, ⟨true, some (oneColumnChunk [3]), false⟩] ⟨true, none, false⟩
      (by decide) (by decide) (by decide)⟩

/-- C6 (counterexample): a transform constructed with zero inputs and the constructor flag
`have_all_inputs = false` returns `NeedData` on its first `prepare`, without finishing the
output port or invoking `onFinish`. -/
theorem prepare_zero_inputs_not_finalized :
    (construct 0 false 0).inputs = [] ∧
    (construct 0 false 0).prepare.1 = Status.NeedData ∧
    (construct 0 false 0).prepare.2.output.isFinished = false ∧
    (construct 0 false 0).prepare.2.on_finish_calls = 0 := by
  decide

/-- C6 (amended): for every transform with zero inputs, any `limit_hint` and any output
port state: once the inputs are finalized (`have_all_inputs` set by the constructor flag
or by `setHaveAllInputs`), `prepare` finishes the output port, invokes the `onFinish` hook
and returns `Finished`; while `have_all_inputs` is false it returns `NeedData` and changes
nothing. -/
theorem prepare_zero_inputs (t : IMergingTransformBase) (h_in : t.inputs = []) :
    (t.have_all_inputs = true →
      t.prepare = (Status.Finished,
        { t with output := t.output.finish, on_finish_calls := t.on_finish_calls + 1 }) ∧
      t.prepare.2.output.isFinished = true) ∧
    (t.have_all_inputs = false → t.prepare = (Status.NeedData, t)) := by
  constructor
  · intro h_all
    simp [prepare, h_all, h_in, OutputPort.finish, OutputPort.isFinished]
  · intro h_all
    simp [prepare, h_all]

theorem prepare_zero_inputs_witness :
    (construct 0 true 5).prepare.1 = Status.Finished ∧
    (construct 0 true 5).prepare.2.output.isFinished = true ∧
    (construct 0 true 5).prepare.2.on_finish_calls = 1 ∧
    (construct 0 false 5).setHaveAllInputs.1.prepare.1 = Status.Finished ∧
    (construct 0 false 5).prepare = (Status.NeedData, construct 0 false 5) :=
  ⟨congrArg Prod.fst ((prepare_zero_inputs (construct 0 true 5) (by decide)).1 (by decide)).1,
    ((prepare_zero_inputs (construct 0 true 5) (by decide)).1 (by decide)).2, by decide,
    congrArg Prod.fst
      ((prepare_zero_inputs (construct 0 false 5).setHaveAllInputs.1 (by decide)).1
        (by decide)).1,
    (prepare_zero_inputs (construct 0 false 5) (by decide)).2 (by decide)⟩

/-- C7 (counterexample): with one input that is neither initialised nor finished and an
output port finished downstream, `prepare` returns `Finished`, not `NeedData`, and does not
set `is_initialized`. -/
theorem prepare_finished_before_initialization :
    finishedDownstream.inputs.length = 1 ∧
    finishedDownstream.inputSettled 0 = false ∧
    finishedDownstream.prepare.1 = Status.Finished ∧
    finishedDownstream.prepare.2.is_initialized = false := by
  decide

/-- C7 (amended): with N >= 1 inputs, an output port not finished downstream and
initialisation not yet completed, a call of `prepare` returns `NeedData` as long as, after
its pulls, some input has neither yielded a non-empty first chunk nor finished; a call that
returns another status returns `Ready`, leaves every input initialised or finished, and
sets `is_initialized`; a call that returns `NeedData` leaves `is_initialized` unset.
(The state is of the kind `Consistent` describes: reached from the constructor.) -/
theorem prepare_until_initialized (t : IMergingTransformBase)
    (h_in : t.inputs ≠ []) (h_out : t.output.isFinished = false)
    (h_ninit : t.is_initialized = false) (h_cons : Consistent t) :
    ((∃ i, i < t.inputs.length ∧ inputSettled t.prepare.2 i = false) →
      t.prepare.1 = Status.NeedData) ∧
    (t.prepare.1 ≠ Status.NeedData →
      t.prepare.1 = Status.Ready ∧
      (∀ i, i < t.inputs.length → inputSettled t.prepare.2 i = true) ∧
      t.prepare.2.is_initialized = true) ∧
    (t.prepare.1 = Status.NeedData → t.prepare.2.is_initialized = false) ∧
    (t.have_all_inputs = true →
      (t.prepare.1 = Status.NeedData ↔
        ∃ i, i < t.inputs.length ∧ inputSettled t.prepare.2 i = false)) := by
  have h_states : t.input_states = [] ∨ t.input_states.length = t.inputs.length := by
    rcases h_cons.2 with h0 | h0
    · exact Or.inl h0
    · exact Or.inr h0.2
  by_cases h_all : t.have_all_inputs = true
  swap
  · simp [prepare, h_all, h_ninit]
  have hprep : t.prepare = (t.pushIfHasData (!t.output.canPush)).prepareInitializeInputs := by
    simp [prepare, h_all, h_in, h_out, h_ninit]
  rw [hprep]
  generalize hu : t.pushIfHasData (!t.output.canPush) = u
  have hu1 : u.inputs = t.inputs := by rw [← hu]; simp
  have hu2 : u.input_states = t.input_states := by rw [← hu]; simp
  have hu3 : u.is_initialized = false := by rw [← hu]; simpa using h_ninit
  obtain ⟨s1, s2, s3, s4, _, _⟩ := prepareInitializeInputs_spec u (by rw [hu1, hu2]; exact h_states)
  rw [hu1] at s2
  refine ⟨s2.mpr, fun hne => ?_, fun h => by rw [s4 h, hu3], fun _ => s2⟩
  have hr : u.prepareInitializeInputs.1 = Status.Ready := by
    rcases s1 with h | h
    · exact absurd h hne
    · exact h
  refine ⟨hr, fun i hi => ?_, s3 hr⟩
  by_contra hns
  have : u.prepareInitializeInputs.1 = Status.NeedData :=
    s2.mpr ⟨i, hi, by simpa using hns⟩
  exact hne this

theorem prepare_until_initialized_witness :
    waitingForInput.prepare.1 = Status.NeedData ∧
    waitingForInput.prepare.2.is_initialized = false ∧
    initCompleting.prepare.1 = Status.Ready ∧
    initCompleting.prepare.2.is_initialized = true :=
  ⟨(prepare_until_initialized waitingForInput (by decide) (by decide) (by decide)
      (by decide)).1 ⟨0, by decide, by decide⟩,
    (prepare_until_initialized waitingForInput (by decide) (by decide) (by decide)
      (by decide)).2.2.1 (by decide),
    ((prepare_until_initialized initCompleting (by decide) (by decide) (by decide)
      (by decide)).2.1 (by decide)).1,
    ((prepare_until_initialized initCompleting (by decide) (by decide) (by decide)
      (by decide)).2.1 (by decide)).2.2⟩

/-- C8 (counterexample): the call that completes input initialisation returns `Ready`
although the output port cannot accept a push, and a call that has just pushed the buffered
chunk returns `Ready` although the port is occupied at the moment of return. -/
theorem prepare_ready_while_port_occupied :
    initCompleting.output.canPush = false ∧
    initCompleting.prepare.1 = Status.Ready ∧
    initCompleting.prepare.2.output.canPush = false ∧
    bufferedReady.prepare.1 = Status.Ready ∧
    bufferedReady.prepare.2.output.canPush = false := by
  decide

/-- C8 (amended): on an already initialised transform, whenever `prepare` returns `Ready`
the output port could accept a push when the call was entered (`is_port_full` is sampled
once, before the buffered chunk is pushed), and whenever a call gets past the zero-input,
output-finished, completion and need-data steps with an output port that could not accept
a push at entry it returns `PortFull`. -/
theorem prepare_final_step (t : IMergingTransformBase) (h_init : t.is_initialized = true) :
    (t.prepare.1 = Status.Ready → t.output.canPush = true) ∧
    (t.have_all_inputs = true → t.inputs ≠ [] → t.output.isFinished = false →
      t.state.is_finished = false → t.readNeededInput.1 = none →
      t.output.canPush = false → t.prepare.1 = Status.PortFull) := by
  constructor
  · intro h
    by_cases h1 : t.have_all_inputs = true
    swap
    · simp [prepare, h1] at h
    by_cases h2 : t.inputs = []
    · simp [prepare, h1, h2] at h
    by_cases h3 : t.output.isFinished = true
    · simp [prepare, h1, h2, h3] at h
    by_cases h5 : t.state.is_finished = true
    · by_cases h6 : t.output.canPush = true
      · exact h6
      · simp [prepare, h1, h2, h3, h_init, h5, h6] at h
    · by_contra h6
      simp only [prepare, h1, h2, h3, pushIfHasData_is_initialized, pushIfHasData_is_finished,
        h_init, h5, h6, List.isEmpty_iff, Bool.not_true, Bool.false_eq_true, if_false,
        Bool.not_false, if_true] at h
      revert h
      split
      · rename_i s hs
        have := readNeededInput_status _ s hs
        simp [this]
      · simp
  · intro h1 h2 h3 h5 h7 h6
    simp [prepare, h1, h2, h3, h_init, h5, h6, pushIfHasData_full, h7]

theorem prepare_final_step_witness :
    bufferedReady.prepare.1 = Status.Ready ∧ bufferedReady.output.canPush = true ∧
    steadyPortFull.prepare.1 = Status.PortFull :=
  ⟨by decide, (prepare_final_step bufferedReady (by decide)).1 (by decide),
    (prepare_final_step steadyPortFull (by decide)).2 (by decide) (by decide) (by decide)
      (by decide) (by decide) (by decide)⟩

/-- C9 (counterexample): before `setHaveAllInputs`, `prepare` returns `NeedData` without
pushing, and a call that finds the output finished returns `Finished` without pushing: the
buffered chunk stays in `state.output_chunk` although the output port can accept a push. -/
theorem prepare_no_push_before_finalization :
    (notFinalized.state.output_chunk.toBool || notFinalized.state.output_chunk.hasChunkInfo) = true ∧
    notFinalized.output.canPush = true ∧
    notFinalized.prepare.1 = Status.NeedData ∧
    notFinalized.prepare.2.output.data = none ∧
    notFinalized.prepare.2.state.output_chunk = notFinalized.state.output_chunk ∧
    bufferedFinishedDownstream.state.output_chunk.toBool = true ∧
    bufferedFinishedDownstream.output.canPush = true ∧
    bufferedFinishedDownstream.prepare.1 = Status.Finished ∧
    bufferedFinishedDownstream.prepare.2.output.data = none ∧
    bufferedFinishedDownstream.prepare.2.state.output_chunk
      = bufferedFinishedDownstream.state.output_chunk := by
  decide

theorem prepare_eager_push_witness :
    bufferedReady.prepare.2.output.data = some bufferedReady.state.output_chunk ∧
    bufferedReady.prepare.2.state.output_chunk = default :=
  prepare_eager_push bufferedReady (by decide) (by decide) (by decide) (by decide) (by decide)

@[simp] theorem pushIfHasData_need_data (t : IMergingTransformBase) (b : Bool) :
    (t.pushIfHasData b).state.need_data = t.state.need_data := by
  unfold pushIfHasData; split <;> rfl

@[simp] theorem pushIfHasData_next_input (t : IMergingTransformBase) (b : Bool) :
    (t.pushIfHasData b).state.next_input_to_read = t.state.next_input_to_read := by
  unfold pushIfHasData; split <;> rfl

@[simp] theorem pushIfHasData_has_input (t : IMergingTransformBase) (b : Bool) :
    (t.pushIfHasData b).state.has_input = t.state.has_input := by
  unfold pushIfHasData; split <;> rfl

@[simp] theorem pushIfHasData_input_chunk (t : IMergingTransformBase) (b : Bool) :
    (t.pushIfHasData b).state.input_chunk = t.state.input_chunk := by
  unfold pushIfHasData; split <;> rfl

@[simp] theorem pushIfHasData_have_all_inputs (t : IMergingTransformBase) (b : Bool) :
    (t.pushIfHasData b).have_all_inputs = t.have_all_inputs := by
  unfold pushIfHasData; split <;> rfl

/-- In a state that reaches the block `if (state.need_data)`, `prepare` is that block
followed by the final `PortFull` / `Ready` decision. -/
theorem prepare_steady (t : IMergingTransformBase)
    (h_all : t.have_all_inputs = true) (h_in : t.inputs ≠ [])
    (h_out : t.output.isFinished = false) (h_init : t.is_initialized = true)
    (h_fin : t.state.is_finished = false) :
    prepare t =
      match (t.pushIfHasData (!t.output.canPush)).readNeededInput.1 with
      | some status => (status, (t.pushIfHasData (!t.output.canPush)).readNeededInput.2)
      | none =>
        (if t.output.canPush then Status.Ready else Status.PortFull,
          (t.pushIfHasData (!t.output.canPush)).readNeededInput.2) := by
  have hne : t.inputs.isEmpty = false := by
    cases hi : t.inputs with
    | nil => exact absurd hi h_in
    | cons a l => rfl
  unfold prepare
  simp only [h_all, hne, h_out, Bool.not_true, Bool.false_eq_true, if_false,
    pushIfHasData_is_initialized, h_init, pushIfHasData_is_finished, h_fin]
  cases (t.pushIfHasData (!t.output.canPush)).readNeededInput.1 with
  | some s => rfl
  | none =>
    cases hc : t.output.canPush <;> simp

/-- The block `if (state.need_data)` when `need_data` is set, by the state of the
requested input port. -/
theorem readNeededInput_cases (u : IMergingTransformBase) (h_need : u.state.need_data = true) :
    ((u.inputs.getD u.state.next_input_to_read default).isFinished = true →
      u.readNeededInput = (none, { u with state := { u.state with need_data := false } })) ∧
    ((u.inputs.getD u.state.next_input_to_read default).isFinished = false →
      (u.inputs.getD u.state.next_input_to_read default).data = none →
      u.readNeededInput = (some Status.NeedData,
        { u with inputs := u.inputs.set u.state.next_input_to_read
                  (u.inputs.getD u.state.next_input_to_read default).setNeeded })) ∧
    (∀ ch, (u.inputs.getD u.state.next_input_to_read default).isFinished = false →
      (u.inputs.getD u.state.next_input_to_read default).data = some ch →
      u.readNeededInput =
        if ch.hasRows = false ∧
            (u.inputs.getD u.state.next_input_to_read default).finished = false then
          (some Status.NeedData,
            { u with
                inputs := u.inputs.set u.state.next_input_to_read
                  ((u.inputs.getD u.state.next_input_to_read default).setNeeded.pull false).2
                state := { u.state with input_chunk := ⟨ch⟩ } })
        else
          (none,
            { u with
                inputs := u.inputs.set u.state.next_input_to_read
                  ((u.inputs.getD u.state.next_input_to_read default).setNeeded.pull false).2
                state := { u.state with
                  input_chunk := ⟨ch⟩, has_input := true, need_data := false } })) := by
  unfold readNeededInput
  simp only [h_need, if_true]
  generalize u.inputs.getD u.state.next_input_to_read default = p
  rcases p with ⟨n, d, f, c, hs⟩
  refine ⟨fun hf => ?_, fun hf hd => ?_, fun ch hf hd => ?_⟩
  · simp [hf]
  · simp only at hd
    subst hd
    simp [hf, InputPort.hasData, InputPort.setNeeded]
  · simp only at hd
    subst hd
    have hc : c = false := by
      cases c
      · rfl
      · simp [InputPort.isFinished] at hf
    subst hc
    cases hr : ch.hasRows <;> cases f <;>
      simp [hf, InputPort.hasData, InputPort.setNeeded, InputPort.pull, InputPort.isFinished, hr]

/-- A call of `prepare` that returns `Finished` leaves the output port finished; the
inputs were finalized. -/
theorem prepare_finished_output (t : IMergingTransformBase)
    (h : (prepare t).1 = Status.Finished) :
    (prepare t).2.have_all_inputs = true ∧ (prepare t).2.output.finished = true := by
  by_cases h1 : t.have_all_inputs = true
  swap
  · simp [prepare, h1] at h
  by_cases h2 : t.inputs = []
  · simp [prepare, h1, h2, OutputPort.finish]
  by_cases h3 : t.output.isFinished = true
  · have h3x : t.output.finished = true := h3
    simp [prepare, h1, h2, h3, h3x]
  have h3f : t.output.finished = false := by simpa [OutputPort.isFinished] using h3
  by_cases h4 : t.is_initialized = true
  swap
  · exfalso
    simp only [prepare, h1, h2, h3, pushIfHasData_is_initialized, h4, List.isEmpty_iff,
      Bool.not_true, Bool.false_eq_true, if_false, Bool.not_eq_true', Bool.not_false,
      if_true] at h
    rcases prepareInitializeInputs_spec_status (t.pushIfHasData !t.output.canPush) with hs | hs <;>
      rw [hs] at h <;> simp at h
  by_cases h5 : t.state.is_finished = true
  · by_cases h6 : t.output.canPush = true
    · simp [prepare, h1, h2, h3f, h4, h5, h6, OutputPort.finish, OutputPort.isFinished]
    · simp [prepare, h1, h2, h3, h4, h5, h6] at h
  · exfalso
    simp only [prepare, h1, h2, h3, pushIfHasData_is_initialized, pushIfHasData_is_finished,
      h4, h5, List.isEmpty_iff, Bool.not_true, Bool.false_eq_true, if_false] at h
    revert h
    split
    · rename_i s hs
      have := readNeededInput_status _ s hs
      simp [this]
    · split_ifs <;> simp

/-- With the inputs finalized and the output port finished, `prepare` returns `Finished`
and leaves the output port as it found it. -/
theorem prepare_of_finished_output (u : IMergingTransformBase)
    (h_all : u.have_all_inputs = true) (h_out : u.output.finished = true) :
    (prepare u).1 = Status.Finished ∧ (prepare u).2.output = u.output ∧
    (prepare u).2.have_all_inputs = true := by
  have hfin : u.output.finish = u.output := by
    cases hu : u.output with
    | mk n d f =>
      rw [hu] at h_out
      simp only at h_out
      subst h_out
      rfl
  by_cases h2 : u.inputs = []
  · simp [prepare, h_all, h2, hfin]
  · have h3 : u.output.isFinished = true := h_out
    simp [prepare, h_all, h2, h3]

theorem prepareWithPorts_finished :
    ∀ (ports : List (List InputPort × OutputPort)) (u : IMergingTransformBase),
      u.have_all_inputs = true → (∀ p ∈ ports, p.2.finished = true) →
      ∀ r ∈ prepareWithPorts u ports, r.1 = Status.Finished ∧ r.2.2 = r.2.1 := by
  intro ports
  induction ports with
  | nil => intro u _ _ r hr; simp [prepareWithPorts] at hr
  | cons p ps ih =>
    intro u h_all h_ports r hr
    obtain ⟨f1, f2, f3⟩ := prepare_of_finished_output { u with inputs := p.1, output := p.2 }
      h_all (h_ports p (List.mem_cons_self _ _))
    simp only [prepareWithPorts, List.mem_cons] at hr
    rcases hr with hr | hr
    · subst hr
      exact ⟨f1, f2⟩
    · exact ih _ f3 (fun q hq => h_ports q (List.mem_cons_of_mem _ hq)) r hr

/-- C15: once the inputs are finalized (`have_all_inputs` is true, from the constructor
flag or after a successful `setHaveAllInputs`), `addInput` raises `LOGICAL_ERROR` and
leaves the transform, in particular the list of input ports, unchanged, whatever the
`onNewInput` hook in force would do (it is not called); a further `setHaveAllInputs` raises
`LOGICAL_ERROR` too and leaves `have_all_inputs` true. -/
theorem finalized_inputs_reject_changes
    (hook : IMergingTransformBase → IMergingTransformBase × Option ErrorCode)
    (t : IMergingTransformBase) (h : t.have_all_inputs = true) :
    addInput hook t = (t, some ErrorCode.LOGICAL_ERROR) ∧
    (addInput hook t).1.inputs = t.inputs ∧
    setHaveAllInputs t = (t, some ErrorCode.LOGICAL_ERROR) ∧
    (setHaveAllInputs t).1.have_all_inputs = true ∧
    (∀ n l, (construct n true l).have_all_inputs = true) ∧
    (∀ u : IMergingTransformBase, (setHaveAllInputs u).1.have_all_inputs = true) := by
  refine ⟨by simp [addInput, h], by simp [addInput, h], by simp [setHaveAllInputs, h],
    by simp [setHaveAllInputs, h], fun _ _ => rfl, fun u => ?_⟩
  unfold setHaveAllInputs
  by_cases hu : u.have_all_inputs = true
  · simp [hu]
  · simp [hu]

theorem finalized_inputs_reject_changes_witness :
    addInput acceptingHook (setHaveAllInputs (construct 2 false 0)).1
      = ((setHaveAllInputs (construct 2 false 0)).1, some ErrorCode.LOGICAL_ERROR) ∧
    (addInput acceptingHook (setHaveAllInputs (construct 2 false 0)).1).1.inputs
      = (setHaveAllInputs (construct 2 false 0)).1.inputs ∧
    setHaveAllInputs (setHaveAllInputs (construct 2 false 0)).1
      = ((setHaveAllInputs (construct 2 false 0)).1, some ErrorCode.LOGICAL_ERROR) ∧
    (setHaveAllInputs (setHaveAllInputs (construct 2 false 0)).1).1.have_all_inputs = true ∧
    (∀ n l, (construct n true l).have_all_inputs = true) ∧
    (∀ u : IMergingTransformBase, (setHaveAllInputs u).1.have_all_inputs = true) :=
  finalized_inputs_reject_changes acceptingHook (setHaveAllInputs (construct 2 false 0)).1 rfl

/-- C16 (counterexample): on a transform constructed with one input and inputs not
finalized, `addInput` over the base `onNewInput` raises `NOT_IMPLEMENTED`, which is not the
`LOGICAL_ERROR` raised after finalization. -/
theorem addInput_base_hook_not_logical_error :
    (addInput onNewInput (construct 1 false 0)).2 = some ErrorCode.NOT_IMPLEMENTED ∧
    (addInput onNewInput (construct 1 false 0)).2 ≠ some ErrorCode.LOGICAL_ERROR ∧
    (addInput onNewInput (construct 1 true 0)).2 = some ErrorCode.LOGICAL_ERROR := by
  decide

/-- C16 (amended): for every not-yet-finalized transform using the base `onNewInput`,
`addInput` raises an error of the `NOT_IMPLEMENTED` kind (not the `LOGICAL_ERROR` kind of
adding an input after finalization); the new input port has been appended to the input
list when the hook raises, and the inputs stay not finalized. -/
theorem addInput_base_hook_not_implemented (t : IMergingTransformBase)
    (h : t.have_all_inputs = false) :
    (addInput onNewInput t).2 = some ErrorCode.NOT_IMPLEMENTED ∧
    (addInput onNewInput t).2 ≠ some ErrorCode.LOGICAL_ERROR ∧
    (addInput onNewInput t).1 = { t with inputs := t.inputs ++ [default] } ∧
    (addInput onNewInput t).1.have_all_inputs = false := by
  simp [addInput, onNewInput, h]

theorem addInput_base_hook_not_implemented_witness :
    (addInput onNewInput (construct 1 false 0)).2 = some ErrorCode.NOT_IMPLEMENTED ∧
    (addInput onNewInput (construct 1 false 0)).2 ≠ some ErrorCode.LOGICAL_ERROR ∧
    (addInput onNewInput (construct 1 false 0)).1
      = { construct 1 false 0 with inputs := (construct 1 false 0).inputs ++ [default] } ∧
    (addInput onNewInput (construct 1 false 0)).1.have_all_inputs = false :=
  addInput_base_hook_not_implemented (construct 1 false 0) rfl

/-- C17: in every state with the inputs finalized and at least one input, if the output
port is finished when `prepare` is called, the call returns `Finished`, closes every input
port, invokes `onFinish` once, and changes nothing else: no input is pulled (slot and
pull log of every port are as before), nothing is pushed (the output port and the
buffered `state.output_chunk` are as before), whatever `is_initialized`, `state.need_data`
and `state.is_finished` are. -/
theorem prepare_output_finished_downstream (t : IMergingTransformBase)
    (h_all : t.have_all_inputs = true) (h_in : t.inputs ≠ [])
    (h_out : t.output.isFinished = true) :
    (prepare t).1 = Status.Finished ∧
    (prepare t).2 = { t with inputs := t.inputs.map InputPort.close,
                             on_finish_calls := t.on_finish_calls + 1 } ∧
    (prepare t).2.inputs.length = t.inputs.length ∧
    (∀ p ∈ (prepare t).2.inputs, p.closed = true ∧ p.isFinished = true) ∧
    (prepare t).2.inputs.map (fun p => (p.data, p.pull_hints, p.is_needed, p.finished))
      = t.inputs.map (fun p => (p.data, p.pull_hints, p.is_needed, p.finished)) ∧
    (prepare t).2.output = t.output ∧ (prepare t).2.state = t.state ∧
    (prepare t).2.on_finish_calls = t.on_finish_calls + 1 := by
  have hne : t.inputs.isEmpty = false := by
    cases hi : t.inputs with
    | nil => exact absurd hi h_in
    | cons a l => rfl
  have hp : prepare t = (Status.Finished,
      { t with inputs := t.inputs.map InputPort.close,
               on_finish_calls := t.on_finish_calls + 1 }) := by
    simp [prepare, h_all, hne, h_out]
  rw [hp]
  refine ⟨rfl, rfl, by simp, ?_, ?_, rfl, rfl, rfl⟩
  · intro p hp
    simp only [List.mem_map] at hp
    obtain ⟨q, _, rfl⟩ := hp
    simp [InputPort.close, InputPort.isFinished]
  · simp [List.map_map, Function.comp_def, InputPort.close]

theorem prepare_output_finished_downstream_witness :
    (prepare bufferedFinishedDownstream).1 = Status.Finished ∧
    (prepare bufferedFinishedDownstream).2
      = { bufferedFinishedDownstream with
            inputs := bufferedFinishedDownstream.inputs.map InputPort.close,
            on_finish_calls := bufferedFinishedDownstream.on_finish_calls + 1 } ∧
    (prepare bufferedFinishedDownstream).2.inputs.length
      = bufferedFinishedDownstream.inputs.length ∧
    (∀ p ∈ (prepare bufferedFinishedDownstream).2.inputs,
      p.closed = true ∧ p.isFinished = true) ∧
    (prepare bufferedFinishedDownstream).2.inputs.map
        (fun p => (p.data, p.pull_hints, p.is_needed, p.finished))
      = bufferedFinishedDownstream.inputs.map
        (fun p => (p.data, p.pull_hints, p.is_needed, p.finished)) ∧
    (prepare bufferedFinishedDownstream).2.output = bufferedFinishedDownstream.output ∧
    (prepare bufferedFinishedDownstream).2.state = bufferedFinishedDownstream.state ∧
    (prepare bufferedFinishedDownstream).2.on_finish_calls
      = bufferedFinishedDownstream.on_finish_calls + 1 :=
  prepare_output_finished_downstream bufferedFinishedDownstream (by decide) (by decide)
    (by decide)

/-- C18 (counterexample): initialised, merge not completed, `need_data` set for input 0,
which is already finished: `prepare` returns `Ready` and clears `need_data` although the
input was not marked needed, nothing was pulled and no chunk was handed to the subclass
state (`has_input` stays false, `input_chunk` is untouched). -/
theorem prepare_need_data_cleared_without_chunk :
    needDataFinishedInput.is_initialized = true ∧
    needDataFinishedInput.state.is_finished = false ∧
    needDataFinishedInput.state.need_data = true ∧
    needDataFinishedInput.state.next_input_to_read = 0 ∧
    (prepare needDataFinishedInput).1 = Status.Ready ∧
    (prepare needDataFinishedInput).2.state.need_data = false ∧
    (prepare needDataFinishedInput).2.state.has_input = false ∧
    (prepare needDataFinishedInput).2.state.input_chunk = needDataFinishedInput.state.input_chunk ∧
    (prepare needDataFinishedInput).2.inputs = needDataFinishedInput.inputs ∧
    ((prepare needDataFinishedInput).2.inputs.getD 0 default).is_needed = false := by
  decide

/-- C18 (amended): in an initialised, not-completed state with the inputs finalized, at
least one input and the output port not finished, where `state.need_data` is set for input
`i = state.next_input_to_read`: if input `i` is already finished, `prepare` neither marks
it needed nor pulls, and clears `need_data` without handing over a chunk; otherwise it
marks input `i` needed; if input `i` has no data it returns `NeedData` with `need_data`
still set; otherwise it pulls one chunk, and if that chunk is empty while input `i` is not
finished it returns `NeedData` with `need_data` still set and `has_input` unchanged;
otherwise the pulled chunk is handed to the subclass state (`state.input_chunk` holds it,
`state.has_input` is true) and `need_data` is cleared.  So `need_data` is cleared only in a
call that handed a chunk to the subclass state or found input `i` finished. -/
theorem prepare_need_data_step (t : IMergingTransformBase)
    (h_all : t.have_all_inputs = true) (h_in : t.inputs ≠ [])
    (h_out : t.output.isFinished = false) (h_init : t.is_initialized = true)
    (h_fin : t.state.is_finished = false) (h_need : t.state.need_data = true)
    (h_idx : t.state.next_input_to_read < t.inputs.length) :
    ((t.inputs.getD t.state.next_input_to_read default).isFinished = true →
      (prepare t).1 = (if t.output.canPush then Status.Ready else Status.PortFull) ∧
      (prepare t).2.inputs = t.inputs ∧
      (prepare t).2.state.need_data = false ∧
      (prepare t).2.state.has_input = t.state.has_input ∧
      (prepare t).2.state.input_chunk = t.state.input_chunk) ∧
    ((t.inputs.getD t.state.next_input_to_read default).isFinished = false →
      ((prepare t).2.inputs.getD t.state.next_input_to_read default).is_needed = true ∧
      ((t.inputs.getD t.state.next_input_to_read default).data = none →
        (prepare t).1 = Status.NeedData ∧
        (prepare t).2.inputs = t.inputs.set t.state.next_input_to_read
          (t.inputs.getD t.state.next_input_to_read default).setNeeded ∧
        (prepare t).2.state.need_data = true ∧
        (prepare t).2.state.has_input = t.state.has_input ∧
        (prepare t).2.state.input_chunk = t.state.input_chunk) ∧
      (∀ ch, (t.inputs.getD t.state.next_input_to_read default).data = some ch →
        (prepare t).2.inputs = t.inputs.set t.state.next_input_to_read
          { (t.inputs.getD t.state.next_input_to_read default) with
              is_needed := true, data := none,
              pull_hints := false ::
                (t.inputs.getD t.state.next_input_to_read default).pull_hints } ∧
        (prepare t).2.state.input_chunk = ⟨ch⟩ ∧
        (ch.hasRows = false ∧
            ((prepare t).2.inputs.getD t.state.next_input_to_read default).isFinished = false →
          (prepare t).1 = Status.NeedData ∧
          (prepare t).2.state.need_data = true ∧
          (prepare t).2.state.has_input = t.state.has_input) ∧
        (¬ (ch.hasRows = false ∧
            ((prepare t).2.inputs.getD t.state.next_input_to_read default).isFinished = false) →
          (prepare t).1 = (if t.output.canPush then Status.Ready else Status.PortFull) ∧
          (prepare t).2.state.need_data = false ∧
          (prepare t).2.state.has_input = true))) ∧
    ((prepare t).2.state.need_data = false →
      (t.inputs.getD t.state.next_input_to_read default).isFinished = true ∨
      ∃ ch, (t.inputs.getD t.state.next_input_to_read default).data = some ch ∧
        (prepare t).2.state.input_chunk = ⟨ch⟩ ∧ (prepare t).2.state.has_input = true) := by
  have hp := prepare_steady t h_all h_in h_out h_init h_fin
  have hu_need : (t.pushIfHasData (!t.output.canPush)).state.need_data = true := by
    rw [pushIfHasData_need_data]; exact h_need
  obtain ⟨c1, c2, c3⟩ := readNeededInput_cases (t.pushIfHasData (!t.output.canPush)) hu_need
  simp only [pushIfHasData_inputs, pushIfHasData_next_input] at c1 c2 c3
  generalize hpdef : t.inputs.getD t.state.next_input_to_read default = p at c1 c2 c3 ⊢
  have hget : ∀ q : InputPort, (t.inputs.set t.state.next_input_to_read q).getD
      t.state.next_input_to_read default = q := by
    intro q
    rw [List.getD_eq_getElem?_getD, List.getElem?_set_self h_idx]
    rfl
  rcases p with ⟨n, d, f, c, hs⟩
  by_cases hf : InputPort.isFinished ⟨n, d, f, c, hs⟩ = true
  · rw [c1 hf] at hp
    simp only at hp
    rw [hp]
    refine ⟨fun _ => ⟨rfl, by simp, rfl, by simp, by simp⟩, fun h => ?_, fun _ => Or.inl hf⟩
    rw [hf] at h
    cases h
  · have hf2 : InputPort.isFinished ⟨n, d, f, c, hs⟩ = false := by
      simpa using hf
    have hc : c = false := by
      cases c
      · rfl
      · simp [InputPort.isFinished] at hf2
    subst hc
    cases d with
    | none =>
      rw [c2 hf2 rfl] at hp
      simp only at hp
      rw [hp]
      refine ⟨fun h => absurd h hf, fun _ => ⟨?_, fun _ => ⟨rfl, rfl, ?_, ?_, ?_⟩, ?_⟩, ?_⟩
      · simp only [hget]; rfl
      · simp [h_need]
      · simp
      · simp
      · intro ch hch; cases hch
      · intro h
        simp [h_need] at h
    | some ch0 =>
      have c3x := c3 ch0 hf2 rfl
      by_cases hx : ch0.hasRows = false ∧ f = false
      · rw [if_pos hx] at c3x
        rw [c3x] at hp
        simp only at hp
        rw [hp]
        refine ⟨fun h => absurd h hf, fun _ => ⟨?_, ?_, ?_⟩, ?_⟩
        · simp only [hget]; rfl
        · intro h; cases h
        · intro ch hch
          cases hch
          refine ⟨rfl, rfl, fun _ => ⟨rfl, ?_, ?_⟩, fun hn => ?_⟩
          · simp [h_need]
          · simp
          · exfalso
            apply hn
            refine ⟨hx.1, ?_⟩
            simp only [hget]
            simp [InputPort.setNeeded, InputPort.pull, InputPort.isFinished, hx.2]
        · intro h
          simp [h_need] at h
      · rw [if_neg hx] at c3x
        rw [c3x] at hp
        simp only at hp
        rw [hp]
        refine ⟨fun h => absurd h hf, fun _ => ⟨?_, ?_, ?_⟩, ?_⟩
        · simp only [hget]; rfl
        · intro h; cases h
        · intro ch hch
          cases hch
          refine ⟨rfl, rfl, fun hy => ?_, fun _ => ⟨rfl, rfl, rfl⟩⟩
          exfalso
          apply hx
          refine ⟨hy.1, ?_⟩
          have := hy.2
          simp only [hget] at this
          simpa [InputPort.setNeeded, InputPort.pull, InputPort.isFinished] using this
        · intro _
          exact Or.inr ⟨ch0, rfl, rfl, rfl⟩

theorem prepare_need_data_step_witness :
    (prepare needDataReadyInput).1 = Status.Ready ∧
    (prepare needDataReadyInput).2.state.input_chunk = ⟨oneColumnChunk [4, 5]⟩ ∧
    (prepare needDataReadyInput).2.state.need_data = false ∧
    (prepare needDataReadyInput).2.state.has_input = true ∧
    ((prepare needDataReadyInput).2.inputs.getD 0 default).is_needed = true :=
  have h := prepare_need_data_step needDataReadyInput (by decide) (by decide) (by decide)
    (by decide) (by decide) (by decide) (by decide)
  have h2 := h.2.1 (by decide)
  have h3 := h2.2.2 (oneColumnChunk [4, 5]) (by decide)
  have h4 := h3.2.2.2 (by decide)
  ⟨h4.1, h3.2.1, h4.2.1, h4.2.2, h2.1⟩

/-- C19: once a call of `prepare` has returned `Finished`, the inputs are finalized and
the output port is finished; the port stays finished, so in every later state of the
ports (any input ports, any output port state that is finished) every subsequent call of
`prepare` returns `Finished` again and leaves the output port exactly as it found it: no
chunk is pushed. -/
theorem prepare_finished_is_terminal (t : IMergingTransformBase)
    (ports : List (List InputPort × OutputPort))
    (h : (prepare t).1 = Status.Finished)
    (h_ports : ∀ p ∈ ports, p.2.finished = true) :
    (prepare t).2.have_all_inputs = true ∧ (prepare t).2.output.finished = true ∧
    (prepareWithPorts (prepare t).2 ports).length = ports.length ∧
    ∀ r ∈ prepareWithPorts (prepare t).2 ports, r.1 = Status.Finished ∧ r.2.2 = r.2.1 := by
  obtain ⟨f1, f2⟩ := prepare_finished_output t h
  refine ⟨f1, f2, ?_, prepareWithPorts_finished ports _ f1 h_ports⟩
  generalize (prepare t).2 = u
  induction ports generalizing u with
  | nil => rfl
  | cons p ps ih =>
    simp only [prepareWithPorts, List.length_cons]
    rw [ih (fun q hq => h_ports q (List.mem_cons_of_mem _ hq))]

theorem prepare_finished_is_terminal_witness :
    (prepare bufferedCompleted).1 = Status.Finished ∧
    (prepare bufferedCompleted).2.have_all_inputs = true ∧
    (prepare bufferedCompleted).2.output.finished = true ∧
    (prepareWithPorts (prepare bufferedCompleted).2
      [([⟨false, none, false, true, []⟩], ⟨true, some (oneColumnChunk [7]), true⟩),
        ([⟨true, some (oneColumnChunk [9]), true, true, []⟩], ⟨true, none, true⟩),
        ([⟨false, none, true, true, []⟩], ⟨false, none, true⟩)]).length = 3 ∧
    ∀ r ∈ prepareWithPorts (prepare bufferedCompleted).2
      [([⟨false, none, false, true, []⟩], ⟨true, some (oneColumnChunk [7]), true⟩),
        ([⟨true, some (oneColumnChunk [9]), true, true, []⟩], ⟨true, none, true⟩),
        ([⟨false, none, true, true, []⟩], ⟨false, none, true⟩)], r.1 = Status.Finished ∧ r.2.2 = r.2.1 :=
  ⟨by decide, prepare_finished_is_terminal bufferedCompleted
    [([⟨false, none, false, true, []⟩], ⟨true, some (oneColumnChunk [7]), true⟩),
      ([⟨true, some (oneColumnChunk [9]), true, true, []⟩], ⟨true, none, true⟩),
      ([⟨false, none, true, true, []⟩], ⟨false, none, true⟩)] (by decide) (by decide)⟩

theorem prepareInitializeInputs_eq (t : IMergingTransformBase) :
    t.prepareInitializeInputs =
      if !((List.range t.inputs.length).foldl initializeInput (prepareInputStates t, true)).2 then
        (Status.NeedData,
          ((List.range t.inputs.length).foldl initializeInput (prepareInputStates t, true)).1)
      else
        (Status.Ready,
          { ((List.range t.inputs.length).foldl initializeInput (prepareInputStates t, true)).1
              with is_initialized := true }) := by
  by_cases h : t.input_states.isEmpty = true
  · simp only [prepareInitializeInputs, prepareInputStates, h, if_true]
  · simp only [prepareInitializeInputs, prepareInputStates, h, Bool.false_eq_true, if_false]

theorem initializeInput_chunks (t : IMergingTransformBase) (b : Bool) (i : Nat) :
    (initializeInput (t, b) i).1.state.init_chunks.length = t.state.init_chunks.length ∧
    (∀ j, j ≠ i → (initializeInput (t, b) i).1.state.init_chunks.getD j default
      = t.state.init_chunks.getD j default) := by
  unfold initializeInput
  simp only []
  split_ifs <;>
  refine ⟨by simp, fun j hj => ?_⟩ <;>
  simp [List.getD_eq_getElem?_getD, List.getElem?_set, Ne.symm hj]

/-- One iteration of the initialisation loop reads and writes only the entries of input
`i`. -/
theorem initializeInput_local (u v : IMergingTransformBase) (b c : Bool) (i : Nat)
    (h1 : u.inputs.getD i default = v.inputs.getD i default)
    (h2 : u.input_states.getD i default = v.input_states.getD i default)
    (h3 : u.state.init_chunks.getD i default = v.state.init_chunks.getD i default)
    (h4 : u.limit_hint = v.limit_hint)
    (hu : i < u.inputs.length ∧ i < u.input_states.length ∧ i < u.state.init_chunks.length)
    (hv : i < v.inputs.length ∧ i < v.input_states.length ∧ i < v.state.init_chunks.length) :
    (initializeInput (u, b) i).1.inputs.getD i default
      = (initializeInput (v, c) i).1.inputs.getD i default ∧
    (initializeInput (u, b) i).1.input_states.getD i default
      = (initializeInput (v, c) i).1.input_states.getD i default ∧
    (initializeInput (u, b) i).1.state.init_chunks.getD i default
      = (initializeInput (v, c) i).1.state.init_chunks.getD i default := by
  have h2x : u.input_states[i]? = v.input_states[i]? := by
    have e1 := List.getElem?_eq_getElem hu.2.1
    have e2 := List.getElem?_eq_getElem hv.2.1
    simp only [List.getD_eq_getElem?_getD, e1, e2, Option.getD_some] at h2
    rw [e1, e2, h2]
  have h3x : u.state.init_chunks[i]? = v.state.init_chunks[i]? := by
    have e1 := List.getElem?_eq_getElem hu.2.2
    have e2 := List.getElem?_eq_getElem hv.2.2
    simp only [List.getD_eq_getElem?_getD, e1, e2, Option.getD_some] at h3
    rw [e1, e2, h3]
  unfold initializeInput
  simp only []
  rw [h1, h4]
  generalize hp : v.inputs.getD i default = p at *
  by_cases c1 : p.isFinished = true
  · simp only [c1, if_true]
    exact ⟨h1.trans hp.symm, h2, h3⟩
  · simp only [c1, Bool.false_eq_true, if_false, h2]
    by_cases c2 : (v.input_states.getD i default).is_initialized = true
    · simp only [c2, if_true]
      exact ⟨h1.trans hp.symm, h2, h3⟩
    · simp only [c2, Bool.false_eq_true, if_false]
      split_ifs <;>
      simp only [List.getD_eq_getElem?_getD, List.getElem?_set_self hu.1,
        List.getElem?_set_self hv.1, List.getElem?_set_self hu.2.1,
        List.getElem?_set_self hv.2.1, List.getElem?_set_self hu.2.2,
        List.getElem?_set_self hv.2.2, h2x, h3x, and_self]

theorem resize_length {α : Type} [Inhabited α] (v : List α) (n : Nat) :
    (resize v n).length = n := by
  simp only [resize, List.length_take, List.length_append, List.length_replicate]
  omega

theorem resize_getD {α : Type} [Inhabited α] (v : List α) (n i : Nat) (hi : i < n) :
    (resize v n).getD i default = v.getD i default := by
  simp only [resize, List.getD_eq_getElem?_getD, List.getElem?_take, hi, if_true]
  by_cases h : i < v.length
  · rw [List.getElem?_append_left h]
  · rw [List.getElem?_append_right (Nat.le_of_not_lt h),
      List.getElem?_eq_none (Nat.le_of_not_lt h)]
    simp only [Option.getD_none, List.getElem?_replicate]
    split <;> rfl

/-- What the first block of `prepareInitializeInputs` establishes and keeps. -/
theorem prepareInputStates_spec (t : IMergingTransformBase)
    (h_states : t.input_states = [] ∨
      (t.input_states.length = t.inputs.length ∧
        t.state.init_chunks.length = t.inputs.length)) :
    (prepareInputStates t).inputs = t.inputs ∧
    (prepareInputStates t).limit_hint = t.limit_hint ∧
    (prepareInputStates t).input_states.length = t.inputs.length ∧
    (prepareInputStates t).state.init_chunks.length = t.inputs.length ∧
    (∀ i, i < t.inputs.length →
      (prepareInputStates t).input_states.getD i default = t.input_states.getD i default ∧
      (prepareInputStates t).state.init_chunks.getD i default
        = t.state.init_chunks.getD i default) := by
  have hin : (prepareInputStates t).inputs = t.inputs := by
    unfold prepareInputStates; split <;> rfl
  have hlim : (prepareInputStates t).limit_hint = t.limit_hint := by
    unfold prepareInputStates; split <;> rfl
  refine ⟨hin, hlim, ?_, ?_, fun i hi => ⟨?_, ?_⟩⟩
  · unfold prepareInputStates
    split
    · simp
    · rename_i h
      rcases h_states with h0 | h0
      · rw [h0] at h; simp at h
      · exact h0.1
  · unfold prepareInputStates
    split
    · exact resize_length _ _
    · rename_i h
      rcases h_states with h0 | h0
      · rw [h0] at h; simp at h
      · exact h0.2
  · unfold prepareInputStates
    split
    · rename_i h
      have hnil : t.input_states = [] := List.isEmpty_iff.mp h
      rw [hnil]
      simp only [List.getD_eq_getElem?_getD, List.getElem?_map, List.getElem?_eq_getElem hi,
        Option.map_some', Option.getD_some, List.getElem?_nil, Option.getD_none]
      rfl
    · rfl
  · unfold prepareInputStates
    split
    · exact resize_getD _ _ _ hi
    · rfl

/-- After the initialisation loop the entries of input `i` are what the loop body for `i`
makes of the entries the loop started with. -/
theorem initializeLoop_at (v : IMergingTransformBase)
    (hlen : v.input_states.length = v.inputs.length)
    (hch : v.state.init_chunks.length = v.inputs.length) (k : Nat) (hk : k ≤ v.inputs.length) :
    ((List.range k).foldl initializeInput (v, true)).1.state.init_chunks.length
      = v.inputs.length ∧
    (∀ j, k ≤ j →
      ((List.range k).foldl initializeInput (v, true)).1.state.init_chunks.getD j default
        = v.state.init_chunks.getD j default) ∧
    (∀ i, i < k →
      ((List.range k).foldl initializeInput (v, true)).1.inputs.getD i default
        = (initializeInput (v, true) i).1.inputs.getD i default ∧
      ((List.range k).foldl initializeInput (v, true)).1.input_states.getD i default
        = (initializeInput (v, true) i).1.input_states.getD i default ∧
      ((List.range k).foldl initializeInput (v, true)).1.state.init_chunks.getD i default
        = (initializeInput (v, true) i).1.state.init_chunks.getD i default) := by
  induction k with
  | zero => exact ⟨hch, fun _ _ => rfl, fun i hi => absurd hi (Nat.not_lt_zero i)⟩
  | succ k ih =>
    obtain ⟨ih1, ih2, ih3⟩ := ih (by omega)
    obtain ⟨l1, l2, _⟩ := initializeLoop_spec v hlen k (by omega)
    rw [List.range_succ, List.foldl_append]
    simp only [List.foldl_cons, List.foldl_nil]
    generalize (List.range k).foldl initializeInput (v, true) = r at ih1 ih2 ih3 l1 l2
    obtain ⟨u, b⟩ := r
    simp only at ih1 ih2 ih3 l1 l2
    have hu1 : u.inputs.length = v.inputs.length := l1.2.2.2.2.2.2.2.2.2.2.2.1
    have hu2 : u.input_states.length = v.input_states.length := l1.2.2.2.2.2.2.2.2.2.2.2.2
    have hu3 : u.limit_hint = v.limit_hint := l1.2.2.1
    obtain ⟨_, s2, _⟩ := initializeInput_spec u b k (by omega) (by omega)
    obtain ⟨c1, c2⟩ := initializeInput_chunks u b k
    refine ⟨by rw [c1, ih1], fun j hj => ?_, fun i hi => ?_⟩
    · rw [c2 j (by omega)]
      exact ih2 j (by omega)
    · rcases Nat.lt_succ_iff_lt_or_eq.mp hi with hlt | heq
      · obtain ⟨a1, a2⟩ := s2 i (by omega)
        obtain ⟨b1, b2, b3⟩ := ih3 i hlt
        exact ⟨a1.trans b1, a2.trans b2, (c2 i (by omega)).trans b3⟩
      · subst heq
        exact initializeInput_local u v b true i (l2 i (le_refl _)).1 (l2 i (le_refl _)).2
          (ih2 i (le_refl _)) hu3 ⟨by omega, by omega, by omega⟩ ⟨by omega, by omega, by omega⟩

/-- The entries of input `i` after `prepareInitializeInputs`. -/
theorem prepareInitializeInputs_at (t : IMergingTransformBase)
    (h_states : t.input_states = [] ∨
      (t.input_states.length = t.inputs.length ∧
        t.state.init_chunks.length = t.inputs.length))
    (i : Nat) (hi : i < t.inputs.length) :
    t.prepareInitializeInputs.2.inputs.getD i default
      = (initializeInput (prepareInputStates t, true) i).1.inputs.getD i default ∧
    t.prepareInitializeInputs.2.input_states.getD i default
      = (initializeInput (prepareInputStates t, true) i).1.input_states.getD i default ∧
    t.prepareInitializeInputs.2.state.init_chunks.getD i default
      = (initializeInput (prepareInputStates t, true) i).1.state.init_chunks.getD i default := by
  obtain ⟨p1, _, p3, p4, _⟩ := prepareInputStates_spec t h_states
  have hat := (initializeLoop_at (prepareInputStates t) (by rw [p3, p1]) (by rw [p4, p1])
    t.inputs.length (by rw [p1])).2.2 i hi
  rw [prepareInitializeInputs_eq]
  split
  · exact hat
  · exact hat

/-- The loop body for an open, uninitialised input that holds a chunk. -/
theorem initializeInput_pull (v : IMergingTransformBase) (i : Nat) (ch : Chunk)
    (hi : i < v.inputs.length ∧ i < v.input_states.length ∧ i < v.state.init_chunks.length)
    (h_open : (v.inputs.getD i default).isFinished = false)
    (h_uninit : (v.input_states.getD i default).is_initialized = false)
    (h_data : (v.inputs.getD i default).data = some ch) :
    (initializeInput (v, true) i).1.inputs.getD i default =
      (if (!ch.hasRows && !(if v.limit_hint ≠ 0 ∧ ch.getNumRows < v.limit_hint then
              ((v.inputs.getD i default).setNeeded.pull (decide (v.limit_hint ≠ 0))).2.setNeeded
            else
              ((v.inputs.getD i default).setNeeded.pull
                (decide (v.limit_hint ≠ 0))).2).isFinished) = true then
        (if v.limit_hint ≠ 0 ∧ ch.getNumRows < v.limit_hint then
            ((v.inputs.getD i default).setNeeded.pull (decide (v.limit_hint ≠ 0))).2.setNeeded
          else
            ((v.inputs.getD i default).setNeeded.pull (decide (v.limit_hint ≠ 0))).2).setNeeded
      else
        (if v.limit_hint ≠ 0 ∧ ch.getNumRows < v.limit_hint then
            ((v.inputs.getD i default).setNeeded.pull (decide (v.limit_hint ≠ 0))).2.setNeeded
          else
            ((v.inputs.getD i default).setNeeded.pull (decide (v.limit_hint ≠ 0))).2)) ∧
    (initializeInput (v, true) i).1.input_states.getD i default =
      (if ch.hasRows then ⟨true⟩ else v.input_states.getD i default) ∧
    (initializeInput (v, true) i).1.state.init_chunks.getD i default =
      (if ch.hasRows then ⟨ch⟩ else v.state.init_chunks.getD i default) := by
  have hpull : ((v.inputs.getD i default).setNeeded.pull (decide (v.limit_hint ≠ 0))).1 = ch := by
    simp only [InputPort.pull, InputPort.setNeeded, h_data, Option.getD_some]
  have hhas : (v.inputs.getD i default).setNeeded.hasData = true := by
    simp only [InputPort.hasData, InputPort.setNeeded, h_data, Option.isSome_some]
  unfold initializeInput
  simp only [h_open, h_uninit, Bool.false_eq_true, if_false, hhas, Bool.not_true, hpull]
  generalize hq : (if v.limit_hint ≠ 0 ∧ ch.getNumRows < v.limit_hint then
      ((v.inputs.getD i default).setNeeded.pull (decide (v.limit_hint ≠ 0))).2.setNeeded
    else ((v.inputs.getD i default).setNeeded.pull (decide (v.limit_hint ≠ 0))).2) = q
  cases hr : ch.hasRows with
  | true =>
    simp only [Bool.not_true, Bool.false_eq_true, if_false, Bool.false_and, if_true,
      List.getD_eq_getElem?_getD, List.getElem?_set_self hi.1, List.getElem?_set_self hi.2.1,
      List.getElem?_set_self hi.2.2, Option.getD_some, and_self]
  | false =>
    cases hf : q.isFinished with
    | true =>
      simp only [Bool.not_false, Bool.not_true, Bool.false_eq_true, if_false, if_true,
        Bool.and_false, Bool.true_and, List.getD_eq_getElem?_getD, List.getElem?_set_self hi.1,
        Option.getD_some, and_self]
    | false =>
      simp only [Bool.not_false, if_true, Bool.and_self, Bool.false_eq_true, if_false,
        List.getD_eq_getElem?_getD, List.getElem?_set_self hi.1, Option.getD_some, and_self]

/-- C26: in `prepareInitializeInputs`, for each not-finished, uninitialised input that has
data, the initial chunk is pulled once, with the flag of `pull` set iff `limit_hint != 0`;
if `limit_hint` is nonzero and the pulled chunk has fewer rows than `limit_hint`, the input
is marked needed again after the pull; for a non-empty chunk, when `limit_hint` is zero or
the chunk has at least `limit_hint` rows, nothing is done to the port after the pull (with
a nonzero `limit_hint` the port is left not needed, with `limit_hint = 0` the pull leaves
it needed), and the chunk becomes `init_chunks[i]` of the now initialised input. -/
theorem initial_pull_with_limit (t : IMergingTransformBase) (i : Nat) (p : InputPort)
    (ch : Chunk)
    (h_states : t.input_states = [] ∨
      (t.input_states.length = t.inputs.length ∧
        t.state.init_chunks.length = t.inputs.length))
    (hi : i < t.inputs.length) (hp : t.inputs.getD i default = p)
    (h_open : p.isFinished = false)
    (h_uninit : (t.input_states.getD i default).is_initialized = false)
    (h_data : p.data = some ch) :
    (t.prepareInitializeInputs.2.inputs.getD i default).pull_hints
      = decide (t.limit_hint ≠ 0) :: p.pull_hints ∧
    (t.prepareInitializeInputs.2.inputs.getD i default).data = none ∧
    (t.limit_hint ≠ 0 → ch.getNumRows < t.limit_hint →
      (t.prepareInitializeInputs.2.inputs.getD i default).is_needed = true ∧
      (ch.hasRows = true → t.prepareInitializeInputs.2.inputs.getD i default
        = (p.setNeeded.pull true).2.setNeeded)) ∧
    (ch.hasRows = true → t.limit_hint ≠ 0 → t.limit_hint ≤ ch.getNumRows →
      t.prepareInitializeInputs.2.inputs.getD i default = (p.setNeeded.pull true).2 ∧
      (t.prepareInitializeInputs.2.inputs.getD i default).is_needed = false) ∧
    (ch.hasRows = true → t.limit_hint = 0 →
      t.prepareInitializeInputs.2.inputs.getD i default = (p.setNeeded.pull false).2 ∧
      (t.prepareInitializeInputs.2.inputs.getD i default).is_needed = true) ∧
    (ch.hasRows = true →
      t.prepareInitializeInputs.2.state.init_chunks.getD i default = ⟨ch⟩ ∧
      (t.prepareInitializeInputs.2.input_states.getD i default).is_initialized = true) := by
  obtain ⟨p1, p2, p3, p4, p5⟩ := prepareInputStates_spec t h_states
  obtain ⟨a1, a2, a3⟩ := prepareInitializeInputs_at t h_states i hi
  have hvp : (prepareInputStates t).inputs.getD i default = p := by rw [p1]; exact hp
  obtain ⟨s1, s2, s3⟩ := initializeInput_pull (prepareInputStates t) i ch
    ⟨by rw [p1]; exact hi, by rw [p3]; exact hi, by rw [p4]; exact hi⟩
    (by rw [hvp]; exact h_open) (by rw [(p5 i hi).1]; exact h_uninit)
    (by rw [hvp]; exact h_data)
  rw [hvp, p2] at s1
  rw [a1, a2, a3, s1, s2, s3]
  rcases p with ⟨n, d, f, c, hs⟩
  simp only at h_data
  subst h_data
  have hc : c = false := by
    cases c
    · rfl
    · simp [InputPort.isFinished] at h_open
  subst hc
  by_cases hl : t.limit_hint = 0
  · cases hr : ch.hasRows <;> cases f <;>
      simp [hl, hr, InputPort.setNeeded, InputPort.pull, InputPort.isFinished]
  · by_cases hlt : ch.getNumRows < t.limit_hint
    · cases hr : ch.hasRows <;> cases f <;>
        simp [hl, hlt, hr, InputPort.setNeeded, InputPort.pull, InputPort.isFinished]
    · have hle : t.limit_hint ≤ ch.getNumRows := Nat.le_of_not_lt hlt
      cases hr : ch.hasRows <;> cases f <;>
        simp [hl, hlt, hle, hr, InputPort.setNeeded, InputPort.pull, InputPort.isFinished]

theorem initial_pull_with_limit_witness :
    (initWithLimit.prepareInitializeInputs.2.inputs.getD 0 default).pull_hints = [true] ∧
    (initWithLimit.prepareInitializeInputs.2.inputs.getD 0 default).data = none ∧
    (initWithLimit.prepareInitializeInputs.2.inputs.getD 0 default).is_needed = true ∧
    initWithLimit.prepareInitializeInputs.2.state.init_chunks.getD 0 default
      = ⟨oneColumnChunk [1, 2]⟩ ∧
    (initWithLimit.prepareInitializeInputs.2.input_states.getD 0 default).is_initialized = true :=
  have h := initial_pull_with_limit initWithLimit 0
    ⟨false, some (oneColumnChunk [1, 2]), false, false, []⟩ (oneColumnChunk [1, 2])
    (Or.inl rfl) (by decide) rfl (by decide) (by decide) rfl
  ⟨h.1, h.2.1, (h.2.2.1 (by decide) (by decide)).1, (h.2.2.2.2.2 (by decide)).1,
    (h.2.2.2.2.2 (by decide)).2⟩

/-- C27: in `prepareInitializeInputs`, if the initial pull from an open, uninitialised
input `i` returns a chunk with zero rows and the input is not finished, input `i` stays
uninitialised (`input_states[i].is_initialized` false, `init_chunks[i]` as before), is
marked needed, and the call returns `NeedData` without setting `is_initialized`; if the
input is finished (after that pull, or already when the loop reaches it) it is skipped:
nothing is recorded for it and it does not keep the call from completing, which returns
`NeedData` exactly when some input is neither initialised nor finished. -/
theorem initial_empty_chunk (t : IMergingTransformBase) (i : Nat) (p : InputPort)
    (h_states : t.input_states = [] ∨
      (t.input_states.length = t.inputs.length ∧
        t.state.init_chunks.length = t.inputs.length))
    (hi : i < t.inputs.length) (hp : t.inputs.getD i default = p)
    (h_uninit : (t.input_states.getD i default).is_initialized = false) :
    (∀ ch, p.isFinished = false → p.data = some ch → ch.hasRows = false →
      p.finished = false →
      (t.prepareInitializeInputs.2.inputs.getD i default).is_needed = true ∧
      (t.prepareInitializeInputs.2.inputs.getD i default).isFinished = false ∧
      (t.prepareInitializeInputs.2.input_states.getD i default).is_initialized = false ∧
      t.prepareInitializeInputs.2.state.init_chunks.getD i default
        = t.state.init_chunks.getD i default ∧
      t.prepareInitializeInputs.1 = Status.NeedData ∧
      t.prepareInitializeInputs.2.is_initialized = t.is_initialized) ∧
    (∀ ch, p.isFinished = false → p.data = some ch → ch.hasRows = false →
      p.finished = true →
      (t.prepareInitializeInputs.2.inputs.getD i default).isFinished = true ∧
      (t.prepareInitializeInputs.2.input_states.getD i default).is_initialized = false ∧
      t.prepareInitializeInputs.2.state.init_chunks.getD i default
        = t.state.init_chunks.getD i default ∧
      inputSettled t.prepareInitializeInputs.2 i = true) ∧
    (p.isFinished = true →
      t.prepareInitializeInputs.2.inputs.getD i default = p ∧
      (t.prepareInitializeInputs.2.input_states.getD i default).is_initialized = false ∧
      t.prepareInitializeInputs.2.state.init_chunks.getD i default
        = t.state.init_chunks.getD i default ∧
      inputSettled t.prepareInitializeInputs.2 i = true) ∧
    (t.prepareInitializeInputs.1 = Status.NeedData ↔
      ∃ j, j < t.inputs.length ∧ inputSettled t.prepareInitializeInputs.2 j = false) := by
  obtain ⟨p1, p2, p3, p4, p5⟩ := prepareInputStates_spec t h_states
  obtain ⟨a1, a2, a3⟩ := prepareInitializeInputs_at t h_states i hi
  have hvp : (prepareInputStates t).inputs.getD i default = p := by rw [p1]; exact hp
  have h_states2 : t.input_states = [] ∨ t.input_states.length = t.inputs.length := by
    rcases h_states with h | h
    · exact Or.inl h
    · exact Or.inr h.1
  obtain ⟨_, q2, _, q4, _, _⟩ := prepareInitializeInputs_spec t h_states2
  have hpull : ∀ ch, p.isFinished = false → p.data = some ch → ch.hasRows = false →
      t.prepareInitializeInputs.2.inputs.getD i default =
        (if (!(if t.limit_hint ≠ 0 ∧ ch.getNumRows < t.limit_hint then
                (p.setNeeded.pull (decide (t.limit_hint ≠ 0))).2.setNeeded
              else (p.setNeeded.pull (decide (t.limit_hint ≠ 0))).2).isFinished) = true then
          (if t.limit_hint ≠ 0 ∧ ch.getNumRows < t.limit_hint then
              (p.setNeeded.pull (decide (t.limit_hint ≠ 0))).2.setNeeded
            else (p.setNeeded.pull (decide (t.limit_hint ≠ 0))).2).setNeeded
        else
          (if t.limit_hint ≠ 0 ∧ ch.getNumRows < t.limit_hint then
              (p.setNeeded.pull (decide (t.limit_hint ≠ 0))).2.setNeeded
            else (p.setNeeded.pull (decide (t.limit_hint ≠ 0))).2)) ∧
      (t.prepareInitializeInputs.2.input_states.getD i default).is_initialized = false ∧
      t.prepareInitializeInputs.2.state.init_chunks.getD i default
        = t.state.init_chunks.getD i default := by
    intro ch h_open h_data h_rows
    obtain ⟨s1, s2, s3⟩ := initializeInput_pull (prepareInputStates t) i ch
      ⟨by rw [p1]; exact hi, by rw [p3]; exact hi, by rw [p4]; exact hi⟩
      (by rw [hvp]; exact h_open) (by rw [(p5 i hi).1]; exact h_uninit)
      (by rw [hvp]; exact h_data)
    rw [hvp, p2] at s1
    rw [a1, a2, a3, s1, s2, s3]
    simp only [h_rows, Bool.not_false, Bool.true_and, Bool.false_eq_true, if_false]
    exact ⟨trivial, by rw [(p5 i hi).1]; exact h_uninit, (p5 i hi).2⟩
  refine ⟨fun ch h_open h_data h_rows h_fin => ?_, fun ch h_open h_data h_rows h_fin => ?_,
    fun h_done => ?_, q2⟩
  · obtain ⟨e1, e2, e3⟩ := hpull ch h_open h_data h_rows
    have hq : (t.prepareInitializeInputs.2.inputs.getD i default).is_needed = true ∧
        (t.prepareInitializeInputs.2.inputs.getD i default).isFinished = false := by
      rw [e1]
      rcases p with ⟨n, d, f, c, hs⟩
      simp only at h_data h_fin
      subst h_data
      subst h_fin
      have hc : c = false := by
        cases c
        · rfl
        · simp [InputPort.isFinished] at h_open
      subst hc
      by_cases hl : t.limit_hint ≠ 0 ∧ ch.getNumRows < t.limit_hint <;>
        simp [hl, InputPort.setNeeded, InputPort.pull, InputPort.isFinished]
    have hunsettled : inputSettled t.prepareInitializeInputs.2 i = false := by
      simp only [inputSettled, e2, hq.2, Bool.or_false]
    exact ⟨hq.1, hq.2, e2, e3, q2.mpr ⟨i, hi, hunsettled⟩, q4 (q2.mpr ⟨i, hi, hunsettled⟩)⟩
  · obtain ⟨e1, e2, e3⟩ := hpull ch h_open h_data h_rows
    have hq : (t.prepareInitializeInputs.2.inputs.getD i default).isFinished = true := by
      rw [e1]
      rcases p with ⟨n, d, f, c, hs⟩
      simp only at h_data h_fin
      subst h_data
      subst h_fin
      by_cases hl : t.limit_hint ≠ 0 ∧ ch.getNumRows < t.limit_hint <;>
        simp [hl, InputPort.setNeeded, InputPort.pull, InputPort.isFinished]
    exact ⟨hq, e2, e3, by simp only [inputSettled, hq, Bool.or_true]⟩
  · have hstep : initializeInput (prepareInputStates t, true) i = (prepareInputStates t, true) := by
      unfold initializeInput
      simp only [hvp, h_done, if_true]
    rw [hstep] at a1 a2 a3
    have e1 : t.prepareInitializeInputs.2.inputs.getD i default = p := by rw [a1, hvp]
    have e2 : (t.prepareInitializeInputs.2.input_states.getD i default).is_initialized
        = false := by
      rw [a2, (p5 i hi).1]; exact h_uninit
    exact ⟨e1, e2, by rw [a3, (p5 i hi).2],
      by simp only [inputSettled, e1, h_done, Bool.or_true]⟩

theorem initial_empty_chunk_witness :
    (initWithLimit.prepareInitializeInputs.2.inputs.getD 2 default).is_needed = true ∧
    (initWithLimit.prepareInitializeInputs.2.input_states.getD 2 default).is_initialized
      = false ∧
    initWithLimit.prepareInitializeInputs.2.state.init_chunks.getD 2 default
      = initWithLimit.state.init_chunks.getD 2 default ∧
    initWithLimit.prepareInitializeInputs.1 = Status.NeedData ∧
    initWithLimit.prepareInitializeInputs.2.is_initialized = initWithLimit.is_initialized :=
  have h := initial_empty_chunk initWithLimit 2
    ⟨false, some (oneColumnChunk []), false, false, []⟩ (Or.inl rfl) (by decide) rfl
    (by decide)
  have h1 := h.1 (oneColumnChunk []) (by decide) rfl (by decide) rfl
  ⟨h1.1, h1.2.2.1, h1.2.2.2.1, h1.2.2.2.2.1, h1.2.2.2.2.2⟩

theorem consistent_addInput_accepting (t : IMergingTransformBase) (h : Consistent t) :
    Consistent (t.addInput acceptingHook).1 := by
  unfold addInput acceptingHook
  split
  · exact h
  · rename_i hn
    refine ⟨fun hi => absurd (h.1 hi) hn, ?_⟩
    rcases h.2 with h0 | h0
    · exact Or.inl h0
    · exact absurd h0.1 hn

theorem consistent_applyCall (t : IMergingTransformBase) (call : Call) (h : Consistent t) :
    Consistent (t.applyCall call) := by
  cases call with
  | addInput accepting =>
    cases accepting
    · exact consistent_addInput t h
    · exact consistent_addInput_accepting t h
  | setHaveAllInputs => exact consistent_setHaveAllInputs t h
  | prepare => exact consistent_prepare t h
  | work state => exact h
  | ports inputs output =>
    simp only [applyCall]
    split
    · rename_i hl
      refine ⟨h.1, ?_⟩
      rcases h.2 with h0 | h0
      · exact Or.inl h0
      · exact Or.inr ⟨h0.1, by rw [h0.2, hl]⟩
    · exact h

theorem consistent_applyCalls (calls : List Call) :
    ∀ t : IMergingTransformBase, Consistent t → Consistent (t.applyCalls calls) := by
  induction calls with
  | nil => intro t h; exact h
  | cons c cs ih =>
    intro t h
    exact ih (t.applyCall c) (consistent_applyCall t c h)

/-- Once the inputs are finalized, `prepare` keeps the flag and the number of inputs. -/
theorem prepare_fixed_inputs (t : IMergingTransformBase) (h : Consistent t)
    (h1 : t.have_all_inputs = true) :
    t.prepare.2.have_all_inputs = true ∧ t.prepare.2.inputs.length = t.inputs.length := by
  have hst : t.input_states = [] ∨ t.input_states.length = t.inputs.length := by
    rcases h.2 with h0 | h0
    · exact Or.inl h0
    · exact Or.inr h0.2
  by_cases h2 : t.inputs = []
  · simp only [prepare, h1, h2, Bool.not_true, Bool.false_eq_true, if_false, List.isEmpty_nil,
      if_true]
    exact ⟨trivial, trivial⟩
  by_cases h3 : t.output.isFinished = true
  · simp only [prepare, h1, h2, h3, Bool.not_true, Bool.false_eq_true, if_false,
      List.isEmpty_iff, if_true]
    simp
  simp only [prepare, h1, h2, h3, Bool.not_true, Bool.false_eq_true, if_false, List.isEmpty_iff]
  generalize hu : t.pushIfHasData (!t.output.canPush) = u
  have hu1 : u.inputs = t.inputs := by rw [← hu]; simp
  have hu2 : u.input_states = t.input_states := by rw [← hu]; simp
  have hu3 : u.have_all_inputs = true := by
    rw [← hu]; unfold pushIfHasData; split <;> exact h1
  rw [← hu1]
  split_ifs
  · obtain ⟨a1, a2, a3⟩ := prepareInitializeInputs_shape u (by rw [hu1, hu2]; exact hst)
    exact ⟨by rw [a1]; exact hu3, a2⟩
  · exact ⟨hu3, rfl⟩
  · exact ⟨hu3, by simp⟩
  all_goals
    obtain ⟨a1, a2, a3, a4⟩ := readNeededInput_shape u
    split <;>
    · exact ⟨by rw [a1]; exact hu3, a3⟩

theorem applyCall_fixed_inputs (t : IMergingTransformBase) (call : Call) (h : Consistent t)
    (h1 : t.have_all_inputs = true) :
    (t.applyCall call).have_all_inputs = true ∧
      (t.applyCall call).inputs.length = t.inputs.length := by
  cases call with
  | addInput accepting => simp [applyCall, addInput, h1]
  | setHaveAllInputs => simp [applyCall, setHaveAllInputs, h1]
  | prepare => exact prepare_fixed_inputs t h h1
  | work state => exact ⟨h1, rfl⟩
  | ports inputs output =>
    simp only [applyCall]
    split
    · rename_i hl
      exact ⟨h1, hl⟩
    · exact ⟨h1, rfl⟩

/-- A sample history: an input is added and accepted, `prepare` is called before and
after the inputs are finalized, the upstream neighbours leave chunks in both ports.
`input_states` is empty until the first `prepare` after finalization and has one entry
per input afterwards. -/
theorem sample_history_input_states :
    ((construct 1 false 0).applyCalls
        [Call.addInput true, Call.prepare]).input_states = [] ∧
    ((construct 1 false 0).applyCalls
        [Call.addInput true, Call.prepare, Call.setHaveAllInputs,
          Call.ports [⟨false, some (oneColumnChunk [1]), false, false, []⟩,
            ⟨false, some (oneColumnChunk [2]), false, false, []⟩] ⟨true, none, false⟩,
          Call.prepare]).input_states = [⟨true⟩, ⟨true⟩] ∧
    ((construct 1 false 0).applyCalls
        [Call.addInput true, Call.prepare, Call.setHaveAllInputs,
          Call.ports [⟨false, some (oneColumnChunk [1]), false, false, []⟩,
            ⟨false, some (oneColumnChunk [2]), false, false, []⟩] ⟨true, none, false⟩,
          Call.prepare, Call.addInput true]).inputs.length = 2 := by
  refine ⟨rfl, rfl, rfl⟩

/-- C32: for every state with `have_all_inputs` false `prepare` returns `NeedData` and the
state after the call is the state before it: the input ports (needed flag, slot, closed),
the output port (slot, finished), the count of `onFinish` calls, `input_states`,
`is_initialized` and the merge state are unchanged.  Consequently, in every state reached
from the constructor by `addInput`, `setHaveAllInputs`, `prepare`, `work` and port
activity of the neighbours, `input_states` is non-empty only if the inputs were finalized
and then it has one entry per input; and from a reached state with the inputs finalized no
call changes the flag or the number of inputs. -/
theorem prepare_inert_until_finalized (t : IMergingTransformBase)
    (h : t.have_all_inputs = false) :
    t.prepare = (Status.NeedData, t) ∧
    t.prepare.2.inputs = t.inputs ∧ t.prepare.2.output = t.output ∧
    t.prepare.2.on_finish_calls = t.on_finish_calls ∧
    t.prepare.2.input_states = t.input_states ∧
    t.prepare.2.is_initialized = t.is_initialized ∧ t.prepare.2.state = t.state ∧
    (∀ (num_inputs : Nat) (have_all_inputs : Bool) (limit_hint : Nat) (calls : List Call),
      ((construct num_inputs have_all_inputs limit_hint).applyCalls calls).input_states ≠ [] →
        ((construct num_inputs have_all_inputs limit_hint).applyCalls calls).have_all_inputs
          = true ∧
        ((construct num_inputs have_all_inputs limit_hint).applyCalls calls).input_states.length
          = ((construct num_inputs have_all_inputs limit_hint).applyCalls calls).inputs.length) ∧
    (∀ (num_inputs : Nat) (have_all_inputs : Bool) (limit_hint : Nat) (calls : List Call)
      (call : Call),
      ((construct num_inputs have_all_inputs limit_hint).applyCalls calls).have_all_inputs
          = true →
        (((construct num_inputs have_all_inputs limit_hint).applyCalls calls).applyCall
          call).have_all_inputs = true ∧
        (((construct num_inputs have_all_inputs limit_hint).applyCalls calls).applyCall
          call).inputs.length
          = ((construct num_inputs have_all_inputs limit_hint).applyCalls calls).inputs.length) := by
  have hp : t.prepare = (Status.NeedData, t) := by
    simp [prepare, h]
  refine ⟨hp, by rw [hp], by rw [hp], by rw [hp], by rw [hp], by rw [hp], by rw [hp], ?_, ?_⟩
  · intro n b l calls hne
    have hc := consistent_applyCalls calls _ (consistent_construct n b l)
    rcases hc.2 with h0 | h0
    · exact absurd h0 hne
    · exact h0
  · intro n b l calls call h1
    exact applyCall_fixed_inputs _ call
      (consistent_applyCalls calls _ (consistent_construct n b l)) h1

theorem prepare_inert_until_finalized_witness :
    notFinalized.prepare = (Status.NeedData, notFinalized) ∧
    notFinalized.prepare.2.inputs = notFinalized.inputs ∧
    notFinalized.prepare.2.output = notFinalized.output ∧
    notFinalized.prepare.2.on_finish_calls = notFinalized.on_finish_calls ∧
    notFinalized.prepare.2.input_states = notFinalized.input_states ∧
    notFinalized.prepare.2.is_initialized = notFinalized.is_initialized ∧
    notFinalized.prepare.2.state = notFinalized.state ∧
    (∀ (num_inputs : Nat) (have_all_inputs : Bool) (limit_hint : Nat) (calls : List Call),
      ((construct num_inputs have_all_inputs limit_hint).applyCalls calls).input_states ≠ [] →
        ((construct num_inputs have_all_inputs limit_hint).applyCalls calls).have_all_inputs
          = true ∧
        ((construct num_inputs have_all_inputs limit_hint).applyCalls calls).input_states.length
          = ((construct num_inputs have_all_inputs limit_hint).applyCalls calls).inputs.length) ∧
    (∀ (num_inputs : Nat) (have_all_inputs : Bool) (limit_hint : Nat) (calls : List Call)
      (call : Call),
      ((construct num_inputs have_all_inputs limit_hint).applyCalls calls).have_all_inputs
          = true →
        (((construct num_inputs have_all_inputs limit_hint).applyCalls calls).applyCall
          call).have_all_inputs = true ∧
        (((construct num_inputs have_all_inputs limit_hint).applyCalls calls).applyCall
          call).inputs.length
          = ((construct num_inputs have_all_inputs limit_hint).applyCalls calls).inputs.length) :=
  prepare_inert_until_finalized notFinalized rfl

end IMergingTransformBase

end DB
